import Mathlib

/-!
# fd_compressor: a verification development

Shallow embedding of the compressor pipeline of `farit2000/fd_compressor`
(BWTS, RLE, MTF, adaptive Huffman over a bit-packed stream) and theorems
about it.

Conventions of the embedding.

* A Go `byte` is a `Nat` below `256`; a `[]byte` or `string` is a `List Nat`.
  Conversions `byte(x)` are written `x % 256`.
* A Go run-time panic (index out of range, slice bounds out of range) is the
  result `none`.
* Loops are structural recursions over the data they range over, or
  recursions on an explicit fuel argument.
-/

namespace Compressor

/-! ## Package `mtf` -/

namespace Mtf

/-- `bytes.IndexByte(pad, c)`: index of the first `c` in `pad`; `none` stands
for the result `-1`. -/
def indexByte : List Nat → Nat → Option Nat
  | [], _ => none
  | p :: ps, c => if p = c then some 0 else (indexByte ps c).map (· + 1)

/-- The two statements `copy(pad[1:], pad[:x]); pad[0] = c` for `x < len(pad)`:
the first `x` bytes move one place to the right and `c` is put in front. -/
def shiftFront (pad : List Nat) (x c : Nat) : List Nat :=
  c :: (pad.take x ++ pad.drop (x + 1))

/-- Loop of `SymbolTable.Encode`, `pad` being the current stack. When `c` is
not in `pad`, `IndexByte` gives `-1` and `pad[:x]` panics. -/
def encodeLoop : List Nat → List Nat → Option (List Nat)
  | _, [] => some []
  | pad, c :: s =>
    match indexByte pad c with
    | none => none
    | some x =>
      match encodeLoop (shiftFront pad x c) s with
      | none => none
      | some seq => some (x % 256 :: seq)

/-- `SymbolTable.Encode`. -/
def Encode (symbols s : List Nat) : Option (List Nat) := encodeLoop symbols s

/-- Loop of `SymbolTable.Decode`; `pad[x]` panics when `x ≥ len(pad)`. -/
def decodeLoop : List Nat → List Nat → Option (List Nat)
  | _, [] => some []
  | pad, x :: seq =>
    match pad[x]? with
    | none => none
    | some c =>
      match decodeLoop (shiftFront pad x c) seq with
      | none => none
      | some chars => some (c :: chars)

/-- `SymbolTable.Decode`. -/
def Decode (symbols seq : List Nat) : Option (List Nat) := decodeLoop symbols seq

/-- Loop of `AlphabetCreate`: `res` is the alphabet collected so far. -/
def alphabetLoop : List Nat → List Nat → List Nat
  | res, [] => res
  | res, b :: input => if b ∈ res then alphabetLoop res input else alphabetLoop (res ++ [b]) input

/-- `AlphabetCreate`. -/
def AlphabetCreate (input : List Nat) : List Nat := alphabetLoop [] input

/-- `GetAlphabet`: the last byte is the alphabet length `num`; returns
`(input[:len-num-1], input[len-num-1:len-1])`. Panics on an empty input and
when `num + 1 > len(input)`. -/
def GetAlphabet (input : List Nat) : Option (List Nat × List Nat) :=
  match input.getLast? with
  | none => none
  | some num =>
    if num + 1 ≤ input.length then
      some (input.take (input.length - num - 1),
            (input.take (input.length - 1)).drop (input.length - num - 1))
    else none

end Mtf

/-! ## Package `rle`

Go strings are byte sequences; `strings.TrimLeft`, `strings.IndexFunc` and the
conversion `string(b)` of a byte work on UTF-8 encoded code points, and are
embedded as such. The table of decimal digits above `U+00FF` of
`unicode.IsDigit` belongs to the Go toolchain and is the parameter `nd`. -/

namespace Rle

/-- `string(b)` for a byte `b`: the UTF-8 encoding of the code point `b`, one
byte below `0x80` and two bytes from `0x80` on. -/
def byteToString (b : Nat) : List Nat :=
  if b < 128 then [b] else [192 + b / 64, 128 + b % 64]

/-- `utf8.RuneError`. -/
def runeError : Nat := 0xFFFD

/-- A UTF-8 continuation byte, `0x80 ≤ b ≤ 0xBF`. -/
def isCont (b : Nat) : Bool := decide (128 ≤ b) && decide (b ≤ 191)

/-- `utf8.DecodeRuneInString`: the first code point of `s` and its width in
bytes; `(RuneError, 1)` on an invalid encoding and `(RuneError, 0)` on the
empty string. -/
def decodeRune : List Nat → Nat × Nat
  | [] => (runeError, 0)
  | s0 :: rest =>
    if s0 < 0x80 then (s0, 1)
    else if s0 < 0xC2 then (runeError, 1)
    else if s0 < 0xE0 then
      match rest with
      | s1 :: _ => if isCont s1 then ((s0 % 32) * 64 + s1 % 64, 2) else (runeError, 1)
      | [] => (runeError, 1)
    else if s0 < 0xF0 then
      match rest with
      | s1 :: s2 :: _ =>
        if decide ((if s0 = 0xE0 then 0xA0 else 0x80) ≤ s1) &&
            decide (s1 ≤ (if s0 = 0xED then 0x9F else 0xBF)) && isCont s2 then
          (((s0 % 16) * 64 + s1 % 64) * 64 + s2 % 64, 3)
        else (runeError, 1)
      | _ => (runeError, 1)
    else if s0 < 0xF5 then
      match rest with
      | s1 :: s2 :: s3 :: _ =>
        if decide ((if s0 = 0xF0 then 0x90 else 0x80) ≤ s1) &&
            decide (s1 ≤ (if s0 = 0xF4 then 0x8F else 0xBF)) && isCont s2 && isCont s3 then
          ((((s0 % 8) * 64 + s1 % 64) * 64 + s2 % 64) * 64 + s3 % 64, 4)
        else (runeError, 1)
      | _ => (runeError, 1)
    else (runeError, 1)

/-- `strings.TrimLeft(s, string(c))` for a byte `c ≥ 0x80`: the cutset holds the
single code point `c`, and the leading code points of `s` equal to it are
removed. The fuel is the length of `s`. -/
def trimLeftUnicode (c : Nat) : Nat → List Nat → List Nat
  | 0, s => s
  | fuel + 1, s =>
    match s with
    | [] => []
    | _ :: _ =>
      if (decodeRune s).1 = c then trimLeftUnicode c fuel (s.drop (decodeRune s).2) else s

/-- `strings.TrimLeft(s, string(c))` for a byte `c`: below `0x80` the cutset is
the byte `c` itself and leading bytes equal to `c` are removed. -/
def trimLeft (s : List Nat) (c : Nat) : List Nat :=
  if c < 128 then s.dropWhile (fun x => decide (x = c)) else trimLeftUnicode c s.length s

/-- Digits of `strconv.Itoa`, most significant first, in front of `acc`. -/
def itoaAux : Nat → Nat → List Nat → List Nat
  | 0, n, acc => (48 + n % 10) :: acc
  | fuel + 1, n, acc =>
    if n < 10 then (48 + n) :: acc else itoaAux fuel (n / 10) ((48 + n % 10) :: acc)

/-- `strconv.Itoa(n)` for `n ≥ 0`: the decimal representation of `n` in ASCII. -/
def itoa (n : Nat) : List Nat := itoaAux n n []

/-- The trailer `"%#%"`. -/
def trailer : List Nat := [37, 35, 37]

/-- Loop of `RunLengthEncode`: `input` is what is left of the input, `result`
the builder and `orig` is `notChangedInput`. `some` is the returned string;
`none` is only for spent fuel. -/
def encodeLoop : Nat → List Nat → List Nat → List Nat → Option (List Nat)
  | 0, _, _, _ => none
  | fuel + 1, input, result, orig =>
    match input with
    | [] => some (result ++ trailer)
    | firstLetter :: _ =>
      let input2 := trimLeft input firstLetter
      let counter := input.length - input2.length
      let result2 := result ++ (if counter > 1 then itoa counter else []) ++ byteToString firstLetter
      if result2.length > orig.length then some orig
      else encodeLoop fuel input2 result2 orig

/-- `RunLengthEncode`. Every pass of the loop adds a byte to the builder and
the loop returns once the builder is longer than the input, so
`len(input) + 1` passes are enough. -/
def RunLengthEncode (input : List Nat) : Option (List Nat) :=
  encodeLoop (input.length + 1) input [] input

/-- `unicode.IsDigit(r)`: `'0' ≤ r ≤ '9'` up to `U+00FF`, the table `nd` above. -/
def isDigit (nd : Nat → Bool) (r : Nat) : Bool :=
  if r ≤ 0xFF then decide (48 ≤ r) && decide (r ≤ 57) else nd r

/-- `strings.IndexFunc(s, func(r) !unicode.IsDigit(r))`: the byte index of the
first code point of `s` that is not a digit; `none` stands for `-1`. The fuel
is the length of `s`. -/
def indexNonDigit (nd : Nat → Bool) : Nat → List Nat → Option Nat
  | 0, _ => none
  | fuel + 1, s =>
    match s with
    | [] => none
    | _ :: _ =>
      if isDigit nd (decodeRune s).1 then
        (indexNonDigit nd fuel (s.drop (decodeRune s).2)).map (· + (decodeRune s).2)
      else some 0

/-- Result of scanning a decimal string as `strconv.Atoi` does. -/
inductive AtoiResult where
  | value (n : Nat)
  | syntaxError
  | rangeError
  deriving DecidableEq, Repr

/-- Scan of `strconv.ParseUint(s, 10, 64)`: a byte that is no ASCII digit is a
syntax error, a value that leaves 64 bits a range error, whichever comes
first. -/
def atoiScan : Nat → List Nat → AtoiResult
  | n, [] => if n ≥ 2 ^ 63 then .rangeError else .value n
  | n, c :: s =>
    if 48 ≤ c ∧ c ≤ 57 then
      if n ≥ 1844674407370955162 then .rangeError
      else if n * 10 + (c - 48) > 2 ^ 64 - 1 then .rangeError
      else atoiScan (n * 10 + (c - 48)) s
    else .syntaxError

/-- The `multiply` read by `multiply, _ = strconv.Atoi(s)` on a non-empty `s`
without a sign: the value, `0` on a syntax error (the error is dropped), and
`none` on a range error, where `Atoi` gives `MaxInt64` and `strings.Repeat`
cannot build a string of that length. -/
def atoi (s : List Nat) : Option Nat :=
  match atoiScan 0 s with
  | .value n => some n
  | .syntaxError => some 0
  | .rangeError => none

/-- `strings.Repeat(s, n)`. -/
def repeatString (s : List Nat) : Nat → List Nat
  | 0 => []
  | n + 1 => s ++ repeatString s n

/-- Loop of `RunLengthDecode` after the trailer is removed. `none` is a panic:
`IndexFunc` gave `-1` and `input[:letterIndex]` is out of range, or the count is
out of range. Every pass removes a byte of `input`; the fuel is its length. -/
def decodeLoop (nd : Nat → Bool) : Nat → List Nat → List Nat → Option (List Nat)
  | 0, input, result => if input = [] then some result else none
  | fuel + 1, input, result =>
    match input with
    | [] => some result
    | _ :: _ =>
      match indexNonDigit nd input.length input with
      | none => none
      | some letterIndex =>
        match (if letterIndex ≠ 0 then atoi (input.take letterIndex) else some 1) with
        | none => none
        | some multiply =>
          match input[letterIndex]? with
          | none => none
          | some letter =>
            decodeLoop nd fuel (input.drop (letterIndex + 1))
              (result ++ repeatString (byteToString letter) multiply)

/-- `RunLengthDecode`: `input[len(input)-3:]` panics below three bytes. -/
def RunLengthDecode (nd : Nat → Bool) (input : List Nat) : Option (List Nat) :=
  if input.length < 3 then none
  else if input.drop (input.length - 3) = trailer then
    decodeLoop nd (input.length - 3) (input.take (input.length - 3)) []
  else some input

/-- A byte of a string of ASCII characters none of which is a decimal digit. -/
def plainByte (x : Nat) : Prop := x < 128 ∧ ¬ (48 ≤ x ∧ x ≤ 57)

/-- The maximal runs of equal bytes of a string, in order: each run is given as
its byte and its length. -/
def runs : List Nat → List (Nat × Nat)
  | [] => []
  | c :: s =>
    match runs s with
    | (d, k) :: rs => if c = d then (d, k + 1) :: rs else (c, 1) :: (d, k) :: rs
    | [] => [(c, 1)]

/-- The decimal representation of `k` in ASCII, most significant digit first. -/
def decimal (k : Nat) : List Nat := (Nat.digits 10 k).reverse.map (fun d => 48 + d)

/-- The format of the encoding in the words of the specification: for each
maximal run, the decimal representation of its length when the length is at
least two, then the byte of the run; the trailer follows the last run. -/
def runFormat (s : List Nat) : List Nat :=
  (runs s).flatMap (fun r => (if 2 ≤ r.2 then decimal r.2 else []) ++ [r.1]) ++ trailer

end Rle

/-! ## Package `bitio`

The sink of a `Writer` is the list of the bytes written to it so far and the
source of a `Reader` the list of the bytes not read yet; a sink in memory does
not fail, and the only error of a source is `io.EOF` at its end, the result
`none` of the reading operations. The fields `cache` and `bits` are bytes. -/

namespace Bitio

/-- `bitio.Writer`: `out` holds the bytes the sink has received. -/
structure Writer where
  out : List Nat
  cache : Nat
  bits : Nat
  deriving DecidableEq, Repr

/-- `NewWriter`. -/
def NewWriter : Writer := { out := [], cache := 0, bits := 0 }

/-- The loop `for n >= 8 { n -= 8; out.WriteByte(byte(r >> n)) }` of
`WriteBitsUnsafe`; returns the sink and the remaining `n`. The fuel is `n`. -/
def writeWholeBytes (r : Nat) : Nat → Nat → List Nat → List Nat × Nat
  | 0, n, out => (out, n)
  | fuel + 1, n, out =>
    if n ≥ 8 then writeWholeBytes r fuel (n - 8) (out ++ [r / 2 ^ (n - 8) % 256])
    else (out, n)

/-- `Writer.WriteBitsUnsafe(r, n)`, `r` a `uint64` and `n` a `uint8`. -/
def Writer.WriteBitsUnsafe (w : Writer) (r n : Nat) : Writer :=
  let newbits := (w.bits + n) % 256
  if newbits < 8 then
    { w with cache := w.cache ||| (r % 256 * 2 ^ (8 - newbits) % 256), bits := newbits }
  else if newbits > 8 then
    let free := 8 - w.bits
    let out1 := w.out ++ [w.cache ||| (r / 2 ^ (n - free) % 256)]
    let rest := writeWholeBytes r (n - free) (n - free) out1
    if rest.2 > 0 then
      { out := rest.1, cache := ((r % 256) &&& (2 ^ rest.2 - 1)) * 2 ^ (8 - rest.2) % 256,
        bits := rest.2 }
    else { out := rest.1, cache := 0, bits := 0 }
  else { out := w.out ++ [w.cache ||| (r % 256)], cache := 0, bits := 0 }

/-- `Writer.WriteBits(r, n)`: `WriteBitsUnsafe(r & (1<<n - 1), n)` in `uint64`
arithmetic, where `1<<n` is `0` from `n = 64` on. -/
def Writer.WriteBits (w : Writer) (r n : Nat) : Writer :=
  w.WriteBitsUnsafe (r &&& ((2 ^ n % 2 ^ 64 + 2 ^ 64 - 1) % 2 ^ 64)) n

/-- `Writer.writeUnalignedByte(b)`. -/
def Writer.writeUnalignedByte (w : Writer) (b : Nat) : Writer :=
  { w with out := w.out ++ [w.cache ||| (b / 2 ^ w.bits)],
           cache := (b &&& (2 ^ w.bits - 1)) * 2 ^ (8 - w.bits) % 256 }

/-- `Writer.WriteByte(b)`. -/
def Writer.WriteByte (w : Writer) (b : Nat) : Writer :=
  if w.bits = 0 then { w with out := w.out ++ [b] } else w.writeUnalignedByte b

/-- `Writer.Write(p)`; the sink takes the bytes as they are when the writer is
aligned. -/
def Writer.Write (w : Writer) (p : List Nat) : Writer :=
  if w.bits = 0 then { w with out := w.out ++ p } else p.foldl Writer.writeUnalignedByte w

/-- `Writer.WriteBool(b)`. -/
def Writer.WriteBool (w : Writer) (b : Bool) : Writer :=
  if w.bits = 7 then
    { out := w.out ++ [if b then w.cache ||| 1 else w.cache], cache := 0, bits := 0 }
  else if b then
    { w with bits := w.bits + 1, cache := w.cache ||| (2 ^ (8 - (w.bits + 1)) % 256) }
  else { w with bits := w.bits + 1 }

/-- `Writer.Align()`: the writer afterwards and the number `skipped`. -/
def Writer.Align (w : Writer) : Writer × Nat :=
  if w.bits > 0 then ({ out := w.out ++ [w.cache], cache := 0, bits := 0 }, 8 - w.bits)
  else (w, 0)

/-- `Writer.Close()`. -/
def Writer.Close (w : Writer) : Writer := w.Align.1

/-- `bitio.Reader`: `inp` holds the bytes the source has not delivered yet. -/
structure Reader where
  inp : List Nat
  cache : Nat
  bits : Nat
  deriving DecidableEq, Repr

/-- `NewReader`. -/
def NewReader (inp : List Nat) : Reader := { inp := inp, cache := 0, bits := 0 }

/-- The loop `for n >= 8` of `ReadBits`, reading whole bytes into `u`; returns
`u`, the remaining `n` and the source. The fuel is `n`. -/
def readWholeBytes : Nat → Nat → Nat → List Nat → Option (Nat × Nat × List Nat)
  | 0, n, u, inp => some (u, n, inp)
  | fuel + 1, n, u, inp =>
    if n ≥ 8 then
      match inp with
      | [] => none
      | b :: inp2 => readWholeBytes fuel (n - 8) ((u * 256 % 2 ^ 64 + b) % 2 ^ 64) inp2
    else some (u, n, inp)

/-- `Reader.ReadBits(n)`: the value read and the reader afterwards. -/
def Reader.ReadBits (r : Reader) (n : Nat) : Option (Nat × Reader) :=
  if n < r.bits then
    some (r.cache / 2 ^ (r.bits - n),
      { r with cache := r.cache &&& (2 ^ (r.bits - n) - 1), bits := r.bits - n })
  else if n > r.bits then
    match readWholeBytes (if r.bits > 0 then n - r.bits else n)
        (if r.bits > 0 then n - r.bits else n) (if r.bits > 0 then r.cache else 0) r.inp with
    | none => none
    | some (u, n2, inp2) =>
      if n2 > 0 then
        match inp2 with
        | [] => none
        | c :: inp3 =>
          some ((u * 2 ^ n2 % 2 ^ 64 + c / 2 ^ (8 - n2)) % 2 ^ 64,
            { inp := inp3, cache := c &&& (2 ^ (8 - n2) - 1), bits := 8 - n2 })
      else some (u, { inp := inp2, cache := r.cache, bits := 0 })
  else some (r.cache, { r with bits := 0 })

/-- `Reader.readUnalignedByte()`. -/
def Reader.readUnalignedByte (r : Reader) : Option (Nat × Reader) :=
  match r.inp with
  | [] => none
  | c :: inp2 =>
    some ((r.cache * 2 ^ (8 - r.bits) % 256) ||| (c / 2 ^ r.bits),
      { r with inp := inp2, cache := c &&& (2 ^ r.bits - 1) })

/-- `Reader.ReadByte()`. -/
def Reader.ReadByte (r : Reader) : Option (Nat × Reader) :=
  if r.bits = 0 then
    match r.inp with
    | [] => none
    | b :: inp2 => some (b, { r with inp := inp2 })
  else r.readUnalignedByte

/-- `Reader.ReadBool()`. -/
def Reader.ReadBool (r : Reader) : Option (Bool × Reader) :=
  if r.bits = 0 then
    match r.inp with
    | [] => none
    | c :: inp2 => some (decide (c &&& 0x80 ≠ 0), { inp := inp2, cache := c &&& 0x7f, bits := 7 })
  else
    some (decide (r.cache &&& 2 ^ (r.bits - 1) ≠ 0),
      { r with cache := r.cache &&& (2 ^ (r.bits - 1) - 1), bits := r.bits - 1 })

/-- `Reader.Align()`: the reader afterwards and the number `skipped`. -/
def Reader.Align (r : Reader) : Reader × Nat := ({ r with bits := 0 }, r.bits)

/-- A sequence of `WriteBits(r, n)` calls, in order. -/
def writeAll (w : Writer) (ops : List (Nat × Nat)) : Writer :=
  ops.foldl (fun w op => w.WriteBits op.1 op.2) w

/-- A sequence of `ReadBits(n)` calls, in order: the values read, or `none` when
one of the calls returns an error. -/
def readAll : Reader → List Nat → Option (List Nat)
  | _, [] => some []
  | r, n :: ns =>
    match r.ReadBits n with
    | none => none
    | some (u, r2) =>
      match readAll r2 ns with
      | none => none
      | some us => some (u :: us)

/-- The `n` low bits of `r`, the most significant of them first. -/
def bitsMSB : Nat → Nat → List Bool
  | 0, _ => []
  | n + 1, r => decide (r / 2 ^ n % 2 = 1) :: bitsMSB n r

/-- The number a list of bits stands for, the most significant bit first. -/
def bitsVal (bs : List Bool) : Nat := bs.foldl (fun a b => 2 * a + (if b then 1 else 0)) 0

/-- The bits of a byte sequence, each byte from its most significant bit on. -/
def bitsOfBytes (bytes : List Nat) : List Bool := bytes.flatMap (bitsMSB 8)

/-- What a writer has written, as bits: `s` is the bit sequence held by the
sink and the cache together, the pending bits being the high bits of the cache
and the rest of the cache zero. -/
def Writer.Rep (w : Writer) (s : List Bool) : Prop :=
  w.bits < 8 ∧ (∀ x ∈ w.out, x < 256) ∧
    ∃ c, c < 2 ^ w.bits ∧ w.cache = c * 2 ^ (8 - w.bits) ∧ s = bitsOfBytes w.out ++ bitsMSB w.bits c

/-- What a reader has still to read, as bits: `s` is the bit sequence held by
the cache and the source together, the unread bits being the low bits of the
cache. -/
def Reader.Rep (r : Reader) (s : List Bool) : Prop :=
  r.bits < 8 ∧ (∀ x ∈ r.inp, x < 256) ∧ (0 < r.bits → r.cache < 2 ^ r.bits) ∧
    s = bitsMSB r.bits r.cache ++ bitsOfBytes r.inp

/-- The state of the cache of a writer: at most 7 pending bits, which are the
high bits of the cache byte, the low `8 - bits` bits being zero (so the cache
is 0 when there is no pending bit). -/
def Writer.CacheInv (w : Writer) : Prop :=
  w.bits ≤ 7 ∧ w.cache < 256 ∧ w.cache % 2 ^ (8 - w.bits) = 0

/-- The state of the cache of a reader: at most 7 unread bits, which are the low
bits of the cache. -/
def Reader.CacheInv (r : Reader) : Prop :=
  r.bits ≤ 7 ∧ (0 < r.bits → r.cache < 2 ^ r.bits)

end Bitio

/-! ## Package `bwt`

The `int32` buffers of `BWTS` are lists; an index out of range is the panic
`none`. The suffix array and its inverse hold positions of the block and are
lists of `Nat`; the `lf` buffer of `Inverse` holds `-1` as well and is a list of
`Int`. -/

namespace Bwt

/-- `MaxBWTSBlockSize()`. -/
def MaxBWTSBlockSize : Nat := 1024 * 1024 * 1024

/-- Lexicographic order on byte strings, a proper prefix being smaller. -/
def lexLE : List Nat → List Nat → Bool
  | [], _ => true
  | _ :: _, [] => false
  | a :: as, b :: bs => if a < b then true else if b < a then false else lexLE as bs

/-- Modelled from the spec: `DivSufSort.ComputeSuffixArray` is not among the
sources; the spec has the suffix array as the "permutation of `[0, n)` ordering
suffixes of input lexicographically". -/
def ComputeSuffixArray (src : List Nat) : List Nat :=
  (List.range src.length).insertionSort (fun i j => lexLE (src.drop i) (src.drop j) = true)

/-- `l[i] = v` on a slice; `none` when `i` is out of range. -/
def setAt {α : Type} (l : List α) (i : Nat) (v : α) : Option (List α) :=
  if i < l.length then some (l.set i v) else none

/-- The loop `for i := range isa { isa[sa[i]] = int32(i) }` from index `i` on. -/
def fillIsa (sa : List Nat) : Nat → Nat → List Nat → Option (List Nat)
  | 0, _, isa => some isa
  | fuel + 1, i, isa =>
    if i < isa.length then do
      let s ← sa[i]?
      let isa2 ← setAt isa s i
      fillIsa sa fuel (i + 1) isa2
    else some isa

/-- The loop `for k < size && nextStart < count && data[start+k] == data[nextStart]`
of `moveLyndonWordHead`; returns `(k, nextStart)`. -/
def matchLoop (data : List Nat) (count start size : Nat) :
    Nat → Nat → Nat → Option (Nat × Nat)
  | 0, k, nextStart => if k < size ∧ nextStart < count then none else some (k, nextStart)
  | fuel + 1, k, nextStart =>
    if k < size ∧ nextStart < count then do
      let a ← data[start + k]?
      let b ← data[nextStart]?
      if a = b then matchLoop data count start size fuel (k + 1) (nextStart + 1)
      else some (k, nextStart)
    else some (k, nextStart)

/-- The loop `for rank+1 < count` of `moveLyndonWordHead`; returns
`(sa, isa, rank)` at its exit. `none` is a panic, or spent fuel. -/
def moveLoop (data : List Nat) (count start size : Nat) :
    Nat → List Nat → List Nat → Nat → Option (List Nat × List Nat × Nat)
  | 0, _, _, _ => none
  | fuel + 1, sa, isa, rank =>
    if rank + 1 < count then do
      let nextStart0 ← sa[rank + 1]?
      if nextStart0 ≤ start + size then some (sa, isa, rank)
      else
        let (k, nextStart) ← matchLoop data count start size size 0 nextStart0
        let stop1 ← (if k = size then do
            let r ← isa[nextStart]?
            pure (decide (rank < r))
          else pure false)
        if stop1 then some (sa, isa, rank)
        else
          let stop2 ← (if k < size ∧ nextStart < count then do
              let a ← data[start + k]?
              let b ← data[nextStart]?
              pure (decide (a < b))
            else pure false)
          if stop2 then some (sa, isa, rank)
          else
            let sa2 ← setAt sa rank nextStart0
            let isa2 ← setAt isa nextStart0 rank
            moveLoop data count start size fuel sa2 isa2 (rank + 1)
    else some (sa, isa, rank)

/-- `BWTS.moveLyndonWordHead`. -/
def moveLyndonWordHead (sa isa data : List Nat) (count start size rank : Nat) :
    Option (List Nat × List Nat × Nat) := do
  let (sa1, isa1, rank1) ← moveLoop data count start size (count + 1) sa isa rank
  let sa2 ← setAt sa1 rank1 start
  let isa2 ← setAt isa1 start rank1
  pure (sa2, isa2, rank1)

/-- The loop `for testRank < count32-1` of `Forward`; returns `(sa, isa, testRank)`
at its exit. -/
def rankLoop (src : List Nat) (count j refRank : Nat) :
    Nat → List Nat → List Nat → Nat → Option (List Nat × List Nat × Nat)
  | 0, _, _, _ => none
  | fuel + 1, sa, isa, testRank =>
    if testRank + 1 < count then do
      let nextRankStart ← sa[testRank + 1]?
      let stop ← (if j > nextRankStart then pure true
        else do
          let a ← src[j]?
          let b ← src[nextRankStart]?
          if a ≠ b then pure true
          else do
            let r ← isa[nextRankStart + 1]?
            pure (decide (refRank < r)))
      if stop then some (sa, isa, testRank)
      else
        let sa2 ← setAt sa testRank nextRankStart
        let isa2 ← setAt isa nextRankStart testRank
        rankLoop src count j refRank fuel sa2 isa2 (testRank + 1)
    else some (sa, isa, testRank)

/-- The loop `for j := i - 1; j > idxMin; j--` of `Forward` over a new Lyndon
word, from the end to the start. -/
def wordLoop (src : List Nat) (count idxMin : Nat) :
    Nat → Nat → Nat → List Nat → List Nat → Option (List Nat × List Nat)
  | 0, j, _, sa, isa => if j > idxMin then none else some (sa, isa)
  | fuel + 1, j, refRank, sa, isa =>
    if j > idxMin then do
      let startRank ← isa[j]?
      let (sa1, isa1, testRank) ← rankLoop src count j refRank (count + 1) sa isa startRank
      let sa2 ← setAt sa1 testRank j
      let isa2 ← setAt isa1 j testRank
      if startRank = testRank then some (sa2, isa2)
      else wordLoop src count idxMin fuel (j - 1) testRank sa2 isa2
    else some (sa, isa)

/-- The loop `for i := int32(1); i < count32 && min > 0; i++` of `Forward`. -/
def lyndonLoop (src : List Nat) (count : Nat) :
    Nat → Nat → Nat → Nat → List Nat → List Nat → Option (List Nat × List Nat)
  | 0, i, min, _, sa, isa => if i < count ∧ min > 0 then none else some (sa, isa)
  | fuel + 1, i, min, idxMin, sa, isa =>
    if i < count ∧ min > 0 then do
      let r ← isa[i]?
      if r ≥ min then lyndonLoop src count fuel (i + 1) min idxMin sa isa
      else
        let (sa1, isa1, refRank) ← moveLyndonWordHead sa isa src count idxMin (i - idxMin) min
        let (sa2, isa2) ← wordLoop src count idxMin i (i - 1) refRank sa1 isa1
        let min2 ← isa2[i]?
        lyndonLoop src count fuel (i + 1) min2 i sa2 isa2
    else some (sa, isa)

/-- The loop `for i := 0; i < count; i++` of `Forward` that writes the output;
`src[i-1]` panics at `i = 0`. -/
def emitLoop (src isa : List Nat) (count : Nat) :
    Nat → Nat → Nat → List Nat → Option (List Nat)
  | 0, i, _, dst => if i < count then none else some dst
  | fuel + 1, i, min, dst =>
    if i < count then do
      let r ← isa[i]?
      if r ≥ min then
        let c ← (if i = 0 then none else src[i - 1]?)
        let dst2 ← setAt dst r c
        emitLoop src isa count fuel (i + 1) min dst2
      else if min < count then
        let c ← (if i = 0 then none else src[i - 1]?)
        let dst2 ← setAt dst min c
        emitLoop src isa count fuel (i + 1) r dst2
      else emitLoop src isa count fuel (i + 1) r dst
    else some dst

/-- The state of a `BWTS`: its two buffers (`saAlgo` has no state of interest). -/
structure BWTS where
  buffer1 : List Int
  buffer2 : List Int
  deriving DecidableEq, Repr

/-- `NewBWTS`. -/
def NewBWTS : BWTS := { buffer1 := [], buffer2 := [] }

/-- What `Forward` and `Inverse` return and leave behind: the two counts, whether
the error is non-nil, the destination buffer and the state of the `BWTS`. -/
structure Result where
  read : Nat
  written : Nat
  err : Bool
  dst : List Nat
  state : BWTS
  deriving DecidableEq, Repr

/-- The part of `Forward` for `count ≥ 2`: the suffix array, its inverse, the
correction of the Lyndon words and the output. Returns `(sa, isa, dst)`. -/
def forwardCore (src dst : List Nat) : Option (List Nat × List Nat × List Nat) := do
  let count := src.length
  let sa := ComputeSuffixArray src
  let isa ← fillIsa sa count 0 (List.replicate count 0)
  let min ← isa[0]?
  let (sa2, isa2) ← lyndonLoop src count count 1 min 0 sa isa
  let dst2 ← emitLoop src isa2 count count 0 count dst
  let last ← src[count - 1]?
  let dst3 ← setAt dst2 0 last
  pure (sa2, isa2, dst3)

/-- A buffer after the slice `buffer[0:count]` was given the content `vals`,
the buffer being allocated anew when shorter than `count`. -/
def storeBuffer (buffer : List Int) (count : Nat) (vals : List Nat) : List Int :=
  vals.map Int.ofNat ++ (if buffer.length < count then [] else buffer.drop count)

/-- `BWTS.Forward(src, dst)`; `aliased` says that `src` and `dst` start at the same
address. `none` is a panic: `&dst[0]` on an empty `dst`, a block above the
maximal size, an index out of range. -/
def BWTS.Forward (this : BWTS) (aliased : Bool) (src dst : List Nat) : Option Result :=
  if src.length = 0 then some ⟨0, 0, false, dst, this⟩
  else if dst.length = 0 then none
  else if aliased then some ⟨0, 0, true, dst, this⟩
  else if src.length > MaxBWTSBlockSize then none
  else if src.length > dst.length then some ⟨0, 0, true, dst, this⟩
  else if src.length < 2 then
    match src[0]?, setAt dst 0 (src.headD 0) with
    | some _, some dst2 => some ⟨src.length, src.length, false, dst2, this⟩
    | _, _ => none
  else
    match forwardCore src dst with
    | none => none
    | some (sa, isa, dst2) =>
      some ⟨src.length, src.length, false, dst2,
        { buffer1 := storeBuffer this.buffer1 src.length sa,
          buffer2 := storeBuffer this.buffer2 src.length isa }⟩

/-- The loop `for i := 0; i < count; i++ { buckets[src[i]]++ }` of `Inverse`. -/
def countBuckets : List Nat → List Nat → Option (List Nat)
  | [], buckets => some buckets
  | c :: src, buckets => do
    let b ← buckets[c]?
    countBuckets src (buckets.set c (b + 1))

/-- The loop `for i := range &buckets` of `Inverse`, which turns the counts into
the first positions: the buckets from index `i` on, `sum` being the sum before. -/
def cumulate : List Nat → Nat → List Nat
  | [], _ => []
  | b :: buckets, sum => sum :: cumulate buckets (sum + b)

/-- The loop `for i := 0; i < count; i++ { lf[i] = buckets[src[i]]; buckets[src[i]]++ }`
of `Inverse`, at index `i`. -/
def fillLf : List Nat → Nat → List Nat → List Int → Option (List Int)
  | [], _, _, lf => some lf
  | c :: src, i, buckets, lf => do
    let b ← buckets[c]?
    let lf2 ← setAt lf i (Int.ofNat b)
    fillLf src (i + 1) (buckets.set c (b + 1)) lf2

/-- The inner loop of the inversion of `Inverse`, which follows one cycle of
`lf`; returns `(dst, lf, j)`. -/
def cycleLoop (src : List Nat) :
    Nat → Int → Int → List Nat → List Int → Option (List Nat × List Int × Int)
  | 0, _, _, _, _ => none
  | fuel + 1, p, j, dst, lf => do
    if p < 0 ∨ j < 0 then none
    else
      let c ← src[p.toNat]?
      let dst2 ← setAt dst j.toNat c
      let t ← lf[p.toNat]?
      let lf2 ← setAt lf p.toNat (-1)
      if t < 0 then none
      else
        let next ← lf2[t.toNat]?
        if next < 0 then some (dst2, lf2, j - 1)
        else cycleLoop src fuel t (j - 1) dst2 lf2

/-- The outer loop `for i, j := 0, count-1; j >= 0; i++` of `Inverse`. -/
def inverseLoop (src : List Nat) :
    Nat → Nat → Int → List Nat → List Int → Option (List Nat × List Int)
  | 0, _, j, dst, lf => if j ≥ 0 then none else some (dst, lf)
  | fuel + 1, i, j, dst, lf =>
    if j ≥ 0 then do
      let v ← lf[i]?
      if v < 0 then inverseLoop src fuel (i + 1) j dst lf
      else
        let (dst2, lf2, j2) ← cycleLoop src lf.length (Int.ofNat i) j dst lf
        inverseLoop src fuel (i + 1) j2 dst2 lf2
    else some (dst, lf)

/-- The part of `Inverse` for `count ≥ 2`, on the buffer `lf`. Returns
`(dst, lf)`. -/
def inverseCore (src dst : List Nat) (lf : List Int) : Option (List Nat × List Int) := do
  let counts ← countBuckets src (List.replicate 256 0)
  let buckets := cumulate counts 0
  let lf2 ← fillLf src 0 buckets lf
  inverseLoop src (lf2.length + 1) 0 (Int.ofNat src.length - 1) dst lf2

/-- `BWTS.Inverse(src, dst)`; `aliased` as in `Forward`. -/
def BWTS.Inverse (this : BWTS) (aliased : Bool) (src dst : List Nat) : Option Result :=
  if src.length = 0 then some ⟨0, 0, false, dst, this⟩
  else if dst.length = 0 then none
  else if aliased then some ⟨0, 0, true, dst, this⟩
  else if src.length > MaxBWTSBlockSize then none
  else if src.length > dst.length then some ⟨0, 0, true, dst, this⟩
  else if src.length < 2 then
    match src[0]?, setAt dst 0 (src.headD 0) with
    | some _, some dst2 => some ⟨src.length, src.length, false, dst2, this⟩
    | _, _ => none
  else
    match inverseCore src dst (if this.buffer1.length < src.length then
        List.replicate src.length 0 else this.buffer1) with
    | none => none
    | some (dst2, lf) =>
      some ⟨src.length, src.length, false, dst2, { this with buffer1 := lf }⟩

/-- The suffix of `src` at `p` is below the suffix at `q`, another position. -/
def sufLT (src : List Nat) (p q : Nat) : Prop :=
  p ≠ q ∧ lexLE (src.drop p) (src.drop q) = true

/-- The lists `sa` and `isa`, of length `n`, are permutations of `[0, n)` that are
inverse to each other: `sa` gives the position at a rank and `isa` the rank of
a position. -/
def InvPerm (sa isa : List Nat) (n : Nat) : Prop :=
  sa.length = n ∧ isa.length = n ∧ (∀ r p : Nat, sa[r]? = some p → isa[p]? = some r) ∧
    (∀ p r : Nat, isa[p]? = some r → sa[r]? = some p)

/-- The state inside a loop that moves the position `x` up the ranks: `sa` and
`isa` are inverse permutations once `x` is put at `rank`, which the loop does
at its exit. -/
def Hole (sa isa : List Nat) (n rank x : Nat) : Prop :=
  rank < n ∧ x < n ∧ InvPerm (sa.set rank x) (isa.set x rank) n

/-- The rank of the position `p`. -/
def rk (isa : List Nat) (p : Nat) : Nat := isa.getD p 0

/-- The positions of `S` are ranked in the order of their suffixes. -/
def Ord (src : List Nat) (S : Nat → Prop) (isa : List Nat) : Prop :=
  ∀ p q, S p → S q → sufLT src p q → rk isa p < rk isa q

/-- The positions of `S` with a suffix below that of `x` are below `rank`. -/
def MOrd (src : List Nat) (S : Nat → Prop) (isa : List Nat) (x rank : Nat) : Prop :=
  ∀ q, S q → sufLT src q x → rk isa q < rank

/-- Order of the characters of a stream, the end of the stream being below any
character. -/
def optLT : Option Nat → Option Nat → Prop
  | none, some _ => True
  | some a, some b => a < b
  | _, none => False

/-- Lexicographic order of streams of characters: they agree up to an index at
which the first one is smaller. -/
def SLT (f g : Nat → Option Nat) : Prop :=
  ∃ t, (∀ s, s < t → f s = g s) ∧ optLT (f t) (g t)

/-- The suffix of `src` at `p` as a stream. -/
def sfx (src : List Nat) (p : Nat) : Nat → Option Nat := fun t => src[p + t]?

/-- The stream of the characters at `p`, at its successor, and so on, `σ`
giving the successor of a position. -/
def stm (src : List Nat) (σ : Nat → Option Nat) : Nat → Nat → Option Nat
  | 0, p => src[p]?
  | t + 1, p =>
    match σ p with
    | none => none
    | some q => stm src σ t q

/-- The stream of the position `p`. -/
def strm (src : List Nat) (σ : Nat → Option Nat) (p : Nat) : Nat → Option Nat :=
  fun t => stm src σ t p

/-- The order of the positions by their streams, the later position being
the lower one of two positions with the same stream. -/
def Below (src : List Nat) (σ : Nat → Option Nat) (a b : Nat) : Prop :=
  SLT (strm src σ a) (strm src σ b) ∨ (strm src σ a = strm src σ b ∧ b < a)

/-- The successors before a Lyndon word is found: the positions below `h` have
their successor below `h`, and the successor of a position from `h` on is the
next position. -/
structure Succ (src : List Nat) (σ : Nat → Option Nat) (h : Nat) : Prop where
  open_ : ∀ p, h ≤ p → σ p = if p + 1 < src.length then some (p + 1) else none
  closed : ∀ p, p < h → ∃ q, q < h ∧ σ p = some q

/-- The successors once the Lyndon word from `h` to `i` is closed: the
successor of its last position is `h`. -/
def closeWord (σ : Nat → Option Nat) (h i : Nat) : Nat → Option Nat :=
  fun p => if p + 1 = i then some h else σ p

/-- What is known of a Lyndon word from `h` to `i` when it is found: the suffix
at `i` is below the suffixes before it, and the suffix at `h` is below the
suffixes inside the word and the streams of the positions before it. -/
structure Word (src : List Nat) (σ : Nat → Option Nat) (h i : Nat) : Prop where
  hi : h < i
  le : i ≤ src.length
  succ : Succ src σ h
  next : ∀ q, h ≤ q → q < i → SLT (sfx src i) (sfx src q)
  inner : ∀ p, h < p → p < i → SLT (sfx src h) (sfx src p)
  before : ∀ q, q < h → SLT (sfx src h) (strm src σ q)

/-- The pairs made of a position of the word from `h` to `i` that was not moved
yet, the positions `U`, and of a position after `i`. -/
def Mixed (i : Nat) (U : Nat → Prop) (a b : Nat) : Prop :=
  (U a ∧ i < b) ∨ (U b ∧ i < a)

/-- The order of the positions while the ranks of the word from `h` to `i` are
corrected: the order of the streams with the word closed, but for a position
that was not moved yet against a position after `i`, which are in the order
before the word is closed. -/
def Cur (src : List Nat) (σ : Nat → Option Nat) (h i : Nat) (U : Nat → Prop)
    (a b : Nat) : Prop :=
  (Mixed i U a b → Below src σ a b) ∧ (¬ Mixed i U a b → Below src (closeWord σ h i) a b)

/-- The ranks `vr` of the `n` positions follow the order `B`. -/
def RankedBy (B : Nat → Nat → Prop) (n : Nat) (vr : Nat → Nat) : Prop :=
  ∀ a b, a < n → b < n → a ≠ b → vr a < vr b → B a b

/-- The ranks while the position `x` is moved, `rank` being its rank. -/
def vrk (isa : List Nat) (x rank : Nat) : Nat → Nat :=
  fun p => if p = x then rank else rk isa p

/-- The ranks while the position `x` of the word from `h` to `i` moves up: the
other positions are in order, those below `x` are below it in the order with
the word closed and those above `x` were above it before it moved. -/
structure Moving (src : List Nat) (σ : Nat → Option Nat) (h i : Nat) (U : Nat → Prop)
    (x : Nat) (vr : Nat → Nat) : Prop where
  inj : ∀ a b, a < src.length → b < src.length → vr a = vr b → a = b
  others : ∀ a c, a < src.length → c < src.length → a ≠ c → a ≠ x → c ≠ x → vr a < vr c →
    Cur src σ h i U a c
  lower : ∀ b, b < src.length → b ≠ x → vr b < vr x → Below src (closeWord σ h i) b x
  upper : ∀ b, b < src.length → b ≠ x → vr x < vr b → Cur src σ h i U x b

/-- The position of the lowest rank among the positions `0, ..., p`. -/
def argMin (isa : List Nat) : Nat → Nat
  | 0 => 0
  | p + 1 => if rk isa (p + 1) < rk isa (argMin isa p) then p + 1 else argMin isa p

/-- The successor of the position `p` as the loop of `Forward` that writes the
output sees it: the next position, or the start of the word when the next
position has a rank below those before it, or is the end of the block. -/
def sigR (isa : List Nat) (n p : Nat) : Nat :=
  if p + 1 = n ∨ rk isa (p + 1) < rk isa (argMin isa p) then argMin isa p else p + 1

/-- The state of the loop of `Forward` over the Lyndon words when the words
before `h` are closed: the ranks follow the order of the streams, positions with
the same stream have their successors in the order of the positions, and the
successors are those that the ranks tell. -/
structure LInv (src : List Nat) (σ : Nat → Option Nat) (h : Nat) (isa : List Nat) : Prop where
  succ : Succ src σ h
  ranked : RankedBy (Below src σ) src.length (rk isa)
  tie : ∀ a b, a < src.length → b < src.length → strm src σ a = strm src σ b → b < a →
    ∃ a2 b2, σ a = some a2 ∧ σ b = some b2 ∧ b2 < a2
  emit : ∀ p, p + 1 ≤ h → σ p = some (sigR isa src.length p)

/-- What the ranks at the end of `Forward` are such that `Inverse` works: a
position with a lower rank has a smaller character, or the same character and
a successor with a lower rank. -/
def Final (src isa : List Nat) : Prop :=
  ∀ a b, a < src.length → b < src.length → a ≠ b → rk isa a < rk isa b →
    optLT src[a]? src[b]? ∨
      (src[a]? = src[b]? ∧ rk isa (sigR isa src.length a) < rk isa (sigR isa src.length b))

/-- The value that `Inverse` computes for the index `r` of the block `c`: the
number of bytes of `c` below `c[r]` plus the number of bytes equal to `c[r]`
before the index `r`. -/
def lfVal (c : List Nat) (r : Nat) : Nat :=
  c.countP (fun x => decide (x < c.getD r 0)) +
    (c.take r).countP (fun x => decide (x = c.getD r 0))

/-- The array `lf` of `Inverse` while the cycles are followed: at the rank of a
position of `V`, which has been visited, it holds `-1`, and at the rank of
another position the value computed from the counts of the bytes. -/
def LfState (isa bw : List Nat) (n : Nat) (V : Nat → Prop) (lf : List Int) : Prop :=
  ∀ q, q < n → (V q → lf[rk isa q]? = some (-1)) ∧
    (¬ V q → lf[rk isa q]? = some (Int.ofNat (lfVal bw (rk isa q))))

end Bwt

/-! ## Package `huffman`

A `*Node` is a value of the type `Node`: a leaf has no children, an inner node
has both. The leaves of a symbol table are shared by the slice `leaves`, the map
`valueMap` and the tree under `root`; a leaf is known by its `Value`, which no
two leaves of a table share, so `valueMap` is the list of its keys, and the
`Parent` links, which `BuildSorted` sets anew for every leaf at each rebuild, are
the paths of the tree under `root`. The options are the default ones, without a
sliding window (`checkOptions` is not among the sources; the pipeline uses
`NewWriter` and `NewReader` only), so that `updateWin` returns at once. -/

namespace Huffman

/-- `newValue`, the value that stands for a new value. -/
def newValue : Nat := 2 ^ 31 - 1

/-- `eofValue`, the value that stands for the end of the data. -/
def eofValue : Nat := 2 ^ 31 - 2

/-- `extraValues`. -/
def extraValues : Nat := 2

/-- `maxValues`, the capacity of `leaves`. -/
def maxValues : Nat := 256 + extraValues

/-- `huffman.Node`. -/
inductive Node where
  | leaf (value : Nat) (count : Nat)
  | inner (left right : Node) (count : Nat)
  deriving DecidableEq, Repr

/-- `Node.Count`. -/
def Node.Count : Node → Nat
  | .leaf _ c => c
  | .inner _ _ c => c

/-- The loop of `sort.Search`: a binary search between `i` and `j`. -/
def searchLoop (f : Nat → Bool) : Nat → Nat → Nat → Nat
  | 0, i, _ => i
  | fuel + 1, i, j =>
    if i < j then
      if f ((i + j) / 2) then searchLoop f fuel i ((i + j) / 2)
      else searchLoop f fuel ((i + j) / 2 + 1) j
    else i

/-- `sort.Search(n, f)`. The interval shrinks at every pass, so `n` passes are
enough. -/
def sortSearch (n : Nat) (f : Nat → Bool) : Nat := searchLoop f n 0 n

/-- The count of `ls[i]`, for `i` in range. -/
def countAt (ls : List Node) (i : Nat) : Nat :=
  match ls[i]? with
  | some x => x.Count
  | none => 0

/-- The loop of `BuildSorted`: the two first nodes get a parent, which is put
back where the binary search says. `none` is for spent fuel. -/
def buildLoop : Nat → List Node → Option Node
  | _, [] => none
  | _, [x] => some x
  | 0, _ :: _ :: _ => none
  | fuel + 1, left :: right :: ls =>
    buildLoop fuel
      (ls.take (sortSearch ls.length (fun i => decide (countAt ls i ≥ left.Count + right.Count)))
        ++ Node.inner left right (left.Count + right.Count)
        :: ls.drop (sortSearch ls.length (fun i => decide (countAt ls i ≥ left.Count + right.Count))))

/-- `BuildSorted(leaves)`; `none` is the result `nil` on an empty slice. Every
pass of the loop makes the slice one shorter. -/
def BuildSorted (leaves : List Node) : Option Node := buildLoop leaves.length leaves

/-- The path from the root `n` down to the leaf with the value `v`, `true` for
a right child: the `Parent` links of that leaf, from the root on. -/
def pathTo (v : Nat) : Node → Option (List Bool)
  | .leaf value _ => if value = v then some [] else none
  | .inner l r _ =>
    match pathTo v l with
    | some p => some (false :: p)
    | none =>
      match pathTo v r with
      | some p => some (true :: p)
      | none => none

/-- The loop of `Node.Code()` along the links from the leaf up: `r |= 1 << bits`
for a right child, in `uint64`, and `bits++`, in `byte`. -/
def codeOf (path : List Bool) : Nat × Nat :=
  path.reverse.foldl
    (fun acc right => (if right then acc.1 ||| (2 ^ acc.2 % 2 ^ 64) else acc.1, (acc.2 + 1) % 256))
    (0, 0)

/-- `Node.Code()` of the leaf with the value `v` of the tree under `root`; `none`
when there is no such leaf. -/
def Code (root : Option Node) (v : Nat) : Option (Nat × Nat) :=
  match root with
  | none => none
  | some n => (pathTo v n).map codeOf

/-- A leaf of the slice `leaves`. -/
structure Leaf where
  value : Nat
  count : Nat
  deriving DecidableEq, Repr

/-- The node of a leaf. -/
def Leaf.toNode (l : Leaf) : Node := Node.leaf l.value l.count

/-- `huffman.symbols`, without the reusable buffer and the window. -/
structure Symbols where
  leaves : List Leaf
  root : Option Node
  valueMap : List Nat
  deriving DecidableEq, Repr

/-- `symbols.rebuildTree`: the leaves are handed to `BuildSorted` in reverse. -/
def Symbols.rebuildTree (s : Symbols) : Symbols :=
  { s with root := BuildSorted (s.leaves.reverse.map Leaf.toNode) }

/-- `newSymbols`. -/
def newSymbols : Symbols :=
  Symbols.rebuildTree
    { leaves := [⟨newValue, 1⟩, ⟨eofValue, 1⟩], root := none, valueMap := [newValue, eofValue] }

/-- The loop `for ; ls[idx] != node; idx++ {}` of `update`, the node being the
leaf with the value `v`; `none` when the index leaves the slice. -/
def scanFor (ls : List Leaf) (v : Nat) : Nat → Nat → Option Nat
  | 0, _ => none
  | fuel + 1, idx =>
    match ls[idx]? with
    | none => none
    | some l => if l.value = v then some idx else scanFor ls v fuel (idx + 1)

/-- The test `ls[i].Count <= count` of the binary search of `update`, for `i` in
range. -/
def countLE (ls : List Leaf) (count i : Nat) : Bool :=
  match ls[i]? with
  | some l => decide (l.count ≤ count)
  | none => false

/-- `symbols.update(node)`, the node being the leaf with the value `v`: the
binary search for the first leaf with the count of the node, the scan for the
node from there on, the exchange of the two and the increment. -/
def Symbols.update (s : Symbols) (v : Nat) : Option Symbols :=
  match s.leaves.find? (fun l => decide (l.value = v)) with
  | none => none
  | some node =>
    let idx2 := sortSearch (s.leaves.length - extraValues) (countLE s.leaves node.count)
    match scanFor s.leaves v (s.leaves.length + 1) idx2 with
    | none => none
    | some idx =>
      match s.leaves[idx2]? with
      | none => none
      | some first =>
        some (Symbols.rebuildTree
          { s with leaves := (s.leaves.set idx first).set idx2 ⟨v, node.count + 1⟩ })

/-- `symbols.insert(symbol)`; `none` when the slice has no room left. -/
def Symbols.insert (s : Symbols) (symbol : Nat) : Option Symbols :=
  if s.leaves.length + 1 > maxValues then none
  else
    some (Symbols.rebuildTree
      { s with
        leaves := s.leaves.take (s.leaves.length - extraValues) ++ ⟨symbol, 1⟩ ::
          s.leaves.drop (s.leaves.length - extraValues),
        valueMap := symbol :: s.valueMap })

/-- What one byte `b` does to the symbol table, when written or read. -/
def Symbols.step (s : Symbols) (b : Nat) : Option Symbols :=
  if b ∈ s.valueMap then s.update b else s.insert b

/-- `huffman.Writer`. -/
structure Writer where
  sym : Symbols
  bw : Bitio.Writer
  deriving DecidableEq, Repr

/-- `NewWriter`. -/
def NewWriter : Writer := { sym := newSymbols, bw := Bitio.NewWriter }

/-- `Writer.WriteByte(b)`; `none` is a panic. -/
def Writer.WriteByte (w : Writer) (b : Nat) : Option Writer :=
  if b ∈ w.sym.valueMap then
    match Code w.sym.root b, w.sym.update b with
    | some code, some sym2 => some { sym := sym2, bw := w.bw.WriteBits code.1 code.2 }
    | _, _ => none
  else
    match Code w.sym.root newValue, w.sym.insert b with
    | some code, some sym2 =>
      some { sym := sym2, bw := (w.bw.WriteBits code.1 code.2).WriteByte b }
    | _, _ => none

/-- `Writer.Write(p)`. -/
def Writer.Write : Writer → List Nat → Option Writer
  | w, [] => some w
  | w, b :: p =>
    match w.WriteByte b with
    | none => none
    | some w2 => w2.Write p

/-- `Writer.Close()`: the bytes the sink holds afterwards. -/
def Writer.Close (w : Writer) : Option (List Nat) :=
  if w.sym.leaves.length > 2 then
    match Code w.sym.root eofValue with
    | none => none
    | some code => some (w.bw.WriteBits code.1 code.2).Close.out
  else some w.bw.Close.out

/-- `huffman.Reader`. -/
structure Reader where
  sym : Symbols
  br : Bitio.Reader
  deriving DecidableEq, Repr

/-- `NewReader`. -/
def NewReader (inp : List Nat) : Reader := { sym := newSymbols, br := Bitio.NewReader inp }

/-- What a call of the reader returns: a value, the error `io.EOF`, or a panic. -/
inductive Res (α : Type) where
  | ok (a : α)
  | eof
  | panic
  deriving DecidableEq, Repr

/-- The loop `for node.Left != nil` of `ReadByte`: down to a leaf, a bit an edge.
`none` is the error `io.EOF` of the source. -/
def descend : Node → Bitio.Reader → Option (Nat × Bitio.Reader)
  | .leaf v _, br => some (v, br)
  | .inner l r _, br =>
    match br.ReadBool with
    | none => none
    | some (right, br2) => if right then descend r br2 else descend l br2

/-- `Reader.ReadByte()`. -/
def Reader.ReadByte (r : Reader) : Res (Nat × Reader) :=
  match r.sym.root with
  | none => .panic
  | some root =>
    match descend root r.br with
    | none => .eof
    | some (v, br2) =>
      if v = newValue then
        match br2.ReadByte with
        | none => .eof
        | some (b, br3) =>
          match r.sym.insert b with
          | none => .panic
          | some sym2 => .ok (b, { sym := sym2, br := br3 })
      else if v = eofValue then .eof
      else
        match r.sym.update v with
        | none => .panic
        | some sym2 => .ok (v % 256, { sym := sym2, br := br2 })

/-- Successive `ReadByte` calls up to the first error: the bytes returned, when
the error is `io.EOF`. Every call that returns a byte reads a bit at least; the
fuel is the number of calls. -/
def Reader.readAll : Nat → Reader → Option (List Nat)
  | 0, _ => none
  | fuel + 1, r =>
    match r.ReadByte with
    | .panic => none
    | .eof => some []
    | .ok (b, r2) =>
      match Reader.readAll fuel r2 with
      | none => none
      | some bs => some (b :: bs)

/-- The lengths of the codes a writer with the symbol table `s` emits for the
bytes `p` and at `Close`: the depths of their leaves. -/
def codeLengths (s : Symbols) : List Nat → List Nat
  | [] =>
    if s.leaves.length > 2 then
      match s.root with
      | some n => [((pathTo eofValue n).getD []).length]
      | none => []
    else []
  | b :: p =>
    (match s.root with
      | some n => ((pathTo (if b ∈ s.valueMap then b else newValue) n).getD []).length
      | none => 0) ::
    (match s.step b with
      | some s2 => codeLengths s2 p
      | none => [])

/-- The values of the leaves of a tree, from left to right. -/
def Node.values : Node → List Nat
  | .leaf v _ => [v]
  | .inner l r _ => l.values ++ r.values

/-- The state of a symbol table without a window: the two sentinel leaves, with
the count 1, are the last two leaves; the leaves before them have byte values,
no two of them the same, and counts from 1 on that do not increase along the
slice; `valueMap` has the values of the leaves as its keys; and the tree is the
one `rebuildTree` builds from the leaves. -/
structure Symbols.Inv (s : Symbols) : Prop where
  len : 2 ≤ s.leaves.length
  new : s.leaves[s.leaves.length - 2]? = some ⟨newValue, 1⟩
  eof : s.leaves[s.leaves.length - 1]? = some ⟨eofValue, 1⟩
  body : ∀ i l, i < s.leaves.length - 2 → s.leaves[i]? = some l → 1 ≤ l.count ∧ l.value < 256
  sorted : ∀ i j a b, i ≤ j → j < s.leaves.length - 2 → s.leaves[i]? = some a →
    s.leaves[j]? = some b → b.count ≤ a.count
  inj : ∀ i j a b, i < s.leaves.length - 2 → j < s.leaves.length - 2 → s.leaves[i]? = some a →
    s.leaves[j]? = some b → a.value = b.value → i = j
  keys : ∀ v, v ∈ s.valueMap ↔ ∃ l ∈ s.leaves, l.value = v
  tree : s.root = BuildSorted (s.leaves.reverse.map Leaf.toNode)

/-- An operation on the symbol table: `insert(v)` of a new value or `update` of
the leaf of the value `v`. -/
inductive TableOp where
  | insert (v : Nat)
  | update (v : Nat)
  deriving DecidableEq, Repr

/-- The operation carried out on the symbol table `s`. -/
def TableOp.apply (s : Symbols) : TableOp → Option Symbols
  | .insert v => s.insert v
  | .update v => s.update v

/-- When the operation is called: `insert(v)` for a byte value `v` that is not
in the table yet, `update` for the leaf of a byte value that is in the table
(so the leaf is none of the two sentinels). -/
def TableOp.ok (s : Symbols) : TableOp → Prop
  | .insert v => v < 256 ∧ v ∉ s.valueMap
  | .update v => v < 256 ∧ v ∈ s.valueMap

instance TableOp.decOk (s : Symbols) : (op : TableOp) → Decidable (op.ok s)
  | .insert v => inferInstanceAs (Decidable (v < 256 ∧ v ∉ s.valueMap))
  | .update v => inferInstanceAs (Decidable (v < 256 ∧ v ∈ s.valueMap))

/-- A sequence of operations carried out from the symbol table `s` on; `none`
when one of them panics. -/
def runOps : Symbols → List TableOp → Option Symbols
  | s, [] => some s
  | s, op :: ops =>
    match op.apply s with
    | none => none
    | some s2 => runOps s2 ops

/-- Every operation of the sequence is called on a table on which it may be. -/
def okOps : Symbols → List TableOp → Prop
  | _, [] => True
  | s, op :: ops =>
    op.ok s ∧ (match op.apply s with
      | none => True
      | some s2 => okOps s2 ops)

instance decOkOps : (s : Symbols) → (ops : List TableOp) → Decidable (okOps s ops)
  | _, [] => isTrue trivial
  | s, op :: ops =>
    match h : op.apply s with
    | none => decidable_of_iff (op.ok s) (by simp [okOps, h])
    | some s2 =>
      @decidable_of_iff _ (op.ok s ∧ okOps s2 ops) (by simp [okOps, h])
        (@instDecidableAnd _ _ _ (decOkOps s2 ops))

/-- The order of the slice `leaves` in the words of the specification: the last
two leaves are `newValue` and `eofValue`, in this order and with the count 1;
the leaves before them are no sentinels, have a count of 1 at least, and their
counts do not increase along the slice. -/
def LeafOrder (leaves : List Leaf) : Prop :=
  ∃ body : List Leaf, leaves = body ++ [⟨newValue, 1⟩, ⟨eofValue, 1⟩] ∧
    (∀ l ∈ body, l.value ≠ newValue ∧ l.value ≠ eofValue ∧ 1 ≤ l.count) ∧
    body.Pairwise (fun a b => b.count ≤ a.count)

/-- The height of a tree: the length of its longest path from the root down to
a leaf. -/
def Node.height : Node → Nat
  | .leaf _ _ => 0
  | .inner l r _ => 1 + max l.height r.height

/-- The larger of the counts of the two children of a node; 0 for a leaf. -/
def Node.childMax : Node → Nat
  | .leaf _ _ => 0
  | .inner l r _ => max l.Count r.Count

/-- A tree as `BuildSorted` builds it: a leaf has a count of 1 at least, the
count of a parent is the sum of the counts of its children, and the children of
a node have counts not above the count of the sibling of the node. -/
def Node.Good : Node → Prop
  | .leaf _ c => 1 ≤ c
  | .inner l r c =>
    c = l.Count + r.Count ∧ l.childMax ≤ r.Count ∧ r.childMax ≤ l.Count ∧ l.Good ∧ r.Good

/-- The slice of nodes in the loop of `BuildSorted`: sorted by ascending counts,
every node a tree as above, and the children of a node with counts not above
the count of any node of the slice. -/
def Heap (nodes : List Node) : Prop :=
  nodes.Pairwise (fun a b => a.Count ≤ b.Count) ∧ (∀ t ∈ nodes, t.Good) ∧
    ∀ t ∈ nodes, ∀ u ∈ nodes, t.childMax ≤ u.Count

/-- No leaf of the symbol table has a count above `K`. -/
def Symbols.CountsLE (s : Symbols) (K : Nat) : Prop := ∀ l ∈ s.leaves, l.count ≤ K

/-- The counts of the symbol table after the bytes `q` were written or read:
the count of the leaf of a byte is the number of its occurrences in `q`, the
keys of `valueMap` that are bytes are the bytes of `q`, and no key is there
twice. -/
structure Symbols.Counts (s : Symbols) (q : List Nat) : Prop where
  count : ∀ l ∈ s.leaves, l.value < 256 → l.count = q.count l.value
  seen : ∀ v, v < 256 → (v ∈ s.valueMap ↔ v ∈ q)
  nodup : s.valueMap.Nodup

/-- `Reader.Read(p)` for a slice of `k` bytes: `k` successive `ReadByte` calls;
the bytes read and the reader afterwards, `none` when a call returns an error. -/
def Reader.readN : Nat → Reader → Option (List Nat × Reader)
  | 0, r => some ([], r)
  | k + 1, r =>
    match r.ReadByte with
    | .ok (b, r2) =>
      match Reader.readN k r2 with
      | some (bs, r3) => some (b :: bs, r3)
      | none => none
    | _ => none

/-- The leaves of a tree, from left to right. -/
def Node.leafList : Node → List Node
  | .leaf v c => [.leaf v c]
  | .inner l r _ => l.leafList ++ r.leafList

/-- Every parent in the tree has the sum of the counts of its two children as
its count. -/
def Node.SumOK : Node → Prop
  | .leaf _ _ => True
  | .inner l r c => c = l.Count + r.Count ∧ l.SumOK ∧ r.SumOK

/-- The sum over the leaves of a tree of count times depth, the root of the tree
being at the depth `d`. -/
def Node.wplAt : Node → Nat → Nat
  | .leaf _ c, d => c * d
  | .inner l r _, d => l.wplAt (d + 1) + r.wplAt (d + 1)

/-- The weighted path length of a tree: the sum over its leaves of count times
depth, the root being at the depth 0. -/
def Node.wpl (t : Node) : Nat := t.wplAt 0

/-- The leaves of a tree whose root is at the depth `d`, each as the pair of its
count and its depth. -/
def Node.profile : Node → Nat → List (Nat × Nat)
  | .leaf _ c, d => [(c, d)]
  | .inner l r _, d => l.profile (d + 1) ++ r.profile (d + 1)

/-- The depths of the leaves of a binary tree: the depth 0 alone, or depths as
these with one depth `d` replaced by `d + 1` twice. -/
inductive DepthProfile : Multiset Nat → Prop
  | one : DepthProfile {0}
  | split (d : Nat) (E : Multiset Nat) :
    DepthProfile (d ::ₘ E) → DepthProfile ((d + 1) ::ₘ (d + 1) ::ₘ E)

/-- The cost of merging the numbers of an ascending list two by two, the two
least first and their sum put back in order, down to one number: the sum of the
sums. The fuel is the length of the list. -/
def mergeCost : Nat → List Nat → Nat
  | fuel + 1, a :: b :: rest => a + b + mergeCost fuel (List.orderedInsert (· ≤ ·) (a + b) rest)
  | _, _ => 0

/-- A byte sequence after which the tree of the writer is 65 levels high: the
byte values 0 to 63, the value `j` as often as the Fibonacci number `j + 2`
says. With the two sentinels these are as many bytes as the 67th Fibonacci
number says, the least number for a tree of that height. -/
def deepInput : List Nat := (List.range 64).flatMap (fun j => List.replicate (Nat.fib (j + 2)) j)

/-- The leaves before the sentinels after the bytes `deepInput`. -/
def deepLeaves : List Leaf := (List.range 64).reverse.map (fun j => ⟨j, Nat.fib (j + 2)⟩)

/-- The value of the left child of a node, when this child is a leaf. -/
def Node.leftLeaf : Node → Option Nat
  | .inner (.leaf v _) _ _ => some v
  | _ => none

/-! ### The tree in memory

`BuildSorted`, `Node.Code()` and the descent of `Reader.ReadByte` with the nodes
as they are in memory: a node has an address, and `Parent`, `Left` and `Right`
are addresses. -/

namespace Ptr

/-- `huffman.Node` in memory: a link is the address of a node, `none` for `nil`. -/
structure Node where
  Parent : Option Nat
  Left : Option Nat
  Right : Option Nat
  Count : Nat
  Value : Nat
  deriving DecidableEq, Repr

/-- The assignment `n.Parent = parent` for the node `n` at the address `a` of the
memory `m`, the list of the nodes allocated so far, a node at its address. -/
def setParent (m : List Node) (a parent : Nat) : List Node :=
  match m[a]? with
  | some n => m.set a { n with Parent := some parent }
  | none => m

/-- The count of the node `ls[i]`, for `i` in range. -/
def countAt (m : List Node) (ls : List Nat) (i : Nat) : Nat :=
  match ls[i]? with
  | some a =>
    match m[a]? with
    | some n => n.Count
    | none => 0
  | none => 0

/-- The loop of `BuildSorted` on a slice of pointers: the two first nodes get a
new node as their parent, which both are linked to and which is put into the
slice where the binary search says. Returns the root and the memory; `none` is
a `nil` that is followed, or spent fuel. -/
def buildLoop : Nat → List Node → List Nat → Option (Nat × List Node)
  | _, _, [] => none
  | _, m, [x] => some (x, m)
  | 0, _, _ :: _ :: _ => none
  | fuel + 1, m, left :: right :: ls =>
    match m[left]?, m[right]? with
    | some l, some r =>
      buildLoop fuel
        (setParent (setParent (m ++ [⟨none, some left, some right, l.Count + r.Count, 0⟩])
          left m.length) right m.length)
        (ls.take (sortSearch ls.length (fun i => decide (countAt
            (setParent (setParent (m ++ [⟨none, some left, some right, l.Count + r.Count, 0⟩])
              left m.length) right m.length) ls i ≥ l.Count + r.Count)))
          ++ m.length :: ls.drop (sortSearch ls.length (fun i => decide (countAt
            (setParent (setParent (m ++ [⟨none, some left, some right, l.Count + r.Count, 0⟩])
              left m.length) right m.length) ls i ≥ l.Count + r.Count))))
    | _, _ => none

/-- `BuildSorted(leaves)` on the memory `m`: the address of the root and the
memory afterwards; `none` is the result `nil` on an empty slice. Every pass of
the loop makes the slice one shorter. -/
def BuildSorted (m : List Node) (leaves : List Nat) : Option (Nat × List Node) :=
  buildLoop leaves.length m leaves

/-- The loop of `Node.Code()`: from the node `n` up along the `Parent` links,
`r |= 1 << bits` in `uint64` when the node is the right child of its parent, and
`bits++` in `byte`. `none` is a link to no node, or spent fuel. -/
def codeLoop (m : List Node) : Nat → Nat → Nat → Nat → Option (Nat × Nat)
  | 0, _, _, _ => none
  | fuel + 1, n, r, bits =>
    match m[n]? with
    | none => none
    | some node =>
      match node.Parent with
      | none => some (r, bits)
      | some parent =>
        match m[parent]? with
        | none => none
        | some pn =>
          codeLoop m fuel parent
            (if pn.Right = some n then r ||| (2 ^ bits % 2 ^ 64) else r) ((bits + 1) % 256)

/-- `Node.Code()` of the node at the address `n`. A chain of links that does not
come back to a node passes `m.length` nodes at most. -/
def Node.Code (m : List Node) (n : Nat) : Option (Nat × Nat) := codeLoop m (m.length + 1) n 0 0

/-- The loop `for node.Left != nil` of `Reader.ReadByte` with the bits read
given: from the node `a` down, to the right child at a 1 and to the left child
at a 0. `none` when a bit is left at a node without a left child, or at a `nil`
that is followed. -/
def follow (m : List Node) : Nat → List Bool → Option Nat
  | a, [] => some a
  | a, b :: bs =>
    match m[a]? with
    | none => none
    | some n =>
      match n.Left with
      | none => none
      | some l =>
        if b then
          match n.Right with
          | none => none
          | some r => follow m r bs
        else follow m l bs

/-- The state of the loop of `BuildSorted` on the leaves `ls`, the memory having
had `N0` nodes at the start: the leaves are leaves; a node made by the loop has
two children, which are not the same, are older than it, are leaves of `ls` or
made by the loop, are linked to it and are not in the slice any more; the slice
`cur` has no node twice, and its nodes are leaves of `ls` or made by the loop
and without a parent; and a leaf of `ls` or node made by the loop is in the
slice or a child of a node made by the loop. -/
structure Built (N0 : Nat) (ls : List Nat) (m : List Node) (cur : List Nat) : Prop where
  size : N0 ≤ m.length
  leaf : ∀ a ∈ ls, a < N0 ∧ ∃ n, m[a]? = some n ∧ n.Left = none ∧ n.Right = none
  inner : ∀ a, N0 ≤ a → a < m.length → ∃ n l r nl nr, m[a]? = some n ∧ n.Left = some l ∧
    n.Right = some r ∧ l ≠ r ∧ l < a ∧ r < a ∧ (l ∈ ls ∨ N0 ≤ l) ∧ (r ∈ ls ∨ N0 ≤ r) ∧
    m[l]? = some nl ∧ nl.Parent = some a ∧ m[r]? = some nr ∧ nr.Parent = some a ∧
    l ∉ cur ∧ r ∉ cur
  nodup : cur.Nodup
  elems : ∀ a ∈ cur, a ∈ ls ∨ (N0 ≤ a ∧ a < m.length ∧ ∃ n, m[a]? = some n ∧ n.Parent = none)
  cover : ∀ x, (x ∈ ls ∨ N0 ≤ x) → x < m.length → x ∈ cur ∨ ∃ a n l r, N0 ≤ a ∧ a < m.length ∧
    m[a]? = some n ∧ n.Left = some l ∧ n.Right = some r ∧ (x = l ∨ x = r)

end Ptr

end Huffman

/-! ## Package `main`

The two functions `compress` and `decompress` without the file operations: the
content of the input file is the argument and the content of the output file
the result. `check(err)` panics on an error, and a panic is `none`. -/

namespace Main

/-- The first stage of `compress`: the BWTS of the file content, written to a
new buffer of the same length. -/
def bwtStage (normBytes : List Nat) : Option (List Nat) :=
  match Bwt.NewBWTS.Forward false normBytes (List.replicate normBytes.length 0) with
  | none => none
  | some res => if res.err then none else some res.dst

/-- The stages of `compress` before the Huffman writer: BWTS, RLE and MTF with
the alphabet and its length appended; the result is `mtfBytes`. -/
def mtfStage (normBytes : List Nat) : Option (List Nat) :=
  match bwtStage normBytes with
  | none => none
  | some bwtBytes =>
    match Rle.RunLengthEncode bwtBytes with
    | none => none
    | some rleString =>
      let alphabet := Mtf.AlphabetCreate rleString
      match Mtf.Encode alphabet rleString with
      | none => none
      | some mtfBytes => some (mtfBytes ++ alphabet ++ [alphabet.length % 256])

/-- The body of `compress` on the file content `normBytes`: BWTS, RLE, MTF and
the Huffman writer, which is closed. -/
def compress (normBytes : List Nat) : Option (List Nat) :=
  match mtfStage normBytes with
  | none => none
  | some mtfBytes =>
    match Huffman.NewWriter.Write mtfBytes with
    | none => none
    | some w => w.Close

/-- The two calls of `Inverse` of `decompress`, on the same `BWTS` and the
same buffers. -/
def inverseTwice (bwtBytes : List Nat) : Option (List Nat) :=
  match Bwt.NewBWTS.Inverse false bwtBytes (List.replicate bwtBytes.length 0) with
  | none => none
  | some r1 =>
    if r1.err then none
    else
      match r1.state.Inverse false bwtBytes r1.dst with
      | none => none
      | some r2 => if r2.err then none else some r2.dst

/-- The body of `decompress` on the file content `file`: the Huffman reader
until the end of the stream (at most `fuel` calls of `ReadByte`), `GetAlphabet`,
MTF, RLE and the inverse BWTS, which is run twice. -/
def decompress (nd : Nat → Bool) (fuel : Nat) (file : List Nat) : Option (List Nat) :=
  match (Huffman.NewReader file).readAll fuel with
  | none => none
  | some mtfBytes =>
    match Mtf.GetAlphabet mtfBytes with
    | none => none
    | some (mtfBytes2, alphabet) =>
      match Mtf.Decode alphabet mtfBytes2 with
      | none => none
      | some rleBytes =>
        match Rle.RunLengthDecode nd rleBytes with
        | none => none
        | some bwtBytes => inverseTwice bwtBytes

end Main

/-! ## Facts about `mtf` -/

namespace Mtf

theorem indexByte_some_of_mem : ∀ (pad : List Nat) (c : Nat), c ∈ pad →
    ∃ x, indexByte pad c = some x ∧ x < pad.length ∧ pad[x]? = some c
  | [], c, h => by simp at h
  | p :: ps, c, h => by
    by_cases hp : p = c
    · exact ⟨0, by simp [indexByte, hp], by simp, by simp [hp]⟩
    · have hc : c ∈ ps := by
        rcases List.mem_cons.mp h with h | h
        · exact absurd h.symm hp
        · exact h
      obtain ⟨x, hx, hlt, hget⟩ := indexByte_some_of_mem ps c hc
      exact ⟨x + 1, by simp [indexByte, hp, hx], by simp [hlt], by simpa using hget⟩

theorem length_shiftFront (pad : List Nat) (x c : Nat) (hx : x < pad.length) :
    (shiftFront pad x c).length = pad.length := by
  simp [shiftFront, List.length_take, List.length_drop]
  omega

theorem mem_shiftFront (pad : List Nat) (x c : Nat) (hget : pad[x]? = some c) (a : Nat) :
    a ∈ shiftFront pad x c ↔ a ∈ pad := by
  have hx : x < pad.length := by
    rcases Nat.lt_or_ge x pad.length with h | h
    · exact h
    · rw [List.getElem?_eq_none h] at hget; cases hget
  have hsplit : pad = pad.take x ++ c :: pad.drop (x + 1) := by
    have h1 : pad.drop x = c :: pad.drop (x + 1) := by
      rw [List.drop_eq_getElem_cons hx]
      congr 1
      rw [List.getElem?_eq_getElem hx] at hget
      exact Option.some.inj hget
    conv_lhs => rw [← List.take_append_drop x pad, h1]
  constructor
  · intro h
    rw [hsplit]
    simp only [shiftFront, List.mem_cons, List.mem_append] at h ⊢
    tauto
  · intro h
    rw [hsplit] at h
    simp only [shiftFront, List.mem_cons, List.mem_append] at h ⊢
    tauto

/-- Decoding undoes encoding from any stack that contains the bytes to encode
and is short enough for its indices to fit a byte. -/
theorem decodeLoop_encodeLoop : ∀ (s pad : List Nat), (∀ c ∈ s, c ∈ pad) → pad.length ≤ 256 →
    ∃ seq, encodeLoop pad s = some seq ∧ decodeLoop pad seq = some s
  | [], pad, _, _ => ⟨[], rfl, rfl⟩
  | c :: s, pad, hmem, hlen => by
    obtain ⟨x, hx, hlt, hget⟩ := indexByte_some_of_mem pad c (hmem c (by simp))
    have hmem2 : ∀ d ∈ s, d ∈ shiftFront pad x c := fun d hd =>
      (mem_shiftFront pad x c hget d).mpr (hmem d (by simp [hd]))
    have hlen2 : (shiftFront pad x c).length ≤ 256 := by
      rw [length_shiftFront pad x c hlt]; exact hlen
    obtain ⟨seq, hseq, hdec⟩ := decodeLoop_encodeLoop s (shiftFront pad x c) hmem2 hlen2
    have hmod : x % 256 = x := Nat.mod_eq_of_lt (by omega)
    refine ⟨x % 256 :: seq, by simp [encodeLoop, hx, hseq], ?_⟩
    simp [decodeLoop, hmod, hget, hdec]

theorem mem_alphabetLoop : ∀ (input res : List Nat) (a : Nat),
    a ∈ alphabetLoop res input ↔ a ∈ res ∨ a ∈ input
  | [], res, a => by simp [alphabetLoop]
  | b :: input, res, a => by
    unfold alphabetLoop
    split
    · rename_i hb
      rw [mem_alphabetLoop input res a]
      constructor
      · rintro (h | h)
        · exact Or.inl h
        · exact Or.inr (by simp [h])
      · rintro (h | h)
        · exact Or.inl h
        · rcases List.mem_cons.mp h with h | h
          · exact Or.inl (h ▸ hb)
          · exact Or.inr h
    · rw [mem_alphabetLoop input (res ++ [b]) a]
      simp only [List.mem_append, List.mem_singleton, List.mem_cons]
      tauto

theorem nodup_alphabetLoop : ∀ (input res : List Nat), res.Nodup → (alphabetLoop res input).Nodup
  | [], res, h => by simpa [alphabetLoop] using h
  | b :: input, res, h => by
    unfold alphabetLoop
    split
    · exact nodup_alphabetLoop input res h
    · rename_i hb
      apply nodup_alphabetLoop input (res ++ [b])
      rw [List.nodup_append]
      refine ⟨h, by simp, ?_⟩
      intro a ha hb2
      simp only [List.mem_singleton] at hb2
      exact hb (hb2 ▸ ha)

end Mtf

namespace Mtf

theorem length_AlphabetCreate (b : List Nat) : (AlphabetCreate b).length = b.toFinset.card := by
  have hnd : (AlphabetCreate b).Nodup := nodup_alphabetLoop b [] List.nodup_nil
  have hfin : (AlphabetCreate b).toFinset = b.toFinset := by
    ext a
    simp [AlphabetCreate, mem_alphabetLoop]
  rw [← hfin, List.toFinset_card_of_nodup hnd]

/-- The numbers that `Encode` writes are indices of the stack. -/
theorem encodeLoop_lt : ∀ (s pad seq : List Nat), encodeLoop pad s = some seq →
    ∀ x ∈ seq, x < 256
  | [], _, seq, h => by
    simp only [encodeLoop, Option.some.injEq] at h
    subst h
    simp
  | c :: s, pad, seq, h => by
    simp only [encodeLoop] at h
    split at h
    · cases h
    · split at h
      · cases h
      · rename_i seq2 hseq2
        simp only [Option.some.injEq] at h
        subst h
        intro x hx
        rcases List.mem_cons.mp hx with hx | hx
        · rw [hx]; exact Nat.mod_lt _ (by norm_num)
        · exact encodeLoop_lt s _ seq2 hseq2 x hx

/-- With the alphabet of `b`, of 255 letters at most, `Decode` undoes `Encode`. -/
theorem Decode_Encode (b : List Nat) (h : b.toFinset.card ≤ 255) :
    ∃ seq, Encode (AlphabetCreate b) b = some seq ∧ Decode (AlphabetCreate b) seq = some b := by
  have hlen : (AlphabetCreate b).length ≤ 256 := by
    rw [length_AlphabetCreate]; omega
  have hmem : ∀ c ∈ b, c ∈ AlphabetCreate b := fun c hc => by
    simp [AlphabetCreate, mem_alphabetLoop, hc]
  exact decodeLoop_encodeLoop b (AlphabetCreate b) hmem hlen

/-- C4 (MTF round trip): for every byte string `b` with at most 255 distinct
byte values, `Encode` with the alphabet `AlphabetCreate b` succeeds, and
`Decode` with the same alphabet succeeds on its output and returns `b`. -/
theorem mtf_round_trip (b : List Nat) (h : b.toFinset.card ≤ 255) :
    ∃ seq, Encode (AlphabetCreate b) b = some seq ∧ Decode (AlphabetCreate b) seq = some b := by
  have hlen : (AlphabetCreate b).length ≤ 256 := by
    rw [length_AlphabetCreate]; omega
  have hmem : ∀ c ∈ b, c ∈ AlphabetCreate b := fun c hc => by
    simp [AlphabetCreate, mem_alphabetLoop, hc]
  exact decodeLoop_encodeLoop b (AlphabetCreate b) hmem hlen

/-- Witness of C4 at the input `"banana"`. -/
theorem mtf_round_trip_witness :
    ([98, 97, 110, 97, 110, 97] : List Nat).toFinset.card ≤ 255 ∧
    ∃ seq, Encode (AlphabetCreate [98, 97, 110, 97, 110, 97]) [98, 97, 110, 97, 110, 97] = some seq ∧
      Decode (AlphabetCreate [98, 97, 110, 97, 110, 97]) seq = some [98, 97, 110, 97, 110, 97] :=
  ⟨by decide, mtf_round_trip [98, 97, 110, 97, 110, 97] (by decide)⟩

/-- `GetAlphabet` splits what `compress` puts together. -/
theorem GetAlphabet_append (seq alphabet : List Nat) :
    GetAlphabet (seq ++ alphabet ++ [alphabet.length]) = some (seq, alphabet) := by
  have h1 : (seq ++ alphabet ++ [alphabet.length]).length - alphabet.length - 1 = seq.length := by
    simp only [List.length_append, List.length_singleton]; omega
  have h2 : (seq ++ alphabet ++ [alphabet.length]).length - 1 = (seq ++ alphabet).length := by
    simp only [List.length_append, List.length_singleton]; omega
  have h3 : alphabet.length + 1 ≤ (seq ++ alphabet ++ [alphabet.length]).length := by
    simp only [List.length_append, List.length_singleton]; omega
  unfold GetAlphabet
  rw [List.getLast?_concat]
  simp only [h3, if_true, h1, h2]
  rw [List.take_left' rfl, List.append_assoc, List.take_left' rfl, List.drop_left' rfl]

/-- Dropping from a list a byte that occurs earlier in it does not change the
order of the first occurrences. -/
theorem indexOf_skip (res input : List Nat) (b x y : Nat) (hb : b ∈ res) :
    (List.indexOf x (res ++ b :: input) < List.indexOf y (res ++ b :: input) ↔
      List.indexOf x (res ++ input) < List.indexOf y (res ++ input)) := by
  have key : ∀ z, (z ∈ res ∧ List.indexOf z (res ++ b :: input) = List.indexOf z res ∧
      List.indexOf z (res ++ input) = List.indexOf z res ∧ List.indexOf z res < res.length) ∨
      (List.indexOf z (res ++ b :: input) = res.length + (List.indexOf z input + 1) ∧
      List.indexOf z (res ++ input) = res.length + List.indexOf z input) := by
    intro z
    by_cases hz : z ∈ res
    · exact Or.inl ⟨hz, List.indexOf_append_of_mem hz, List.indexOf_append_of_mem hz,
        List.indexOf_lt_length.mpr hz⟩
    · right
      have hzb : b ≠ z := fun e => hz (e ▸ hb)
      rw [List.indexOf_append_of_not_mem hz, List.indexOf_append_of_not_mem hz,
        List.indexOf_cons_ne _ hzb]
      exact ⟨by omega, by omega⟩
  rcases key x with ⟨_, h1, h2, h3⟩ | ⟨h1, h2⟩ <;> rcases key y with ⟨_, h4, h5, h6⟩ | ⟨h4, h5⟩ <;>
    rw [h1, h2, h4, h5] <;> omega

/-- The loop of `AlphabetCreate` keeps the order of the first occurrences. -/
theorem indexOf_alphabetLoop : ∀ (input res : List Nat) (x y : Nat),
    (List.indexOf x (alphabetLoop res input) < List.indexOf y (alphabetLoop res input) ↔
      List.indexOf x (res ++ input) < List.indexOf y (res ++ input))
  | [], res, x, y => by simp [alphabetLoop]
  | b :: input, res, x, y => by
    unfold alphabetLoop
    split
    · rename_i hb
      rw [indexOf_alphabetLoop input res x y, indexOf_skip res input b x y hb]
    · rw [indexOf_alphabetLoop input (res ++ [b]) x y]
      simp

theorem AlphabetCreate_spec (d : List Nat) :
    (AlphabetCreate d).Nodup ∧ (∀ x, x ∈ AlphabetCreate d ↔ x ∈ d) ∧
    ∀ x y, (List.indexOf x (AlphabetCreate d) < List.indexOf y (AlphabetCreate d) ↔
      List.indexOf x d < List.indexOf y d) := by
  refine ⟨nodup_alphabetLoop d [] List.nodup_nil, fun x => ?_, fun x y => ?_⟩
  · simp [AlphabetCreate, mem_alphabetLoop]
  · simpa [AlphabetCreate] using indexOf_alphabetLoop d [] x y

/-- C13 (MTF alphabet): `AlphabetCreate d` has no byte twice, has exactly the
bytes that occur in `d`, and lists them in the order of their first
occurrences in `d`: one byte comes before another in the alphabet exactly when
its first occurrence in `d` comes before that of the other. -/
theorem mtf_alphabet_first_occurrences (d : List Nat) :
    (AlphabetCreate d).Nodup ∧ (∀ x, x ∈ AlphabetCreate d ↔ x ∈ d) ∧
    ∀ x y, (List.indexOf x (AlphabetCreate d) < List.indexOf y (AlphabetCreate d) ↔
      List.indexOf x d < List.indexOf y d) :=
  AlphabetCreate_spec d

/-- C14 (MTF trailer framing): for a payload `m` and an alphabet `a` of at most
255 bytes, `GetAlphabet` on `m ++ a ++ [byte(len(a))]` returns `(m, a)`. -/
theorem mtf_trailer_framing (m a : List Nat) (h : a.length ≤ 255) :
    GetAlphabet (m ++ a ++ [a.length % 256]) = some (m, a) := by
  rw [Nat.mod_eq_of_lt (by omega)]
  exact GetAlphabet_append m a

/-- Witness of C14: the payload `[1, 1, 2]` with the alphabet `"ab"`. -/
theorem mtf_trailer_framing_witness :
    GetAlphabet ([1, 1, 2] ++ [97, 98] ++ [([97, 98] : List Nat).length % 256]) =
      some ([1, 1, 2], [97, 98]) :=
  mtf_trailer_framing [1, 1, 2] [97, 98] (by decide)

/-- C17, first half as stated, fails: `SymbolTable("abn").Encode("banana")` is
`[1, 1, 2, 1, 1, 1]`, not `[1, 0, 2, 1, 1, 1]`, and the decoding of
`[1, 0, 2, 1, 1, 1]` is `"bbnbnb"`, not `"banana"`. -/
theorem mtf_banana_counterexample :
    Encode [97, 98, 110] [98, 97, 110, 97, 110, 97] ≠ some [1, 0, 2, 1, 1, 1] ∧
    Decode [97, 98, 110] [1, 0, 2, 1, 1, 1] ≠ some [98, 97, 110, 97, 110, 97] := by
  decide

/-- Amended C17 (MTF concrete scenario): `SymbolTable("abn").Encode("banana")`
is `[1, 1, 2, 1, 1, 1]` and `SymbolTable("abn").Decode` of that sequence is
`"banana"`. -/
theorem mtf_banana :
    Encode [97, 98, 110] [98, 97, 110, 97, 110, 97] = some [1, 1, 2, 1, 1, 1] ∧
    Decode [97, 98, 110] [1, 1, 2, 1, 1, 1] = some [98, 97, 110, 97, 110, 97] := by
  decide

theorem mtf_encodeLoop_length : ∀ (s pad seq : List Nat), encodeLoop pad s = some seq →
    seq.length = s.length
  | [], pad, seq, h => by
    simp only [encodeLoop, Option.some.injEq] at h
    subst h
    rfl
  | c :: s, pad, seq, h => by
    unfold encodeLoop at h
    split at h
    · cases h
    · rename_i x hx
      split at h
      · cases h
      · rename_i seq2 hseq2
        simp only [Option.some.injEq] at h
        subst h
        simp only [List.length_cons]
        rw [mtf_encodeLoop_length s _ seq2 hseq2]

end Mtf

/-! ## Facts about `rle` -/

namespace Rle

theorem itoaAux_append : ∀ (fuel n : Nat) (acc : List Nat),
    itoaAux fuel n acc = itoaAux fuel n [] ++ acc
  | 0, n, acc => by simp [itoaAux]
  | fuel + 1, n, acc => by
    unfold itoaAux
    split
    · simp
    · rw [itoaAux_append fuel (n / 10) ((48 + n % 10) :: acc),
        itoaAux_append fuel (n / 10) [48 + n % 10]]
      simp

theorem itoaAux_digits : ∀ (fuel n : Nat) (acc : List Nat) (x : Nat),
    x ∈ itoaAux fuel n acc → (48 ≤ x ∧ x ≤ 57) ∨ x ∈ acc
  | 0, n, acc, x, h => by
    simp only [itoaAux, List.mem_cons] at h
    rcases h with h | h
    · left; omega
    · exact Or.inr h
  | fuel + 1, n, acc, x, h => by
    unfold itoaAux at h
    split at h
    · simp only [List.mem_cons] at h
      rcases h with h | h
      · left; omega
      · exact Or.inr h
    · rcases itoaAux_digits fuel (n / 10) _ x h with h | h
      · exact Or.inl h
      · simp only [List.mem_cons] at h
        rcases h with h | h
        · left; omega
        · exact Or.inr h

theorem itoaAux_length : ∀ (fuel n : Nat) (acc : List Nat), n ≤ fuel → 1 ≤ n →
    (itoaAux fuel n acc).length ≤ acc.length + n ∧
    (2 ≤ n → (itoaAux fuel n acc).length + 1 ≤ acc.length + n)
  | 0, n, acc, h, h1 => by omega
  | fuel + 1, n, acc, h, h1 => by
    unfold itoaAux
    split
    · simp; omega
    · have ih := (itoaAux_length fuel (n / 10) ((48 + n % 10) :: acc) (by omega) (by omega)).1
      simp only [List.length_cons] at ih
      constructor
      · omega
      · intro _; omega

theorem itoa_length (k : Nat) (hk : 2 ≤ k) : (itoa k).length + 1 ≤ k := by
  have := (itoaAux_length k k [] (le_refl k) (by omega)).2 hk
  simpa [itoa] using this

theorem itoa_ne_nil (k : Nat) : itoa k ≠ [] := by
  unfold itoa
  cases k with
  | zero => simp [itoaAux]
  | succ k =>
    unfold itoaAux
    split
    · simp
    · rw [itoaAux_append]; simp

theorem atoiScan_itoaAux : ∀ (fuel n : Nat) (rest : List Nat), n ≤ fuel → n < 2 ^ 64 →
    atoiScan 0 (itoaAux fuel n [] ++ rest) = atoiScan n rest
  | 0, n, rest, h, _ => by
    have hn : n = 0 := by omega
    subst hn
    simp [itoaAux, atoiScan]
  | fuel + 1, n, rest, h, h64 => by
    unfold itoaAux
    split
    · rename_i h10
      have h1 : 48 + n - 48 = n := by omega
      have h2 : 48 + n ≤ 57 := by omega
      simp [atoiScan, h1, h2]
      omega
    · rename_i h10
      rw [itoaAux_append, List.append_assoc,
        atoiScan_itoaAux fuel (n / 10) _ (by omega) (by omega)]
      have h1 : 48 + n % 10 - 48 = n % 10 := by omega
      have h2 : 48 + n % 10 ≤ 57 := by omega
      have h3 : ¬ (n / 10 ≥ 1844674407370955162) := by
        norm_num at h64; omega
      have h4 : ¬ (n / 10 * 10 + n % 10 > 2 ^ 64 - 1) := by
        norm_num at h64 ⊢; omega
      have h5 : n / 10 * 10 + n % 10 = n := by omega
      have h6 : ¬ (n > 2 ^ 64 - 1) := by norm_num at h64 ⊢; omega
      simp only [List.singleton_append, atoiScan, Nat.le_add_right, h2, and_self, if_true, h1, h3,
        h4, if_false, h5]
      rw [if_neg h6]
      rfl

theorem atoi_itoa (k : Nat) (hk : k < 2 ^ 63) : atoi (itoa k) = some k := by
  have h := atoiScan_itoaAux k k [] (le_refl k) (by norm_num at hk ⊢; omega)
  simp only [List.append_nil] at h
  have hk2 : ¬ (9223372036854775808 ≤ k) := by norm_num at hk; omega
  simp [atoi, itoa, h, atoiScan, hk2]

theorem repeatString_singleton (c : Nat) : ∀ k, repeatString [c] k = List.replicate k c
  | 0 => rfl
  | k + 1 => by simp [repeatString, repeatString_singleton c k, List.replicate_succ]

theorem dropWhile_run (c : Nat) : ∀ l : List Nat,
    (l.dropWhile (fun x => decide (x = c))).length ≤ l.length ∧
    l = List.replicate (l.length - (l.dropWhile (fun x => decide (x = c))).length) c ++
      l.dropWhile (fun x => decide (x = c))
  | [] => by simp
  | x :: l => by
    obtain ⟨hle, heq⟩ := dropWhile_run c l
    by_cases hx : x = c
    · subst hx
      simp only [List.dropWhile_cons, decide_True, if_true, List.length_cons]
      refine ⟨by omega, ?_⟩
      rw [Nat.succ_sub hle, List.replicate_succ, List.cons_append, ← heq]
    · simp [List.dropWhile_cons, hx]

theorem indexNonDigit_digits (nd : Nat → Bool) (c : Nat) (t : List Nat) (hc : plainByte c) :
    ∀ (ds : List Nat) (fuel : Nat), (∀ x ∈ ds, 48 ≤ x ∧ x ≤ 57) → ds.length < fuel →
      indexNonDigit nd fuel (ds ++ c :: t) = some ds.length
  | [], fuel, _, hf => by
    obtain ⟨f, rfl⟩ : ∃ f, fuel = f + 1 := ⟨fuel - 1, by simp at hf; omega⟩
    have h1 : c < 128 := hc.1
    have h2 : ¬ (48 ≤ c ∧ c ≤ 57) := hc.2
    have h3 : c ≤ 255 := by omega
    simp only [List.nil_append, indexNonDigit, decodeRune, isDigit, h1, if_true, h3,
      List.length_nil]
    have : (decide (48 ≤ c) && decide (c ≤ 57)) = false := by
      simp only [Bool.and_eq_false_imp, decide_eq_true_eq, decide_eq_false_iff_not]
      intro h; omega
    simp [this]
  | d :: ds, fuel, hd, hf => by
    obtain ⟨f, rfl⟩ : ∃ f, fuel = f + 1 := ⟨fuel - 1, by simp at hf; omega⟩
    have h0 := hd d (by simp)
    have h1 : d < 128 := by omega
    have h3 : d ≤ 255 := by omega
    have ih := indexNonDigit_digits nd c t hc ds f (fun x hx => hd x (by simp [hx]))
      (by simp at hf; omega)
    simp only [List.cons_append, indexNonDigit, decodeRune, isDigit, h1, if_true, h3, h0.1, h0.2,
      decide_True, Bool.and_self, List.drop_succ_cons, List.drop_zero, ih, Option.map_some',
      List.length_cons]

/-- On a string of ASCII characters without decimal digits the encoder never
takes the bypass, and the decoder loop reads back what the encoder loop wrote. -/
theorem encodeLoop_plain (nd : Nat → Bool) : ∀ (fuel : Nat) (input result orig : List Nat),
    (∀ x ∈ input, plainByte x) → input.length < fuel →
    result.length + input.length ≤ orig.length → input.length < 2 ^ 63 →
    ∃ body, encodeLoop fuel input result orig = some (result ++ body ++ trailer) ∧
      ∀ (fuel2 : Nat) (res2 : List Nat), body.length ≤ fuel2 →
        decodeLoop nd fuel2 body res2 = some (res2 ++ input)
  | 0, input, result, orig, _, hf, _, _ => by omega
  | fuel + 1, [], result, orig, _, _, _, _ => by
    refine ⟨[], by simp [encodeLoop], ?_⟩
    intro fuel2 res2 _
    cases fuel2 <;> simp [decodeLoop]
  | fuel + 1, c :: rest, result, orig, hp, hf, hlen, h63 => by
    have hc : plainByte c := hp c (by simp)
    have hc1 : c < 128 := hc.1
    obtain ⟨hle, hrun⟩ := dropWhile_run c (c :: rest)
    set input2 := (c :: rest).dropWhile (fun x => decide (x = c)) with hin2
    set k := (c :: rest).length - input2.length with hk
    have hlt2 : input2.length < (c :: rest).length := by
      have : input2 = rest.dropWhile (fun x => decide (x = c)) := by
        simp [hin2, List.dropWhile_cons]
      rw [this]
      have := (dropWhile_run c rest).1
      simp only [List.length_cons]; omega
    have hk1 : 1 ≤ k := by omega
    have hklen : k + input2.length = (c :: rest).length := by omega
    have hp2 : ∀ x ∈ input2, plainByte x := fun x hx =>
      hp x (by rw [hrun]; exact List.mem_append_right _ hx)
    set pre := (if k > 1 then itoa k else []) with hpre
    have hprelen : pre.length + 1 ≤ k := by
      by_cases h : k > 1
      · simp only [hpre, h, if_true]; exact itoa_length k h
      · simp only [hpre, h, if_false, List.length_nil]; omega
    have hpredig : ∀ x ∈ pre, 48 ≤ x ∧ x ≤ 57 := by
      intro x hx
      by_cases h : k > 1
      · simp only [hpre, h, if_true, itoa] at hx
        rcases itoaAux_digits k k [] x hx with h | h
        · exact h
        · simp at h
      · simp [hpre, h] at hx
    obtain ⟨body2, henc2, hdec2⟩ := encodeLoop_plain nd fuel input2 (result ++ pre ++ [c]) orig hp2
      (by simp only [List.length_cons] at hf hlt2; omega)
      (by simp only [List.length_append, List.length_singleton]; omega)
      (by omega)
    refine ⟨pre ++ c :: body2, ?_, ?_⟩
    · have hnb : ¬ ((result ++ pre ++ [c]).length > orig.length) := by
        simp only [List.length_append, List.length_singleton]; omega
      simp only [encodeLoop, trimLeft, hc1, if_true, byteToString]
      rw [← hin2, ← hk, ← hpre]
      simp only [hnb, if_false, henc2]
      simp
    · intro fuel2 res2 hf2
      obtain ⟨f2, rfl⟩ : ∃ f, fuel2 = f + 1 :=
        ⟨fuel2 - 1, by simp only [List.length_append, List.length_cons] at hf2; omega⟩
      have hidx := indexNonDigit_digits nd c body2 hc pre (pre ++ c :: body2).length hpredig
        (by simp)
      have hne : pre ++ c :: body2 = (pre ++ c :: body2).head (by simp) ::
          (pre ++ c :: body2).tail := by simp
      have hmul : (if pre.length ≠ 0 then atoi ((pre ++ c :: body2).take pre.length)
          else some 1) = some k := by
        by_cases h : k > 1
        · have hpe : pre = itoa k := by simp [hpre, h]
          have hnz : pre.length ≠ 0 := by
            rw [hpe]; intro h0; exact itoa_ne_nil k (List.length_eq_zero.mp h0)
          rw [if_pos hnz, List.take_left' rfl, hpe]
          exact atoi_itoa k (by omega)
        · have hpe : pre = [] := by simp [hpre, h]
          have : k = 1 := by omega
          simp [hpe, this]
      have hget : (pre ++ c :: body2)[pre.length]? = some c := by
        rw [List.getElem?_append_right (le_refl _)]; simp
      have hdrop : (pre ++ c :: body2).drop (pre.length + 1) = body2 := by
        rw [← List.drop_drop, List.drop_left' rfl]; simp
      rw [hne]
      simp only [decodeLoop]
      rw [← hne, hidx]
      simp only [hmul, hget, hdrop, byteToString, hc1, if_true, repeatString_singleton]
      rw [hdec2 f2 _ (by simp only [List.length_append, List.length_cons] at hf2; omega)]
      rw [List.append_assoc, ← hrun]

/-- `RunLengthEncode` returns on every input, the bytes of which may be
arbitrary: the fuel of the embedding is never spent. -/
theorem encodeLoop_returns : ∀ (fuel : Nat) (input result orig : List Nat),
    1 ≤ fuel → orig.length + 1 ≤ fuel + result.length →
    ∃ r, encodeLoop fuel input result orig = some r
  | 0, _, _, _, h, _ => by omega
  | fuel + 1, [], result, orig, _, _ => ⟨result ++ trailer, by simp [encodeLoop]⟩
  | fuel + 1, c :: rest, result, orig, _, h => by
    have hstep : ∃ result2 : List Nat, result.length + 1 ≤ result2.length ∧
        encodeLoop (fuel + 1) (c :: rest) result orig =
          if result2.length > orig.length then some orig
          else encodeLoop fuel (trimLeft (c :: rest) c) result2 orig := by
      refine ⟨_, ?_, rfl⟩
      have hb : 1 ≤ (byteToString c).length := by
        unfold byteToString; split <;> simp
      simp only [List.length_append]; omega
    obtain ⟨result2, hlen2, heq⟩ := hstep
    rw [heq]
    by_cases hgt : result2.length > orig.length
    · exact ⟨orig, by rw [if_pos hgt]⟩
    · rw [if_neg hgt]
      exact encodeLoop_returns fuel _ result2 orig (by omega) (by omega)

theorem RunLengthEncode_returns (b : List Nat) : ∃ r, RunLengthEncode b = some r :=
  encodeLoop_returns (b.length + 1) b [] b (by omega) (by simp)

/-- On a string of ASCII characters that are not digits the encoder returns a
string that the decoder turns back into the input. -/
theorem RunLengthDecode_RunLengthEncode (nd : Nat → Bool) (b : List Nat)
    (hplain : ∀ x ∈ b, plainByte x) (hlen : b.length < 2 ^ 63) :
    ∃ e, RunLengthEncode b = some e ∧ RunLengthDecode nd e = some b := by
  obtain ⟨body, henc, hdec⟩ := encodeLoop_plain nd (b.length + 1) b [] b hplain (by omega)
    (by simp) hlen
  refine ⟨body ++ trailer, by simpa [RunLengthEncode] using henc, ?_⟩
  have h3 : ¬ ((body ++ trailer).length < 3) := by simp [trailer]
  have hl : (body ++ trailer).length - 3 = body.length := by simp [trailer]
  have hd : (body ++ trailer).drop body.length = trailer := List.drop_left' rfl
  have ht : (body ++ trailer).take body.length = body := List.take_left' rfl
  simp only [RunLengthDecode, h3, if_false, hl, hd, ht, if_true]
  simpa using hdec body.length [] (le_refl _)

/-- The encoding of a string of ASCII characters that are not digits is made of
ASCII characters. -/
theorem encodeLoop_ascii : ∀ (fuel : Nat) (input result orig e : List Nat),
    (∀ x ∈ input, plainByte x) → (∀ x ∈ result, x < 128) → (∀ x ∈ orig, x < 128) →
    encodeLoop fuel input result orig = some e → ∀ x ∈ e, x < 128
  | 0, _, _, _, _, _, _, _, h => by simp [encodeLoop] at h
  | fuel + 1, [], result, orig, e, _, hr, _, h => by
    simp only [encodeLoop, Option.some.injEq] at h
    subst h
    intro x hx
    rcases List.mem_append.mp hx with hx | hx
    · exact hr x hx
    · simp only [trailer, List.mem_cons, List.mem_singleton, List.not_mem_nil, or_false] at hx
      omega
  | fuel + 1, c :: rest, result, orig, e, hp, hr, ho, h => by
    have hc : c < 128 := (hp c (by simp)).1
    unfold encodeLoop at h
    simp only at h
    have hr2 : ∀ x ∈ result ++ (if (c :: rest).length - (trimLeft (c :: rest) c).length > 1
        then itoa ((c :: rest).length - (trimLeft (c :: rest) c).length) else []) ++
        byteToString c, x < 128 := by
      intro x hx
      rcases List.mem_append.mp hx with hx | hx
      · rcases List.mem_append.mp hx with hx | hx
        · exact hr x hx
        · split_ifs at hx
          · rcases itoaAux_digits _ _ [] x hx with h1 | h1
            · omega
            · simp at h1
          · simp at hx
      · simp only [byteToString, hc, if_true, List.mem_singleton] at hx
        omega
    have hp2 : ∀ x ∈ trimLeft (c :: rest) c, plainByte x := by
      intro x hx
      simp only [trimLeft, hc, if_true] at hx
      exact hp x ((List.dropWhile_sublist _).subset hx)
    by_cases hlong : (result ++ (if (c :: rest).length - (trimLeft (c :: rest) c).length > 1
        then itoa ((c :: rest).length - (trimLeft (c :: rest) c).length) else []) ++
        byteToString c).length > orig.length
    · rw [if_pos hlong] at h
      simp only [Option.some.injEq] at h
      subst h
      exact ho
    · rw [if_neg hlong] at h
      exact encodeLoop_ascii fuel _ _ orig e hp2 hr2 ho h

theorem RunLengthEncode_ascii (b e : List Nat) (hplain : ∀ x ∈ b, plainByte x)
    (h : RunLengthEncode b = some e) : ∀ x ∈ e, x < 128 :=
  encodeLoop_ascii (b.length + 1) b [] b e hplain (by simp) (fun x hx => (hplain x hx).1) h

/-- Amended C5 (RLE round trip): for every string `b` of ASCII characters none
of which is a decimal digit (of a length that fits Go's `int`),
`RunLengthEncode` returns a string on which `RunLengthDecode` returns `b`. -/
theorem rle_round_trip_plain (nd : Nat → Bool) (b : List Nat)
    (hplain : ∀ x ∈ b, x < 128 ∧ ¬ (48 ≤ x ∧ x ≤ 57)) (hlen : b.length < 2 ^ 63) :
    ∃ e, RunLengthEncode b = some e ∧ RunLengthDecode nd e = some b :=
  RunLengthDecode_RunLengthEncode nd b hplain hlen

/-- Witness of the amended C5 at the input `"aab"`. -/
theorem rle_round_trip_plain_witness :
    ∃ e, RunLengthEncode [97, 97, 98] = some e ∧
      RunLengthDecode (fun _ => false) e = some [97, 97, 98] :=
  rle_round_trip_plain (fun _ => false) [97, 97, 98] (by decide) (by simp)

/-- Counterexample to C5: the two-byte string `"1a"` is encoded as `"1a%#%"`,
which every digit table decodes to the one-byte string `"a"`. -/
theorem rle_round_trip_counterexample :
    RunLengthEncode [49, 97] = some [49, 97, 37, 35, 37] ∧
    (∀ nd : Nat → Bool, RunLengthDecode nd [49, 97, 37, 35, 37] = some [97]) ∧
    ([97] : List Nat) ≠ [49, 97] := by
  refine ⟨by decide, ?_, by decide⟩
  intro nd
  simp [RunLengthDecode, trailer, decodeLoop, indexNonDigit, decodeRune, isDigit, atoi, atoiScan,
    byteToString, repeatString]

/-- C9 at the one-byte input `"a"`: the loop emits `"a"`, which is not longer
than the input, and the trailer is appended after the last length check, so
the result `"a%#%"` has four bytes. -/
theorem rle_inflates_single_byte :
    RunLengthEncode [97] = some [97, 37, 35, 37] ∧
    ¬ (([97, 37, 35, 37] : List Nat).length ≤ ([97] : List Nat).length) := by
  decide

theorem itoaAux_decimal : ∀ (fuel n : Nat) (acc : List Nat), n ≤ fuel → 1 ≤ n →
    itoaAux fuel n acc = decimal n ++ acc
  | 0, n, acc, h, h1 => by omega
  | fuel + 1, n, acc, h, h1 => by
    unfold itoaAux
    have hd : Nat.digits 10 n = (n % 10) :: Nat.digits 10 (n / 10) :=
      Nat.digits_def' (by omega) (by omega)
    by_cases hn : n < 10
    · rw [if_pos hn]
      have h0 : n / 10 = 0 := by omega
      have h1 : n % 10 = n := by omega
      simp [decimal, hd, h0, h1]
    · rw [if_neg hn, itoaAux_decimal fuel (n / 10) _ (by omega) (by omega)]
      simp [decimal, hd]

theorem itoa_decimal (k : Nat) (hk : 1 ≤ k) : itoa k = decimal k := by
  have := itoaAux_decimal k k [] (le_refl k) hk
  simpa [itoa] using this

/-- The runs of a string that starts with `c`: the first run has the leading
bytes equal to `c`, and the other runs are those of the rest. -/
theorem runs_cons (c : Nat) : ∀ rest : List Nat,
    runs (c :: rest) =
      (c, (c :: rest).length - ((c :: rest).dropWhile (fun x => decide (x = c))).length) ::
        runs (rest.dropWhile (fun x => decide (x = c)))
  | [] => by simp [runs]
  | x :: rest => by
    have ih := runs_cons c rest
    have hle := (dropWhile_run c rest).1
    by_cases hx : x = c
    · subst hx
      have ih2 := runs_cons x rest
      rw [show runs (x :: x :: rest) = (match runs (x :: rest) with
        | (d, k) :: rs => if x = d then (d, k + 1) :: rs else (x, 1) :: (d, k) :: rs
        | [] => [(x, 1)]) from rfl, ih2]
      simp only [if_true, List.dropWhile_cons, decide_True, List.length_cons]
      congr 2
      omega
    · have h1 : (c :: x :: rest).dropWhile (fun x => decide (x = c)) = x :: rest := by
        simp [List.dropWhile_cons, hx]
      have h2 : (x :: rest).dropWhile (fun x => decide (x = c)) = x :: rest := by
        simp [List.dropWhile_cons, hx]
      rw [h1, h2]
      have h3 : ∃ d k rs, runs (x :: rest) = (d, k) :: rs ∧ d = x := by
        have := runs_cons x rest
        exact ⟨_, _, _, this, rfl⟩
      obtain ⟨d, k, rs, h4, h5⟩ := h3
      rw [show runs (c :: x :: rest) = (match runs (x :: rest) with
        | (d, k) :: rs => if c = d then (d, k + 1) :: rs else (c, 1) :: (d, k) :: rs
        | [] => [(c, 1)]) from rfl, h4]
      have hcd : ¬ c = d := by rw [h5]; exact fun e => hx e.symm
      simp [hcd]

/-- The runs of a string give the string back. -/
theorem runs_flatMap : ∀ (n : Nat) (s : List Nat), s.length ≤ n →
    (runs s).flatMap (fun r => List.replicate r.2 r.1) = s
  | _, [], _ => by simp [runs]
  | 0, c :: rest, h => by simp at h
  | n + 1, c :: rest, h => by
    rw [runs_cons, List.flatMap_cons]
    have h1 := dropWhile_run c (c :: rest)
    have h2 : (c :: rest).dropWhile (fun x => decide (x = c)) =
        rest.dropWhile (fun x => decide (x = c)) := by simp [List.dropWhile_cons]
    have h3 := (dropWhile_run c rest).1
    rw [runs_flatMap n (rest.dropWhile (fun x => decide (x = c)))
      (by simp only [List.length_cons] at h; omega)]
    rw [← h2]
    exact h1.2.symm

/-- On a string of ASCII characters the loop of the encoder never takes the
bypass and writes the runs in the format of the specification. -/
theorem encodeLoop_format : ∀ (fuel : Nat) (input result orig : List Nat),
    (∀ x ∈ input, x < 128) → input.length < fuel →
    result.length + input.length ≤ orig.length →
    encodeLoop fuel input result orig = some (result ++ runFormat input)
  | 0, _, _, _, _, h, _ => by omega
  | fuel + 1, [], result, orig, _, _, _ => by simp [encodeLoop, runFormat, runs]
  | fuel + 1, c :: rest, result, orig, hp, hf, hl => by
    have hc : c < 128 := hp c (by simp)
    have htrim : trimLeft (c :: rest) c = rest.dropWhile (fun x => decide (x = c)) := by
      simp [trimLeft, hc, List.dropWhile_cons]
    have hle := (dropWhile_run c rest).1
    have hp2 : ∀ x ∈ rest.dropWhile (fun x => decide (x = c)), x < 128 := fun x hx =>
      hp x (List.mem_cons_of_mem _ ((List.dropWhile_sublist _).subset hx))
    simp only [List.length_cons] at hf hl
    unfold encodeLoop
    simp only [htrim, List.length_cons]
    generalize hk : rest.length + 1 - (rest.dropWhile (fun x => decide (x = c))).length = k
    have hk1 : 1 ≤ k := by omega
    have hlen : ((if k > 1 then itoa k else []) ++ byteToString c).length ≤ k := by
      simp only [byteToString, hc, if_true, List.length_append, List.length_singleton]
      split_ifs with h2
      · exact itoa_length k h2
      · simpa using hk1
    rw [if_neg (by simp only [List.length_append] at hlen ⊢; omega)]
    rw [encodeLoop_format fuel _ _ orig hp2 (by omega)
      (by simp only [List.length_append] at hlen ⊢; omega)]
    have hr : runFormat (c :: rest) = ((if 2 ≤ k then decimal k else []) ++ [c]) ++
        runFormat (rest.dropWhile (fun x => decide (x = c))) := by
      unfold runFormat
      rw [runs_cons, List.flatMap_cons]
      simp only [List.dropWhile_cons, decide_True, if_true, List.length_cons, hk, List.append_assoc]
    rw [hr]
    have hi : (if k > 1 then itoa k else []) = (if 2 ≤ k then decimal k else []) := by
      by_cases h2 : 2 ≤ k
      · rw [if_pos h2, if_pos (by omega), itoa_decimal k hk1]
      · rw [if_neg h2, if_neg (by omega)]
    rw [hi]
    simp [byteToString, hc]

theorem RunLengthEncode_format (s : List Nat) (h : ∀ x ∈ s, x < 128) :
    RunLengthEncode s = some (runFormat s) := by
  have := encodeLoop_format (s.length + 1) s [] s h (by omega) (by simp)
  simpa [RunLengthEncode] using this

/-- The runs are maximal: every run has a byte at least, and two runs that
follow each other have different bytes. -/
theorem runs_maximal : ∀ s : List Nat,
    (∀ r ∈ runs s, 1 ≤ r.2) ∧ (runs s).Chain' (fun a b => a.1 ≠ b.1)
  | [] => by simp [runs]
  | c :: s => by
    obtain ⟨h1, h2⟩ := runs_maximal s
    rw [show runs (c :: s) = (match runs s with
        | (d, k) :: rs => if c = d then (d, k + 1) :: rs else (c, 1) :: (d, k) :: rs
        | [] => [(c, 1)]) from rfl]
    cases hr : runs s with
    | nil => simp
    | cons r rs =>
      obtain ⟨d, k⟩ := r
      rw [hr] at h1 h2
      by_cases hcd : c = d
      · simp only [hcd, if_true]
        refine ⟨fun r hr => ?_, ?_⟩
        · rcases List.mem_cons.mp hr with h | h
          · rw [h]; simp
          · exact h1 r (List.mem_cons_of_mem _ h)
        · cases rs with
          | nil => simp
          | cons r2 rs2 =>
            rw [List.chain'_cons] at h2 ⊢
            exact h2
      · simp only [hcd, if_false]
        refine ⟨fun r hr => ?_, ?_⟩
        · rcases List.mem_cons.mp hr with h | h
          · rw [h]
          · exact h1 r h
        · rw [List.chain'_cons]
          exact ⟨hcd, h2⟩

/-- C11 (RLE encoding format): on every string `s` of ASCII bytes
`RunLengthEncode` returns the concatenation, over the maximal runs of equal
bytes of `s` in order, of the decimal representation of the run length when it
is at least two and of the byte of the run, followed by the trailer `"%#%"`. -/
theorem rle_encoding_format (s : List Nat) (h : ∀ x ∈ s, x < 128) :
    RunLengthEncode s =
      some ((runs s).flatMap (fun r => (if 2 ≤ r.2 then decimal r.2 else []) ++ [r.1]) ++
        [37, 35, 37]) :=
  RunLengthEncode_format s h

/-- Witness of C11 at `"aaaaaabbb"`, whose encoding is `"6a3b%#%"`. -/
theorem rle_encoding_format_witness :
    RunLengthEncode [97, 97, 97, 97, 97, 97, 98, 98, 98] =
        some ((runs [97, 97, 97, 97, 97, 97, 98, 98, 98]).flatMap
          (fun r => (if 2 ≤ r.2 then decimal r.2 else []) ++ [r.1]) ++ [37, 35, 37]) ∧
      RunLengthEncode [97, 97, 97, 97, 97, 97, 98, 98, 98] = some [54, 97, 51, 98, 37, 35, 37] :=
  ⟨rle_encoding_format [97, 97, 97, 97, 97, 97, 98, 98, 98] (by decide), by decide⟩

/-- The bypass of `RunLengthDecode`: a string of three bytes at least that does
not end with the trailer is returned as it is. -/
theorem RunLengthDecode_bypass (nd : Nat → Bool) (s : List Nat) (h3 : 3 ≤ s.length)
    (h : s.drop (s.length - 3) ≠ [37, 35, 37]) : RunLengthDecode nd s = some s := by
  unfold RunLengthDecode
  rw [if_neg (by omega), if_neg (show ¬ s.drop (s.length - 3) = trailer from h)]

/-- C12 at the one-byte string `"a"`: `input[len(input)-3:]` is out of range
and `RunLengthDecode` panics, whatever the digit table. -/
theorem rle_decode_short_input (nd : Nat → Bool) :
    RunLengthDecode nd [97] = none ∧ RunLengthDecode nd [] = none ∧
      RunLengthDecode nd [97, 98] = none := by
  simp [RunLengthDecode]

/-- The string that `RunLengthEncode` returns is at most three bytes longer than
the input. -/
theorem rle_encodeLoop_length : ∀ (fuel : Nat) (input result orig e : List Nat),
    result.length ≤ orig.length → encodeLoop fuel input result orig = some e →
    e.length ≤ orig.length + 3
  | 0, _, _, _, _, _, h => by simp [encodeLoop] at h
  | fuel + 1, [], result, orig, e, hr, h => by
    simp only [encodeLoop, Option.some.injEq] at h
    subst h
    simp only [List.length_append, trailer, List.length_cons, List.length_nil]
    omega
  | fuel + 1, c :: rest, result, orig, e, hr, h => by
    unfold encodeLoop at h
    simp only at h
    generalize result ++ (if (c :: rest).length - (trimLeft (c :: rest) c).length > 1
      then itoa ((c :: rest).length - (trimLeft (c :: rest) c).length) else []) ++
      byteToString c = result2 at h
    by_cases hlong : result2.length > orig.length
    · rw [if_pos hlong] at h
      simp only [Option.some.injEq] at h
      subst h
      omega
    · rw [if_neg hlong] at h
      exact rle_encodeLoop_length fuel _ result2 orig e (by omega) h

/-- C26 (RLE round trip on digit-free ASCII): for every string `s`, the empty
one included, of bytes below `0x80` none of which is a decimal digit (of a
length that fits Go's `int`, as the length of every string does),
`RunLengthEncode(s)` ends with the trailer `"%#%"` and `RunLengthDecode` returns
`s` on it without failing. -/
theorem rle_round_trip_digit_free (nd : Nat → Bool) (s : List Nat)
    (hplain : ∀ x ∈ s, x < 128 ∧ ¬ (48 ≤ x ∧ x ≤ 57)) (hlen : s.length < 2 ^ 63) :
    ∃ e body, RunLengthEncode s = some e ∧ e = body ++ [37, 35, 37] ∧
      RunLengthDecode nd e = some s := by
  obtain ⟨e, he, hd⟩ := RunLengthDecode_RunLengthEncode nd s hplain hlen
  have hf := RunLengthEncode_format s (fun x hx => (hplain x hx).1)
  rw [he] at hf
  injection hf with hf
  exact ⟨e, _, he, hf, hd⟩

/-- Witness of C26 at the strings `"aab"` and `""`. -/
theorem rle_round_trip_digit_free_witness :
    (∃ e body, RunLengthEncode [97, 97, 98] = some e ∧ e = body ++ [37, 35, 37] ∧
      RunLengthDecode (fun _ => false) e = some [97, 97, 98]) ∧
    (∃ e body, RunLengthEncode [] = some e ∧ e = body ++ [37, 35, 37] ∧
      RunLengthDecode (fun _ => false) e = some []) :=
  ⟨rle_round_trip_digit_free (fun _ => false) [97, 97, 98] (by decide) (by simp),
    rle_round_trip_digit_free (fun _ => false) [] (by decide) (by simp)⟩

end Rle

/-! ## Facts about `bitio` -/

namespace Bitio

@[simp] theorem bitsMSB_length : ∀ (n r : Nat), (bitsMSB n r).length = n
  | 0, _ => rfl
  | n + 1, r => by simp [bitsMSB, bitsMSB_length n r]

/-- The high bits of a group come first. -/
theorem bitsMSB_add (r : Nat) : ∀ (a b : Nat),
    bitsMSB (a + b) r = bitsMSB a (r / 2 ^ b) ++ bitsMSB b r
  | 0, b => by simp [bitsMSB]
  | a + 1, b => by
    have h : a + 1 + b = (a + b) + 1 := by omega
    rw [h, bitsMSB, bitsMSB, bitsMSB_add r a b, Nat.div_div_eq_div_mul, ← pow_add,
      Nat.add_comm b a]
    rfl

theorem bitsMSB_mod (r : Nat) : ∀ (n m : Nat), n ≤ m → bitsMSB n (r % 2 ^ m) = bitsMSB n r
  | 0, _, _ => rfl
  | n + 1, m, h => by
    rw [bitsMSB, bitsMSB, bitsMSB_mod r n m (by omega)]
    congr 2
    have hm : m = (m - n) + n := by omega
    have h2 : r % 2 ^ m / 2 ^ n = (r / 2 ^ n) % 2 ^ (m - n) := by
      conv_lhs => rw [hm, pow_add, Nat.mul_comm]
      rw [Nat.mod_mul_right_div_self]
    rw [h2]
    have h3 : (2 : Nat) ∣ 2 ^ (m - n) := dvd_pow_self 2 (by omega)
    rw [Nat.mod_mod_of_dvd _ h3]

theorem bitsMSB_mul_add (a b x y : Nat) (hy : y < 2 ^ b) :
    bitsMSB (a + b) (x * 2 ^ b + y) = bitsMSB a x ++ bitsMSB b y := by
  rw [bitsMSB_add]
  have h1 : (x * 2 ^ b + y) / 2 ^ b = x := by
    rw [Nat.add_comm, Nat.add_mul_div_right _ _ (by positivity), Nat.div_eq_of_lt hy]
    simp
  have h2 : bitsMSB b (x * 2 ^ b + y) = bitsMSB b y := by
    rw [← bitsMSB_mod (x * 2 ^ b + y) b b (le_refl _), Nat.add_comm, Nat.add_mul_mod_self_right,
      bitsMSB_mod y b b (le_refl _)]
  rw [h1, h2]

theorem bitsMSB_zero : ∀ n, bitsMSB n 0 = List.replicate n false
  | 0 => rfl
  | n + 1 => by simp [bitsMSB, bitsMSB_zero n, List.replicate_succ]

theorem bitsVal_foldl (bs : List Bool) : ∀ (a : Nat),
    bs.foldl (fun a b => 2 * a + (if b then 1 else 0)) a = a * 2 ^ bs.length + bitsVal bs := by
  induction bs with
  | nil => intro a; simp [bitsVal]
  | cons b bs ih =>
    intro a
    simp only [List.foldl_cons, bitsVal, List.length_cons]
    rw [ih, ih (2 * 0 + _)]
    ring

theorem bitsVal_append (xs ys : List Bool) :
    bitsVal (xs ++ ys) = bitsVal xs * 2 ^ ys.length + bitsVal ys := by
  unfold bitsVal
  rw [List.foldl_append, bitsVal_foldl ys]
  rfl

theorem bitsVal_cons (b : Bool) (bs : List Bool) :
    bitsVal (b :: bs) = (if b then 1 else 0) * 2 ^ bs.length + bitsVal bs := by
  have := bitsVal_append [b] bs
  simpa [bitsVal] using this

theorem bitsVal_lt : ∀ bs : List Bool, bitsVal bs < 2 ^ bs.length
  | [] => by simp [bitsVal]
  | b :: bs => by
    rw [bitsVal_cons, List.length_cons, pow_succ]
    have := bitsVal_lt bs
    split <;> omega

theorem bitsVal_bitsMSB : ∀ (n r : Nat), bitsVal (bitsMSB n r) = r % 2 ^ n
  | 0, r => by simp [bitsMSB, bitsVal, Nat.mod_one]
  | n + 1, r => by
    rw [bitsMSB, bitsVal_cons, bitsVal_bitsMSB n r, bitsMSB_length]
    have h := Nat.mod_pow_succ (x := r) (b := 2) (k := n)
    rw [h]
    by_cases hb : r / 2 ^ n % 2 = 1
    · simp [hb]; ring
    · have : r / 2 ^ n % 2 = 0 := by omega
      simp [this]

theorem bitsMSB_bitsVal : ∀ bs : List Bool, bitsMSB bs.length (bitsVal bs) = bs
  | [] => rfl
  | b :: bs => by
    rw [List.length_cons, bitsMSB, bitsVal_cons]
    have hlt := bitsVal_lt bs
    have ih := bitsMSB_bitsVal bs
    congr 1
    · cases b
      · simp [Nat.div_eq_of_lt hlt]
      · have : (1 * 2 ^ bs.length + bitsVal bs) / 2 ^ bs.length = 1 := by
          rw [Nat.add_comm, Nat.add_mul_div_right _ _ (by positivity), Nat.div_eq_of_lt hlt]
        simp only [if_true, this]
        decide
    · rw [← bitsMSB_mod _ bs.length bs.length (le_refl _), Nat.add_comm,
        Nat.add_mul_mod_self_right, bitsMSB_mod _ bs.length bs.length (le_refl _), ih]

@[simp] theorem bitsOfBytes_nil : bitsOfBytes [] = [] := rfl

theorem bitsOfBytes_cons (b : Nat) (bs : List Nat) :
    bitsOfBytes (b :: bs) = bitsMSB 8 b ++ bitsOfBytes bs := by
  simp [bitsOfBytes]

theorem bitsOfBytes_append (xs ys : List Nat) :
    bitsOfBytes (xs ++ ys) = bitsOfBytes xs ++ bitsOfBytes ys := by
  simp [bitsOfBytes]

theorem bitsOfBytes_length : ∀ bs : List Nat, (bitsOfBytes bs).length = 8 * bs.length
  | [] => rfl
  | b :: bs => by
    rw [bitsOfBytes_cons, List.length_append, bitsOfBytes_length bs, bitsMSB_length,
      List.length_cons]
    omega

/-- Bitwise or of a left-aligned group and a value below it is their sum. -/
theorem lor_aligned (c k x : Nat) (hx : x < 2 ^ k) : c * 2 ^ k ||| x = c * 2 ^ k + x := by
  rw [Nat.mul_comm, Nat.mul_add_lt_is_or hx]

theorem two_pow_mul_eq_256 (a b : Nat) (h : a + b = 8) : (2 : Nat) ^ a * 2 ^ b = 256 := by
  rw [← pow_add, h]; norm_num

theorem bitsMSB_aligned (k c : Nat) (hk : k ≤ 8) :
    bitsMSB 8 (c * 2 ^ (8 - k)) = bitsMSB k c ++ List.replicate (8 - k) false := by
  have h := bitsMSB_mul_add k (8 - k) c 0 (by positivity)
  have e : k + (8 - k) = 8 := by omega
  rw [bitsMSB_zero, e] at h
  simpa using h

theorem bitsMSB_byte (x : Nat) : bitsMSB 8 (x % 256) = bitsMSB 8 x :=
  bitsMSB_mod x 8 8 (le_refl _)

theorem writeWholeBytes_spec (r : Nat) : ∀ (fuel n : Nat) (out : List Nat), n ≤ fuel →
    ∃ bs, writeWholeBytes r fuel n out = (out ++ bs, n % 8) ∧
      bitsOfBytes bs = bitsMSB (n - n % 8) (r / 2 ^ (n % 8)) ∧ ∀ x ∈ bs, x < 256
  | 0, n, out, h => by
    have : n = 0 := by omega
    subst this
    exact ⟨[], by simp [writeWholeBytes], by simp [bitsMSB], by simp⟩
  | fuel + 1, n, out, h => by
    by_cases h8 : n ≥ 8
    · obtain ⟨bs, hw, hb, hlt⟩ := writeWholeBytes_spec r fuel (n - 8)
        (out ++ [r / 2 ^ (n - 8) % 256]) (by omega)
      refine ⟨r / 2 ^ (n - 8) % 256 :: bs, ?_, ?_, ?_⟩
      · have hm : (n - 8) % 8 = n % 8 := by omega
        simp only [writeWholeBytes, h8, if_true, hw, hm]
        simp
      · have hm : (n - 8) % 8 = n % 8 := by omega
        rw [bitsOfBytes_cons, hb, hm, bitsMSB_byte]
        have hsplit : n - n % 8 = 8 + (n - 8 - n % 8) := by omega
        rw [hsplit, bitsMSB_add, Nat.div_div_eq_div_mul, ← pow_add]
        have he : n % 8 + (n - 8 - n % 8) = n - 8 := by omega
        rw [he]
      · intro x hx
        rcases List.mem_cons.mp hx with hx | hx
        · rw [hx]; exact Nat.mod_lt _ (by norm_num)
        · exact hlt x hx
    · have hm : n % 8 = n := by omega
      refine ⟨[], ?_, ?_, by simp⟩
      · simp [writeWholeBytes, h8, hm]
      · simp [hm, bitsMSB]

/-- `WriteBitsUnsafe(r, n)` appends the `n` bits of `r < 2^n`, also for an `n`
above 64 as long as the count of the bits stays a byte. -/
theorem Writer.WriteBitsUnsafe_rep (w : Writer) (s : List Bool) (r n : Nat) (hw : w.Rep s)
    (hn : n ≤ 248) (hr : r < 2 ^ n) : (w.WriteBitsUnsafe r n).Rep (s ++ bitsMSB n r) := by
  obtain ⟨hk, hout, c, hc, hcache, hs⟩ := hw
  have hnb : (w.bits + n) % 256 = w.bits + n := Nat.mod_eq_of_lt (by omega)
  unfold Writer.WriteBitsUnsafe
  simp only [hnb]
  by_cases h1 : w.bits + n < 8
  · -- the bits fit the cache
    rw [if_pos h1]
    have hr256 : r % 256 = r := Nat.mod_eq_of_lt (by
      have : (2 : Nat) ^ n ≤ 2 ^ 8 := Nat.pow_le_pow_right (by norm_num) (by omega)
      omega)
    have hsplit : 8 - w.bits = n + (8 - (w.bits + n)) := by omega
    have hx : r * 2 ^ (8 - (w.bits + n)) < 2 ^ (8 - w.bits) := by
      rw [hsplit, pow_add]
      exact Nat.mul_lt_mul_of_pos_right hr (by positivity)
    have hx256 : r * 2 ^ (8 - (w.bits + n)) % 256 = r * 2 ^ (8 - (w.bits + n)) :=
      Nat.mod_eq_of_lt (by
        have : (2 : Nat) ^ (8 - w.bits) ≤ 2 ^ 8 := Nat.pow_le_pow_right (by norm_num) (by omega)
        omega)
    refine ⟨h1, hout, c * 2 ^ n + r, ?_, ?_, ?_⟩
    · show c * 2 ^ n + r < 2 ^ (w.bits + n)
      rw [pow_add]
      have : (c + 1) * 2 ^ n ≤ 2 ^ w.bits * 2 ^ n := Nat.mul_le_mul_right _ (by omega)
      rw [Nat.add_mul] at this
      omega
    · show w.cache ||| (r % 256 * 2 ^ (8 - (w.bits + n)) % 256) =
        (c * 2 ^ n + r) * 2 ^ (8 - (w.bits + n))
      rw [hr256, hx256, hcache, lor_aligned _ _ _ hx, hsplit, pow_add]
      have : n + (8 - (w.bits + n)) - n = 8 - (w.bits + n) := by omega
      ring_nf
    · show s ++ bitsMSB n r = bitsOfBytes w.out ++ bitsMSB (w.bits + n) (c * 2 ^ n + r)
      rw [bitsMSB_mul_add _ _ _ _ hr, hs, List.append_assoc]
  · rw [if_neg h1]
    by_cases h2 : w.bits + n > 8
    · -- the cache is filled and more bits follow
      rw [if_pos h2]
      set free := 8 - w.bits with hfree
      set n1 := n - free with hn1
      have hnsplit : n = free + n1 := by omega
      obtain ⟨bs, hloop, hbits, hbs⟩ := writeWholeBytes_spec r n1 n1
        (w.out ++ [w.cache ||| (r / 2 ^ n1 % 256)]) (le_refl _)
      have hhi : r / 2 ^ n1 < 2 ^ free := by
        rw [Nat.div_lt_iff_lt_mul (by positivity), ← pow_add, ← hnsplit]
        exact hr
      have hhi256 : r / 2 ^ n1 % 256 = r / 2 ^ n1 := Nat.mod_eq_of_lt (by
        have : (2 : Nat) ^ free ≤ 2 ^ 8 := Nat.pow_le_pow_right (by norm_num) (by omega)
        omega)
      have hbyte1 : w.cache ||| (r / 2 ^ n1 % 256) = c * 2 ^ free + r / 2 ^ n1 := by
        rw [hhi256, hcache, lor_aligned _ _ _ hhi]
      have hbyte1lt : c * 2 ^ free + r / 2 ^ n1 < 256 := by
        have h8 : (2 : Nat) ^ w.bits * 2 ^ free = 256 :=
          two_pow_mul_eq_256 _ _ (by omega)
        have : (c + 1) * 2 ^ free ≤ 2 ^ w.bits * 2 ^ free := Nat.mul_le_mul_right _ (by omega)
        rw [Nat.add_mul] at this
        omega
      have hbits1 : bitsMSB 8 (c * 2 ^ free + r / 2 ^ n1) =
          bitsMSB w.bits c ++ bitsMSB free (r / 2 ^ n1) := by
        have : 8 = w.bits + free := by omega
        rw [this, bitsMSB_mul_add _ _ _ _ hhi]
      have hout2 : ∀ x ∈ w.out ++ [w.cache ||| (r / 2 ^ n1 % 256)] ++ bs, x < 256 := by
        intro x hx
        simp only [List.mem_append, List.mem_singleton] at hx
        rcases hx with (hx | hx) | hx
        · exact hout x hx
        · rw [hx, hbyte1]; exact hbyte1lt
        · exact hbs x hx
      have hstream : s ++ bitsMSB n r =
          bitsOfBytes (w.out ++ [w.cache ||| (r / 2 ^ n1 % 256)] ++ bs) ++
            bitsMSB (n1 % 8) r := by
        rw [bitsOfBytes_append, bitsOfBytes_append, hbits, hbyte1, bitsOfBytes_cons, hbits1, hs]
        have e1 : bitsMSB n r = bitsMSB free (r / 2 ^ n1) ++ bitsMSB n1 r := by
          conv_lhs => rw [hnsplit]
          exact bitsMSB_add r free n1
        have e2 : bitsMSB n1 r = bitsMSB (n1 - n1 % 8) (r / 2 ^ (n1 % 8)) ++ bitsMSB (n1 % 8) r := by
          have : n1 = (n1 - n1 % 8) + n1 % 8 := by omega
          conv_lhs => rw [this]
          exact bitsMSB_add r _ _
        rw [e1, e2]
        simp
      simp only [hloop]
      by_cases h3 : n1 % 8 > 0
      · rw [if_pos h3]
        have hm8 : n1 % 8 < 8 := Nat.mod_lt _ (by norm_num)
        have hmask : (r % 256) &&& (2 ^ (n1 % 8) - 1) = r % 2 ^ (n1 % 8) := by
          rw [Nat.and_pow_two_sub_one_eq_mod]
          have : (2 : Nat) ^ (n1 % 8) ∣ 256 := by
            have : (256 : Nat) = 2 ^ 8 := by norm_num
            rw [this]
            exact Nat.pow_dvd_pow 2 (by omega)
          exact Nat.mod_mod_of_dvd r this
        have hlt : r % 2 ^ (n1 % 8) < 2 ^ (n1 % 8) := Nat.mod_lt _ (by positivity)
        have hc256 : r % 2 ^ (n1 % 8) * 2 ^ (8 - n1 % 8) < 256 := by
          have h8 : (2 : Nat) ^ (n1 % 8) * 2 ^ (8 - n1 % 8) = 256 :=
          two_pow_mul_eq_256 _ _ (by omega)
          calc r % 2 ^ (n1 % 8) * 2 ^ (8 - n1 % 8)
              < 2 ^ (n1 % 8) * 2 ^ (8 - n1 % 8) :=
                Nat.mul_lt_mul_of_pos_right hlt (by positivity)
            _ = 256 := h8
        refine ⟨hm8, hout2, r % 2 ^ (n1 % 8), hlt, ?_, ?_⟩
        · show (r % 256 &&& 2 ^ (n1 % 8) - 1) * 2 ^ (8 - n1 % 8) % 256 = _
          rw [hmask, Nat.mod_eq_of_lt hc256]
        · show s ++ bitsMSB n r = _ ++ bitsMSB (n1 % 8) (r % 2 ^ (n1 % 8))
          rw [bitsMSB_mod _ _ _ (le_refl _)]
          exact hstream
      · rw [if_neg h3]
        have hz : n1 % 8 = 0 := by omega
        refine ⟨by norm_num, hout2, 0, by norm_num, by simp, ?_⟩
        show s ++ bitsMSB n r = _ ++ bitsMSB 0 0
        rw [hstream, hz]
        simp [bitsMSB]
    · -- the bits fill the cache exactly
      rw [if_neg h2]
      have hn8 : n = 8 - w.bits := by omega
      have hr256 : r % 256 = r := Nat.mod_eq_of_lt (by
        have : (2 : Nat) ^ n ≤ 2 ^ 8 := Nat.pow_le_pow_right (by norm_num) (by omega)
        omega)
      have hbyte : w.cache ||| (r % 256) = c * 2 ^ n + r := by
        rw [hr256, hcache, ← hn8, lor_aligned _ _ _ hr]
      have hbytelt : c * 2 ^ n + r < 256 := by
        have h8 : (2 : Nat) ^ w.bits * 2 ^ n = 256 :=
          two_pow_mul_eq_256 _ _ (by omega)
        have : (c + 1) * 2 ^ n ≤ 2 ^ w.bits * 2 ^ n := Nat.mul_le_mul_right _ (by omega)
        rw [Nat.add_mul] at this
        omega
      refine ⟨by norm_num, ?_, 0, by norm_num, by simp, ?_⟩
      · intro x hx
        simp only [List.mem_append, List.mem_singleton] at hx
        rcases hx with hx | hx
        · exact hout x hx
        · rw [hx, hbyte]; exact hbytelt
      · show s ++ bitsMSB n r = bitsOfBytes (w.out ++ [w.cache ||| (r % 256)]) ++ bitsMSB 0 0
        rw [bitsOfBytes_append, hbyte, bitsOfBytes_cons, hs]
        have : 8 = w.bits + n := by omega
        rw [this, bitsMSB_mul_add _ _ _ _ hr]
        simp [bitsMSB]

theorem wrapMask (n : Nat) (hn : n ≤ 64) : (2 ^ n % 2 ^ 64 + 2 ^ 64 - 1) % 2 ^ 64 = 2 ^ n - 1 := by
  rcases Nat.lt_or_ge n 64 with h | h
  · have hlt : (2 : Nat) ^ n < 2 ^ 64 := Nat.pow_lt_pow_right (by norm_num) h
    have hpos : 0 < (2 : Nat) ^ n := by positivity
    rw [Nat.mod_eq_of_lt hlt]
    have : 2 ^ n + 2 ^ 64 - 1 = (2 ^ n - 1) + 2 ^ 64 := by omega
    rw [this, Nat.add_mod_right, Nat.mod_eq_of_lt (by omega)]
  · have : n = 64 := by omega
    subst this
    norm_num

/-- `WriteBits(r, n)` appends the `n` low bits of the `uint64` value `r`. -/
theorem Writer.WriteBits_rep (w : Writer) (s : List Bool) (r n : Nat) (hw : w.Rep s)
    (hn : n ≤ 64) : (w.WriteBits r n).Rep (s ++ bitsMSB n r) := by
  unfold Writer.WriteBits
  rw [wrapMask n hn, Nat.and_pow_two_sub_one_eq_mod, ← bitsMSB_mod r n n (le_refl _)]
  exact Writer.WriteBitsUnsafe_rep w s (r % 2 ^ n) n hw (by omega) (Nat.mod_lt _ (by positivity))

theorem NewWriter_rep : NewWriter.Rep [] :=
  ⟨by simp [NewWriter], by simp [NewWriter], 0, by simp [NewWriter], by simp [NewWriter],
    by simp [NewWriter, bitsMSB]⟩

theorem writeAll_rep : ∀ (ops : List (Nat × Nat)) (w : Writer) (s : List Bool), w.Rep s →
    (∀ op ∈ ops, op.2 ≤ 64) →
    (writeAll w ops).Rep (s ++ ops.flatMap (fun op => bitsMSB op.2 op.1))
  | [], w, s, hw, _ => by simpa [writeAll] using hw
  | op :: ops, w, s, hw, h => by
    have h1 := Writer.WriteBits_rep w s op.1 op.2 hw (h op (by simp))
    have h2 := writeAll_rep ops _ _ h1 (fun o ho => h o (by simp [ho]))
    simpa [writeAll, List.flatMap_cons, List.append_assoc] using h2

/-- `Close` writes the pending bits, followed by zero bits up to the end of
their byte, and leaves the writer aligned. -/
theorem Writer.Close_rep (w : Writer) (s : List Bool) (hw : w.Rep s) :
    bitsOfBytes w.Close.out = s ++ List.replicate (8 * w.Close.out.length - s.length) false ∧
    w.Close.out.length = (s.length + 7) / 8 ∧ (∀ x ∈ w.Close.out, x < 256) ∧
    8 * w.Close.out.length - s.length < 8 := by
  obtain ⟨hk, hout, c, hc, hcache, hs⟩ := hw
  have hslen : s.length = 8 * w.out.length + w.bits := by
    rw [hs, List.length_append, bitsOfBytes_length, bitsMSB_length]
  unfold Writer.Close Writer.Align
  by_cases hb : w.bits > 0
  · simp only [hb, if_true]
    have hlen : (w.out ++ [w.cache]).length = w.out.length + 1 := by simp
    have hclt : w.cache < 256 := by
      rw [hcache, ← two_pow_mul_eq_256 w.bits (8 - w.bits) (by omega)]
      exact Nat.mul_lt_mul_of_pos_right hc (by positivity)
    refine ⟨?_, by rw [hlen, hslen]; omega, ?_, by rw [hlen, hslen]; omega⟩
    · rw [bitsOfBytes_append, bitsOfBytes_cons, hlen, hcache]
      rw [bitsMSB_aligned w.bits c (by omega)]
      have hp : 8 * (w.out.length + 1) - s.length = 8 - w.bits := by rw [hslen]; omega
      rw [hp, hs]
      simp
    · intro x hx
      simp only [List.mem_append, List.mem_singleton] at hx
      rcases hx with hx | hx
      · exact hout x hx
      · rw [hx]; exact hclt
  · have hb0 : w.bits = 0 := by omega
    simp only [hb, if_false]
    refine ⟨?_, by rw [hslen]; omega, hout, by rw [hslen]; omega⟩
    have hp : 8 * w.out.length - s.length = 0 := by rw [hslen]; omega
    rw [hp, hs, hb0]
    simp [bitsMSB]

theorem NewReader_rep (inp : List Nat) (h : ∀ x ∈ inp, x < 256) :
    (NewReader inp).Rep (bitsOfBytes inp) :=
  ⟨by simp [NewReader], h, by simp [NewReader], by simp [NewReader, bitsMSB]⟩

theorem readWholeBytes_spec : ∀ (fuel n u : Nat) (inp : List Nat) (t : List Bool), n ≤ fuel →
    (∀ x ∈ inp, x < 256) → u = bitsVal t → t.length + n ≤ 64 → n ≤ 8 * inp.length →
    ∃ bs inp2, inp = bs ++ inp2 ∧ 8 * bs.length = n - n % 8 ∧
      readWholeBytes fuel n u inp = some (bitsVal (t ++ bitsOfBytes bs), n % 8, inp2)
  | 0, n, u, inp, t, h, _, hu, _, _ => by
    have : n = 0 := by omega
    subst this
    exact ⟨[], inp, by simp, by simp, by simp [readWholeBytes, hu]⟩
  | fuel + 1, n, u, inp, t, h, hlt256, hu, h64, hin => by
    by_cases h8 : n ≥ 8
    · match inp, hin, hlt256 with
      | [], hin, _ => simp at hin; omega
      | b :: inp2, hin, hlt256 =>
        have hb : b < 256 := hlt256 b (by simp)
        have hval : bitsVal (t ++ bitsMSB 8 b) = u * 256 + b := by
          rw [bitsVal_append, bitsVal_bitsMSB, bitsMSB_length, ← hu]
          have : b % 2 ^ 8 = b := Nat.mod_eq_of_lt (by norm_num; exact hb)
          rw [this]; norm_num
        have hlt : bitsVal (t ++ bitsMSB 8 b) < 2 ^ 64 := by
          have h1 := bitsVal_lt (t ++ bitsMSB 8 b)
          have h2 : (2 : Nat) ^ (t ++ bitsMSB 8 b).length ≤ 2 ^ 64 :=
            Nat.pow_le_pow_right (by norm_num) (by simp; omega)
          omega
        have hstep : (u * 256 % 2 ^ 64 + b) % 2 ^ 64 = bitsVal (t ++ bitsMSB 8 b) := by
          rw [hval] at hlt ⊢
          rw [Nat.mod_eq_of_lt (show u * 256 < 2 ^ 64 by omega), Nat.mod_eq_of_lt hlt]
        obtain ⟨bs2, inp3, hsplit, hlen, hread⟩ := readWholeBytes_spec fuel (n - 8)
          ((u * 256 % 2 ^ 64 + b) % 2 ^ 64) inp2 (t ++ bitsMSB 8 b) (by omega)
          (fun x hx => hlt256 x (by simp [hx])) hstep (by simp; omega)
          (by simp only [List.length_cons] at hin; omega)
        have hm : (n - 8) % 8 = n % 8 := by omega
        refine ⟨b :: bs2, inp3, by simp [hsplit], by simp only [List.length_cons]; omega, ?_⟩
        simp only [readWholeBytes, h8, if_true, hread, hm, bitsOfBytes_cons, List.append_assoc]
    · have hm : n % 8 = n := by omega
      exact ⟨[], inp, by simp, by simp [hm], by simp [readWholeBytes, h8, hm, hu]⟩

/-- `ReadBits(n)` returns the next `n` bits as a number and leaves the rest. -/
theorem Reader.ReadBits_rep (r : Reader) (s : List Bool) (n : Nat) (hr : r.Rep s)
    (h1 : 1 ≤ n) (h64 : n ≤ 64) (hlen : n ≤ s.length) :
    ∃ r2, r.ReadBits n = some (bitsVal (s.take n), r2) ∧ r2.Rep (s.drop n) := by
  obtain ⟨hk, hin, hcache, hs⟩ := hr
  unfold Reader.ReadBits
  by_cases hlt : n < r.bits
  · -- the cache has the bits and more
    rw [if_pos hlt]
    have hc := hcache (by omega)
    have hsplit : r.bits = n + (r.bits - n) := by omega
    have hbits : bitsMSB r.bits r.cache =
        bitsMSB n (r.cache / 2 ^ (r.bits - n)) ++ bitsMSB (r.bits - n) r.cache := by
      conv_lhs => rw [hsplit]
      exact bitsMSB_add _ _ _
    have htake : s.take n = bitsMSB n (r.cache / 2 ^ (r.bits - n)) := by
      rw [hs, hbits, List.append_assoc, List.take_left' (bitsMSB_length _ _)]
    have hdrop : s.drop n = bitsMSB (r.bits - n) r.cache ++ bitsOfBytes r.inp := by
      rw [hs, hbits, List.append_assoc, List.drop_left' (bitsMSB_length _ _)]
    have hdiv : r.cache / 2 ^ (r.bits - n) < 2 ^ n := by
      rw [Nat.div_lt_iff_lt_mul (by positivity), ← pow_add, ← hsplit]; exact hc
    have hv : r.cache / 2 ^ (r.bits - n) = bitsVal (s.take n) := by
      rw [htake, bitsVal_bitsMSB, Nat.mod_eq_of_lt hdiv]
    rw [hv]
    refine ⟨_, rfl, ?_⟩
    · refine ⟨by show r.bits - n < 8; omega, hin, ?_, ?_⟩
      · intro _
        show r.cache &&& 2 ^ (r.bits - n) - 1 < 2 ^ (r.bits - n)
        rw [Nat.and_pow_two_sub_one_eq_mod]
        exact Nat.mod_lt _ (by positivity)
      · show s.drop n = bitsMSB (r.bits - n) (r.cache &&& 2 ^ (r.bits - n) - 1) ++ _
        rw [hdrop, Nat.and_pow_two_sub_one_eq_mod, bitsMSB_mod _ _ _ (le_refl _)]
  · rw [if_neg hlt]
    by_cases hgt : n > r.bits
    · -- more bits are read from the source
      rw [if_pos hgt]
      have hu0 : (if r.bits > 0 then r.cache else 0) = bitsVal (bitsMSB r.bits r.cache) := by
        rw [bitsVal_bitsMSB]
        by_cases hb : r.bits > 0
        · rw [if_pos hb, Nat.mod_eq_of_lt (hcache hb)]
        · have : r.bits = 0 := by omega
          simp [this, Nat.mod_one]
      have hn1 : (if r.bits > 0 then n - r.bits else n) = n - r.bits := by
        by_cases hb : r.bits > 0
        · rw [if_pos hb]
        · have : r.bits = 0 := by omega
          simp [this]
      have hslen : s.length = r.bits + 8 * r.inp.length := by
        rw [hs, List.length_append, bitsMSB_length, bitsOfBytes_length]
      obtain ⟨bs, inp2, hsplit, hbslen, hread⟩ := readWholeBytes_spec (n - r.bits) (n - r.bits)
        (if r.bits > 0 then r.cache else 0) r.inp (bitsMSB r.bits r.cache) (le_refl _) hin hu0
        (by simp; omega) (by omega)
      rw [hn1, hread]
      simp only
      have hin2 : ∀ x ∈ inp2, x < 256 := fun x hx => hin x (by rw [hsplit]; simp [hx])
      have hs2 : s = bitsMSB r.bits r.cache ++ bitsOfBytes bs ++ bitsOfBytes inp2 := by
        rw [hs, hsplit, bitsOfBytes_append, List.append_assoc]
      have hpre : (bitsMSB r.bits r.cache ++ bitsOfBytes bs).length = n - (n - r.bits) % 8 := by
        rw [List.length_append, bitsMSB_length, bitsOfBytes_length, hbslen]; omega
      by_cases hn2 : (n - r.bits) % 8 > 0
      · rw [if_pos hn2]
        set n2 := (n - r.bits) % 8 with hn2def
        have hn28 : n2 < 8 := Nat.mod_lt _ (by norm_num)
        match inp2, hs2, hin2, hsplit with
        | [], hs2, _, hsplit =>
          exfalso
          have : s.length = n - n2 := by
            rw [hs2, List.length_append, hpre]; simp
          omega
        | c :: inp3, hs2, hin2, hsplit =>
          have hc : c < 256 := hin2 c (by simp)
          have hcsplit : bitsMSB 8 c = bitsMSB n2 (c / 2 ^ (8 - n2)) ++ bitsMSB (8 - n2) c := by
            have : 8 = n2 + (8 - n2) := by omega
            conv_lhs => rw [this]
            exact bitsMSB_add _ _ _
          have hs3 : s = (bitsMSB r.bits r.cache ++ bitsOfBytes bs ++
              bitsMSB n2 (c / 2 ^ (8 - n2))) ++ (bitsMSB (8 - n2) c ++ bitsOfBytes inp3) := by
            rw [hs2, bitsOfBytes_cons, hcsplit]; simp
          have hpre3 : (bitsMSB r.bits r.cache ++ bitsOfBytes bs ++
              bitsMSB n2 (c / 2 ^ (8 - n2))).length = n := by
            rw [List.length_append, hpre, bitsMSB_length]; omega
          have htake : s.take n = bitsMSB r.bits r.cache ++ bitsOfBytes bs ++
              bitsMSB n2 (c / 2 ^ (8 - n2)) := by
            rw [hs3, List.take_left' hpre3]
          have hdrop : s.drop n = bitsMSB (8 - n2) c ++ bitsOfBytes inp3 := by
            rw [hs3, List.drop_left' hpre3]
          have hdiv : c / 2 ^ (8 - n2) < 2 ^ n2 := by
            rw [Nat.div_lt_iff_lt_mul (by positivity), two_pow_mul_eq_256 _ _ (by omega)]
            exact hc
          have hval : bitsVal (s.take n) =
              bitsVal (bitsMSB r.bits r.cache ++ bitsOfBytes bs) * 2 ^ n2 + c / 2 ^ (8 - n2) := by
            rw [htake, bitsVal_append, bitsVal_bitsMSB, bitsMSB_length, Nat.mod_eq_of_lt hdiv]
          have hvlt : bitsVal (s.take n) < 2 ^ 64 := by
            have h1 := bitsVal_lt (s.take n)
            have h2 : (2 : Nat) ^ (s.take n).length ≤ 2 ^ 64 :=
              Nat.pow_le_pow_right (by norm_num) (by rw [List.length_take]; omega)
            omega
          have hv : (bitsVal (bitsMSB r.bits r.cache ++ bitsOfBytes bs) * 2 ^ n2 % 2 ^ 64 +
              c / 2 ^ (8 - n2)) % 2 ^ 64 = bitsVal (s.take n) := by
            have hA : bitsVal (bitsMSB r.bits r.cache ++ bitsOfBytes bs) * 2 ^ n2 < 2 ^ 64 := by
              have h := hvlt
              rw [hval] at h
              exact lt_of_le_of_lt (Nat.le_add_right _ _) h
            rw [hval] at hvlt ⊢
            rw [Nat.mod_eq_of_lt hA, Nat.mod_eq_of_lt hvlt]
          dsimp only
          rw [hv]
          refine ⟨_, rfl, ?_⟩
          · refine ⟨by show 8 - n2 < 8; omega, fun x hx => hin2 x (by simp [hx]), ?_, ?_⟩
            · intro _
              show c &&& 2 ^ (8 - n2) - 1 < 2 ^ (8 - n2)
              rw [Nat.and_pow_two_sub_one_eq_mod]
              exact Nat.mod_lt _ (by positivity)
            · show s.drop n = bitsMSB (8 - n2) (c &&& 2 ^ (8 - n2) - 1) ++ _
              rw [hdrop, Nat.and_pow_two_sub_one_eq_mod, bitsMSB_mod _ _ _ (le_refl _)]
      · rw [if_neg hn2]
        have hz : (n - r.bits) % 8 = 0 := by omega
        have hpre0 : (bitsMSB r.bits r.cache ++ bitsOfBytes bs).length = n := by
          rw [hpre, hz]; omega
        have hv : bitsVal (bitsMSB r.bits r.cache ++ bitsOfBytes bs) = bitsVal (s.take n) := by
          rw [hs2, List.take_left' hpre0]
        rw [hv]
        refine ⟨_, rfl, ?_⟩
        · refine ⟨by show 0 < 8; norm_num, hin2, by intro h; exact absurd h (by simp), ?_⟩
          show s.drop n = bitsMSB 0 r.cache ++ bitsOfBytes inp2
          rw [hs2, List.drop_left' hpre0]
          simp [bitsMSB]
    · -- the cache has exactly the bits
      rw [if_neg hgt]
      have hnk : n = r.bits := by omega
      have hc := hcache (by omega)
      have hv : r.cache = bitsVal (s.take n) := by
        rw [hs, hnk, List.take_left' (bitsMSB_length _ _), bitsVal_bitsMSB, Nat.mod_eq_of_lt hc]
      refine ⟨{ r with bits := 0 }, by rw [← hv], ?_⟩
      · refine ⟨by show 0 < 8; norm_num, hin, by intro h; exact absurd h (by simp), ?_⟩
        show s.drop n = bitsMSB 0 r.cache ++ bitsOfBytes r.inp
        rw [hs, hnk, List.drop_left' (bitsMSB_length _ _)]
        simp [bitsMSB]

/-- `WriteByte(b)` appends the eight bits of the byte `b`. -/
theorem Writer.WriteByte_rep (w : Writer) (s : List Bool) (b : Nat) (hw : w.Rep s)
    (hb : b < 256) : (w.WriteByte b).Rep (s ++ bitsMSB 8 b) := by
  obtain ⟨hk, hout, c, hc, hcache, hs⟩ := hw
  unfold Writer.WriteByte
  by_cases h0 : w.bits = 0
  · rw [if_pos h0]
    refine ⟨hk, ?_, c, hc, hcache, ?_⟩
    · intro x hx
      simp only [List.mem_append, List.mem_singleton] at hx
      rcases hx with hx | hx
      · exact hout x hx
      · rw [hx]; exact hb
    · show s ++ bitsMSB 8 b = bitsOfBytes (w.out ++ [b]) ++ bitsMSB w.bits c
      rw [bitsOfBytes_append, bitsOfBytes_cons, hs, h0]
      simp [bitsMSB]
  · rw [if_neg h0]
    unfold Writer.writeUnalignedByte
    have hhi : b / 2 ^ w.bits < 2 ^ (8 - w.bits) := by
      rw [Nat.div_lt_iff_lt_mul (by positivity), two_pow_mul_eq_256 _ _ (by omega)]
      exact hb
    have hbyte : w.cache ||| b / 2 ^ w.bits = c * 2 ^ (8 - w.bits) + b / 2 ^ w.bits := by
      rw [hcache, lor_aligned _ _ _ hhi]
    have hbytelt : c * 2 ^ (8 - w.bits) + b / 2 ^ w.bits < 256 := by
      have h8 : (2 : Nat) ^ w.bits * 2 ^ (8 - w.bits) = 256 :=
          two_pow_mul_eq_256 _ _ (by omega)
      have : (c + 1) * 2 ^ (8 - w.bits) ≤ 2 ^ w.bits * 2 ^ (8 - w.bits) :=
        Nat.mul_le_mul_right _ (by omega)
      rw [Nat.add_mul] at this
      omega
    have hlo : b % 2 ^ w.bits < 2 ^ w.bits := Nat.mod_lt _ (by positivity)
    have hlo256 : b % 2 ^ w.bits * 2 ^ (8 - w.bits) < 256 := by
      rw [← two_pow_mul_eq_256 w.bits (8 - w.bits) (by omega)]
      exact Nat.mul_lt_mul_of_pos_right hlo (by positivity)
    refine ⟨hk, ?_, b % 2 ^ w.bits, hlo, ?_, ?_⟩
    · intro x hx
      simp only [List.mem_append, List.mem_singleton] at hx
      rcases hx with hx | hx
      · exact hout x hx
      · rw [hx, hbyte]; exact hbytelt
    · show (b &&& 2 ^ w.bits - 1) * 2 ^ (8 - w.bits) % 256 = _
      rw [Nat.and_pow_two_sub_one_eq_mod, Nat.mod_eq_of_lt hlo256]
    · show s ++ bitsMSB 8 b =
        bitsOfBytes (w.out ++ [w.cache ||| b / 2 ^ w.bits]) ++ bitsMSB w.bits (b % 2 ^ w.bits)
      rw [bitsOfBytes_append, bitsOfBytes_cons, hbyte, hs, bitsMSB_mod _ _ _ (le_refl _)]
      have e1 : bitsMSB 8 (c * 2 ^ (8 - w.bits) + b / 2 ^ w.bits) =
          bitsMSB w.bits c ++ bitsMSB (8 - w.bits) (b / 2 ^ w.bits) := by
        have h8 : 8 = w.bits + (8 - w.bits) := by omega
        conv_lhs => rw [h8]
        have := bitsMSB_mul_add w.bits (8 - w.bits) c (b / 2 ^ w.bits) hhi
        simpa using this
      have e2 : bitsMSB 8 b = bitsMSB (8 - w.bits) (b / 2 ^ w.bits) ++ bitsMSB w.bits b := by
        have h8 : 8 = (8 - w.bits) + w.bits := by omega
        conv_lhs => rw [h8]
        exact bitsMSB_add _ _ _
      rw [e1, e2]
      simp

theorem and_two_pow_ne_zero (c k : Nat) :
    decide (c &&& 2 ^ k ≠ 0) = decide (c / 2 ^ k % 2 = 1) := by
  rw [Nat.and_two_pow, Nat.testBit_to_div_mod]
  by_cases h : c / 2 ^ k % 2 = 1
  · simp [h]
  · simp [h]

/-- `ReadBool()` returns the next bit. -/
theorem Reader.ReadBool_rep (r : Reader) (b : Bool) (s : List Bool) (hr : r.Rep (b :: s)) :
    ∃ r2, r.ReadBool = some (b, r2) ∧ r2.Rep s := by
  obtain ⟨hk, hin, hcache, hs⟩ := hr
  unfold Reader.ReadBool
  by_cases h0 : r.bits = 0
  · rw [if_pos h0]
    rw [h0] at hs
    match hinp : r.inp, hs, hin with
    | [], hs, _ => simp [bitsMSB] at hs
    | c :: inp2, hs, hin =>
      have hs2 : b :: s = decide (c / 2 ^ 7 % 2 = 1) :: (bitsMSB 7 c ++ bitsOfBytes inp2) := by
        rw [hs, bitsOfBytes_cons]; simp [bitsMSB]
      injection hs2 with hb hs3
      have h128 : (0x80 : Nat) = 2 ^ 7 := by norm_num
      have h127 : (0x7f : Nat) = 2 ^ 7 - 1 := by norm_num
      refine ⟨{ inp := inp2, cache := c &&& 0x7f, bits := 7 }, ?_, ?_⟩
      · simp only [h128, and_two_pow_ne_zero, hb]
      · refine ⟨by show 7 < 8; norm_num, fun x hx => hin x (by simp [hx]), ?_, ?_⟩
        · intro _
          show c &&& 0x7f < 2 ^ 7
          rw [h127, Nat.and_pow_two_sub_one_eq_mod]
          exact Nat.mod_lt _ (by positivity)
        · show s = bitsMSB 7 (c &&& 0x7f) ++ bitsOfBytes inp2
          rw [h127, Nat.and_pow_two_sub_one_eq_mod, bitsMSB_mod _ _ _ (le_refl _), hs3]
  · rw [if_neg h0]
    have hk1 : r.bits = (r.bits - 1) + 1 := by omega
    have hs2 : b :: s = decide (r.cache / 2 ^ (r.bits - 1) % 2 = 1) ::
        (bitsMSB (r.bits - 1) r.cache ++ bitsOfBytes r.inp) := by
      rw [hs]
      conv_lhs => rw [hk1, bitsMSB]
      rfl
    injection hs2 with hb hs3
    refine ⟨{ r with cache := r.cache &&& (2 ^ (r.bits - 1) - 1), bits := r.bits - 1 }, ?_, ?_⟩
    · rw [and_two_pow_ne_zero, hb]
    · refine ⟨by show r.bits - 1 < 8; omega, hin, ?_, ?_⟩
      · intro _
        show r.cache &&& 2 ^ (r.bits - 1) - 1 < 2 ^ (r.bits - 1)
        rw [Nat.and_pow_two_sub_one_eq_mod]
        exact Nat.mod_lt _ (by positivity)
      · show s = bitsMSB (r.bits - 1) (r.cache &&& 2 ^ (r.bits - 1) - 1) ++ bitsOfBytes r.inp
        rw [Nat.and_pow_two_sub_one_eq_mod, bitsMSB_mod _ _ _ (le_refl _), hs3]

/-- At the end of the bits `ReadBool()` returns the error of the source. -/
theorem Reader.ReadBool_nil (r : Reader) (hr : r.Rep []) : r.ReadBool = none := by
  obtain ⟨hk, hin, hcache, hs⟩ := hr
  have hlen := congrArg List.length hs
  rw [List.length_append, bitsMSB_length, bitsOfBytes_length] at hlen
  simp only [List.length_nil] at hlen
  have h0 : r.bits = 0 := by omega
  have hinp : r.inp = [] := List.length_eq_zero.mp (by omega)
  simp [Reader.ReadBool, h0, hinp]

/-- `ReadByte()` returns the next eight bits as a byte. -/
theorem Reader.ReadByte_rep (r : Reader) (s : List Bool) (b : Nat) (hb : b < 256)
    (hr : r.Rep (bitsMSB 8 b ++ s)) : ∃ r2, r.ReadByte = some (b, r2) ∧ r2.Rep s := by
  obtain ⟨hk, hin, hcache, hs⟩ := hr
  unfold Reader.ReadByte
  by_cases h0 : r.bits = 0
  · rw [if_pos h0]
    rw [h0] at hs
    match hinp : r.inp, hs, hin with
    | [], hs, _ =>
      have := congrArg List.length hs
      simp [bitsMSB] at this
    | c :: inp2, hs, hin =>
      have hc : c < 256 := hin c (by simp)
      rw [bitsOfBytes_cons] at hs
      simp only [bitsMSB, List.nil_append] at hs
      have hs' : bitsMSB 8 b ++ s = bitsMSB 8 c ++ bitsOfBytes inp2 := by
        simpa [bitsMSB] using hs
      have h1 := List.append_inj_left hs' (by simp)
      have h2 := List.append_inj_right hs' (by simp)
      have hbc : b = c := by
        have := congrArg bitsVal h1
        rw [bitsVal_bitsMSB, bitsVal_bitsMSB] at this
        have e1 : b % 2 ^ 8 = b := Nat.mod_eq_of_lt (by norm_num; exact hb)
        have e2 : c % 2 ^ 8 = c := Nat.mod_eq_of_lt (by norm_num; exact hc)
        omega
      refine ⟨{ r with inp := inp2 }, by rw [hbc], ?_⟩
      exact ⟨hk, fun x hx => hin x (by simp [hx]), hcache, by
        show s = bitsMSB r.bits r.cache ++ bitsOfBytes inp2
        rw [h0, h2]; simp [bitsMSB]⟩
  · rw [if_neg h0]
    unfold Reader.readUnalignedByte
    have hc := hcache (by omega)
    have hbsplit : bitsMSB 8 b = bitsMSB r.bits (b / 2 ^ (8 - r.bits)) ++ bitsMSB (8 - r.bits) b := by
      have h8 : 8 = r.bits + (8 - r.bits) := by omega
      conv_lhs => rw [h8]
      exact bitsMSB_add _ _ _
    rw [hbsplit, List.append_assoc] at hs
    have h1 := List.append_inj_left hs (by simp)
    have h2 := List.append_inj_right hs (by simp)
    have hbhi : b / 2 ^ (8 - r.bits) < 2 ^ r.bits := by
      rw [Nat.div_lt_iff_lt_mul (by positivity), two_pow_mul_eq_256 _ _ (by omega)]
      exact hb
    have hcacheeq : r.cache = b / 2 ^ (8 - r.bits) := by
      have := congrArg bitsVal h1
      rw [bitsVal_bitsMSB, bitsVal_bitsMSB, Nat.mod_eq_of_lt hbhi, Nat.mod_eq_of_lt hc] at this
      exact this.symm
    match hinp : r.inp, h2, hin with
    | [], h2, _ =>
      have := congrArg List.length h2
      simp at this
      omega
    | c :: inp2, h2, hin =>
      have hc256 : c < 256 := hin c (by simp)
      have hcsplit : bitsMSB 8 c = bitsMSB (8 - r.bits) (c / 2 ^ r.bits) ++ bitsMSB r.bits c := by
        have h8 : 8 = (8 - r.bits) + r.bits := by omega
        conv_lhs => rw [h8]
        exact bitsMSB_add _ _ _
      rw [bitsOfBytes_cons, hcsplit, List.append_assoc] at h2
      have h3 := List.append_inj_left h2 (by simp)
      have h4 := List.append_inj_right h2 (by simp)
      have hclo : c / 2 ^ r.bits < 2 ^ (8 - r.bits) := by
        rw [Nat.div_lt_iff_lt_mul (by positivity), two_pow_mul_eq_256 _ _ (by omega)]
        exact hc256
      have hblo : b % 2 ^ (8 - r.bits) = c / 2 ^ r.bits := by
        have := congrArg bitsVal h3
        rw [bitsVal_bitsMSB, bitsVal_bitsMSB, Nat.mod_eq_of_lt hclo] at this
        exact this
      have hshift : r.cache * 2 ^ (8 - r.bits) % 256 = r.cache * 2 ^ (8 - r.bits) := by
        apply Nat.mod_eq_of_lt
        rw [← two_pow_mul_eq_256 r.bits (8 - r.bits) (by omega)]
        exact Nat.mul_lt_mul_of_pos_right hc (by positivity)
      have hval : (r.cache * 2 ^ (8 - r.bits) % 256) ||| (c / 2 ^ r.bits) = b := by
        rw [hshift, lor_aligned _ _ _ hclo, hcacheeq, ← hblo]
        exact Nat.div_add_mod' b (2 ^ (8 - r.bits))
      refine ⟨{ r with inp := inp2, cache := c &&& (2 ^ r.bits - 1) }, by dsimp only; rw [hval], ?_⟩
      refine ⟨hk, fun x hx => hin x (by simp [hx]), ?_, ?_⟩
      · intro _
        show c &&& 2 ^ r.bits - 1 < 2 ^ r.bits
        rw [Nat.and_pow_two_sub_one_eq_mod]
        exact Nat.mod_lt _ (by positivity)
      · show s = bitsMSB r.bits (c &&& 2 ^ r.bits - 1) ++ bitsOfBytes inp2
        rw [Nat.and_pow_two_sub_one_eq_mod, bitsMSB_mod _ _ _ (le_refl _), h4]

theorem flatMap_bits_length : ∀ ops : List (Nat × Nat),
    (ops.flatMap (fun op => bitsMSB op.2 op.1)).length = (ops.map (·.2)).sum
  | [] => rfl
  | op :: ops => by
    simp [List.flatMap_cons, flatMap_bits_length ops]

theorem readAll_spec : ∀ (ops : List (Nat × Nat)) (r : Reader) (tail : List Bool),
    r.Rep (ops.flatMap (fun op => bitsMSB op.2 op.1) ++ tail) →
    (∀ op ∈ ops, 1 ≤ op.2 ∧ op.2 ≤ 64 ∧ op.1 < 2 ^ op.2) →
    readAll r (ops.map (·.2)) = some (ops.map (·.1))
  | [], _, _, _, _ => rfl
  | op :: ops, r, tail, hr, h => by
    obtain ⟨h1, h64, hv⟩ := h op (by simp)
    have hs : (op :: ops).flatMap (fun op => bitsMSB op.2 op.1) ++ tail =
        bitsMSB op.2 op.1 ++ (ops.flatMap (fun op => bitsMSB op.2 op.1) ++ tail) := by
      simp [List.flatMap_cons]
    rw [hs] at hr
    obtain ⟨r2, hread, hr2⟩ := Reader.ReadBits_rep r _ op.2 hr h1 h64 (by simp)
    rw [List.take_left' (bitsMSB_length _ _), bitsVal_bitsMSB, Nat.mod_eq_of_lt hv] at hread
    rw [List.drop_left' (bitsMSB_length _ _)] at hr2
    have ih := readAll_spec ops r2 tail hr2 (fun o ho => h o (by simp [ho]))
    simp [readAll, hread, ih]

/-- C10 (BitIO writer bit layout): after `WriteBits(r_i, n_i)` calls with
`1 ≤ n_i ≤ 64` on a fresh writer and `Close`, the bits of the emitted bytes, each
byte read from its most significant bit, are the low `n_i` bits of each `r_i` in
order, each group most significant bit first, followed by zero bits up to the end
of the last byte; the number of bytes is `⌈Σ n_i / 8⌉`, and every emitted value
is a byte. -/
theorem bitio_writer_layout (ops : List (Nat × Nat))
    (h : ∀ op ∈ ops, 1 ≤ op.2 ∧ op.2 ≤ 64 ∧ op.1 < 2 ^ 64) :
    bitsOfBytes (writeAll NewWriter ops).Close.out =
      ops.flatMap (fun op => bitsMSB op.2 op.1) ++
        List.replicate (8 * (writeAll NewWriter ops).Close.out.length - (ops.map (·.2)).sum) false ∧
    (writeAll NewWriter ops).Close.out.length = ((ops.map (·.2)).sum + 7) / 8 ∧
    ∀ x ∈ (writeAll NewWriter ops).Close.out, x < 256 := by
  have hw := writeAll_rep ops NewWriter [] NewWriter_rep (fun op hop => (h op hop).2.1)
  rw [List.nil_append] at hw
  obtain ⟨h1, h2, h3, _⟩ := Writer.Close_rep _ _ hw
  rw [flatMap_bits_length] at h1 h2
  exact ⟨h1, h2, h3⟩

/-- Witness of C10 at `WriteBits(0b101, 3)`, `WriteBits(0b11110000, 8)`. -/
theorem bitio_writer_layout_witness :
    bitsOfBytes (writeAll NewWriter [(5, 3), (240, 8)]).Close.out =
      [(5, 3), (240, 8)].flatMap (fun op => bitsMSB op.2 op.1) ++
        List.replicate (8 * (writeAll NewWriter [(5, 3), (240, 8)]).Close.out.length -
          ([(5, 3), (240, 8)].map (·.2)).sum) false ∧
    (writeAll NewWriter [(5, 3), (240, 8)]).Close.out.length =
      (([(5, 3), (240, 8)].map (·.2)).sum + 7) / 8 ∧
    ∀ x ∈ (writeAll NewWriter [(5, 3), (240, 8)]).Close.out, x < 256 :=
  bitio_writer_layout [(5, 3), (240, 8)] (by decide)

/-- C3 (BitIO round trip): for every sequence of pairs `(value_i, width_i)` with
`1 ≤ width_i ≤ 64` and `value_i < 2^width_i`, the byte stream a fresh writer
yields after `WriteBits(value_i, width_i)` in order and `Close` is one from
which a fresh reader returns `value_i` from `ReadBits(width_i)`, in the same
order, none of the calls returning an error. -/
theorem bitio_round_trip (ops : List (Nat × Nat))
    (h : ∀ op ∈ ops, 1 ≤ op.2 ∧ op.2 ≤ 64 ∧ op.1 < 2 ^ op.2) :
    readAll (NewReader (writeAll NewWriter ops).Close.out) (ops.map (·.2)) =
      some (ops.map (·.1)) := by
  have hw := writeAll_rep ops NewWriter [] NewWriter_rep (fun op hop => (h op hop).2.1)
  rw [List.nil_append] at hw
  obtain ⟨h1, _, h3, _⟩ := Writer.Close_rep _ _ hw
  have hr := NewReader_rep _ h3
  rw [h1] at hr
  exact readAll_spec ops _ _ hr h

/-- Witness of C3 at the writes `(5, 3)`, `(240, 8)`, `(2^64 - 1, 64)`. -/
theorem bitio_round_trip_witness :
    readAll (NewReader (writeAll NewWriter [(5, 3), (240, 8), (18446744073709551615, 64)]).Close.out)
      ([(5, 3), (240, 8), (18446744073709551615, 64)].map (·.2)) =
      some ([(5, 3), (240, 8), (18446744073709551615, 64)].map (·.1)) :=
  bitio_round_trip [(5, 3), (240, 8), (18446744073709551615, 64)] (by decide)

/-- C18 as stated fails: the first byte is not `0b10111100`. -/
theorem bitio_scenario_counterexample :
    ((NewWriter.WriteBits 0b101 3).WriteBits 0b11110000 8).Close.out ≠ [0b10111100, 0b00000000] := by
  decide

/-- Amended C18 (BitIO concrete scenario): on a fresh writer, `WriteBits(0b101, 3)`,
`WriteBits(0b11110000, 8)` and `Close` emit exactly two bytes, `0b10111110` and
`0b00000000`: the three bits `101`, the eight bits `11110000` and five zero bits
of padding. -/
theorem bitio_scenario :
    ((NewWriter.WriteBits 0b101 3).WriteBits 0b11110000 8).Close.out = [0b10111110, 0b00000000] := by
  decide

theorem Writer.rep_of_cacheInv (w : Writer) (h : w.CacheInv) :
    ({ out := [], cache := w.cache, bits := w.bits } : Writer).Rep
      (bitsMSB w.bits (w.cache / 2 ^ (8 - w.bits))) := by
  obtain ⟨hb, hc, hm⟩ := h
  refine ⟨by simp only; omega, by simp, w.cache / 2 ^ (8 - w.bits), ?_, ?_, by simp [bitsOfBytes]⟩
  · simp only
    rw [Nat.div_lt_iff_lt_mul (by positivity), two_pow_mul_eq_256 _ _ (by omega)]
    exact hc
  · simp only
    exact (Nat.div_mul_cancel (Nat.dvd_of_mod_eq_zero hm)).symm

theorem Writer.cacheInv_of_rep (w : Writer) (s : List Bool) (h : w.Rep s) : w.CacheInv := by
  obtain ⟨hk, _, c, hc, hcache, _⟩ := h
  refine ⟨by omega, ?_, ?_⟩
  · rw [hcache, ← two_pow_mul_eq_256 w.bits (8 - w.bits) (by omega)]
    exact Nat.mul_lt_mul_of_pos_right hc (by positivity)
  · rw [hcache]
    exact Nat.mul_mod_left _ _

theorem writeWholeBytes_snd (r : Nat) : ∀ (fuel n : Nat) (out out2 : List Nat),
    (writeWholeBytes r fuel n out).2 = (writeWholeBytes r fuel n out2).2
  | 0, _, _, _ => rfl
  | fuel + 1, n, out, out2 => by
    unfold writeWholeBytes
    split
    · exact writeWholeBytes_snd r fuel _ _ _
    · rfl

/-- The cache and the number of pending bits after `WriteBitsUnsafe` do not
depend on what the sink holds. -/
theorem Writer.WriteBitsUnsafe_cache (w w2 : Writer) (r n : Nat) (hc : w.cache = w2.cache)
    (hb : w.bits = w2.bits) :
    (w.WriteBitsUnsafe r n).cache = (w2.WriteBitsUnsafe r n).cache ∧
      (w.WriteBitsUnsafe r n).bits = (w2.WriteBitsUnsafe r n).bits := by
  unfold Writer.WriteBitsUnsafe
  simp only [hc, hb]
  rw [writeWholeBytes_snd r (n - (8 - w2.bits)) (n - (8 - w2.bits))
    (w.out ++ [w2.cache ||| r / 2 ^ (n - (8 - w2.bits)) % 256])
    (w2.out ++ [w2.cache ||| r / 2 ^ (n - (8 - w2.bits)) % 256])]
  split_ifs <;> exact ⟨rfl, rfl⟩

theorem Writer.WriteBits_cacheInv (w : Writer) (r n : Nat) (h : w.CacheInv) (hn : n ≤ 64) :
    (w.WriteBits r n).CacheInv := by
  have h1 := Writer.cacheInv_of_rep _ _ (Writer.WriteBits_rep _ _ r n (Writer.rep_of_cacheInv w h) hn)
  obtain ⟨e1, e2⟩ := Writer.WriteBitsUnsafe_cache w { out := [], cache := w.cache, bits := w.bits }
    (r &&& ((2 ^ n % 2 ^ 64 + 2 ^ 64 - 1) % 2 ^ 64)) n rfl rfl
  unfold Writer.CacheInv at h1 ⊢
  unfold Writer.WriteBits at h1 ⊢
  rw [e1, e2]
  exact h1

theorem Writer.WriteByte_cacheInv (w : Writer) (b : Nat) (h : w.CacheInv) (hb : b < 256) :
    (w.WriteByte b).CacheInv := by
  have h1 := Writer.cacheInv_of_rep _ _ (Writer.WriteByte_rep _ _ b (Writer.rep_of_cacheInv w h) hb)
  unfold Writer.CacheInv at h1 ⊢
  unfold Writer.WriteByte at h1 ⊢
  by_cases h0 : w.bits = 0
  · simp only [h0, if_true] at h1 ⊢
    exact h1
  · simp only [h0, if_false, Writer.writeUnalignedByte] at h1 ⊢
    exact h1

theorem Writer.WriteBool_cacheInv (w : Writer) (b : Bool) (h : w.CacheInv) :
    (w.WriteBool b).CacheInv := by
  obtain ⟨hb, hc, hm⟩ := h
  unfold Writer.WriteBool
  by_cases h7 : w.bits = 7
  · rw [if_pos h7]
    exact ⟨by simp, by simp, by simp⟩
  · rw [if_neg h7]
    cases b with
    | false =>
      simp only [Bool.false_eq_true, if_false]
      refine ⟨by simp only; omega, hc, ?_⟩
      simp only
      have hd : 2 ^ (8 - (w.bits + 1)) ∣ 2 ^ (8 - w.bits) := Nat.pow_dvd_pow 2 (by omega)
      exact Nat.mod_eq_zero_of_dvd (dvd_trans hd (Nat.dvd_of_mod_eq_zero hm))
    | true =>
      simp only [if_true]
      have hk : 8 - w.bits = (8 - (w.bits + 1)) + 1 := by omega
      have hlt : (2 : Nat) ^ (8 - (w.bits + 1)) < 256 := by
        have : (2 : Nat) ^ (8 - (w.bits + 1)) < 2 ^ 8 := Nat.pow_lt_pow_right (by norm_num) (by omega)
        simpa using this
      rw [Nat.mod_eq_of_lt hlt]
      obtain ⟨c, hc2⟩ := Nat.dvd_of_mod_eq_zero hm
      have hlt2 : (2 : Nat) ^ (8 - (w.bits + 1)) < 2 ^ (8 - w.bits) :=
        Nat.pow_lt_pow_right (by norm_num) (by omega)
      have hor : w.cache ||| 2 ^ (8 - (w.bits + 1)) = w.cache + 2 ^ (8 - (w.bits + 1)) := by
        rw [hc2, Nat.mul_comm]
        exact lor_aligned c _ _ hlt2
      refine ⟨by simp only; omega, ?_, ?_⟩
      · simp only
        rw [hor]
        have h256 : (256 : Nat) = 2 ^ w.bits * 2 ^ (8 - w.bits) :=
          (two_pow_mul_eq_256 _ _ (by omega)).symm
        have hcl : c < 2 ^ w.bits := by
          by_contra hcc
          have : 2 ^ w.bits * 2 ^ (8 - w.bits) ≤ c * 2 ^ (8 - w.bits) :=
            Nat.mul_le_mul_right _ (by omega)
          rw [Nat.mul_comm c] at this
          omega
        have : (c + 1) * 2 ^ (8 - w.bits) ≤ 2 ^ w.bits * 2 ^ (8 - w.bits) :=
          Nat.mul_le_mul_right _ (by omega)
        have e : (c + 1) * 2 ^ (8 - w.bits) = 2 ^ (8 - w.bits) * c + 2 ^ (8 - w.bits) := by ring
        omega
      · simp only
        rw [hor]
        have hd : 2 ^ (8 - (w.bits + 1)) ∣ 2 ^ (8 - w.bits) := Nat.pow_dvd_pow 2 (by omega)
        exact Nat.mod_eq_zero_of_dvd
          (Nat.dvd_add (dvd_trans hd (Nat.dvd_of_mod_eq_zero hm)) (dvd_refl _))

theorem Writer.Align_cacheInv (w : Writer) (h : w.CacheInv) : w.Align.1.CacheInv := by
  unfold Writer.Align
  split
  · exact ⟨by simp, by simp, by simp⟩
  · exact h

theorem mask_lt (x k : Nat) : x &&& (2 ^ k - 1) < 2 ^ k :=
  Nat.and_lt_two_pow x (Nat.sub_lt (by positivity) (by norm_num))

theorem Reader.ReadBits_cacheInv (r r2 : Reader) (n u : Nat) (h : r.CacheInv)
    (hr : r.ReadBits n = some (u, r2)) : r2.CacheInv := by
  obtain ⟨hb, hc⟩ := h
  unfold Reader.ReadBits at hr
  by_cases h1 : n < r.bits
  · rw [if_pos h1] at hr
    cases hr
    exact ⟨by simp only; omega, fun _ => mask_lt _ _⟩
  · rw [if_neg h1] at hr
    by_cases h2 : n > r.bits
    · rw [if_pos h2] at hr
      split at hr
      · cases hr
      · rename_i u0 n2 inp2 _
        by_cases h3 : n2 > 0
        · rw [if_pos h3] at hr
          split at hr
          · cases hr
          · cases hr
            exact ⟨by simp only; omega, fun _ => mask_lt _ _⟩
        · rw [if_neg h3] at hr
          cases hr
          exact ⟨by simp, fun h => by simp at h⟩
    · rw [if_neg h2] at hr
      cases hr
      exact ⟨by simp, fun h => by simp at h⟩

theorem Reader.ReadByte_cacheInv (r r2 : Reader) (b : Nat) (h : r.CacheInv)
    (hr : r.ReadByte = some (b, r2)) : r2.CacheInv := by
  obtain ⟨hb, hc⟩ := h
  unfold Reader.ReadByte at hr
  by_cases h0 : r.bits = 0
  · rw [if_pos h0] at hr
    split at hr
    · cases hr
    · cases hr
      exact ⟨hb, hc⟩
  · rw [if_neg h0] at hr
    unfold Reader.readUnalignedByte at hr
    split at hr
    · cases hr
    · cases hr
      exact ⟨hb, fun _ => mask_lt _ _⟩

theorem Reader.ReadBool_cacheInv (r r2 : Reader) (b : Bool) (h : r.CacheInv)
    (hr : r.ReadBool = some (b, r2)) : r2.CacheInv := by
  obtain ⟨hb, hc⟩ := h
  unfold Reader.ReadBool at hr
  by_cases h0 : r.bits = 0
  · rw [if_pos h0] at hr
    split at hr
    · cases hr
    · cases hr
      refine ⟨by simp, fun _ => ?_⟩
      exact mask_lt _ 7
  · rw [if_neg h0] at hr
    cases hr
    exact ⟨by simp only; omega, fun _ => mask_lt _ _⟩

theorem Reader.Align_keeps_cacheInv (r : Reader) : r.Align.1.CacheInv :=
  ⟨by simp [Reader.Align], fun h => by simp [Reader.Align] at h⟩

/-- C24 (BitIO cache invariant): every `Writer` operation among `WriteBits` (with
`1 ≤ n ≤ 64`), `WriteByte`, `WriteBool` and `Align` keeps "`bits ≤ 7`, and the
low `8 - bits` bits of the cache byte are zero" (so the cache is 0 when `bits`
is 0); every successful `Reader` operation among `ReadBits` (with
`1 ≤ n ≤ 64`), `ReadByte`, `ReadBool` and `Align` keeps "`bits ≤ 7` and, when
`bits > 0`, `cache < 2^bits`". -/
theorem bitio_cache_invariant (w : Writer) (r : Reader) (hw : w.CacheInv) (hr : r.CacheInv) :
    ((∀ x n, 1 ≤ n → n ≤ 64 → (w.WriteBits x n).CacheInv) ∧
      (∀ b, b < 256 → (w.WriteByte b).CacheInv) ∧
      (∀ b, (w.WriteBool b).CacheInv) ∧ w.Align.1.CacheInv ∧ (w.bits = 0 → w.cache = 0)) ∧
    ((∀ n u r2, 1 ≤ n → n ≤ 64 → r.ReadBits n = some (u, r2) → r2.CacheInv) ∧
      (∀ b r2, r.ReadByte = some (b, r2) → r2.CacheInv) ∧
      (∀ b r2, r.ReadBool = some (b, r2) → r2.CacheInv) ∧ r.Align.1.CacheInv) := by
  refine ⟨⟨fun x n _ hn => Writer.WriteBits_cacheInv w x n hw hn,
    fun b hb => Writer.WriteByte_cacheInv w b hw hb, fun b => Writer.WriteBool_cacheInv w b hw,
    Writer.Align_cacheInv w hw, fun h0 => ?_⟩,
    ⟨fun n u r2 _ _ h => Reader.ReadBits_cacheInv r r2 n u hr h,
      fun b r2 h => Reader.ReadByte_cacheInv r r2 b hr h,
      fun b r2 h => Reader.ReadBool_cacheInv r r2 b hr h, Reader.Align_keeps_cacheInv r⟩⟩
  obtain ⟨_, hc, hm⟩ := hw
  rw [h0] at hm
  have : w.cache % 256 = 0 := hm
  omega

/-- Witness of C24: the writer after `WriteBits(0b101, 3)` and the reader after
`ReadBits(3)` on the byte `0b10111110`. -/
theorem bitio_cache_invariant_witness :
    (NewWriter.WriteBits 5 3).CacheInv ∧
    (({ inp := [], cache := 30, bits := 5 } : Reader).CacheInv) ∧
    (NewReader [190]).ReadBits 3 = some (5, { inp := [], cache := 30, bits := 5 }) ∧
    (((∀ x n, 1 ≤ n → n ≤ 64 → ((NewWriter.WriteBits 5 3).WriteBits x n).CacheInv) ∧
      (∀ b, b < 256 → ((NewWriter.WriteBits 5 3).WriteByte b).CacheInv) ∧
      (∀ b, ((NewWriter.WriteBits 5 3).WriteBool b).CacheInv) ∧
      (NewWriter.WriteBits 5 3).Align.1.CacheInv ∧
      ((NewWriter.WriteBits 5 3).bits = 0 → (NewWriter.WriteBits 5 3).cache = 0)) ∧
    ((∀ n u r2, 1 ≤ n → n ≤ 64 →
        ({ inp := [], cache := 30, bits := 5 } : Reader).ReadBits n = some (u, r2) → r2.CacheInv) ∧
      (∀ b r2, ({ inp := [], cache := 30, bits := 5 } : Reader).ReadByte = some (b, r2) →
        r2.CacheInv) ∧
      (∀ b r2, ({ inp := [], cache := 30, bits := 5 } : Reader).ReadBool = some (b, r2) →
        r2.CacheInv) ∧
      ({ inp := [], cache := 30, bits := 5 } : Reader).Align.1.CacheInv)) :=
  ⟨by unfold Writer.CacheInv; decide, by unfold Reader.CacheInv; decide, by decide,
    bitio_cache_invariant (NewWriter.WriteBits 5 3) { inp := [], cache := 30, bits := 5 }
      (by unfold Writer.CacheInv; decide) (by unfold Reader.CacheInv; decide)⟩

/-- `WriteBits(r, n)` of the `uint64` value `r`, also for an `n` above 64: the
bits before the 64 low bits of `r` are 0. -/
theorem Writer.WriteBits_rep_wide (w : Writer) (s : List Bool) (r n : Nat) (hw : w.Rep s)
    (hn : n ≤ 248) : (w.WriteBits r n).Rep (s ++ bitsMSB n (r % 2 ^ 64)) := by
  rcases Nat.lt_or_ge n 64 with h | h
  · have := Writer.WriteBits_rep w s r n hw (by omega)
    rw [bitsMSB_mod r n 64 (by omega)]
    exact this
  · unfold Writer.WriteBits
    have hmask : (2 ^ n % 2 ^ 64 + 2 ^ 64 - 1) % 2 ^ 64 = 2 ^ 64 - 1 := by
      have : 2 ^ n % 2 ^ 64 = 0 := Nat.mod_eq_zero_of_dvd (Nat.pow_dvd_pow 2 h)
      rw [this]
      norm_num
    rw [hmask, Nat.and_pow_two_sub_one_eq_mod]
    exact Writer.WriteBitsUnsafe_rep w s (r % 2 ^ 64) n hw hn
      (lt_of_lt_of_le (Nat.mod_lt _ (by positivity)) (Nat.pow_le_pow_right (by norm_num) h))

end Bitio

/-! ## Facts about `bwt` -/

namespace Bwt

theorem lexLE_refl : ∀ a : List Nat, lexLE a a = true
  | [] => rfl
  | x :: a => by simp [lexLE, lexLE_refl a]

theorem lexLE_total : ∀ a b : List Nat, lexLE a b = true ∨ lexLE b a = true
  | [], _ => Or.inl rfl
  | _ :: _, [] => Or.inr rfl
  | x :: a, y :: b => by
    rcases Nat.lt_trichotomy x y with h | h | h
    · left; simp [lexLE, h]
    · subst h
      rcases lexLE_total a b with h | h
      · left; simp [lexLE, h]
      · right; simp [lexLE, h]
    · right; simp [lexLE, h]

theorem lexLE_trans : ∀ a b c : List Nat, lexLE a b = true → lexLE b c = true → lexLE a c = true
  | [], _, _, _, _ => rfl
  | _ :: _, [], _, h, _ => by simp [lexLE] at h
  | _ :: _, _ :: _, [], _, h => by simp [lexLE] at h
  | x :: a, y :: b, z :: c, h1, h2 => by
    simp only [lexLE] at h1 h2 ⊢
    by_cases hxy : x < y
    · by_cases hyz : y < z
      · simp [show x < z by omega]
      · by_cases hzy : z < y
        · simp [hyz, hzy] at h2
        · have : y = z := by omega
          subst this
          simp [hxy]
    · by_cases hyx : y < x
      · simp [hxy, hyx] at h1
      · have hxy2 : x = y := by omega
        subst hxy2
        simp only [hxy, if_false] at h1
        by_cases hyz : x < z
        · simp [hyz]
        · by_cases hzy : z < x
          · simp [hyz, hzy] at h2
          · simp only [hyz, hzy, if_false] at h2 ⊢
            exact lexLE_trans a b c h1 h2

theorem lexLE_antisymm : ∀ a b : List Nat, lexLE a b = true → lexLE b a = true → a = b
  | [], [], _, _ => rfl
  | [], _ :: _, _, h => by simp [lexLE] at h
  | _ :: _, [], h, _ => by simp [lexLE] at h
  | x :: a, y :: b, h1, h2 => by
    simp only [lexLE] at h1 h2
    by_cases hxy : x < y
    · have : ¬ y < x := by omega
      simp [hxy, this] at h2
    · by_cases hyx : y < x
      · simp [hxy, hyx] at h1
      · have hxy2 : x = y := by omega
        subst hxy2
        simp only [hxy, if_false] at h1 h2
        rw [lexLE_antisymm a b h1 h2]

theorem lexLE_take : ∀ (l : List Nat) (k : Nat), lexLE (l.take k) l = true
  | [], k => by simp [lexLE]
  | x :: l, 0 => by simp [lexLE]
  | x :: l, k + 1 => by simp [lexLE, lexLE_take l k]

instance lexLE_isTotal (src : List Nat) :
    IsTotal Nat (fun i j => lexLE (src.drop i) (src.drop j) = true) :=
  ⟨fun _ _ => lexLE_total _ _⟩

instance lexLE_isTrans (src : List Nat) :
    IsTrans Nat (fun i j => lexLE (src.drop i) (src.drop j) = true) :=
  ⟨fun _ _ _ h1 h2 => lexLE_trans _ _ _ h1 h2⟩

theorem ComputeSuffixArray_perm (src : List Nat) :
    (ComputeSuffixArray src).Perm (List.range src.length) :=
  List.perm_insertionSort _ _

theorem ComputeSuffixArray_sorted (src : List Nat) :
    (ComputeSuffixArray src).Sorted (fun i j => lexLE (src.drop i) (src.drop j) = true) :=
  List.sorted_insertionSort _ _

theorem getElem?_set_eq {α : Type} (l : List α) (i j : Nat) (v : α) (hi : i < l.length) :
    (l.set i v)[j]? = if j = i then some v else l[j]? := by
  rw [List.getElem?_set]
  by_cases h : j = i
  · subst h; simp [hi]
  · rw [if_neg (fun h2 => h h2.symm), if_neg h]

theorem setAt_eq {α : Type} (l : List α) (i : Nat) (v : α) (hi : i < l.length) :
    setAt l i v = some (l.set i v) := by simp [setAt, hi]

/-- The loop that inverts the suffix array fills `isa` with the ranks. -/
theorem fillIsa_spec (sa : List Nat) (n : Nat) (hlen : sa.length = n) (hnd : sa.Nodup)
    (hlt : ∀ p ∈ sa, p < n) : ∀ (fuel i : Nat) (isa : List Nat), isa.length = n → n - i ≤ fuel →
    i ≤ n → (∀ r p : Nat, r < i → sa[r]? = some p → isa[p]? = some r) →
    ∃ isa2, fillIsa sa fuel i isa = some isa2 ∧ isa2.length = n ∧
      ∀ r p : Nat, sa[r]? = some p → isa2[p]? = some r
  | 0, i, isa, hl, hf, hi, h => by
    have : i = n := by omega
    subst this
    refine ⟨isa, rfl, hl, ?_⟩
    intro r p hr
    exact h r p (by rw [← hlen]; exact (List.getElem?_eq_some.mp hr).1) hr
  | fuel + 1, i, isa, hl, hf, hi, h => by
    unfold fillIsa
    by_cases hin : i < isa.length
    · rw [if_pos hin]
      have hs : sa[i]? = some sa[i] := List.getElem?_eq_getElem (by omega)
      have hp : sa[i] < n := hlt _ (List.getElem_mem _)
      rw [hs]
      simp only [Option.bind_eq_bind, Option.some_bind]
      rw [setAt_eq _ _ _ (by omega)]
      simp only [Option.some_bind]
      apply fillIsa_spec sa n hlen hnd hlt fuel (i + 1) _ (by simp [hl]) (by omega) (by omega)
      intro r p hr hrp
      rw [getElem?_set_eq _ _ _ _ (by omega)]
      by_cases hri : r = i
      · subst hri
        rw [hs] at hrp
        injection hrp with hrp
        rw [if_pos hrp.symm]
      · have hne : p ≠ sa[i] := by
          intro hc
          have hr2 := List.getElem?_eq_some.mp hrp
          obtain ⟨hrlen, hrv⟩ := hr2
          have hilen : i < sa.length := by omega
          have := (@List.Nodup.getElem_inj_iff _ _ hnd r hrlen i hilen).mp (by rw [hrv, hc])
          exact hri this
        rw [if_neg hne]
        exact h r p (by omega) hrp
    · rw [if_neg hin]
      have : i = n := by omega
      subst this
      refine ⟨isa, rfl, hl, ?_⟩
      intro r p hr
      exact h r p (by rw [← hlen]; exact (List.getElem?_eq_some.mp hr).1) hr

theorem rk_eq (isa : List Nat) (p r : Nat) (h : isa[p]? = some r) : rk isa p = r := by
  simp [rk, List.getD_eq_getElem?_getD, h]

theorem rk_get (isa : List Nat) (p : Nat) (h : p < isa.length) : isa[p]? = some (rk isa p) := by
  simp [rk, List.getD_eq_getElem?_getD, List.getElem?_eq_getElem h]

/-- The suffix array and its inverse, as `Forward` has them before the Lyndon
words are corrected. -/
theorem init_spec (src : List Nat) :
    ∃ isa, fillIsa (ComputeSuffixArray src) src.length 0 (List.replicate src.length 0) = some isa ∧
      InvPerm (ComputeSuffixArray src) isa src.length ∧
      Ord src (fun q => q < src.length) isa := by
  have hperm := ComputeSuffixArray_perm src
  have hlen : (ComputeSuffixArray src).length = src.length := by
    rw [hperm.length_eq, List.length_range]
  have hnd : (ComputeSuffixArray src).Nodup := hperm.nodup_iff.mpr (List.nodup_range _)
  have hlt : ∀ p ∈ ComputeSuffixArray src, p < src.length := fun p hp =>
    List.mem_range.mp (hperm.mem_iff.mp hp)
  obtain ⟨isa, hfill, hilen, hinv⟩ := fillIsa_spec _ src.length hlen hnd hlt src.length 0
    (List.replicate src.length 0) (by simp) (by omega) (by omega) (fun r p hr => by omega)
  have hinv2 : ∀ p r : Nat, isa[p]? = some r → (ComputeSuffixArray src)[r]? = some p := by
    intro p r hpr
    have hp : p < src.length := by rw [← hilen]; exact (List.getElem?_eq_some.mp hpr).1
    have hmem : p ∈ ComputeSuffixArray src := hperm.mem_iff.mpr (List.mem_range.mpr hp)
    obtain ⟨r2, hr2⟩ := List.mem_iff_getElem?.mp hmem
    have := hinv r2 p hr2
    rw [hpr] at this
    injection this with this
    rw [this]; exact hr2
  refine ⟨isa, hfill, ⟨hlen, hilen, hinv, hinv2⟩, ?_⟩
  intro p q hp hq ⟨hne, hle⟩
  have hp' := rk_get isa p (by omega)
  have hq' := rk_get isa q (by omega)
  have hsp := hinv2 p _ hp'
  have hsq := hinv2 q _ hq'
  obtain ⟨hrp, hvp⟩ := List.getElem?_eq_some.mp hsp
  obtain ⟨hrq, hvq⟩ := List.getElem?_eq_some.mp hsq
  by_contra hc
  have hcase : rk isa q < rk isa p ∨ rk isa q = rk isa p := by omega
  rcases hcase with hlt2 | heq
  · have hsorted := ComputeSuffixArray_sorted src
    rw [List.Sorted, List.pairwise_iff_getElem] at hsorted
    have h1 := hsorted _ _ hrq hrp hlt2
    rw [hvp, hvq] at h1
    have h2 := lexLE_antisymm _ _ hle h1
    have h3 := congrArg List.length h2
    simp only [List.length_drop] at h3
    omega
  · have : some p = some q := by rw [← hsp, ← hsq, heq]
    injection this with this
    exact hne this

/-- A position that is at its rank leaves no hole. -/
theorem Hole_of_InvPerm (sa isa : List Nat) (n x r : Nat) (h : InvPerm sa isa n)
    (hx : isa[x]? = some r) : Hole sa isa n r x := by
  obtain ⟨h1, h2, h3, h4⟩ := h
  have hxn : x < n := by rw [← h2]; exact (List.getElem?_eq_some.mp hx).1
  have hs := h4 x r hx
  have hrn : r < n := by rw [← h1]; exact (List.getElem?_eq_some.mp hs).1
  have e1 : sa.set r x = sa := by
    apply List.ext_getElem?
    intro k
    rw [getElem?_set_eq _ _ _ _ (by omega)]
    by_cases hk : k = r
    · rw [if_pos hk, hk, hs]
    · rw [if_neg hk]
  have e2 : isa.set x r = isa := by
    apply List.ext_getElem?
    intro k
    rw [getElem?_set_eq _ _ _ _ (by omega)]
    by_cases hk : k = x
    · rw [if_pos hk, hk, hx]
    · rw [if_neg hk]
  exact ⟨hrn, hxn, by rw [e1, e2]; exact ⟨h1, h2, h3, h4⟩⟩

/-- At its exit a loop puts the position it moved at its rank. -/
theorem InvPerm_of_Hole (sa isa : List Nat) (n x r : Nat) (h : Hole sa isa n r x) :
    sa.length = n ∧ isa.length = n ∧ InvPerm (sa.set r x) (isa.set x r) n := by
  obtain ⟨_, _, h1, h2, h3⟩ := h
  simp only [List.length_set] at h1 h2
  exact ⟨h1, h2, by simpa using h1, by simpa using h2, h3⟩

/-- One pass of a loop that moves the position `x` up: the position `b` above
it comes down to the rank of `x`. -/
theorem Hole_step (src : List Nat) (S : Nat → Prop) (sa isa : List Nat) (n rank x b : Nat)
    (hS : ∀ q, S q → q < n ∧ q ≠ x) (h : Hole sa isa n rank x) (hr : rank + 1 < n)
    (hb : sa[rank + 1]? = some b) (hord : Ord src S isa) (hm : MOrd src S isa x rank) :
    b ≠ x ∧ b < n ∧ isa[b]? = some (rank + 1) ∧
      Hole (sa.set rank b) (isa.set b rank) n (rank + 1) x ∧
      Ord src S (isa.set b rank) ∧ MOrd src S (isa.set b rank) x (rank + 1) := by
  obtain ⟨hrn, hxn, hl1, hl2, h3, h4⟩ := h
  simp only [List.length_set] at hl1 hl2
  have hSA : ∀ k, (sa.set rank x)[k]? = if k = rank then some x else sa[k]? :=
    fun k => getElem?_set_eq _ _ _ _ (by omega)
  have hISA : ∀ k, (isa.set x rank)[k]? = if k = x then some rank else isa[k]? :=
    fun k => getElem?_set_eq _ _ _ _ (by omega)
  have hb1 : (sa.set rank x)[rank + 1]? = some b := by rw [hSA, if_neg (by omega), hb]
  have hb2 := h3 _ _ hb1
  rw [hISA] at hb2
  have hbx : b ≠ x := by
    intro hc
    rw [if_pos hc] at hb2
    injection hb2 with hb2
    omega
  rw [if_neg hbx] at hb2
  have hbn : b < n := by rw [← hl2]; exact (List.getElem?_eq_some.mp hb2).1
  have hSA2 : ∀ k, ((sa.set rank b).set (rank + 1) x)[k]? =
      if k = rank + 1 then some x else if k = rank then some b else sa[k]? := by
    intro k
    rw [getElem?_set_eq _ _ _ _ (by simp; omega), getElem?_set_eq _ _ _ _ (by omega)]
  have hISA2 : ∀ k, ((isa.set b rank).set x (rank + 1))[k]? =
      if k = x then some (rank + 1) else if k = b then some rank else isa[k]? := by
    intro k
    rw [getElem?_set_eq _ _ _ _ (by simp; omega), getElem?_set_eq _ _ _ _ (by omega)]
  have hrkb : ∀ q, q ≠ x → q < n → q ≠ b → rk isa q ≠ rank ∧ rk isa q ≠ rank + 1 := by
    intro q hqx hqn hqb
    have hq := rk_get isa q (by omega)
    have hq2 : (isa.set x rank)[q]? = some (rk isa q) := by rw [hISA, if_neg hqx, hq]
    have hq3 := h4 _ _ hq2
    constructor
    · intro hc
      rw [hc, hSA, if_pos rfl] at hq3
      injection hq3 with hq3
      exact hqx hq3.symm
    · intro hc
      rw [hc, hb1] at hq3
      injection hq3 with hq3
      exact hqb hq3.symm
  have hrk2 : ∀ q, q < n → rk (isa.set b rank) q = if q = b then rank else rk isa q := by
    intro q hq
    apply rk_eq
    rw [getElem?_set_eq _ _ _ _ (by omega)]
    by_cases hqb : q = b
    · rw [if_pos hqb, if_pos hqb]
    · rw [if_neg hqb, if_neg hqb]
      exact rk_get isa q (by omega)
  have hrkb0 : rk isa b = rank + 1 := rk_eq _ _ _ hb2
  refine ⟨hbx, hbn, hb2, ⟨hr, hxn, by simp [hl1], by simp [hl2], ?_, ?_⟩, ?_, ?_⟩
  · intro r p hrp
    rw [hSA2] at hrp
    rw [hISA2]
    by_cases h1 : r = rank + 1
    · rw [if_pos h1] at hrp
      injection hrp with hrp
      rw [if_pos hrp.symm, h1]
    · rw [if_neg h1] at hrp
      by_cases h2 : r = rank
      · rw [if_pos h2] at hrp
        injection hrp with hrp
        rw [← hrp, if_neg hbx, if_pos rfl, h2]
      · rw [if_neg h2] at hrp
        have hrp2 : (sa.set rank x)[r]? = some p := by rw [hSA, if_neg h2, hrp]
        have hp := h3 _ _ hrp2
        rw [hISA] at hp
        have hpx : p ≠ x := by
          intro hc
          rw [if_pos hc] at hp
          injection hp with hp
          exact h2 hp.symm
        rw [if_neg hpx] at hp
        have hpb : p ≠ b := by
          intro hc
          rw [hc, hb2] at hp
          injection hp with hp
          exact h1 hp.symm
        rw [if_neg hpx, if_neg hpb, hp]
  · intro p r hpr
    rw [hISA2] at hpr
    rw [hSA2]
    by_cases h1 : p = x
    · rw [if_pos h1] at hpr
      injection hpr with hpr
      rw [if_pos hpr.symm, h1]
    · rw [if_neg h1] at hpr
      by_cases h2 : p = b
      · rw [if_pos h2] at hpr
        injection hpr with hpr
        rw [← hpr, if_neg (by omega), if_pos rfl, h2]
      · rw [if_neg h2] at hpr
        have hpr2 : (isa.set x rank)[p]? = some r := by rw [hISA, if_neg h1, hpr]
        have hs := h4 _ _ hpr2
        rw [hSA] at hs
        have hr1 : r ≠ rank := by
          intro hc
          rw [if_pos hc] at hs
          injection hs with hs
          exact h1 hs.symm
        rw [if_neg hr1] at hs
        have hr2 : r ≠ rank + 1 := by
          intro hc
          rw [hc, hb] at hs
          injection hs with hs
          exact h2 hs.symm
        rw [if_neg hr2, if_neg hr1, hs]
  · intro p q hp hq hpq
    have hold := hord p q hp hq hpq
    obtain ⟨hpn, hpx⟩ := hS p hp
    obtain ⟨hqn, hqx⟩ := hS q hq
    rw [hrk2 p hpn, hrk2 q hqn]
    by_cases h1 : p = b
    · rw [if_pos h1]
      by_cases h2 : q = b
      · exact absurd (h1.trans h2.symm) hpq.1
      · rw [if_neg h2]
        have := hrkb q hqx hqn h2
        rw [h1, hrkb0] at hold
        omega
    · rw [if_neg h1]
      by_cases h2 : q = b
      · rw [if_pos h2]
        have := hrkb p hpx hpn h1
        rw [h2, hrkb0] at hold
        omega
      · rw [if_neg h2]
        exact hold
  · intro q hq hqx
    have hold := hm q hq hqx
    obtain ⟨hqn, _⟩ := hS q hq
    rw [hrk2 q hqn]
    by_cases h1 : q = b
    · rw [if_pos h1]; omega
    · rw [if_neg h1]; omega

theorem matchLoop_spec (src : List Nat) (n start size b : Nat) (hn : src.length = n)
    (hend : start + size ≤ n) : ∀ (fuel k : Nat), size - k ≤ fuel → k ≤ size → b + k ≤ n →
    (∀ t, t < k → src[start + t]? = src[b + t]?) →
    ∃ k2, matchLoop src n start size fuel k (b + k) = some (k2, b + k2) ∧ k2 ≤ size ∧
      b + k2 ≤ n ∧ (∀ t, t < k2 → src[start + t]? = src[b + t]?)
  | 0, k, hf, hk, hb, heq => by
    have : k = size := by omega
    subst this
    exact ⟨k, by simp [matchLoop], le_refl _, hb, heq⟩
  | fuel + 1, k, hf, hk, hb, heq => by
    unfold matchLoop
    by_cases hc : k < size ∧ b + k < n
    · rw [if_pos hc]
      have h1 : src[start + k]? = some src[start + k] := List.getElem?_eq_getElem (by omega)
      have h2 : src[b + k]? = some src[b + k] := List.getElem?_eq_getElem (by omega)
      rw [h1, h2]
      simp only [Option.bind_eq_bind, Option.some_bind]
      by_cases he : src[start + k] = src[b + k]
      · rw [if_pos he]
        have := matchLoop_spec src n start size b hn hend fuel (k + 1) (by omega) (by omega)
          (by omega) (fun t ht => by
            by_cases htk : t = k
            · subst htk; rw [h1, h2, he]
            · exact heq t (by omega))
        simpa [Nat.add_assoc] using this
      · rw [if_neg he]
        exact ⟨k, rfl, hk, hb, heq⟩
    · rw [if_neg hc]
      exact ⟨k, rfl, hk, hb, heq⟩

/-- A suffix that is a proper prefix of another suffix is below it. -/
theorem sufLT_of_prefix (src : List Nat) (b start size : Nat) (hb : b + size = src.length)
    (hne : b ≠ start) (heq : ∀ t, t < size → src[start + t]? = src[b + t]?) :
    sufLT src b start := by
  refine ⟨hne, ?_⟩
  have : src.drop b = (src.drop start).take size := by
    apply List.ext_getElem?
    intro t
    rw [List.getElem?_drop, List.getElem?_take]
    by_cases ht : t < size
    · rw [if_pos ht, List.getElem?_drop, heq t ht]
    · rw [if_neg ht]
      exact List.getElem?_eq_none (by omega)
  rw [this]
  exact lexLE_take _ _

theorem get_some {α : Type} (l : List α) (i : Nat) (h : i < l.length) : ∃ x, l[i]? = some x :=
  ⟨_, List.getElem?_eq_getElem h⟩

theorem moveLoop_spec (src : List Nat) (S : Nat → Prop) (n start size : Nat)
    (hn : src.length = n) (hend : start + size < n) (hS : ∀ q, S q → q < n ∧ q ≠ start)
    (hSend : ∀ q, start + size < q → q < n → S q) :
    ∀ (fuel : Nat) (sa isa : List Nat) (rank : Nat), Hole sa isa n rank start → Ord src S isa →
      MOrd src S isa start rank → n - rank ≤ fuel →
      ∃ sa2 isa2 rank2, moveLoop src n start size fuel sa isa rank = some (sa2, isa2, rank2) ∧
        Hole sa2 isa2 n rank2 start ∧ Ord src S isa2
  | 0, sa, isa, rank, h, _, _, hf => by
    have := h.1
    omega
  | fuel + 1, sa, isa, rank, h, hord, hm, hf => by
    obtain ⟨hl1, hl2, _⟩ := InvPerm_of_Hole sa isa n start rank h
    unfold moveLoop
    by_cases hr : rank + 1 < n
    · rw [if_pos hr]
      obtain ⟨b, hb⟩ := get_some sa (rank + 1) (by omega)
      obtain ⟨hbx, hbn, hisab, hhole, hord2, hm2⟩ :=
        Hole_step src S sa isa n rank start b hS h hr hb hord hm
      rw [hb]
      simp only [Option.bind_eq_bind, Option.some_bind]
      by_cases hbe : b ≤ start + size
      · rw [if_pos hbe]
        exact ⟨sa, isa, rank, rfl, h, hord⟩
      · rw [if_neg hbe]
        obtain ⟨k2, hmatch, hk2, hbk2, heq⟩ := matchLoop_spec src n start size b hn
          (by omega) size 0 (by omega) (by omega) (by omega) (fun t ht => by omega)
        rw [Nat.add_zero] at hmatch
        rw [hmatch]
        simp only [Option.some_bind]
        -- the suffix at `b` does not end with the word
        have hlt : k2 = size → b + k2 < n := by
          intro hks
          by_contra hc
          have hbs : b + size = src.length := by omega
          have hsuf := sufLT_of_prefix src b start size hbs hbx (by rw [← hks]; exact heq)
          have := hm _ (hSend _ (by omega) hbn) hsuf
          rw [rk_eq _ _ _ hisab] at this
          omega
        have hcont : ∃ sa2 isa2 rank2,
            ((setAt sa rank b).bind fun sa2 =>
              (setAt isa b rank).bind fun isa2 =>
                moveLoop src n start size fuel sa2 isa2 (rank + 1)) =
              some (sa2, isa2, rank2) ∧ Hole sa2 isa2 n rank2 start ∧ Ord src S isa2 := by
          rw [setAt_eq _ _ _ (by omega), setAt_eq _ _ _ (by omega)]
          simp only [Option.some_bind]
          exact moveLoop_spec src S n start size hn hend hS hSend fuel _ _ (rank + 1) hhole hord2
            hm2 (by omega)
        by_cases hks : k2 = size
        · rw [if_pos hks]
          obtain ⟨r, hr2⟩ := get_some isa (b + k2) (by have := hlt hks; omega)
          rw [hr2]
          simp only [Option.some_bind, Option.pure_def]
          by_cases hd : rank < r
          · simp only [hd, decide_True, if_true]
            exact ⟨sa, isa, rank, rfl, h, hord⟩
          · simp only [hd, decide_False, Bool.false_eq_true, if_false]
            have hnot : ¬ (k2 < size ∧ b + k2 < n) := by omega
            rw [if_neg hnot]
            simp only [Option.pure_def, Option.some_bind, Bool.false_eq_true, if_false]
            exact hcont
        · rw [if_neg hks]
          simp only [Option.pure_def, Option.some_bind, Bool.false_eq_true, if_false]
          by_cases hc2 : k2 < size ∧ b + k2 < n
          · rw [if_pos hc2]
            obtain ⟨x1, h1⟩ := get_some src (start + k2) (by omega)
            obtain ⟨x2, h2⟩ := get_some src (b + k2) (by omega)
            rw [h1, h2]
            simp only [Option.some_bind, Option.pure_def]
            by_cases hd : x1 < x2
            · simp only [hd, decide_True, if_true]
              exact ⟨sa, isa, rank, rfl, h, hord⟩
            · simp only [hd, decide_False, Bool.false_eq_true, if_false]
              exact hcont
          · rw [if_neg hc2]
            simp only [Option.pure_def, Option.some_bind, Bool.false_eq_true, if_false]
            exact hcont
    · rw [if_neg hr]
      exact ⟨sa, isa, rank, rfl, h, hord⟩

/-- The one-byte suffix at the end of the block is below the suffix at an
earlier position with the same byte. -/
theorem sufLT_last (src : List Nat) (j b : Nat) (hb : b + 1 = src.length) (hj : j < b)
    (heq : src[j]? = src[b]?) : sufLT src b j := by
  refine ⟨by omega, ?_⟩
  have hbl : b < src.length := by omega
  have hjl : j < src.length := by omega
  rw [List.drop_eq_getElem_cons hbl, List.drop_eq_getElem_cons hjl]
  rw [List.getElem?_eq_getElem hbl, List.getElem?_eq_getElem hjl] at heq
  injection heq with heq
  have hnil : src.drop (b + 1) = [] := List.drop_eq_nil_of_le (by omega)
  rw [hnil, heq]
  simp [lexLE]

theorem rk_set_ne (isa : List Nat) (x v q : Nat) (h : q ≠ x) : rk (isa.set x v) q = rk isa q := by
  simp [rk, List.getD_eq_getElem?_getD, List.getElem?_set_ne (Ne.symm h)]

theorem Ord_set (src : List Nat) (S : Nat → Prop) (isa : List Nat) (x v : Nat)
    (hS : ∀ q, S q → q ≠ x) (h : Ord src S isa) : Ord src S (isa.set x v) := by
  intro p q hp hq hpq
  rw [rk_set_ne _ _ _ _ (hS p hp), rk_set_ne _ _ _ _ (hS q hq)]
  exact h p q hp hq hpq

theorem Ord_mono (src : List Nat) (S T : Nat → Prop) (isa : List Nat) (hST : ∀ q, T q → S q)
    (h : Ord src S isa) : Ord src T isa :=
  fun p q hp hq hpq => h p q (hST p hp) (hST q hq) hpq

theorem rankLoop_spec (src : List Nat) (S : Nat → Prop) (n j refRank : Nat)
    (hn : src.length = n) (hj : j + 1 < n) (hS : ∀ q, S q → q < n ∧ q ≠ j)
    (hSlast : S (n - 1)) :
    ∀ (fuel : Nat) (sa isa : List Nat) (testRank : Nat), Hole sa isa n testRank j →
      Ord src S isa → MOrd src S isa j testRank → n - testRank ≤ fuel →
      ∃ sa2 isa2 rank2, rankLoop src n j refRank fuel sa isa testRank = some (sa2, isa2, rank2) ∧
        Hole sa2 isa2 n rank2 j ∧ Ord src S isa2
  | 0, sa, isa, rank, h, _, _, hf => by
    have := h.1
    omega
  | fuel + 1, sa, isa, rank, h, hord, hm, hf => by
    obtain ⟨hl1, hl2, _⟩ := InvPerm_of_Hole sa isa n j rank h
    unfold rankLoop
    by_cases hr : rank + 1 < n
    · rw [if_pos hr]
      obtain ⟨b, hb⟩ := get_some sa (rank + 1) (by omega)
      obtain ⟨hbx, hbn, hisab, hhole, hord2, hm2⟩ :=
        Hole_step src S sa isa n rank j b hS h hr hb hord hm
      rw [hb]
      simp only [Option.bind_eq_bind, Option.some_bind]
      have hcont : ∃ sa2 isa2 rank2,
          ((setAt sa rank b).bind fun sa2 =>
            (setAt isa b rank).bind fun isa2 =>
              rankLoop src n j refRank fuel sa2 isa2 (rank + 1)) =
            some (sa2, isa2, rank2) ∧ Hole sa2 isa2 n rank2 j ∧ Ord src S isa2 := by
        rw [setAt_eq _ _ _ (by omega), setAt_eq _ _ _ (by omega)]
        simp only [Option.some_bind]
        exact rankLoop_spec src S n j refRank hn hj hS hSlast fuel _ _ (rank + 1) hhole hord2
          hm2 (by omega)
      by_cases hjb : j > b
      · rw [if_pos hjb]
        simp only [Option.pure_def, Option.some_bind, if_true]
        exact ⟨sa, isa, rank, rfl, h, hord⟩
      · rw [if_neg hjb]
        obtain ⟨x1, h1⟩ := get_some src j (by omega)
        obtain ⟨x2, h2⟩ := get_some src b (by omega)
        rw [h1, h2]
        simp only [Option.some_bind]
        by_cases hne : x1 ≠ x2
        · rw [if_pos hne]
          simp only [Option.pure_def, Option.some_bind, if_true]
          exact ⟨sa, isa, rank, rfl, h, hord⟩
        · rw [if_neg hne]
          have hx : x1 = x2 := by
            by_contra hc
            exact hne hc
          -- the position above is not the last of the block
          have hlt : b + 1 < n := by
            by_contra hc
            have hbl : b + 1 = src.length := by omega
            have hsuf := sufLT_last src j b hbl (by omega) (by rw [h1, h2, hx])
            have hbS : S b := by
              have : b = n - 1 := by omega
              rw [this]; exact hSlast
            have := hm b hbS hsuf
            rw [rk_eq _ _ _ hisab] at this
            omega
          obtain ⟨r, hr2⟩ := get_some isa (b + 1) (by omega)
          rw [hr2]
          simp only [Option.some_bind, Option.pure_def]
          by_cases hd : refRank < r
          · simp only [hd, decide_True, if_true]
            exact ⟨sa, isa, rank, rfl, h, hord⟩
          · simp only [hd, decide_False, Bool.false_eq_true, if_false]
            exact hcont
    · rw [if_neg hr]
      exact ⟨sa, isa, rank, rfl, h, hord⟩

/-- `moveLyndonWordHead` leaves inverse permutations, with the head at the rank
it returns. -/
theorem moveLyndonWordHead_spec (src : List Nat) (S : Nat → Prop) (n start size : Nat)
    (hn : src.length = n) (hend : start + size < n) (hS : ∀ q, S q → q < n ∧ q ≠ start)
    (hSend : ∀ q, start + size < q → q < n → S q) (sa isa : List Nat) (rank : Nat)
    (hperm : InvPerm sa isa n) (hrank : isa[start]? = some rank) (hord : Ord src S isa)
    (hm : MOrd src S isa start rank) :
    ∃ sa2 isa2 rank2, moveLyndonWordHead sa isa src n start size rank = some (sa2, isa2, rank2) ∧
      InvPerm sa2 isa2 n ∧ Ord src S isa2 := by
  have hhole := Hole_of_InvPerm sa isa n start rank hperm hrank
  obtain ⟨sa1, isa1, rank1, hloop, hhole1, hord1⟩ := moveLoop_spec src S n start size hn hend hS
    hSend (n + 1) sa isa rank hhole hord hm (by omega)
  obtain ⟨hl1, hl2, hperm2⟩ := InvPerm_of_Hole sa1 isa1 n start rank1 hhole1
  refine ⟨sa1.set rank1 start, isa1.set start rank1, rank1, ?_, hperm2,
    Ord_set src S isa1 start rank1 (fun q hq => (hS q hq).2) hord1⟩
  simp only [moveLyndonWordHead, hloop, Option.bind_eq_bind, Option.some_bind]
  rw [setAt_eq _ _ _ (by have := hhole1.1; omega), setAt_eq _ _ _ (by have := hhole1.2.1; omega)]
  rfl

theorem wordLoop_spec (src : List Nat) (n idxMin i : Nat) (hn : src.length = n) (hi : i < n) :
    ∀ (fuel j refRank : Nat) (sa isa : List Nat), j < i → idxMin ≤ j → j - idxMin ≤ fuel →
      InvPerm sa isa n →
      Ord src (fun q => (idxMin < q ∧ q ≤ j) ∨ (i ≤ q ∧ q < n)) isa →
      ∃ sa2 isa2, wordLoop src n idxMin fuel j refRank sa isa = some (sa2, isa2) ∧
        InvPerm sa2 isa2 n ∧ Ord src (fun q => i ≤ q ∧ q < n) isa2
  | 0, j, refRank, sa, isa, hji, hidx, hf, hperm, hord => by
    have hj : ¬ j > idxMin := by omega
    exact ⟨sa, isa, by simp [wordLoop, hj], hperm,
      Ord_mono src _ _ isa (fun q hq => Or.inr hq) hord⟩
  | fuel + 1, j, refRank, sa, isa, hji, hidx, hf, hperm, hord => by
    unfold wordLoop
    by_cases hj : j > idxMin
    · rw [if_pos hj]
      obtain ⟨r0, hr0⟩ := get_some isa j (by rw [hperm.2.1]; omega)
      rw [hr0]
      simp only [Option.bind_eq_bind, Option.some_bind]
      have hS : ∀ q, ((idxMin < q ∧ q ≤ j - 1) ∨ (i ≤ q ∧ q < n)) → q < n ∧ q ≠ j := by
        intro q hq
        rcases hq with hq | hq <;> omega
      have hsub : ∀ q, ((idxMin < q ∧ q ≤ j - 1) ∨ (i ≤ q ∧ q < n)) →
          ((idxMin < q ∧ q ≤ j) ∨ (i ≤ q ∧ q < n)) := by
        intro q hq
        rcases hq with hq | hq
        · left; omega
        · right; exact hq
      have hord1 := Ord_mono src _ (fun q => (idxMin < q ∧ q ≤ j - 1) ∨ (i ≤ q ∧ q < n)) isa
        hsub hord
      have hm : MOrd src (fun q => (idxMin < q ∧ q ≤ j - 1) ∨ (i ≤ q ∧ q < n)) isa j r0 := by
        intro q hq hqj
        have := hord q j (hsub q hq) (Or.inl ⟨hj, le_refl _⟩) hqj
        rwa [rk_eq _ _ _ hr0] at this
      obtain ⟨sa1, isa1, rank1, hloop, hhole1, hord2⟩ := rankLoop_spec src _ n j refRank hn
        (by omega) hS (Or.inr ⟨by omega, by omega⟩) (n + 1) sa isa r0
        (Hole_of_InvPerm sa isa n j r0 hperm hr0) hord1 hm (by omega)
      obtain ⟨hl1, hl2, hperm2⟩ := InvPerm_of_Hole sa1 isa1 n j rank1 hhole1
      rw [hloop]
      simp only [Option.some_bind]
      rw [setAt_eq _ _ _ (by have := hhole1.1; omega),
        setAt_eq _ _ _ (by have := hhole1.2.1; omega)]
      simp only [Option.some_bind]
      have hord3 := Ord_set src _ isa1 j rank1 (fun q hq => (hS q hq).2) hord2
      by_cases hstop : r0 = rank1
      · rw [if_pos hstop]
        exact ⟨_, _, rfl, hperm2, Ord_mono src _ _ _ (fun q hq => Or.inr hq) hord3⟩
      · rw [if_neg hstop]
        exact wordLoop_spec src n idxMin i hn hi fuel (j - 1) rank1 _ _ (by omega) (by omega)
          (by omega) hperm2 hord3
    · rw [if_neg hj]
      exact ⟨sa, isa, rfl, hperm, Ord_mono src _ _ isa (fun q hq => Or.inr hq) hord⟩

/-- The correction of the Lyndon words returns, with inverse permutations. -/
theorem lyndonLoop_spec (src : List Nat) (n : Nat) (hn : src.length = n) :
    ∀ (fuel i min idxMin : Nat) (sa isa : List Nat), idxMin < i → n - i ≤ fuel →
      InvPerm sa isa n → isa[idxMin]? = some min →
      Ord src (fun q => idxMin ≤ q ∧ q < n) isa →
      ∃ sa2 isa2, lyndonLoop src n fuel i min idxMin sa isa = some (sa2, isa2) ∧
        InvPerm sa2 isa2 n
  | 0, i, min, idxMin, sa, isa, hidx, hf, hperm, hmin, hord => by
    have hc : ¬ (i < n ∧ min > 0) := by omega
    exact ⟨sa, isa, by simp [lyndonLoop, hc], hperm⟩
  | fuel + 1, i, min, idxMin, sa, isa, hidx, hf, hperm, hmin, hord => by
    unfold lyndonLoop
    by_cases hc : i < n ∧ min > 0
    · rw [if_pos hc]
      obtain ⟨r, hr⟩ := get_some isa i (by rw [hperm.2.1]; omega)
      rw [hr]
      simp only [Option.bind_eq_bind, Option.some_bind]
      by_cases hge : r ≥ min
      · rw [if_pos hge]
        exact lyndonLoop_spec src n hn fuel (i + 1) min idxMin sa isa (by omega) (by omega)
          hperm hmin hord
      · rw [if_neg hge]
        have hS : ∀ q, (idxMin < q ∧ q < n) → q < n ∧ q ≠ idxMin := by
          intro q hq; omega
        have hord1 := Ord_mono src _ (fun q => idxMin < q ∧ q < n) isa
          (fun q hq => ⟨by omega, hq.2⟩) hord
        have hm : MOrd src (fun q => idxMin < q ∧ q < n) isa idxMin min := by
          intro q hq hqj
          have := hord q idxMin ⟨by omega, hq.2⟩ ⟨le_refl _, by omega⟩ hqj
          rwa [rk_eq _ _ _ hmin] at this
        obtain ⟨sa1, isa1, refRank, hmove, hperm1, hord2⟩ := moveLyndonWordHead_spec src _ n
          idxMin (i - idxMin) hn (by omega) hS (fun q hq hqn => ⟨by omega, hqn⟩) sa isa min
          hperm hmin hord1 hm
        rw [hmove]
        simp only [Option.some_bind]
        obtain ⟨sa2, isa2, hword, hperm2, hord3⟩ := wordLoop_spec src n idxMin i hn hc.1 i
          (i - 1) refRank sa1 isa1 (by omega) (by omega) (by omega) hperm1
          (Ord_mono src _ _ isa1 (fun q hq => by rcases hq with hq | hq <;> omega) hord2)
        rw [hword]
        simp only [Option.some_bind]
        obtain ⟨min2, hmin2⟩ := get_some isa2 i (by rw [hperm2.2.1]; omega)
        rw [hmin2]
        simp only [Option.some_bind]
        exact lyndonLoop_spec src n hn fuel (i + 1) min2 i sa2 isa2 (by omega) (by omega)
          hperm2 hmin2 hord3
    · rw [if_neg hc]
      exact ⟨sa, isa, rfl, hperm⟩

theorem InvPerm.nodup_isa (sa isa : List Nat) (n : Nat) (h : InvPerm sa isa n) : isa.Nodup := by
  rw [List.nodup_iff_injective_getElem]
  intro ⟨i, hi⟩ ⟨j, hj⟩ hij
  simp only at hij
  have h1 := h.2.2.2 i _ (List.getElem?_eq_getElem hi)
  have h2 := h.2.2.2 j _ (List.getElem?_eq_getElem hj)
  rw [hij, h2] at h1
  injection h1 with h1
  exact Fin.ext h1.symm

theorem InvPerm.isa_lt (sa isa : List Nat) (n : Nat) (h : InvPerm sa isa n) :
    ∀ x ∈ isa, x < n := by
  intro x hx
  obtain ⟨p, hp⟩ := List.mem_iff_getElem?.mp hx
  have := h.2.2.2 p x hp
  rw [← h.1]
  exact (List.getElem?_eq_some.mp this).1

theorem InvPerm.perm_range (sa isa : List Nat) (n : Nat) (h : InvPerm sa isa n) :
    isa.Perm (List.range n) := by
  have hsub : isa ⊆ List.range n := fun x hx =>
    List.mem_range.mpr (InvPerm.isa_lt sa isa n h x hx)
  exact (List.subperm_of_subset (InvPerm.nodup_isa sa isa n h) hsub).perm_of_length_le
    (by rw [List.length_range, h.2.1])

/-- The loop that writes the output: `ws` are the ranks written so far, in the
order of the bytes of `src` they hold, and `min` is the rank held back. -/
theorem emitLoop_spec (src sa isa dst0 : List Nat) (n : Nat) (hn : src.length = n)
    (hperm : InvPerm sa isa n) (hd : n ≤ dst0.length) :
    ∀ (fuel i min : Nat) (dst ws : List Nat), 1 ≤ i → i ≤ n → n - i ≤ fuel →
      dst.length = dst0.length → ws.length = i - 1 → (ws ++ [min]).Perm (isa.take i) →
      (∀ t, t < i → min ≤ rk isa t) →
      (∀ (t w : Nat), ws[t]? = some w → dst[w]? = src[t]?) →
      (∀ k, k ∉ ws → dst[k]? = dst0[k]?) →
      ∃ dst2 ws2, emitLoop src isa n fuel i min dst = some dst2 ∧ dst2.length = dst0.length ∧
        ws2.length = n - 1 ∧ (ws2 ++ [0]).Perm isa ∧
        (∀ (t w : Nat), ws2[t]? = some w → dst2[w]? = src[t]?) ∧
        (∀ k, k ∉ ws2 → dst2[k]? = dst0[k]?) := by
  have hnd := InvPerm.nodup_isa sa isa n hperm
  have hfin : ∀ (i min : Nat) (dst ws : List Nat), ¬ i < n → i ≤ n →
      dst.length = dst0.length → ws.length = i - 1 → (ws ++ [min]).Perm (isa.take i) →
      (∀ t, t < i → min ≤ rk isa t) →
      (∀ (t w : Nat), ws[t]? = some w → dst[w]? = src[t]?) →
      (∀ k, k ∉ ws → dst[k]? = dst0[k]?) → 1 ≤ i →
      ∃ dst2 ws2, some dst = some dst2 ∧ dst2.length = dst0.length ∧
        ws2.length = n - 1 ∧ (ws2 ++ [0]).Perm isa ∧
        (∀ (t w : Nat), ws2[t]? = some w → dst2[w]? = src[t]?) ∧
        (∀ k, k ∉ ws2 → dst2[k]? = dst0[k]?) := by
    intro i min dst ws hin hi hdl hwl hp hmin hcont hun h1
    have hieq : i = n := by omega
    subst hieq
    have htake : isa.take i = isa := List.take_of_length_le (by rw [hperm.2.1])
    rw [htake] at hp
    -- the rank held back at the end is `0`
    have hmin0 : min = 0 := by
      obtain ⟨p, hp0⟩ := get_some sa 0 (by rw [hperm.1]; omega)
      have h0 := hperm.2.2.1 0 p hp0
      have hpn : p < i := by rw [← hperm.2.1]; exact (List.getElem?_eq_some.mp h0).1
      have := hmin p hpn
      rw [rk_eq _ _ _ h0] at this
      omega
    rw [hmin0] at hp
    exact ⟨dst, ws, rfl, hdl, hwl, hp, hcont, hun⟩
  intro fuel
  induction fuel with
  | zero =>
    intro i min dst ws h1 hi hf hdl hwl hp hmin hcont hun
    have hin : ¬ i < n := by omega
    simp only [emitLoop, hin, if_false]
    exact hfin i min dst ws hin hi hdl hwl hp hmin hcont hun h1
  | succ fuel ih =>
    intro i min dst ws h1 hi hf hdl hwl hp hmin hcont hun
    unfold emitLoop
    by_cases hin : i < n
    · rw [if_pos hin]
      obtain ⟨r, hr⟩ := get_some isa i (by rw [hperm.2.1]; exact hin)
      have hrn : r < n := InvPerm.isa_lt sa isa n hperm r (List.getElem?_mem hr)
      obtain ⟨c, hc⟩ := get_some src (i - 1) (by omega)
      have hi0 : ¬ i = 0 := by omega
      have htake : isa.take (i + 1) = isa.take i ++ [r] := by
        rw [List.take_succ, hr]; rfl
      have hndw : (ws ++ [min] ++ [r]).Nodup := by
        have : (ws ++ [min] ++ [r]).Perm (isa.take (i + 1)) := by
          rw [htake]; exact List.Perm.append_right _ hp
        exact this.nodup_iff.mpr (List.Nodup.sublist (List.take_sublist _ _) hnd)
      have hminn : min < n := by
        have : min ∈ isa.take i := hp.mem_iff.mp (by simp)
        exact InvPerm.isa_lt sa isa n hperm min (List.mem_of_mem_take this)
      rw [hr]
      simp only [Option.bind_eq_bind, Option.some_bind, hi0, if_false, hc]
      have hwsget : ∀ (w0 : Nat) (t w : Nat), (ws ++ [w0])[t]? = some w →
          (t < i - 1 ∧ ws[t]? = some w) ∨ (t = i - 1 ∧ w = w0) := by
        intro w0 t w ht
        by_cases htl : t < ws.length
        · rw [List.getElem?_append_left htl] at ht
          left; exact ⟨by omega, ht⟩
        · rw [List.getElem?_append_right (by omega)] at ht
          have htt : t - ws.length = 0 := by
            by_contra hcc
            have : t - ws.length = (t - ws.length - 1) + 1 := by omega
            rw [this] at ht
            simp at ht
          rw [htt] at ht
          simp only [List.getElem?_cons_zero] at ht
          injection ht with ht
          right; exact ⟨by omega, ht.symm⟩
      by_cases hge : r ≥ min
      · rw [if_pos hge, setAt_eq _ _ _ (by omega)]
        simp only [Option.some_bind]
        have hrws : r ∉ ws := by
          intro hmem
          have := List.nodup_append.mp hndw
          exact this.2.2 (List.mem_append_left _ hmem) (by simp)
        apply ih (i + 1) min (dst.set r c) (ws ++ [r]) (by omega) (by omega) (by omega)
          (by simp [hdl]) (by simp [hwl]; omega)
        · rw [htake]
          have h1 : (ws ++ [r] ++ [min]).Perm (ws ++ [min] ++ [r]) := by
            rw [List.append_assoc, List.append_assoc]
            exact List.Perm.append_left ws (List.perm_append_comm)
          exact h1.trans (List.Perm.append_right [r] hp)
        · intro t ht
          by_cases hti : t = i
          · rw [hti, rk_eq _ _ _ hr]; exact hge
          · exact hmin t (by omega)
        · intro t w ht
          rcases hwsget r t w ht with ⟨_, ht2⟩ | ⟨ht2, hw⟩
          · have hwr : w ≠ r := fun hcc => hrws (hcc ▸ List.getElem?_mem ht2)
            rw [List.getElem?_set_ne (Ne.symm hwr)]
            exact hcont t w ht2
          · rw [hw, ht2, hc, List.getElem?_set_self (by omega)]
        · intro k hk
          have hkr : k ≠ r := fun hcc => hk (by simp [hcc])
          rw [List.getElem?_set_ne (Ne.symm hkr)]
          exact hun k (fun hcc => hk (List.mem_append_left _ hcc))
      · rw [if_neg hge, if_pos hminn, setAt_eq _ _ _ (by omega)]
        simp only [Option.some_bind]
        have hmws : min ∉ ws := by
          intro hmem
          have h2 := List.nodup_append.mp (List.nodup_append.mp hndw).1
          exact h2.2.2 hmem (by simp)
        apply ih (i + 1) r (dst.set min c) (ws ++ [min]) (by omega) (by omega) (by omega)
          (by simp [hdl]) (by simp [hwl]; omega)
        · rw [htake]
          exact List.Perm.append_right [r] hp
        · intro t ht
          by_cases hti : t = i
          · rw [hti, rk_eq _ _ _ hr]
          · have := hmin t (by omega)
            omega
        · intro t w ht
          rcases hwsget min t w ht with ⟨_, ht2⟩ | ⟨ht2, hw⟩
          · have hwr : w ≠ min := fun hcc => hmws (hcc ▸ List.getElem?_mem ht2)
            rw [List.getElem?_set_ne (Ne.symm hwr)]
            exact hcont t w ht2
          · rw [hw, ht2, hc, List.getElem?_set_self (by omega)]
        · intro k hk
          have hkr : k ≠ min := fun hcc => hk (by simp [hcc])
          rw [List.getElem?_set_ne (Ne.symm hkr)]
          exact hun k (fun hcc => hk (List.mem_append_left _ hcc))
    · rw [if_neg hin]
      exact hfin i min dst ws hin hi hdl hwl hp hmin hcont hun h1

/-- The body of `Forward` on a block of two bytes or more returns, and the first
`src.length` bytes of the output are a rearrangement of `src`. -/
theorem forwardCore_spec (src dst : List Nat) (h2 : 2 ≤ src.length)
    (hd : src.length ≤ dst.length) :
    ∃ sa isa dst3, forwardCore src dst = some (sa, isa, dst3) ∧ dst3.length = dst.length ∧
      (dst3.take src.length).Perm src ∧ dst3.drop src.length = dst.drop src.length := by
  obtain ⟨isa, hisa, hperm, hord⟩ := init_spec src
  obtain ⟨min, hmin⟩ := get_some isa 0 (by rw [hperm.2.1]; omega)
  obtain ⟨sa2, isa2, hly, hperm2⟩ := lyndonLoop_spec src src.length rfl src.length 1 min 0
    (ComputeSuffixArray src) isa (by omega) (by omega) hperm hmin
    (Ord_mono src _ _ isa (fun q hq => hq.2) hord)
  obtain ⟨r0, hr0⟩ := get_some isa2 0 (by rw [hperm2.2.1]; omega)
  have hr0n : r0 < src.length :=
    InvPerm.isa_lt sa2 isa2 _ hperm2 r0 (List.getElem?_mem hr0)
  obtain ⟨dst2, ws, hemit, hlen2, hwl, hwp, hcont, hun⟩ :=
    emitLoop_spec src sa2 isa2 dst src.length rfl hperm2 hd (src.length - 1) 1 r0 dst []
      (by omega) (by omega) (by omega) rfl rfl
      (by
        have : isa2.take 1 = [r0] := by
          rw [List.take_succ, hr0]; rfl
        rw [this]; exact List.Perm.refl _)
      (by
        intro t ht
        have : t = 0 := by omega
        rw [this, rk_eq _ _ _ hr0])
      (by intro t w ht; simp at ht)
      (by intro k _; rfl)
  have hemit0 : emitLoop src isa2 src.length src.length 0 src.length dst = some dst2 := by
    have hfuel : src.length = (src.length - 1) + 1 := by omega
    rw [hfuel]
    unfold emitLoop
    rw [← hfuel]
    have h0 : 0 < src.length := by omega
    have h1 : ¬ r0 ≥ src.length := by omega
    simp only [h0, if_true, hr0, Option.bind_eq_bind, Option.some_bind, h1, if_false,
      Nat.lt_irrefl, zero_add]
    exact hemit
  obtain ⟨last, hlast⟩ := get_some src (src.length - 1) (by omega)
  refine ⟨sa2, isa2, dst2.set 0 last, ?_, by simp [hlen2], ?_, ?_⟩
  · unfold forwardCore
    simp only [Option.bind_eq_bind, hisa, Option.some_bind, hmin, hly, hemit0, hlast,
      setAt_eq dst2 0 last (by omega)]
    rfl
  · -- the ranks in the order they were written, the rank `0` last
    have hnd : (ws ++ [0]).Nodup := hwp.nodup_iff.mpr (InvPerm.nodup_isa sa2 isa2 _ hperm2)
    have h0ws : (0 : Nat) ∉ ws := by
      intro hmem
      exact (List.nodup_append.mp hnd).2.2 hmem (by simp)
    have hL : (ws ++ [0]).Perm (List.range src.length) :=
      hwp.trans (InvPerm.perm_range sa2 isa2 _ hperm2)
    have hmap1 : (ws ++ [0]).map (fun w => (dst2.set 0 last).getD w 0) = src := by
      apply List.ext_getElem?
      intro t
      rw [List.getElem?_map]
      by_cases ht : t < ws.length
      · rw [List.getElem?_append_left ht]
        obtain ⟨w, hw⟩ := get_some ws t ht
        have hw0 : w ≠ 0 := fun hcc => h0ws (hcc ▸ List.getElem?_mem hw)
        have := hcont t w hw
        obtain ⟨c, hc⟩ := get_some src t (by omega)
        rw [hw, hc]
        simp only [Option.map_some', List.getD_eq_getElem?_getD,
          List.getElem?_set_ne (Ne.symm hw0), this, hc, Option.getD_some]
      · by_cases ht2 : t = ws.length
        · rw [List.getElem?_append_right (by omega), ht2, Nat.sub_self,
            List.getElem?_cons_zero, hwl, hlast]
          simp only [Option.map_some', List.getD_eq_getElem?_getD]
          rw [List.getElem?_set_self (by omega)]
          rfl
        · rw [List.getElem?_eq_none (by simp; omega), List.getElem?_eq_none (by omega)]
          rfl
    have hmap2 : (List.range src.length).map (fun w => (dst2.set 0 last).getD w 0) =
        (dst2.set 0 last).take src.length := by
      apply List.ext_getElem?
      intro t
      rw [List.getElem?_map, List.getElem?_take]
      by_cases ht : t < src.length
      · rw [List.getElem?_range ht, if_pos ht]
        obtain ⟨c, hc⟩ := get_some (dst2.set 0 last) t (by simp; omega)
        simp only [Option.map_some', List.getD_eq_getElem?_getD, hc, Option.getD_some]
      · rw [List.getElem?_eq_none (by simp; omega), if_neg ht]
        rfl
    rw [← hmap2]
    conv_rhs => rw [← hmap1]
    exact (hL.map _).symm
  · apply List.ext_getElem?
    intro t
    rw [List.getElem?_drop, List.getElem?_drop]
    have hne : src.length + t ≠ 0 := by omega
    rw [List.getElem?_set_ne (Ne.symm hne)]
    apply hun
    intro hmem
    have : src.length + t ∈ ws ++ [0] := List.mem_append_left _ hmem
    have := InvPerm.isa_lt sa2 isa2 _ hperm2 _ (hwp.mem_iff.mp this)
    omega

/-- `Forward` on a block within the maximal size and a destination that is long
enough: it returns without error and the output is a rearrangement of `src`. -/
theorem BWTS.Forward_spec (this : BWTS) (src dst : List Nat)
    (hmax : src.length ≤ MaxBWTSBlockSize) (hd : src.length ≤ dst.length) :
    ∃ res, this.Forward false src dst = some res ∧ res.err = false ∧
      res.read = src.length ∧ res.written = src.length ∧
      res.dst.length = dst.length ∧ (res.dst.take src.length).Perm src ∧
      res.dst.drop src.length = dst.drop src.length := by
  unfold BWTS.Forward
  by_cases h0 : src.length = 0
  · rw [if_pos h0]
    have hnil : src = [] := List.length_eq_zero.mp h0
    exact ⟨_, rfl, rfl, h0.symm, h0.symm, rfl, by simp [hnil], by simp [hnil]⟩
  · have hd0 : ¬ dst.length = 0 := by omega
    have hmax2 : ¬ src.length > MaxBWTSBlockSize := by omega
    have hd2 : ¬ src.length > dst.length := by omega
    rw [if_neg h0, if_neg hd0, if_neg (by simp), if_neg hmax2, if_neg hd2]
    by_cases h1 : src.length < 2
    · rw [if_pos h1]
      obtain ⟨a, rest, hsrc⟩ := List.exists_cons_of_ne_nil
        (show src ≠ [] from fun hc => h0 (by rw [hc]; rfl))
      have hrest : rest = [] := by
        rw [hsrc] at h1
        simp only [List.length_cons] at h1
        exact List.length_eq_zero.mp (by omega)
      subst hrest
      subst hsrc
      obtain ⟨d, ds, hdst⟩ := List.exists_cons_of_ne_nil
        (show dst ≠ [] from fun hc => hd0 (by rw [hc]; rfl))
      subst hdst
      exact ⟨⟨1, 1, false, a :: ds, this⟩, by simp [setAt], rfl, rfl, rfl, rfl, by simp, by simp⟩
    · rw [if_neg h1]
      obtain ⟨sa, isa, dst3, hcore, hlen, hp, hdrop⟩ :=
        forwardCore_spec src dst (by omega) hd
      rw [hcore]
      exact ⟨_, rfl, rfl, rfl, rfl, hlen, hp, hdrop⟩

/-- C7 (BWTS is a permutation): for every block `src` of at most `2^30` bytes and
every destination `dst` that is not the source and is at least as long,
`Forward` returns without error, reports `src.length` bytes read and written,
and the first `src.length` bytes of the destination are a rearrangement of
`src` (the same multiset of byte values); the rest of the destination is left
as it was. -/
theorem bwts_forward_permutation (this : BWTS) (src dst : List Nat)
    (hmax : src.length ≤ MaxBWTSBlockSize) (hd : src.length ≤ dst.length) :
    ∃ res, this.Forward false src dst = some res ∧ res.err = false ∧
      res.read = src.length ∧ res.written = src.length ∧
      res.dst.length = dst.length ∧ (res.dst.take src.length).Perm src ∧
      res.dst.drop src.length = dst.drop src.length :=
  BWTS.Forward_spec this src dst hmax hd

theorem bwts_forward_permutation_witness :
    [98, 97, 110, 97, 110, 97].length ≤ MaxBWTSBlockSize ∧
    [98, 97, 110, 97, 110, 97].length ≤ (List.replicate 6 0).length ∧
    ∃ res, NewBWTS.Forward false [98, 97, 110, 97, 110, 97] (List.replicate 6 0) = some res ∧
      res.err = false ∧ res.read = [98, 97, 110, 97, 110, 97].length ∧
      res.written = [98, 97, 110, 97, 110, 97].length ∧
      res.dst.length = (List.replicate 6 0).length ∧
      (res.dst.take [98, 97, 110, 97, 110, 97].length).Perm [98, 97, 110, 97, 110, 97] ∧
      res.dst.drop [98, 97, 110, 97, 110, 97].length =
        (List.replicate 6 0).drop [98, 97, 110, 97, 110, 97].length :=
  ⟨by decide, by decide,
    bwts_forward_permutation NewBWTS [98, 97, 110, 97, 110, 97] (List.replicate 6 0)
      (by decide) (by decide)⟩

/-- A destination that is not empty and shorter than the source: `Forward`
returns an error, the two counts are 0 and nothing is written. -/
theorem BWTS.Forward_short_dst (this : BWTS) (aliased : Bool) (src dst : List Nat)
    (hmax : src.length ≤ MaxBWTSBlockSize) (hd : dst ≠ []) (hlt : dst.length < src.length) :
    this.Forward aliased src dst = some ⟨0, 0, true, dst, this⟩ := by
  have h1 : ¬ src.length = 0 := by omega
  have h2 : ¬ dst.length = 0 := by
    intro h; exact hd (List.length_eq_zero.mp h)
  unfold BWTS.Forward
  rw [if_neg h1, if_neg h2]
  cases aliased with
  | true => simp
  | false =>
    rw [if_neg (by simp), if_neg (by omega), if_pos (by omega)]

/-- A destination that is not empty and shorter than the source: `Inverse`
returns an error, the two counts are 0 and nothing is written. -/
theorem BWTS.Inverse_short_dst (this : BWTS) (aliased : Bool) (src dst : List Nat)
    (hmax : src.length ≤ MaxBWTSBlockSize) (hd : dst ≠ []) (hlt : dst.length < src.length) :
    this.Inverse aliased src dst = some ⟨0, 0, true, dst, this⟩ := by
  have h1 : ¬ src.length = 0 := by omega
  have h2 : ¬ dst.length = 0 := by
    intro h; exact hd (List.length_eq_zero.mp h)
  unfold BWTS.Inverse
  rw [if_neg h1, if_neg h2]
  cases aliased with
  | true => simp
  | false =>
    rw [if_neg (by simp), if_neg (by omega), if_pos (by omega)]

/-- C15 at the source `"a"` and an empty destination: `&dst[0]` is out of
range, and `Forward` and `Inverse` panic instead of returning an error; this
holds for every source that is not empty. -/
theorem bwts_empty_dst_panics :
    NewBWTS.Forward false [97] [] = none ∧ NewBWTS.Inverse false [97] [] = none ∧
    ∀ (this : BWTS) (aliased : Bool) (src : List Nat), src ≠ [] →
      this.Forward aliased src [] = none ∧ this.Inverse aliased src [] = none := by
  refine ⟨by decide, by decide, fun this aliased src h => ?_⟩
  have h1 : ¬ src.length = 0 := fun e => h (List.length_eq_zero.mp e)
  constructor
  · unfold BWTS.Forward
    rw [if_neg h1, if_pos List.length_nil]
  · unfold BWTS.Inverse
    rw [if_neg h1, if_pos List.length_nil]

set_option maxRecDepth 100000 in
/-- C16 as stated fails: `Forward` on `"banana"` does not write `"nnbaaa"`, and
`Inverse` on `"nnbaaa"` gives `"abanan"`, not `"banana"`. -/
theorem bwts_banana_counterexample :
    (NewBWTS.Forward false [98, 97, 110, 97, 110, 97] (List.replicate 6 0)).map Result.dst ≠
      some [110, 110, 98, 97, 97, 97] ∧
    (NewBWTS.Inverse false [110, 110, 98, 97, 97, 97] (List.replicate 6 0)).map Result.dst ≠
      some [98, 97, 110, 97, 110, 97] := by
  decide

set_option maxRecDepth 100000 in
/-- Amended C16 (BWTS concrete scenario): `Forward` on the 6-byte input
`"banana"` reads and writes 6 bytes without error and produces `"annbaa"`, and
`Inverse` on `"annbaa"` reads and writes 6 bytes without error and produces
`"banana"`. -/
theorem bwts_banana :
    (NewBWTS.Forward false [98, 97, 110, 97, 110, 97] (List.replicate 6 0)).map
        (fun r => (r.read, r.written, r.err, r.dst)) =
      some (6, 6, false, [97, 110, 110, 98, 97, 97]) ∧
    (NewBWTS.Inverse false [97, 110, 110, 98, 97, 97] (List.replicate 6 0)).map
        (fun r => (r.read, r.written, r.err, r.dst)) =
      some (6, 6, false, [98, 97, 110, 97, 110, 97]) := by
  decide

theorem optLT_irrefl (a : Option Nat) : ¬ optLT a a := by
  cases a <;> simp [optLT]

theorem optLT_trans (a b c : Option Nat) (h1 : optLT a b) (h2 : optLT b c) : optLT a c := by
  cases a <;> cases b <;> cases c <;> simp [optLT] at *
  omega

theorem optLT_asymm (a b : Option Nat) (h1 : optLT a b) (h2 : optLT b a) : False :=
  optLT_irrefl a (optLT_trans a b a h1 h2)

theorem optLT_total (a b : Option Nat) (h : a ≠ b) : optLT a b ∨ optLT b a := by
  cases a <;> cases b <;> simp [optLT] at *
  omega

theorem optLT_ne (a b : Option Nat) (h : optLT a b) : a ≠ b := by
  intro hc
  rw [hc] at h
  exact optLT_irrefl b h

theorem SLT_irrefl (f : Nat → Option Nat) : ¬ SLT f f := by
  rintro ⟨t, _, h⟩
  exact optLT_irrefl _ h

theorem SLT_trans (f g k : Nat → Option Nat) (h1 : SLT f g) (h2 : SLT g k) : SLT f k := by
  obtain ⟨t, ht, hlt⟩ := h1
  obtain ⟨u, hu, hlu⟩ := h2
  rcases Nat.lt_trichotomy t u with h | h | h
  · exact ⟨t, fun s hs => (ht s hs).trans (hu s (by omega)), by rw [← hu t h]; exact hlt⟩
  · subst h
    exact ⟨t, fun s hs => (ht s hs).trans (hu s hs), optLT_trans _ _ _ hlt hlu⟩
  · exact ⟨u, fun s hs => (ht s (by omega)).trans (hu s hs), by rw [ht u h]; exact hlu⟩

theorem SLT_asymm (f g : Nat → Option Nat) (h1 : SLT f g) (h2 : SLT g f) : False :=
  SLT_irrefl f (SLT_trans f g f h1 h2)

theorem SLT_total (f g : Nat → Option Nat) (h : f ≠ g) : SLT f g ∨ SLT g f := by
  classical
  have hex : ∃ t, f t ≠ g t := by
    by_contra hc
    push_neg at hc
    exact h (funext hc)
  have hmin : ∀ s, s < Nat.find hex → f s = g s := by
    intro s hs
    by_contra hc
    exact Nat.find_min hex hs hc
  rcases optLT_total _ _ (Nat.find_spec hex) with h1 | h1
  · exact Or.inl ⟨_, hmin, h1⟩
  · exact Or.inr ⟨_, fun s hs => (hmin s hs).symm, h1⟩

theorem SLT_ne (f g : Nat → Option Nat) (h : SLT f g) : f ≠ g := by
  intro hc
  rw [hc] at h
  exact SLT_irrefl g h

/-- Streams that agree on their first `k` characters are in the order of what
follows. -/
theorem SLT_shift (f g : Nat → Option Nat) (k : Nat) (h : ∀ s, s < k → f s = g s) :
    SLT f g ↔ SLT (fun t => f (t + k)) (fun t => g (t + k)) := by
  constructor
  · rintro ⟨t, ht, hlt⟩
    have hk : k ≤ t := by
      by_contra hc
      exact optLT_ne _ _ hlt (h t (by omega))
    refine ⟨t - k, fun s hs => ht (s + k) (by omega), ?_⟩
    have : t - k + k = t := by omega
    simp only [this]
    exact hlt
  · rintro ⟨t, ht, hlt⟩
    refine ⟨t + k, fun s hs => ?_, hlt⟩
    by_cases hs2 : s < k
    · exact h s hs2
    · have := ht (s - k) (by omega)
      have e : s - k + k = s := by omega
      simp only [e] at this
      exact this

/-- A mismatch decides the order. -/
theorem SLT_of_mismatch (f g : Nat → Option Nat) (t : Nat) (h : ∀ s, s < t → f s = g s)
    (hlt : optLT (f t) (g t)) : SLT f g := ⟨t, h, hlt⟩

/-- The stream `x` against the stream `wx`, which is `x` after a word `w` of
`k` characters, and against the stream `Y`, which is `w` over and over:
the two comparisons agree. -/
theorem SLT_per_agree (k : Nat) (hk : 0 < k) (Y x wx : Nat → Option Nat)
    (hY : ∀ t, Y (t + k) = Y t) (hw : ∀ t, t < k → wx t = Y t) (hx : ∀ t, wx (t + k) = x t)
    (t : Nat) (ht : ∀ s, s < t → x s = wx s) : ∀ s, s ≤ t → wx s = Y s := by
  intro s
  induction s using Nat.strong_induction_on with
  | _ s ih =>
    intro hs
    by_cases hsk : s < k
    · exact hw s hsk
    · have e : s - k + k = s := by omega
      have h1 : wx s = x (s - k) := by rw [← hx (s - k), e]
      have h2 : x (s - k) = wx (s - k) := ht (s - k) (by omega)
      have h3 : wx (s - k) = Y (s - k) := ih (s - k) (by omega) (by omega)
      have h4 : Y (s - k) = Y s := by rw [← hY (s - k), e]
      rw [h1, h2, h3, h4]

theorem SLT_per_lt (k : Nat) (hk : 0 < k) (Y x wx : Nat → Option Nat)
    (hY : ∀ t, Y (t + k) = Y t) (hw : ∀ t, t < k → wx t = Y t) (hx : ∀ t, wx (t + k) = x t)
    (h : SLT x wx) : SLT x Y := by
  obtain ⟨t, ht, hlt⟩ := h
  have hag := SLT_per_agree k hk Y x wx hY hw hx t ht
  exact ⟨t, fun s hs => (ht s hs).trans (hag s (by omega)), by rw [← hag t (le_refl _)]; exact hlt⟩

theorem SLT_per_gt (k : Nat) (hk : 0 < k) (Y x wx : Nat → Option Nat)
    (hY : ∀ t, Y (t + k) = Y t) (hw : ∀ t, t < k → wx t = Y t) (hx : ∀ t, wx (t + k) = x t)
    (h : SLT wx x) : SLT Y x := by
  obtain ⟨t, ht, hlt⟩ := h
  have hag := SLT_per_agree k hk Y x wx hY hw hx t (fun s hs => (ht s hs).symm)
  exact ⟨t, fun s hs => (hag s (by omega)).symm.trans (ht s hs),
    by rw [← hag t (le_refl _)]; exact hlt⟩

theorem stm_succ_some (src : List Nat) (σ : Nat → Option Nat) (t p q : Nat) (h : σ p = some q) :
    stm src σ (t + 1) p = stm src σ t q := by
  show (match σ p with | none => none | some q => stm src σ t q) = _
  rw [h]

theorem stm_succ_none (src : List Nat) (σ : Nat → Option Nat) (t p : Nat) (h : σ p = none) :
    stm src σ (t + 1) p = none := by
  show (match σ p with | none => none | some q => stm src σ t q) = _
  rw [h]

/-- From `h` on the streams are the suffixes. -/
theorem stm_open (src : List Nat) (σ : Nat → Option Nat) (h : Nat) (hs : Succ src σ h) :
    ∀ (t p : Nat), h ≤ p → stm src σ t p = src[p + t]?
  | 0, p, _ => rfl
  | t + 1, p, hp => by
    by_cases hlt : p + 1 < src.length
    · rw [stm_succ_some src σ t p (p + 1) (by rw [hs.open_ p hp, if_pos hlt]),
        stm_open src σ h hs t (p + 1) (by omega)]
      congr 1
      omega
    · rw [stm_succ_none src σ t p (by rw [hs.open_ p hp, if_neg hlt]),
        List.getElem?_eq_none (by omega)]

/-- The streams of the positions below `h` have no end. -/
theorem stm_closed_some (src : List Nat) (σ : Nat → Option Nat) (h : Nat) (hs : Succ src σ h)
    (hn : h ≤ src.length) : ∀ (t p : Nat), p < h → ∃ c, stm src σ t p = some c
  | 0, p, hp => ⟨_, List.getElem?_eq_getElem (show p < src.length by omega)⟩
  | t + 1, p, hp => by
    obtain ⟨q, hq, hσ⟩ := hs.closed p hp
    rw [stm_succ_some src σ t p q hσ]
    exact stm_closed_some src σ h hs hn t q hq

/-- What follows `k` characters of the stream of a position below `h` is the
stream of such a position. -/
theorem stm_closed_shift (src : List Nat) (σ : Nat → Option Nat) (h : Nat) (hs : Succ src σ h) :
    ∀ (k p : Nat), p < h → ∃ q, q < h ∧ ∀ t, stm src σ (t + k) p = stm src σ t q
  | 0, p, hp => ⟨p, hp, fun _ => rfl⟩
  | k + 1, p, hp => by
    obtain ⟨q, hq, hσ⟩ := hs.closed p hp
    obtain ⟨q2, hq2, h2⟩ := stm_closed_shift src σ h hs k q hq
    refine ⟨q2, hq2, fun t => ?_⟩
    rw [← h2 t]
    exact stm_succ_some src σ (t + k) p q hσ

theorem closeWord_ne (σ : Nat → Option Nat) (h i p : Nat) (hp : p + 1 ≠ i) :
    closeWord σ h i p = σ p := by
  simp only [closeWord, hp, if_false]

theorem closeWord_eq (σ : Nat → Option Nat) (h i p : Nat) (hp : p + 1 = i) :
    closeWord σ h i p = some h := by
  simp only [closeWord, hp, if_true]

/-- Closing a word leaves the streams of the positions before it as they are. -/
theorem stm_close_before (src : List Nat) (σ : Nat → Option Nat) (h i : Nat)
    (hw : Word src σ h i) : ∀ (t p : Nat), p < h → stm src (closeWord σ h i) t p = stm src σ t p
  | 0, p, _ => rfl
  | t + 1, p, hp => by
    obtain ⟨q, hq, hσ⟩ := hw.succ.closed p hp
    have hne : p + 1 ≠ i := by have := hw.hi; omega
    rw [stm_succ_some src _ t p q (by rw [closeWord_ne σ h i p hne, hσ]),
      stm_succ_some src σ t p q hσ]
    exact stm_close_before src σ h i hw t q hq

/-- Closing a word leaves the streams of the positions after it as they are. -/
theorem stm_close_after (src : List Nat) (σ : Nat → Option Nat) (h i : Nat)
    (hw : Word src σ h i) : ∀ (t p : Nat), i ≤ p → stm src (closeWord σ h i) t p = src[p + t]?
  | 0, p, _ => rfl
  | t + 1, p, hp => by
    have hne : p + 1 ≠ i := by omega
    have hhp : h ≤ p := by have := hw.hi; omega
    by_cases hlt : p + 1 < src.length
    · rw [stm_succ_some src _ t p (p + 1)
        (by rw [closeWord_ne σ h i p hne, hw.succ.open_ p hhp, if_pos hlt]),
        stm_close_after src σ h i hw t (p + 1) (by omega)]
      congr 1
      omega
    · rw [stm_succ_none src _ t p
        (by rw [closeWord_ne σ h i p hne, hw.succ.open_ p hhp, if_neg hlt]),
        List.getElem?_eq_none (by omega)]

/-- The stream of a position of a closed word starts with the rest of the word. -/
theorem stm_close_word (src : List Nat) (σ : Nat → Option Nat) (h i : Nat)
    (hw : Word src σ h i) : ∀ (t p : Nat), h ≤ p → p + t < i →
      stm src (closeWord σ h i) t p = src[p + t]?
  | 0, p, _, _ => rfl
  | t + 1, p, hp, hpt => by
    have hne : p + 1 ≠ i := by omega
    have hlt : p + 1 < src.length := by have := hw.le; omega
    rw [stm_succ_some src _ t p (p + 1)
        (by rw [closeWord_ne σ h i p hne, hw.succ.open_ p hp, if_pos hlt]),
      stm_close_word src σ h i hw t (p + 1) (by omega) (by omega)]
    congr 1
    omega

/-- After the rest of the word the stream of a position of a closed word goes
on with the stream of the head of the word. -/
theorem stm_close_wrap (src : List Nat) (σ : Nat → Option Nat) (h i : Nat)
    (hw : Word src σ h i) : ∀ (d p : Nat), h ≤ p → p + (d + 1) = i → ∀ t,
      stm src (closeWord σ h i) (t + (d + 1)) p = stm src (closeWord σ h i) t h
  | 0, p, hp, hd => by
    intro t
    exact stm_succ_some src _ t p h (closeWord_eq σ h i p hd)
  | d + 1, p, hp, hd => by
    intro t
    have hne : p + 1 ≠ i := by omega
    have hlt : p + 1 < src.length := by have := hw.le; omega
    have e : t + (d + 1 + 1) = (t + (d + 1)) + 1 := by omega
    rw [e, stm_succ_some src _ (t + (d + 1)) p (p + 1)
        (by rw [closeWord_ne σ h i p hne, hw.succ.open_ p hp, if_pos hlt])]
    exact stm_close_wrap src σ h i hw d (p + 1) (by omega) (by omega) t

theorem strm_open (src : List Nat) (σ : Nat → Option Nat) (h : Nat) (hs : Succ src σ h)
    (p : Nat) (hp : h ≤ p) : strm src σ p = sfx src p :=
  funext fun t => stm_open src σ h hs t p hp

theorem strm_close_before (src : List Nat) (σ : Nat → Option Nat) (h i : Nat)
    (hw : Word src σ h i) (p : Nat) (hp : p < h) :
    strm src (closeWord σ h i) p = strm src σ p :=
  funext fun t => stm_close_before src σ h i hw t p hp

theorem strm_close_after (src : List Nat) (σ : Nat → Option Nat) (h i : Nat)
    (hw : Word src σ h i) (p : Nat) (hp : i ≤ p) :
    strm src (closeWord σ h i) p = sfx src p :=
  funext fun t => stm_close_after src σ h i hw t p hp

/-- The stream of the head of a closed word is periodic. -/
theorem strm_head_period (src : List Nat) (σ : Nat → Option Nat) (h i : Nat)
    (hw : Word src σ h i) (t : Nat) :
    strm src (closeWord σ h i) h (t + (i - h)) = strm src (closeWord σ h i) h t := by
  have := hw.hi
  have e : i - h = (i - h - 1) + 1 := by omega
  rw [e]
  exact stm_close_wrap src σ h i hw (i - h - 1) h (le_refl _) (by omega) t

/-- A stream of a closed word after `k` of its characters is a stream of the
closed word. -/
theorem stm_word_shift (src : List Nat) (σ : Nat → Option Nat) (h i : Nat)
    (hw : Word src σ h i) : ∀ (k p : Nat), h ≤ p → p < i →
      ∃ q, h ≤ q ∧ q < i ∧ ∀ t, stm src (closeWord σ h i) (t + k) p =
        stm src (closeWord σ h i) t q
  | 0, p, hp, hpi => ⟨p, hp, hpi, fun _ => rfl⟩
  | k + 1, p, hp, hpi => by
    by_cases hlast : p + 1 = i
    · obtain ⟨q, hq1, hq2, hq⟩ := stm_word_shift src σ h i hw k h (le_refl _) hw.hi
      refine ⟨q, hq1, hq2, fun t => ?_⟩
      rw [← hq t]
      exact stm_succ_some src _ (t + k) p h (closeWord_eq σ h i p hlast)
    · obtain ⟨q, hq1, hq2, hq⟩ := stm_word_shift src σ h i hw k (p + 1) (by omega) (by omega)
      refine ⟨q, hq1, hq2, fun t => ?_⟩
      rw [← hq t]
      have hlt : p + 1 < src.length := by have := hw.le; omega
      exact stm_succ_some src _ (t + k) p (p + 1)
        (by rw [closeWord_ne σ h i p hlast, hw.succ.open_ p hp, if_pos hlt])

/-- Inside a word that is found, the rest of the word at `p` and the word
differ before the rest ends, and the rest is above. -/
theorem word_mismatch (src : List Nat) (σ : Nat → Option Nat) (h i : Nat)
    (hw : Word src σ h i) (p : Nat) (hp : h < p) (hpi : p < i) :
    ∃ t, p + t < i ∧ (∀ s, s < t → src[h + s]? = src[p + s]?) ∧
      optLT src[h + t]? src[p + t]? := by
  obtain ⟨t, ht, hlt⟩ := hw.inner p hp hpi
  by_cases hin : p + t < i
  · exact ⟨t, hin, ht, hlt⟩
  · exfalso
    have hsh := (SLT_shift (sfx src h) (sfx src p) (i - p) (fun s hs => ht s (by omega))).mp
      ⟨t, ht, hlt⟩
    have h1 : (fun t => sfx src p (t + (i - p))) = sfx src i := by
      funext t
      show src[p + (t + (i - p))]? = src[i + t]?
      congr 1
      omega
    have h2 : (fun t => sfx src h (t + (i - p))) = sfx src (h + (i - p)) := by
      funext t
      show src[h + (t + (i - p))]? = src[h + (i - p) + t]?
      congr 1
      omega
    rw [h1, h2] at hsh
    exact SLT_asymm _ _ hsh (hw.next (h + (i - p)) (by omega) (by omega))

/-- A stream that starts with the word is below a stream that starts with the
rest of the word at `p`. -/
theorem word_lt (src : List Nat) (σ : Nat → Option Nat) (h i : Nat)
    (hw : Word src σ h i) (p : Nat) (hp : h < p) (hpi : p < i) (f g : Nat → Option Nat)
    (hf : ∀ s, p + s < i → f s = src[h + s]?) (hg : ∀ s, p + s < i → g s = src[p + s]?) :
    SLT f g := by
  obtain ⟨t, hin, ht, hlt⟩ := word_mismatch src σ h i hw p hp hpi
  refine ⟨t, fun s hs => ?_, ?_⟩
  · rw [hf s (by omega), hg s (by omega)]
    exact ht s hs
  · rw [hf t hin, hg t hin]
    exact hlt

/-- The stream of the head of the closed word is below those of its other
positions. -/
theorem head_lt_close (src : List Nat) (σ : Nat → Option Nat) (h i : Nat)
    (hw : Word src σ h i) (p : Nat) (hp : h < p) (hpi : p < i) :
    SLT (strm src (closeWord σ h i) h) (strm src (closeWord σ h i) p) :=
  word_lt src σ h i hw p hp hpi _ _
    (fun s hs => stm_close_word src σ h i hw s h (le_refl _) (by omega))
    (fun s hs => stm_close_word src σ h i hw s p (by omega) hs)

/-- The stream of the head of the closed word is below the suffixes inside the
word. -/
theorem head_lt_sfx (src : List Nat) (σ : Nat → Option Nat) (h i : Nat)
    (hw : Word src σ h i) (p : Nat) (hp : h < p) (hpi : p < i) :
    SLT (strm src (closeWord σ h i) h) (sfx src p) :=
  word_lt src σ h i hw p hp hpi _ _
    (fun s hs => stm_close_word src σ h i hw s h (le_refl _) (by omega))
    (fun s _ => rfl)

/-- The suffix at the end of the word is below the stream of its head. -/
theorem next_lt_head (src : List Nat) (σ : Nat → Option Nat) (h i : Nat)
    (hw : Word src σ h i) : SLT (sfx src i) (strm src (closeWord σ h i) h) := by
  have := hw.hi
  refine SLT_per_lt (i - h) (by omega) _ (sfx src i) (sfx src h)
    (strm_head_period src σ h i hw) ?_ ?_ (hw.next h (le_refl _) hw.hi)
  · intro t ht
    exact (stm_close_word src σ h i hw t h (le_refl _) (by omega)).symm
  · intro t
    show src[h + (t + (i - h))]? = src[i + t]?
    congr 1
    omega

/-- The suffix at the end of the word is below the streams of the closed word. -/
theorem next_lt_close (src : List Nat) (σ : Nat → Option Nat) (h i : Nat)
    (hw : Word src σ h i) (p : Nat) (hp : h ≤ p) (hpi : p < i) :
    SLT (sfx src i) (strm src (closeWord σ h i) p) := by
  by_cases hph : p = h
  · rw [hph]; exact next_lt_head src σ h i hw
  · exact SLT_trans _ _ _ (next_lt_head src σ h i hw)
      (head_lt_close src σ h i hw p (by omega) hpi)

/-- The streams of the positions before the word are not below the stream of
the head of the closed word. -/
theorem before_not_lt_head (src : List Nat) (σ : Nat → Option Nat) (h i : Nat)
    (hw : Word src σ h i) : ∀ (t p : Nat), p < h →
      (∀ s, s < t → strm src σ p s = strm src (closeWord σ h i) h s) →
      optLT (strm src σ p t) (strm src (closeWord σ h i) h t) → False := by
  intro t
  induction t using Nat.strong_induction_on with
  | _ t ih =>
    intro p hp ht hlt
    have hhi := hw.hi
    by_cases htk : t < i - h
    · obtain ⟨u, hu, hlu⟩ := hw.before p hp
      have hY : ∀ s, s ≤ t → strm src (closeWord σ h i) h s = sfx src h s := fun s hs =>
        stm_close_word src σ h i hw s h (le_refl _) (by omega)
      rcases Nat.lt_trichotomy u t with h1 | h1 | h1
      · rw [← hY u (by omega), ← ht u h1] at hlu
        exact optLT_irrefl _ hlu
      · rw [h1] at hlu
        rw [hY t (le_refl _)] at hlt
        exact optLT_asymm _ _ hlt hlu
      · rw [hY t (le_refl _), hu t h1] at hlt
        exact optLT_irrefl _ hlt
    · obtain ⟨q, hq, hsh⟩ := stm_closed_shift src σ h hw.succ (i - h) p hp
      refine ih (t - (i - h)) (by omega) q hq (fun s hs => ?_) ?_
      · have h1 := ht (s + (i - h)) (by omega)
        rw [strm_head_period src σ h i hw s] at h1
        rw [← h1]
        exact (hsh s).symm
      · have e : t - (i - h) + (i - h) = t := by omega
        have h1 := hsh (t - (i - h))
        rw [e] at h1
        have h2 := strm_head_period src σ h i hw (t - (i - h))
        rw [e] at h2
        show optLT (stm src σ (t - (i - h)) q) _
        rw [← h1, ← h2]
        exact hlt

theorem before_not_lt_head2 (src : List Nat) (σ : Nat → Option Nat) (h i : Nat)
    (hw : Word src σ h i) (p : Nat) (hp : p < h) :
    ¬ SLT (strm src σ p) (strm src (closeWord σ h i) h) := by
  rintro ⟨t, ht, hlt⟩
  exact before_not_lt_head src σ h i hw t p hp ht hlt

theorem Below_asymm (src : List Nat) (σ : Nat → Option Nat) (a b : Nat)
    (h1 : Below src σ a b) (h2 : Below src σ b a) : False := by
  rcases h1 with h1 | ⟨e1, l1⟩
  · rcases h2 with h2 | ⟨e2, _⟩
    · exact SLT_asymm _ _ h1 h2
    · exact SLT_ne _ _ h1 e2.symm
  · rcases h2 with h2 | ⟨_, l2⟩
    · exact SLT_ne _ _ h2 e1.symm
    · omega

theorem Below_total (src : List Nat) (σ : Nat → Option Nat) (a b : Nat) (hab : a ≠ b) :
    Below src σ a b ∨ Below src σ b a := by
  by_cases he : strm src σ a = strm src σ b
  · rcases Nat.lt_or_gt_of_ne hab with h | h
    · exact Or.inr (Or.inr ⟨he.symm, h⟩)
    · exact Or.inl (Or.inr ⟨he, h⟩)
  · rcases SLT_total _ _ he with h | h
    · exact Or.inl (Or.inl h)
    · exact Or.inr (Or.inl h)

theorem Below_trans (src : List Nat) (σ : Nat → Option Nat) (a b c : Nat)
    (h1 : Below src σ a b) (h2 : Below src σ b c) : Below src σ a c := by
  rcases h1 with h1 | ⟨e1, l1⟩
  · rcases h2 with h2 | ⟨e2, _⟩
    · exact Or.inl (SLT_trans _ _ _ h1 h2)
    · exact Or.inl (by rw [← e2]; exact h1)
  · rcases h2 with h2 | ⟨e2, l2⟩
    · exact Or.inl (by rw [e1]; exact h2)
    · exact Or.inr ⟨e1.trans e2, by omega⟩

/-- Closing a word gives the successors of the next stage. -/
theorem succ_close (src : List Nat) (σ : Nat → Option Nat) (h i : Nat) (hw : Word src σ h i) :
    Succ src (closeWord σ h i) i := by
  have hhi := hw.hi
  constructor
  · intro p hp
    rw [closeWord_ne σ h i p (by omega)]
    exact hw.succ.open_ p (by omega)
  · intro p hp
    by_cases hlast : p + 1 = i
    · exact ⟨h, hhi, closeWord_eq σ h i p hlast⟩
    · rw [closeWord_ne σ h i p hlast]
      by_cases hph : p < h
      · obtain ⟨q, hq, hσ⟩ := hw.succ.closed p hph
        exact ⟨q, by omega, hσ⟩
      · refine ⟨p + 1, by omega, ?_⟩
        rw [hw.succ.open_ p (by omega), if_pos (by have := hw.le; omega)]

/-- The suffixes at two positions of `src` are different streams. -/
theorem sfx_ne (src : List Nat) (a b : Nat) (ha : a < src.length) (hab : a < b) :
    sfx src a ≠ sfx src b := by
  intro hc
  have h1 := congrFun hc (src.length - b)
  simp only [sfx] at h1
  by_cases hb : b ≤ src.length
  · rw [List.getElem?_eq_none (show src.length ≤ b + (src.length - b) by omega)] at h1
    have := List.getElem?_eq_getElem (show a + (src.length - b) < src.length by omega)
    rw [this] at h1
    cases h1
  · have h2 := congrFun hc 0
    simp only [sfx] at h2
    rw [List.getElem?_eq_none (show src.length ≤ b + 0 by omega),
      List.getElem?_eq_getElem (show a + 0 < src.length by omega)] at h2
    cases h2

/-- A stream without an end is not a suffix. -/
theorem strm_ne_sfx (src : List Nat) (σ : Nat → Option Nat) (h : Nat) (hs : Succ src σ h)
    (hn : h ≤ src.length) (p q : Nat) (hp : p < h) : strm src σ p ≠ sfx src q := by
  intro hc
  have h1 := congrFun hc src.length
  obtain ⟨c, hcs⟩ := stm_closed_some src σ h hs hn src.length p hp
  simp only [strm, sfx] at h1
  rw [hcs, List.getElem?_eq_none (by omega)] at h1
  cases h1

/-- The order of a position before the word and a position of the word does not
change when the word is closed. -/
theorem before_word_iff (src : List Nat) (σ : Nat → Option Nat) (h i : Nat)
    (hw : Word src σ h i) (a b : Nat) (ha : a < h) (hb : h ≤ b) (hbi : b < i) :
    SLT (strm src σ a) (sfx src b) ↔ SLT (strm src σ a) (strm src (closeWord σ h i) b) := by
  have hag : ∀ s, b + s < i → strm src (closeWord σ h i) b s = sfx src b s := fun s hs =>
    stm_close_word src σ h i hw s b hb hs
  constructor
  · rintro ⟨t, ht, hlt⟩
    by_cases hin : b + t < i
    · exact ⟨t, fun s hs => (ht s hs).trans (hag s (by omega)).symm, by rw [hag t hin]; exact hlt⟩
    · exfalso
      obtain ⟨q, hq, hsh⟩ := stm_closed_shift src σ h hw.succ (i - b) a ha
      have h1 := (SLT_shift _ _ (i - b) (fun s hs => ht s (by omega))).mp ⟨t, ht, hlt⟩
      have e1 : (fun t => strm src σ a (t + (i - b))) = strm src σ q := funext hsh
      have e2 : (fun t => sfx src b (t + (i - b))) = sfx src i := by
        funext t
        show src[b + (t + (i - b))]? = src[i + t]?
        congr 1
        omega
      rw [e1, e2] at h1
      exact SLT_asymm _ _ h1
        (SLT_trans _ _ _ (hw.next h (le_refl _) hw.hi) (hw.before q hq))
  · rintro ⟨t, ht, hlt⟩
    by_cases hin : b + t < i
    · exact ⟨t, fun s hs => (ht s hs).trans (hag s (by omega)), by rw [← hag t hin]; exact hlt⟩
    · exfalso
      obtain ⟨q, hq, hsh⟩ := stm_closed_shift src σ h hw.succ (i - b) a ha
      have h1 := (SLT_shift _ _ (i - b) (fun s hs => ht s (by omega))).mp ⟨t, ht, hlt⟩
      have e1 : (fun t => strm src σ a (t + (i - b))) = strm src σ q := funext hsh
      have e2 : (fun t => strm src (closeWord σ h i) b (t + (i - b))) =
          strm src (closeWord σ h i) h := by
        funext t
        have e : i - b = (i - b - 1) + 1 := by omega
        show stm src (closeWord σ h i) (t + (i - b)) b = _
        rw [e]
        exact stm_close_wrap src σ h i hw (i - b - 1) b hb (by omega) t
      rw [e1, e2] at h1
      exact before_not_lt_head2 src σ h i hw q hq h1

/-- The order of two positions of the word does not change when the word is
closed, and their streams are different. -/
theorem word_word_lt (src : List Nat) (σ : Nat → Option Nat) (h i : Nat)
    (hw : Word src σ h i) (a b : Nat) (ha : h ≤ a) (hab : a < b) (hbi : b < i) :
    (SLT (sfx src a) (sfx src b) → SLT (strm src (closeWord σ h i) a)
        (strm src (closeWord σ h i) b)) ∧
    (SLT (sfx src b) (sfx src a) → SLT (strm src (closeWord σ h i) b)
        (strm src (closeWord σ h i) a)) := by
  classical
  have hagA : ∀ s, a + s < i → strm src (closeWord σ h i) a s = sfx src a s := fun s hs =>
    stm_close_word src σ h i hw s a ha hs
  have hagB : ∀ s, b + s < i → strm src (closeWord σ h i) b s = sfx src b s := fun s hs =>
    stm_close_word src σ h i hw s b (by omega) hs
  by_cases hex : ∃ t, b + t < i ∧ sfx src a t ≠ sfx src b t
  · -- the rests of the word differ before the shorter one ends
    have hmin : ∀ s, s < Nat.find hex → sfx src a s = sfx src b s := by
      intro s hs
      by_contra hc
      exact Nat.find_min hex hs ⟨by have := (Nat.find_spec hex).1; omega, hc⟩
    obtain ⟨hin, hne⟩ := Nat.find_spec hex
    have key : ∀ (f g : Nat → Option Nat), SLT f g → (∀ s, s < Nat.find hex → f s = g s) →
        f (Nat.find hex) ≠ g (Nat.find hex) → optLT (f (Nat.find hex)) (g (Nat.find hex)) := by
      rintro f g ⟨t, ht, hlt⟩ hm hn
      rcases Nat.lt_trichotomy t (Nat.find hex) with h1 | h1 | h1
      · exact absurd (hm t h1) (optLT_ne _ _ hlt)
      · rw [← h1]; exact hlt
      · exact absurd (ht _ h1) hn
    constructor
    · intro hlt
      refine ⟨Nat.find hex, fun s hs => ?_, ?_⟩
      · rw [hagA s (by omega), hagB s (by omega)]
        exact hmin s hs
      · rw [hagA _ (by omega), hagB _ hin]
        exact key _ _ hlt hmin hne
    · intro hlt
      refine ⟨Nat.find hex, fun s hs => ?_, ?_⟩
      · rw [hagA s (by omega), hagB s (by omega)]
        exact (hmin s hs).symm
      · rw [hagA _ (by omega), hagB _ hin]
        exact key _ _ hlt (fun s hs => (hmin s hs).symm) (Ne.symm hne)
  · -- the shorter rest starts the longer one
    push_neg at hex
    have e1 : (fun t => sfx src a (t + (i - b))) = sfx src (a + (i - b)) := by
      funext t
      show src[a + (t + (i - b))]? = src[a + (i - b) + t]?
      congr 1
      omega
    have e2 : (fun t => sfx src b (t + (i - b))) = sfx src i := by
      funext t
      show src[b + (t + (i - b))]? = src[i + t]?
      congr 1
      omega
    constructor
    · intro hlt
      exfalso
      have h1 := (SLT_shift _ _ (i - b) (fun s hs => hex s (by omega))).mp hlt
      rw [e1, e2] at h1
      exact SLT_asymm _ _ h1 (hw.next (a + (i - b)) (by omega) (by omega))
    · intro _
      have hsh : ∀ s, s < i - b → strm src (closeWord σ h i) b s =
          strm src (closeWord σ h i) a s := by
        intro s hs
        rw [hagA s (by omega), hagB s (by omega)]
        exact (hex s (by omega)).symm
      rw [SLT_shift _ _ (i - b) hsh]
      have e3 : (fun t => strm src (closeWord σ h i) b (t + (i - b))) =
          strm src (closeWord σ h i) h := by
        funext t
        have e : i - b = (i - b - 1) + 1 := by omega
        show stm src (closeWord σ h i) (t + (i - b)) b = _
        rw [e]
        exact stm_close_wrap src σ h i hw (i - b - 1) b (by omega) (by omega) t
      rw [e3]
      refine word_lt src σ h i hw (a + (i - b)) (by omega) (by omega) _ _ ?_ ?_
      · intro s hs
        exact stm_close_word src σ h i hw s h (le_refl _) (by omega)
      · intro s hs
        show stm src (closeWord σ h i) (s + (i - b)) a = _
        rw [stm_close_word src σ h i hw (s + (i - b)) a ha (by omega)]
        congr 1
        omega

theorem strm_close_ne_word (src : List Nat) (σ : Nat → Option Nat) (h i : Nat)
    (hw : Word src σ h i) (a b : Nat) (ha : h ≤ a) (hab : a < b) (hbi : b < i) :
    strm src (closeWord σ h i) a ≠ strm src (closeWord σ h i) b := by
  have hn := hw.le
  obtain ⟨h1, h2⟩ := word_word_lt src σ h i hw a b ha hab hbi
  rcases SLT_total _ _ (sfx_ne src a b (by omega) hab) with h3 | h3
  · exact SLT_ne _ _ (h1 h3)
  · exact (SLT_ne _ _ (h2 h3)).symm

/-- Closing the word from `h` to `i` leaves the order of the positions up to `i`
as it is. -/
theorem below_close (src : List Nat) (σ : Nat → Option Nat) (h i : Nat)
    (hw : Word src σ h i) (a b : Nat) (ha : a ≤ i) (hb : b ≤ i) (han : a < src.length)
    (hbn : b < src.length) (hab : a ≠ b) (hlt : Below src σ a b) :
    Below src (closeWord σ h i) a b := by
  have hhi := hw.hi
  have hS := hw.succ
  by_cases ha1 : a < h
  · by_cases hb1 : b < h
    · -- both before the word
      unfold Below at hlt ⊢
      rw [strm_close_before src σ h i hw a ha1, strm_close_before src σ h i hw b hb1]
      exact hlt
    · by_cases hb2 : b < i
      · -- before the word and in the word
        rcases hlt with hlt | ⟨_, hlt⟩
        · left
          rw [strm_close_before src σ h i hw a ha1]
          rw [strm_open src σ h hS b (by omega)] at hlt
          exact (before_word_iff src σ h i hw a b ha1 (by omega) hb2).mp hlt
        · omega
      · -- before the word and after it
        unfold Below at hlt ⊢
        rw [strm_close_before src σ h i hw a ha1, strm_close_after src σ h i hw b (by omega)]
        rw [strm_open src σ h hS b (by omega)] at hlt
        exact hlt
  · by_cases ha2 : a < i
    · by_cases hb1 : b < h
      · -- in the word and before it
        rw [Below, strm_close_before src σ h i hw b hb1]
        by_cases he : strm src (closeWord σ h i) a = strm src σ b
        · exact Or.inr ⟨he, by omega⟩
        · rcases SLT_total _ _ he with h1 | h1
          · exact Or.inl h1
          · exfalso
            have h2 := (before_word_iff src σ h i hw b a hb1 (by omega) ha2).mpr h1
            rcases hlt with hlt | ⟨e, _⟩
            · rw [strm_open src σ h hS a (by omega)] at hlt
              exact SLT_asymm _ _ hlt h2
            · rw [strm_open src σ h hS a (by omega)] at e
              exact SLT_ne _ _ h2 e.symm
      · by_cases hb2 : b < i
        · -- both in the word
          have hlt2 : SLT (sfx src a) (sfx src b) := by
            rcases hlt with hlt | ⟨e, _⟩
            · rw [strm_open src σ h hS a (by omega), strm_open src σ h hS b (by omega)] at hlt
              exact hlt
            · rw [strm_open src σ h hS a (by omega), strm_open src σ h hS b (by omega)] at e
              rcases Nat.lt_or_gt_of_ne hab with h1 | h1
              · exact absurd e (sfx_ne src a b han h1)
              · exact absurd e.symm (sfx_ne src b a hbn h1)
          left
          rcases Nat.lt_or_gt_of_ne hab with h1 | h1
          · exact (word_word_lt src σ h i hw a b (by omega) h1 hb2).1 hlt2
          · exact (word_word_lt src σ h i hw b a (by omega) h1 ha2).2 hlt2
        · -- in the word and the position after it
          exfalso
          have hbi : b = i := by omega
          rcases hlt with hlt | ⟨_, hlt⟩
          · rw [strm_open src σ h hS a (by omega), strm_open src σ h hS b (by omega), hbi] at hlt
            exact SLT_asymm _ _ hlt (hw.next a (by omega) ha2)
          · omega
    · have hai : a = i := by omega
      by_cases hb1 : b < h
      · unfold Below at hlt ⊢
        rw [strm_close_after src σ h i hw a (by omega), strm_close_before src σ h i hw b hb1]
        rw [strm_open src σ h hS a (by omega)] at hlt
        exact hlt
      · left
        rw [strm_close_after src σ h i hw a (by omega), hai]
        exact next_lt_close src σ h i hw b (by omega) (by omega)

/-- A suffix after the word that is below a suffix inside the word is below the
stream of the closed word. -/
theorem sfx_lt_close (src : List Nat) (σ : Nat → Option Nat) (h i : Nat)
    (hw : Word src σ h i) (x b : Nat) (hx : h ≤ x) (hxi : x < i)
    (hlt : SLT (sfx src b) (sfx src x)) : SLT (sfx src b) (strm src (closeWord σ h i) x) := by
  have hag : ∀ s, x + s < i → strm src (closeWord σ h i) x s = sfx src x s := fun s hs =>
    stm_close_word src σ h i hw s x hx hs
  obtain ⟨t, ht, hl⟩ := hlt
  by_cases hin : x + t < i
  · exact ⟨t, fun s hs => (ht s hs).trans (hag s (by omega)).symm, by rw [hag t hin]; exact hl⟩
  · have hsh : ∀ s, s < i - x → sfx src b s = strm src (closeWord σ h i) x s := fun s hs =>
      (ht s (by omega)).trans (hag s (by omega)).symm
    rw [SLT_shift _ _ (i - x) hsh]
    have h1 := (SLT_shift _ _ (i - x) (fun s hs => ht s (by omega))).mp ⟨t, ht, hl⟩
    have e1 : (fun t => sfx src x (t + (i - x))) = sfx src i := by
      funext t
      show src[x + (t + (i - x))]? = src[i + t]?
      congr 1
      omega
    have e2 : (fun t => strm src (closeWord σ h i) x (t + (i - x))) =
        strm src (closeWord σ h i) h := by
      funext t
      have e : i - x = (i - x - 1) + 1 := by omega
      show stm src (closeWord σ h i) (t + (i - x)) x = _
      rw [e]
      exact stm_close_wrap src σ h i hw (i - x - 1) x hx (by omega) t
    rw [e1] at h1
    rw [e2]
    exact SLT_trans _ _ _ h1 (next_lt_head src σ h i hw)

/-- A stream of the closed word that is below another one is below the suffix
at the position of that one. -/
theorem close_lt_sfx (src : List Nat) (σ : Nat → Option Nat) (h i : Nat)
    (hw : Word src σ h i) (x q : Nat) (hx : h ≤ x) (hxi : x < i) (hq : h ≤ q) (hqi : q < i)
    (hlt : SLT (strm src (closeWord σ h i) x) (strm src (closeWord σ h i) q)) :
    SLT (strm src (closeWord σ h i) x) (sfx src q) := by
  have hag : ∀ s, q + s < i → strm src (closeWord σ h i) q s = sfx src q s := fun s hs =>
    stm_close_word src σ h i hw s q hq hs
  obtain ⟨t, ht, hl⟩ := hlt
  by_cases hin : q + t < i
  · exact ⟨t, fun s hs => (ht s hs).trans (hag s (by omega)), by rw [← hag t hin]; exact hl⟩
  · exfalso
    have h1 := (SLT_shift _ _ (i - q) (fun s hs => ht s (by omega))).mp ⟨t, ht, hl⟩
    obtain ⟨x2, hx2, hx2i, hsh⟩ := stm_word_shift src σ h i hw (i - q) x hx hxi
    have e1 : (fun t => strm src (closeWord σ h i) x (t + (i - q))) =
        strm src (closeWord σ h i) x2 := funext hsh
    have e2 : (fun t => strm src (closeWord σ h i) q (t + (i - q))) =
        strm src (closeWord σ h i) h := by
      funext t
      have e : i - q = (i - q - 1) + 1 := by omega
      show stm src (closeWord σ h i) (t + (i - q)) q = _
      rw [e]
      exact stm_close_wrap src σ h i hw (i - q - 1) q hq (by omega) t
    rw [e1, e2] at h1
    by_cases hxh : x2 = h
    · rw [hxh] at h1
      exact SLT_irrefl _ h1
    · exact SLT_asymm _ _ h1 (head_lt_close src σ h i hw x2 (by omega) hx2i)

/-- Ranks that follow an order without cycles of two, and that are different
for different positions, tell the order. -/
theorem ranked_lt (B : Nat → Nat → Prop) (n : Nat) (vr : Nat → Nat) (hr : RankedBy B n vr)
    (hinj : ∀ a b, a < n → b < n → vr a = vr b → a = b)
    (hasym : ∀ a b, B a b → B b a → False) (a b : Nat) (ha : a < n) (hb : b < n)
    (hab : B a b) : vr a < vr b := by
  by_contra hc
  have hne : a ≠ b := by
    intro e
    rw [e] at hab
    exact hasym b b hab hab
  have hne2 : vr a ≠ vr b := fun e => hne (hinj a b ha hb e)
  exact hasym a b hab (hr b a hb ha (Ne.symm hne) (by omega))

/-- Closing a word leaves the order of the positions outside it as it is. -/
theorem below_close_out (src : List Nat) (σ : Nat → Option Nat) (h i : Nat)
    (hw : Word src σ h i) (a b : Nat) (ha : a < h ∨ i ≤ a) (hb : b < h ∨ i ≤ b)
    (hlt : Below src σ a b) : Below src (closeWord σ h i) a b := by
  have hhi := hw.hi
  have e : ∀ p, p < h ∨ i ≤ p → strm src (closeWord σ h i) p = strm src σ p := by
    intro p hp
    rcases hp with hp | hp
    · exact strm_close_before src σ h i hw p hp
    · rw [strm_close_after src σ h i hw p hp, strm_open src σ h hw.succ p (by omega)]
  unfold Below
  rw [e a ha, e b hb]
  exact hlt

/-- The order of a position of the word and a position after `i`, before the
word is closed. -/
theorem below_open_sfx (src : List Nat) (σ : Nat → Option Nat) (h : Nat) (hs : Succ src σ h)
    (a b : Nat) (ha : h ≤ a) (hb : h ≤ b) (hlt : Below src σ a b) :
    SLT (sfx src a) (sfx src b) ∨ (sfx src a = sfx src b ∧ b < a) := by
  unfold Below at hlt
  rw [strm_open src σ h hs a ha, strm_open src σ h hs b hb] at hlt
  exact hlt

theorem below_open_slt (src : List Nat) (σ : Nat → Option Nat) (h : Nat) (hs : Succ src σ h)
    (a b : Nat) (ha : h ≤ a) (hb : h ≤ b) (hbn : b < src.length)
    (hlt : Below src σ a b) : SLT (sfx src a) (sfx src b) := by
  rcases below_open_sfx src σ h hs a b ha hb hlt with h1 | ⟨e, l⟩
  · exact h1
  · exact absurd e.symm (sfx_ne src b a hbn l)

/-- The order of a position of the closed word and a position after `i`. -/
theorem below_close_slt (src : List Nat) (σ : Nat → Option Nat) (h i : Nat)
    (hw : Word src σ h i) (x b : Nat) (hx : x < i) (hb : i ≤ b)
    (hlt : Below src (closeWord σ h i) x b) :
    SLT (strm src (closeWord σ h i) x) (sfx src b) := by
  rcases hlt with h1 | ⟨_, l⟩
  · rw [strm_close_after src σ h i hw b hb] at h1
    exact h1
  · omega

theorem below_close_slt2 (src : List Nat) (σ : Nat → Option Nat) (h i : Nat)
    (hw : Word src σ h i) (x b : Nat) (hx : x < i) (hb : i ≤ b)
    (hlt : Below src (closeWord σ h i) b x) :
    SLT (sfx src b) (strm src (closeWord σ h i) x) := by
  rcases hlt with h1 | ⟨e, _⟩
  · rw [strm_close_after src σ h i hw b hb] at h1
    exact h1
  · exfalso
    rw [strm_close_after src σ h i hw b hb] at e
    exact strm_ne_sfx src _ i (succ_close src σ h i hw) hw.le x b hx e.symm

/-- The ranks before a position of the word moves. -/
theorem moving_init (src : List Nat) (σ : Nat → Option Nat) (h i : Nat) (hw : Word src σ h i)
    (U : Nat → Prop) (x : Nat) (vr : Nat → Nat) (hx : h ≤ x) (hxi : x < i) (hUx : U x)
    (hinj : ∀ a b, a < src.length → b < src.length → vr a = vr b → a = b)
    (hr : RankedBy (Cur src σ h i U) src.length vr) : Moving src σ h i U x vr := by
  refine ⟨hinj, fun a c ha hc hac _ _ hlt => hr a c ha hc hac hlt, ?_,
    fun b hb hbx hlt => hr x b (by have := hw.le; omega) hb (Ne.symm hbx) hlt⟩
  intro b hb hbx hlt
  have hcur := hr b x hb (by have := hw.le; omega) hbx hlt
  by_cases hbi : i < b
  · have h1 := hcur.1 (Or.inr ⟨hUx, hbi⟩)
    have h2 := below_open_slt src σ h hw.succ b x (by have := hw.hi; omega) hx
      (by have := hw.le; omega) h1
    left
    rw [strm_close_after src σ h i hw b (by omega)]
    exact sfx_lt_close src σ h i hw x b hx hxi h2
  · exact hcur.2 (by
      rintro (⟨_, h1⟩ | ⟨_, h1⟩)
      · omega
      · exact hbi h1)

/-- The position `x` goes above `b`, the position right above it, which is
below it with the word closed. -/
theorem moving_pass (src : List Nat) (σ : Nat → Option Nat) (h i : Nat) (U : Nat → Prop)
    (x b : Nat) (vr vr2 : Nat → Nat) (hm : Moving src σ h i U x vr)
    (hxn : x < src.length) (hbn : b < src.length) (hb : vr b = vr x + 1)
    (hlt : Below src (closeWord σ h i) b x)
    (h2 : ∀ p, vr2 p = if p = x then vr x + 1 else if p = b then vr x else vr p) :
    Moving src σ h i U x vr2 := by
  have hbx : b ≠ x := by
    intro e
    rw [e] at hb
    omega
  have hne : ∀ p, p < src.length → p ≠ x → p ≠ b → vr p ≠ vr x ∧ vr p ≠ vr x + 1 := by
    intro p hp hpx hpb
    exact ⟨fun e => hpx (hm.inj p x hp hxn e), fun e => hpb (hm.inj p b hp hbn (by rw [e, hb]))⟩
  constructor
  · intro a c ha hc hac
    rw [h2 a, h2 c] at hac
    by_contra hnac
    by_cases hax : a = x
    · rw [if_pos hax] at hac
      have hcx : c ≠ x := fun e => hnac (hax.trans e.symm)
      rw [if_neg hcx] at hac
      by_cases hcb : c = b
      · rw [if_pos hcb] at hac; omega
      · rw [if_neg hcb] at hac
        exact (hne c hc hcx hcb).2 hac.symm
    · rw [if_neg hax] at hac
      by_cases hab : a = b
      · rw [if_pos hab] at hac
        by_cases hcx : c = x
        · rw [if_pos hcx] at hac; omega
        · rw [if_neg hcx] at hac
          have hcb : c ≠ b := fun e => hnac (hab.trans e.symm)
          rw [if_neg hcb] at hac
          exact (hne c hc hcx hcb).1 hac.symm
      · rw [if_neg hab] at hac
        by_cases hcx : c = x
        · rw [if_pos hcx] at hac
          exact (hne a ha hax hab).2 hac
        · rw [if_neg hcx] at hac
          by_cases hcb : c = b
          · rw [if_pos hcb] at hac
            exact (hne a ha hax hab).1 hac
          · rw [if_neg hcb] at hac
            exact hnac (hm.inj a c ha hc hac)
  · intro a c ha hc hac hax hcx
    rw [h2 a, h2 c, if_neg hax, if_neg hcx]
    intro hlt2
    apply hm.others a c ha hc hac hax hcx
    by_cases hab : a = b
    · rw [if_pos hab] at hlt2
      have hcb : c ≠ b := fun e => hac (hab.trans e.symm)
      rw [if_neg hcb] at hlt2
      have := hne c hc hcx hcb
      rw [hab, hb]
      omega
    · rw [if_neg hab] at hlt2
      by_cases hcb : c = b
      · rw [if_pos hcb] at hlt2
        rw [hcb, hb]
        omega
      · rw [if_neg hcb] at hlt2
        exact hlt2
  · intro p hp hpx
    rw [h2 p, h2 x, if_neg hpx, if_pos rfl]
    intro hlt2
    by_cases hpb : p = b
    · rw [hpb]; exact hlt
    · rw [if_neg hpb] at hlt2
      have := hne p hp hpx hpb
      exact hm.lower p hp hpx (by omega)
  · intro p hp hpx
    rw [h2 p, h2 x, if_neg hpx, if_pos rfl]
    intro hlt2
    by_cases hpb : p = b
    · rw [if_pos hpb] at hlt2
      omega
    · rw [if_neg hpb] at hlt2
      exact hm.upper p hp hpx (by omega)

/-- A position up to `i` that is above `x`, which moves, is above it with the
word closed. -/
theorem moving_upper_le (src : List Nat) (σ : Nat → Option Nat) (h i : Nat) (U : Nat → Prop)
    (x b : Nat) (vr : Nat → Nat) (hm : Moving src σ h i U x vr) (hxi : x < i)
    (hbn : b < src.length) (hbx : b ≠ x) (hbi : b ≤ i) (hlt : vr x < vr b) :
    Below src (closeWord σ h i) x b :=
  (hm.upper b hbn hbx hlt).2 (by
    rintro (⟨_, h1⟩ | ⟨_, h1⟩)
    · omega
    · omega)

theorem cur_of_below (src : List Nat) (σ : Nat → Option Nat) (h i : Nat) (U : Nat → Prop)
    (a b : Nat) (hmix : ¬ Mixed i U a b) (hlt : Below src (closeWord σ h i) a b) :
    Cur src σ h i U a b :=
  ⟨fun hc => absurd hc hmix, fun _ => hlt⟩

/-- The position `x` stops below `q`, the position right above it, which is
above it with the word closed: the ranks follow the order, `x` being moved. -/
theorem moving_stop (src : List Nat) (σ : Nat → Option Nat) (h i : Nat) (hw : Word src σ h i)
    (U U2 : Nat → Prop) (x : Nat) (vr : Nat → Nat) (hm : Moving src σ h i U x vr)
    (hx : h ≤ x) (hxi : x < i) (hUF : ∀ p, U p → h ≤ p ∧ p < i)
    (hU2 : ∀ p, U2 p ↔ (U p ∧ p ≠ x))
    (hq : (∀ b, b < src.length → vr b ≤ vr x) ∨
      ∃ q, q < src.length ∧ vr q = vr x + 1 ∧ Below src (closeWord σ h i) x q) :
    RankedBy (Cur src σ h i U2) src.length vr := by
  have hxn : x < src.length := by have := hw.le; omega
  have hnomix : ∀ c, ¬ Mixed i U2 x c := by
    intro c
    rintro (⟨h1, _⟩ | ⟨_, h1⟩)
    · exact ((hU2 x).mp h1).2 rfl
    · omega
  have hnomix2 : ∀ c, ¬ Mixed i U2 c x := by
    intro c
    rintro (⟨_, h1⟩ | ⟨h1, _⟩)
    · omega
    · exact ((hU2 x).mp h1).2 rfl
  intro a c ha hc hac hlt
  by_cases hax : a = x
  · rw [hax] at hlt ⊢
    have hcx : c ≠ x := fun e => hac (hax.trans e.symm)
    apply cur_of_below _ _ _ _ _ _ _ (hnomix c)
    by_cases hci : c ≤ i
    · exact moving_upper_le src σ h i U x c vr hm hxi hc hcx hci hlt
    · rcases hq with hq | ⟨q, hqn, hqv, hqb⟩
      · have := hq c hc
        omega
      · by_cases hcq : c = q
        · rw [hcq]; exact hqb
        · have hqx : q ≠ x := by
            intro e
            rw [e] at hqv
            omega
          have hvne : vr c ≠ vr q := fun e => hcq (hm.inj c q hc hqn e)
          have hqc := hm.others q c hqn hc (Ne.symm hcq) hqx hcx (by omega)
          by_cases hUq : U q
          · have hqF := hUF q hUq
            have h1 := hqc.1 (Or.inl ⟨hUq, by omega⟩)
            have h2 := below_open_slt src σ h hw.succ q c hqF.1 (by omega) hc h1
            have h3 : SLT (strm src (closeWord σ h i) x) (strm src (closeWord σ h i) q) := by
              rcases hqb with h3 | ⟨e, l⟩
              · exact h3
              · exfalso
                exact strm_close_ne_word src σ h i hw q x hqF.1 l hxi e.symm
            have h4 := close_lt_sfx src σ h i hw x q hx hxi hqF.1 hqF.2 h3
            left
            rw [strm_close_after src σ h i hw c (by omega)]
            exact SLT_trans _ _ _ h4 h2
          · have h1 := hqc.2 (by
              rintro (⟨h1, _⟩ | ⟨h1, _⟩)
              · exact hUq h1
              · have := (hUF c h1).2
                omega)
            exact Below_trans _ _ _ _ _ hqb h1
  · by_cases hcx : c = x
    · rw [hcx] at hlt ⊢
      exact cur_of_below _ _ _ _ _ _ _ (hnomix2 a) (hm.lower a ha hax hlt)
    · have h1 := hm.others a c ha hc hac hax hcx hlt
      have hiff : Mixed i U2 a c ↔ Mixed i U a c := by
        unfold Mixed
        rw [hU2 a, hU2 c]
        constructor
        · rintro (⟨⟨h1, _⟩, h2⟩ | ⟨⟨h1, _⟩, h2⟩)
          · exact Or.inl ⟨h1, h2⟩
          · exact Or.inr ⟨h1, h2⟩
        · rintro (⟨h1, h2⟩ | ⟨h1, h2⟩)
          · exact Or.inl ⟨⟨h1, hax⟩, h2⟩
          · exact Or.inr ⟨⟨h1, hcx⟩, h2⟩
      exact ⟨fun hmix => h1.1 (hiff.mp hmix), fun hmix => h1.2 (fun hc2 => hmix (hiff.mpr hc2))⟩

/-- What the loop that matches the word against the suffix at `b` returns: the
number of characters that agree, which is `size`, or reaches the end of the
block, or is followed by a difference. -/
theorem matchLoop_sem (src : List Nat) (n start size b : Nat) (hn : src.length = n)
    (hend : start + size ≤ n) : ∀ (fuel k : Nat) (res : Nat × Nat),
    (∀ t, t < k → src[start + t]? = src[b + t]?) →
    matchLoop src n start size fuel k (b + k) = some res →
    res.2 = b + res.1 ∧ (∀ t, t < res.1 → src[start + t]? = src[b + t]?) ∧
      (res.1 < size → b + res.1 < n → src[start + res.1]? ≠ src[b + res.1]?)
  | 0, k, res, heq, hret => by
    unfold matchLoop at hret
    by_cases hc : k < size ∧ b + k < n
    · rw [if_pos hc] at hret
      cases hret
    · rw [if_neg hc] at hret
      injection hret with hret
      subst hret
      exact ⟨rfl, heq, fun h1 h2 => absurd ⟨h1, h2⟩ hc⟩
  | fuel + 1, k, res, heq, hret => by
    unfold matchLoop at hret
    by_cases hc : k < size ∧ b + k < n
    · rw [if_pos hc] at hret
      have h1 : src[start + k]? = some src[start + k] := List.getElem?_eq_getElem (by omega)
      have h2 : src[b + k]? = some src[b + k] := List.getElem?_eq_getElem (by omega)
      rw [h1, h2] at hret
      simp only [Option.bind_eq_bind, Option.some_bind] at hret
      by_cases he : src[start + k] = src[b + k]
      · rw [if_pos he] at hret
        exact matchLoop_sem src n start size b hn hend fuel (k + 1) res (fun t ht => by
            by_cases htk : t = k
            · subst htk; rw [h1, h2, he]
            · exact heq t (by omega)) (by rw [← Nat.add_assoc]; exact hret)
      · rw [if_neg he] at hret
        injection hret with hret
        subst hret
        refine ⟨rfl, heq, fun _ _ => ?_⟩
        rw [h1, h2]
        intro hcc
        injection hcc with hcc
        exact he hcc
    · rw [if_neg hc] at hret
      injection hret with hret
      subst hret
      exact ⟨rfl, heq, fun h1 h2 => absurd ⟨h1, h2⟩ hc⟩

/-- The suffix at `b` and the stream of the head of the closed word, whose
first `k` characters agree, at a difference. -/
theorem head_cmp_mismatch (src : List Nat) (σ : Nat → Option Nat) (h i : Nat)
    (hw : Word src σ h i) (b k : Nat) (hk : h + k < i)
    (heq : ∀ t, t < k → src[h + t]? = src[b + t]?) :
    (optLT src[h + k]? src[b + k]? → SLT (strm src (closeWord σ h i) h) (sfx src b)) ∧
    (optLT src[b + k]? src[h + k]? → SLT (sfx src b) (strm src (closeWord σ h i) h)) := by
  have hY : ∀ t, t ≤ k → strm src (closeWord σ h i) h t = src[h + t]? := fun t ht =>
    stm_close_word src σ h i hw t h (le_refl _) (by omega)
  constructor
  · intro hlt
    refine ⟨k, fun s hs => ?_, ?_⟩
    · rw [hY s (by omega)]; exact heq s hs
    · rw [hY k (le_refl _)]; exact hlt
  · intro hlt
    refine ⟨k, fun s hs => ?_, ?_⟩
    · rw [hY s (by omega)]; exact (heq s hs).symm
    · rw [hY k (le_refl _)]; exact hlt

/-- The suffix at `b`, which starts with the word, and the stream of the head
of the closed word are in the order of the suffix after the word at `b` and
that stream. -/
theorem head_cmp_full (src : List Nat) (σ : Nat → Option Nat) (h i : Nat)
    (hw : Word src σ h i) (b : Nat) (heq : ∀ t, t < i - h → src[h + t]? = src[b + t]?) :
    (SLT (sfx src b) (sfx src (b + (i - h))) →
      SLT (strm src (closeWord σ h i) h) (sfx src b)) ∧
    (SLT (sfx src (b + (i - h))) (strm src (closeWord σ h i) h) →
      SLT (sfx src b) (strm src (closeWord σ h i) h)) := by
  have hhi := hw.hi
  have hY : ∀ t, t < i - h → strm src (closeWord σ h i) h t = sfx src b t := fun t ht =>
    (stm_close_word src σ h i hw t h (le_refl _) (by omega)).trans (heq t ht)
  have e1 : (fun t => strm src (closeWord σ h i) h (t + (i - h))) =
      strm src (closeWord σ h i) h := funext (strm_head_period src σ h i hw)
  have e2 : (fun t => sfx src b (t + (i - h))) = sfx src (b + (i - h)) := by
    funext t
    show src[b + (t + (i - h))]? = src[b + (i - h) + t]?
    congr 1
    omega
  constructor
  · intro hlt
    rw [SLT_shift _ _ (i - h) hY, e1, e2]
    refine SLT_per_gt (i - h) (by omega) _ (sfx src (b + (i - h))) (sfx src b)
      (strm_head_period src σ h i hw) (fun t ht => (hY t ht).symm) (fun t => ?_) hlt
    show src[b + (t + (i - h))]? = src[b + (i - h) + t]?
    congr 1
    omega
  · intro hlt
    rw [SLT_shift _ _ (i - h) (fun s hs => (hY s hs).symm), e1, e2]
    exact hlt

theorem rk_set (isa : List Nat) (b v p : Nat) (hb : b < isa.length) :
    rk (isa.set b v) p = if p = b then v else rk isa p := by
  by_cases hpb : p = b
  · rw [if_pos hpb, hpb]
    exact rk_eq _ _ _ (by rw [List.getElem?_set_self hb])
  · rw [if_neg hpb]
    exact rk_set_ne isa b v p hpb

/-- The ranks while a position moves are below `n`. -/
theorem vrk_lt (sa isa : List Nat) (n rank x : Nat) (hh : Hole sa isa n rank x) (p : Nat)
    (hp : p < n) : vrk isa x rank p < n := by
  obtain ⟨hrn, hxn, hl1, hl2, h3, h4⟩ := hh
  simp only [List.length_set] at hl1 hl2
  unfold vrk
  by_cases hpx : p = x
  · rw [if_pos hpx]; exact hrn
  · rw [if_neg hpx]
    have h1 : (isa.set x rank)[p]? = some (rk isa p) := by
      rw [getElem?_set_eq _ _ _ _ (by omega), if_neg hpx]
      exact rk_get isa p (by omega)
    have := h4 _ _ h1
    have := (List.getElem?_eq_some.mp this).1
    simp only [List.length_set] at this
    omega

/-- The ranks while a position moves are different for different positions. -/
theorem vrk_inj (sa isa : List Nat) (n rank x : Nat) (hh : Hole sa isa n rank x) (a b : Nat)
    (ha : a < n) (hb : b < n) (hab : vrk isa x rank a = vrk isa x rank b) : a = b := by
  obtain ⟨hrn, hxn, hl1, hl2, h3, h4⟩ := hh
  simp only [List.length_set] at hl1 hl2
  have key : ∀ p, p < n → (isa.set x rank)[p]? = some (vrk isa x rank p) := by
    intro p hp
    rw [getElem?_set_eq _ _ _ _ (by omega)]
    unfold vrk
    by_cases hpx : p = x
    · rw [if_pos hpx, if_pos hpx]
    · rw [if_neg hpx, if_neg hpx]
      exact rk_get isa p (by omega)
  have h1 := h4 _ _ (key a ha)
  have h2 := h4 _ _ (key b hb)
  rw [hab, h2] at h1
  injection h1 with h1
  exact h1.symm

/-- The order of two positions after the word, which closing the word does not
change, is the order of their suffixes. -/
theorem below_after_slt (src : List Nat) (σ : Nat → Option Nat) (h i : Nat)
    (hw : Word src σ h i) (a b : Nat) (ha : i ≤ a) (hb : i ≤ b) (hbn : b < src.length)
    (hlt : Below src (closeWord σ h i) a b) : SLT (sfx src a) (sfx src b) := by
  unfold Below at hlt
  rw [strm_close_after src σ h i hw a ha, strm_close_after src σ h i hw b hb] at hlt
  rcases hlt with h1 | ⟨e, l⟩
  · exact h1
  · exact absurd e.symm (sfx_ne src b a hbn l)

theorem below_of_slt_after (src : List Nat) (σ : Nat → Option Nat) (h i : Nat)
    (hw : Word src σ h i) (x b : Nat) (hb : i ≤ b)
    (hlt : SLT (strm src (closeWord σ h i) x) (sfx src b)) :
    Below src (closeWord σ h i) x b := by
  left
  rw [strm_close_after src σ h i hw b hb]
  exact hlt

theorem below_of_after_slt (src : List Nat) (σ : Nat → Option Nat) (h i : Nat)
    (hw : Word src σ h i) (x b : Nat) (hb : i ≤ b)
    (hlt : SLT (sfx src b) (strm src (closeWord σ h i) x)) :
    Below src (closeWord σ h i) b x := by
  left
  rw [strm_close_after src σ h i hw b hb]
  exact hlt

/-- The loop that moves the head of the word: when it returns, the ranks follow
the order in which the head is moved. -/
theorem moveLoop_sem (src : List Nat) (σ : Nat → Option Nat) (h i : Nat) (hw : Word src σ h i)
    (hin : i < src.length) (U U2 : Nat → Prop) (hUF : ∀ p, U p → h ≤ p ∧ p < i)
    (hU2 : ∀ p, U2 p ↔ (U p ∧ p ≠ h)) :
    ∀ (fuel : Nat) (sa isa : List Nat) (rank : Nat), Hole sa isa src.length rank h →
      Moving src σ h i U h (vrk isa h rank) →
      ∀ sa2 isa2 rank2, moveLoop src src.length h (i - h) fuel sa isa rank =
        some (sa2, isa2, rank2) →
      Hole sa2 isa2 src.length rank2 h ∧
        RankedBy (Cur src σ h i U2) src.length (vrk isa2 h rank2)
  | 0, sa, isa, rank, _, _, sa2, isa2, rank2, hret => by
    simp [moveLoop] at hret
  | fuel + 1, sa, isa, rank, hh, hm, sa2, isa2, rank2, hret => by
    have hhi := hw.hi
    obtain ⟨hl1, hl2, _⟩ := InvPerm_of_Hole sa isa src.length h rank hh
    have hvh : vrk isa h rank h = rank := by simp [vrk]
    unfold moveLoop at hret
    by_cases hr : rank + 1 < src.length
    · rw [if_pos hr] at hret
      obtain ⟨b, hb⟩ := get_some sa (rank + 1) (by omega)
      obtain ⟨hbx, hbn, hisab, hhole, _, _⟩ :=
        Hole_step src (fun _ => False) sa isa src.length rank h b (fun q hq => absurd hq id) hh hr
          hb (fun p q hp => absurd hp id) (fun q hq => absurd hq id)
      have hvb : vrk isa h rank b = vrk isa h rank h + 1 := by
        rw [hvh]
        simp only [vrk, hbx, if_false]
        exact rk_eq _ _ _ hisab
      rw [hb] at hret
      simp only [Option.bind_eq_bind, Option.some_bind] at hret
      have hstop : Below src (closeWord σ h i) h b →
          some (sa, isa, rank) = some (sa2, isa2, rank2) →
          Hole sa2 isa2 src.length rank2 h ∧
            RankedBy (Cur src σ h i U2) src.length (vrk isa2 h rank2) := by
        intro hlt he
        injection he with he
        injection he with he1 he2
        injection he2 with he2 he3
        subst he1 he2 he3
        exact ⟨hh, moving_stop src σ h i hw U U2 h _ hm (le_refl _) hhi hUF hU2
          (Or.inr ⟨b, hbn, hvb, hlt⟩)⟩
      have hpass : Below src (closeWord σ h i) b h →
          ((setAt sa rank b).bind fun sa2 =>
            (setAt isa b rank).bind fun isa2 =>
              moveLoop src src.length h (i - h) fuel sa2 isa2 (rank + 1)) =
            some (sa2, isa2, rank2) →
          Hole sa2 isa2 src.length rank2 h ∧
            RankedBy (Cur src σ h i U2) src.length (vrk isa2 h rank2) := by
        intro hlt he
        rw [setAt_eq _ _ _ (by omega), setAt_eq _ _ _ (by omega)] at he
        simp only [Option.some_bind] at he
        refine moveLoop_sem src σ h i hw hin U U2 hUF hU2 fuel _ _ (rank + 1) hhole ?_ _ _ _ he
        refine moving_pass src σ h i U h b _ _ hm (by omega) hbn hvb hlt (fun p => ?_)
        rw [hvh]
        unfold vrk
        by_cases hph : p = h
        · rw [if_pos hph, if_pos hph]
        · rw [if_neg hph, if_neg hph, rk_set isa b rank p (by omega), if_neg hph]
      by_cases hbe : b ≤ h + (i - h)
      · rw [if_pos hbe] at hret
        exact hstop (moving_upper_le src σ h i U h b _ hm hhi hbn hbx (by omega) (by omega)) hret
      · rw [if_neg hbe] at hret
        obtain ⟨k2, hmatch, hk2, hbk2, _⟩ := matchLoop_spec src src.length h (i - h) b rfl
          (by omega) (i - h) 0 (by omega) (by omega) (by omega) (fun t ht => by omega)
        obtain ⟨_, heq, hdiff⟩ := matchLoop_sem src src.length h (i - h) b rfl (by omega)
          (i - h) 0 (k2, b + k2) (fun t ht => by omega) hmatch
        simp only at heq hdiff
        rw [Nat.add_zero] at hmatch
        rw [hmatch] at hret
        simp only [Option.some_bind] at hret
        by_cases hks : k2 = i - h
        · rw [if_pos hks] at hret
          rw [hks] at heq
          cases hread : isa[b + k2]? with
          | none =>
            rw [hread] at hret
            simp at hret
          | some r =>
            rw [hread] at hret
            simp only [Option.some_bind, Option.pure_def] at hret
            have hbkn : b + k2 < src.length := by
              have := (List.getElem?_eq_some.mp hread).1
              omega
            have hvr : vrk isa h rank (b + k2) = r := by
              have : b + k2 ≠ h := by omega
              simp only [vrk, this, if_false]
              exact rk_eq _ _ _ hread
            by_cases hd : rank < r
            · simp only [hd, decide_True, if_true] at hret
              refine hstop ?_ hret
              have h1 : vrk isa h rank b < vrk isa h rank (b + k2) := by
                have hne : vrk isa h rank (b + k2) ≠ vrk isa h rank b := fun e => by
                  have := hm.inj _ _ hbkn hbn e
                  omega
                rw [hvr, hvb, hvh] at *
                omega
              have h2 := (hm.others b (b + k2) hbn hbkn (by omega) hbx (by omega) h1).2 (by
                rintro (⟨h3, _⟩ | ⟨h3, _⟩)
                · have := (hUF _ h3).2; omega
                · have := (hUF _ h3).2; omega)
              have h3 := below_after_slt src σ h i hw b (b + k2) (by omega) (by omega) hbkn h2
              rw [hks] at h3
              exact below_of_slt_after src σ h i hw h b (by omega)
                ((head_cmp_full src σ h i hw b heq).1 h3)
            · simp only [hd, decide_False, Bool.false_eq_true, if_false] at hret
              have hnot : ¬ (k2 < i - h ∧ b + k2 < src.length) := by omega
              rw [if_neg hnot] at hret
              simp only [Option.pure_def, Option.some_bind, Bool.false_eq_true, if_false] at hret
              refine hpass ?_ hret
              have h1 : vrk isa h rank (b + k2) < vrk isa h rank h := by
                have hne : vrk isa h rank (b + k2) ≠ vrk isa h rank h := fun e => by
                  have := hm.inj _ _ hbkn (by omega) e
                  omega
                rw [hvr, hvh] at *
                omega
              have h2 := hm.lower (b + k2) hbkn (by omega) h1
              have h3 := below_close_slt2 src σ h i hw h (b + k2) hhi (by omega) h2
              rw [hks] at h3
              exact below_of_after_slt src σ h i hw h b (by omega)
                ((head_cmp_full src σ h i hw b heq).2 h3)
        · rw [if_neg hks] at hret
          simp only [Option.pure_def, Option.some_bind, Bool.false_eq_true, if_false] at hret
          have hcmp := head_cmp_mismatch src σ h i hw b k2 (by omega) heq
          by_cases hc2 : k2 < i - h ∧ b + k2 < src.length
          · rw [if_pos hc2] at hret
            obtain ⟨x1, h1⟩ := get_some src (h + k2) (by omega)
            obtain ⟨x2, h2⟩ := get_some src (b + k2) (by omega)
            rw [h1, h2] at hret hcmp
            have hne := hdiff hc2.1 hc2.2
            rw [h1, h2] at hne
            simp only [Option.some_bind, Option.pure_def] at hret
            by_cases hd : x1 < x2
            · simp only [hd, decide_True, if_true] at hret
              exact hstop (below_of_slt_after src σ h i hw h b (by omega) (hcmp.1 hd)) hret
            · simp only [hd, decide_False, Bool.false_eq_true, if_false] at hret
              have hd2 : x2 < x1 := by
                have : x1 ≠ x2 := fun e => hne (by rw [e])
                omega
              exact hpass (below_of_after_slt src σ h i hw h b (by omega) (hcmp.2 hd2)) hret
          · rw [if_neg hc2] at hret
            simp only [Option.pure_def, Option.some_bind, Bool.false_eq_true, if_false] at hret
            obtain ⟨x1, h1⟩ := get_some src (h + k2) (by omega)
            have h2 : src[b + k2]? = none := List.getElem?_eq_none (by omega)
            rw [h1, h2] at hcmp
            exact hpass (below_of_after_slt src σ h i hw h b (by omega) (hcmp.2 trivial)) hret
    · rw [if_neg hr] at hret
      injection hret with hret
      injection hret with he1 he2
      injection he2 with he2 he3
      subst he1 he2 he3
      refine ⟨hh, moving_stop src σ h i hw U U2 h _ hm (le_refl _) hhi hUF hU2 (Or.inl ?_)⟩
      intro b hb
      have := vrk_lt sa isa src.length rank h hh b hb
      rw [hvh]
      omega

/-- Two streams with the same first character are in the order of what follows. -/
theorem SLT_tail (f g f2 g2 : Nat → Option Nat) (h0 : f 0 = g 0) (hf : ∀ t, f (t + 1) = f2 t)
    (hg : ∀ t, g (t + 1) = g2 t) : SLT f g ↔ SLT f2 g2 := by
  rw [SLT_shift f g 1 (fun s hs => by
    have : s = 0 := by omega
    rw [this]; exact h0)]
  have e1 : (fun t => f (t + 1)) = f2 := funext hf
  have e2 : (fun t => g (t + 1)) = g2 := funext hg
  rw [e1, e2]

/-- Two streams with different first characters are in the order of these. -/
theorem SLT_head (f g : Nat → Option Nat) (h0 : f 0 ≠ g 0) (hlt : SLT f g) :
    optLT (f 0) (g 0) := by
  obtain ⟨t, ht, hl⟩ := hlt
  by_cases h : t = 0
  · rw [h] at hl; exact hl
  · exact absurd (ht 0 (by omega)) h0

theorem sfx_succ (src : List Nat) (b t : Nat) : sfx src b (t + 1) = sfx src (b + 1) t := by
  show src[b + (t + 1)]? = src[b + 1 + t]?
  congr 1
  omega

/-- The successor of a position of the closed word. -/
theorem closeWord_word (src : List Nat) (σ : Nat → Option Nat) (h i : Nat)
    (hw : Word src σ h i) (j : Nat) (hj : h ≤ j) (hji : j < i) :
    closeWord σ h i j = some (if j + 1 = i then h else j + 1) := by
  by_cases hl : j + 1 = i
  · rw [if_pos hl]; exact closeWord_eq σ h i j hl
  · rw [if_neg hl, closeWord_ne σ h i j hl, hw.succ.open_ j hj,
      if_pos (by have := hw.le; omega)]

/-- The loop that moves a position of the word other than its head: when it
returns, the ranks follow the order in which the position is moved. -/
theorem rankLoop_sem (src : List Nat) (σ : Nat → Option Nat) (h i : Nat) (hw : Word src σ h i)
    (U U2 : Nat → Prop) (j s : Nat) (hj : h < j) (hji : j < i)
    (hs : closeWord σ h i j = some s) (hsU : ¬ U s) (hUj : U j)
    (hUF : ∀ p, U p → h ≤ p ∧ p ≤ j) (hU2 : ∀ p, U2 p ↔ (U p ∧ p ≠ j)) :
    ∀ (fuel : Nat) (sa isa : List Nat) (rank : Nat), Hole sa isa src.length rank j →
      Moving src σ h i U j (vrk isa j rank) →
      ∀ sa2 isa2 rank2, rankLoop src src.length j (rk isa s) fuel sa isa rank =
        some (sa2, isa2, rank2) →
      Hole sa2 isa2 src.length rank2 j ∧
        RankedBy (Cur src σ h i U2) src.length (vrk isa2 j rank2) ∧ rank ≤ rank2 ∧
        (rank2 = rank → isa2 = isa)
  | 0, sa, isa, rank, _, _, sa2, isa2, rank2, hret => by
    simp [rankLoop] at hret
  | fuel + 1, sa, isa, rank, hh, hm, sa2, isa2, rank2, hret => by
    have hhi := hw.hi
    have hle := hw.le
    have hUF2 : ∀ p, U p → h ≤ p ∧ p < i := fun p hp => ⟨(hUF p hp).1, by
      have := (hUF p hp).2; omega⟩
    obtain ⟨hl1, hl2, _⟩ := InvPerm_of_Hole sa isa src.length j rank hh
    have hvj : vrk isa j rank j = rank := by simp [vrk]
    -- the successor of `j` in the closed word
    have hsv : s = if j + 1 = i then h else j + 1 := by
      have := closeWord_word src σ h i hw j (by omega) hji
      rw [hs] at this
      injection this
    have hsj : s ≠ j := by
      rw [hsv]; split_ifs <;> omega
    have hsF : h ≤ s ∧ s < i := by
      rw [hsv]; split_ifs <;> omega
    have hvs : vrk isa j rank s = rk isa s := by simp [vrk, hsj]
    have hj0 : strm src (closeWord σ h i) j 0 = src[j]? := rfl
    have hjt : ∀ t, strm src (closeWord σ h i) j (t + 1) = strm src (closeWord σ h i) s t :=
      fun t => stm_succ_some src _ t j s hs
    unfold rankLoop at hret
    by_cases hr : rank + 1 < src.length
    · rw [if_pos hr] at hret
      obtain ⟨b, hb⟩ := get_some sa (rank + 1) (by omega)
      obtain ⟨hbx, hbn, hisab, hhole, _, _⟩ :=
        Hole_step src (fun _ => False) sa isa src.length rank j b (fun q hq => absurd hq id) hh hr
          hb (fun p q hp => absurd hp id) (fun q hq => absurd hq id)
      have hvb : vrk isa j rank b = vrk isa j rank j + 1 := by
        rw [hvj]
        simp only [vrk, hbx, if_false]
        exact rk_eq _ _ _ hisab
      rw [hb] at hret
      simp only [Option.bind_eq_bind, Option.some_bind] at hret
      have hstop : Below src (closeWord σ h i) j b →
          some (sa, isa, rank) = some (sa2, isa2, rank2) →
          Hole sa2 isa2 src.length rank2 j ∧
            RankedBy (Cur src σ h i U2) src.length (vrk isa2 j rank2) ∧ rank ≤ rank2 ∧
            (rank2 = rank → isa2 = isa) := by
        intro hlt he
        injection he with he
        injection he with he1 he2
        injection he2 with he2 he3
        subst he1 he2 he3
        exact ⟨hh, moving_stop src σ h i hw U U2 j _ hm (by omega) hji hUF2 hU2
          (Or.inr ⟨b, hbn, hvb, hlt⟩), le_refl _, fun _ => rfl⟩
      have hupper : b ≤ i → Below src (closeWord σ h i) j b := fun hbi =>
        moving_upper_le src σ h i U j b _ hm hji hbn hbx hbi (by omega)
      have hpass : b ≠ s → Below src (closeWord σ h i) b j →
          ((setAt sa rank b).bind fun sa2 =>
            (setAt isa b rank).bind fun isa2 =>
              rankLoop src src.length j (rk isa s) fuel sa2 isa2 (rank + 1)) =
            some (sa2, isa2, rank2) →
          Hole sa2 isa2 src.length rank2 j ∧
            RankedBy (Cur src σ h i U2) src.length (vrk isa2 j rank2) ∧ rank ≤ rank2 ∧
            (rank2 = rank → isa2 = isa) := by
        intro hbs hlt he
        rw [setAt_eq _ _ _ (by omega), setAt_eq _ _ _ (by omega)] at he
        simp only [Option.some_bind] at he
        rw [← rk_set_ne isa b rank s (Ne.symm hbs)] at he
        have hrec : Moving src σ h i U j (vrk (isa.set b rank) j (rank + 1)) → _ := fun hm2 =>
          rankLoop_sem src σ h i hw U U2 j s hj hji hs hsU hUj hUF hU2 fuel _ _ (rank + 1)
            hhole hm2 _ _ _ he
        suffices hm2 : Moving src σ h i U j (vrk (isa.set b rank) j (rank + 1)) by
          obtain ⟨h1, h2, h3, _⟩ := hrec hm2
          exact ⟨h1, h2, by omega, fun e => by omega⟩
        refine moving_pass src σ h i U j b _ _ hm (by omega) hbn hvb hlt (fun p => ?_)
        rw [hvj]
        unfold vrk
        by_cases hph : p = j
        · rw [if_pos hph, if_pos hph]
        · rw [if_neg hph, if_neg hph, rk_set isa b rank p (by omega), if_neg hph]
      by_cases hjb : j > b
      · rw [if_pos hjb] at hret
        simp only [Option.pure_def, Option.some_bind, if_true] at hret
        exact hstop (hupper (by omega)) hret
      · rw [if_neg hjb] at hret
        obtain ⟨a, ha⟩ := get_some src j (by omega)
        obtain ⟨c, hc⟩ := get_some src b hbn
        rw [ha, hc] at hret
        simp only [Option.some_bind] at hret
        by_cases hac : a ≠ c
        · rw [if_pos hac] at hret
          simp only [Option.pure_def, Option.some_bind, if_true] at hret
          refine hstop ?_ hret
          by_cases hbi : b ≤ i
          · exact hupper hbi
          · have h1 := (hm.upper b hbn hbx (by omega)).1 (Or.inl ⟨hUj, by omega⟩)
            have h2 := below_open_slt src σ h hw.succ j b (by omega) (by omega) hbn h1
            have h3 := SLT_head _ _ (by
              show src[j + 0]? ≠ src[b + 0]?
              rw [Nat.add_zero, Nat.add_zero, ha, hc]
              intro e
              injection e with e
              exact hac e) h2
            have h4 : optLT (strm src (closeWord σ h i) j 0) (sfx src b 0) := h3
            exact below_of_slt_after src σ h i hw j b (by omega) ⟨0, fun s hs => by omega, h4⟩
        · rw [if_neg hac] at hret
          push_neg at hac
          have h0 : strm src (closeWord σ h i) j 0 = sfx src b 0 := by
            show src[j]? = src[b + 0]?
            rw [Nat.add_zero, ha, hc, hac]
          cases hread : isa[b + 1]? with
          | none =>
            rw [hread] at hret
            simp at hret
          | some r =>
            rw [hread] at hret
            simp only [Option.some_bind, Option.pure_def] at hret
            have hbn1 : b + 1 < src.length := by
              have := (List.getElem?_eq_some.mp hread).1
              omega
            have hvr : vrk isa j rank (b + 1) = r := by
              have : b + 1 ≠ j := by omega
              simp only [vrk, this, if_false]
              exact rk_eq _ _ _ hread
            have hsn : s < src.length := by omega
            by_cases hd : rk isa s < r
            · simp only [hd, decide_True, if_true] at hret
              refine hstop ?_ hret
              by_cases hbi : b ≤ i
              · exact hupper hbi
              · have h1 := (hm.others s (b + 1) hsn hbn1 (by omega) hsj (by omega)
                  (by rw [hvs, hvr]; exact hd)).2 (by
                    rintro (⟨h3, _⟩ | ⟨h3, _⟩)
                    · exact hsU h3
                    · have := (hUF _ h3).2; omega)
                have h2 := below_close_slt src σ h i hw s (b + 1) hsF.2 (by omega) h1
                exact below_of_slt_after src σ h i hw j b (by omega)
                  ((SLT_tail _ _ _ _ h0 hjt (sfx_succ src b)).mpr h2)
            · simp only [hd, decide_False, Bool.false_eq_true, if_false] at hret
              -- the position above is after the word
              have hbi : i < b := by
                by_contra hbi
                have hjb2 := hupper (by omega)
                by_cases hbi2 : b = i
                · rw [hbi2] at hjb2
                  exact SLT_asymm _ _ (below_close_slt src σ h i hw j i hji (le_refl _) hjb2)
                    (next_lt_close src σ h i hw j (by omega) hji)
                · have hbF : b < i := by omega
                  have h1 : SLT (strm src (closeWord σ h i) j) (strm src (closeWord σ h i) b) := by
                    rcases hjb2 with h1 | ⟨_, l⟩
                    · exact h1
                    · omega
                  have hsb := closeWord_word src σ h i hw b (by omega) hbF
                  have h00 : strm src (closeWord σ h i) j 0 = strm src (closeWord σ h i) b 0 := by
                    show src[j]? = src[b]?
                    rw [ha, hc, hac]
                  have h2 := (SLT_tail _ _ _ _ h00 hjt
                    (fun t => stm_succ_some src _ t b _ hsb)).mp h1
                  by_cases hb1 : b + 1 = i
                  · rw [if_pos hb1] at h2
                    by_cases hsh : s = h
                    · rw [hsh] at h2
                      exact SLT_irrefl _ h2
                    · exact SLT_asymm _ _ h2
                        (head_lt_close src σ h i hw s (by omega) hsF.2)
                  · rw [if_neg hb1] at h2
                    have hsb1 : s ≠ b + 1 := by
                      intro e
                      rw [e] at h2
                      exact SLT_irrefl _ h2
                    have hne : vrk isa j rank (b + 1) ≠ vrk isa j rank s := fun e =>
                      hsb1 (hm.inj _ _ hbn1 hsn e).symm
                    have h3 := (hm.others (b + 1) s hbn1 hsn (Ne.symm hsb1) (by omega) hsj
                      (by rw [hvs, hvr] at *; omega)).2 (by
                        rintro (⟨_, h3⟩ | ⟨h3, _⟩)
                        · omega
                        · exact hsU h3)
                    exact Below_asymm _ _ _ _ h3 (Or.inl h2)
              have hne : vrk isa j rank (b + 1) ≠ vrk isa j rank s := fun e => by
                have := hm.inj _ _ hbn1 hsn e
                omega
              have h1 := (hm.others (b + 1) s hbn1 hsn (by omega) (by omega) hsj
                (by rw [hvs, hvr] at *; omega)).2 (by
                  rintro (⟨h3, _⟩ | ⟨h3, _⟩)
                  · have := (hUF _ h3).2; omega
                  · exact hsU h3)
              have h2 := below_close_slt2 src σ h i hw s (b + 1) hsF.2 (by omega) h1
              exact hpass (by omega) (below_of_after_slt src σ h i hw j b (by omega)
                ((SLT_tail _ _ _ _ h0.symm (sfx_succ src b) hjt).mpr h2)) hret
    · rw [if_neg hr] at hret
      injection hret with hret
      injection hret with he1 he2
      injection he2 with he2 he3
      subst he1 he2 he3
      refine ⟨hh, moving_stop src σ h i hw U U2 j _ hm (by omega) hji hUF2 hU2 (Or.inl ?_),
        le_refl _, fun _ => rfl⟩
      intro b hb
      have := vrk_lt sa isa src.length rank j hh b hb
      rw [hvj]
      omega

theorem ranked_congr (B : Nat → Nat → Prop) (n : Nat) (vr vr2 : Nat → Nat)
    (h : ∀ p, p < n → vr p = vr2 p) (hr : RankedBy B n vr) : RankedBy B n vr2 := by
  intro a b ha hb hab hlt
  exact hr a b ha hb hab (by rw [h a ha, h b hb]; exact hlt)

theorem rk_inj (sa isa : List Nat) (n : Nat) (hperm : InvPerm sa isa n) (a b : Nat)
    (ha : a < n) (hb : b < n) (hab : rk isa a = rk isa b) : a = b := by
  have h1 := hperm.2.2.2 a _ (rk_get isa a (by rw [hperm.2.1]; exact ha))
  have h2 := hperm.2.2.2 b _ (rk_get isa b (by rw [hperm.2.1]; exact hb))
  rw [hab, h2] at h1
  injection h1 with h1
  exact h1.symm

/-- Before the head of the word moves the ranks follow the order in which no
position of the word is moved. -/
theorem cur_init (src : List Nat) (σ : Nat → Option Nat) (h i : Nat) (hw : Word src σ h i)
    (vr : Nat → Nat) (hr : RankedBy (Below src σ) src.length vr) :
    RankedBy (Cur src σ h i (fun p => h ≤ p ∧ p < i)) src.length vr := by
  intro a b ha hb hab hlt
  have h1 := hr a b ha hb hab hlt
  refine ⟨fun _ => h1, fun hmix => ?_⟩
  by_cases hai : a ≤ i
  · by_cases hbi : b ≤ i
    · exact below_close src σ h i hw a b hai hbi ha hb hab h1
    · have hah : a < h ∨ i ≤ a := by
        by_contra hc
        exact hmix (Or.inl ⟨by omega, by omega⟩)
      exact below_close_out src σ h i hw a b hah (Or.inr (by omega)) h1
  · have hbh : b < h ∨ i ≤ b := by
      by_contra hc
      exact hmix (Or.inr ⟨by omega, by omega⟩)
    exact below_close_out src σ h i hw a b (Or.inr (by omega)) hbh h1

theorem cur_congr (src : List Nat) (σ : Nat → Option Nat) (h i : Nat) (U U2 : Nat → Prop)
    (hU : ∀ p, U p ↔ U2 p) (n : Nat) (vr : Nat → Nat) (hr : RankedBy (Cur src σ h i U) n vr) :
    RankedBy (Cur src σ h i U2) n vr := by
  intro a b ha hb hab hlt
  have h1 := hr a b ha hb hab hlt
  have hiff : Mixed i U2 a b ↔ Mixed i U a b := by
    unfold Mixed
    rw [hU a, hU b]
  exact ⟨fun hm => h1.1 (hiff.mp hm), fun hm => h1.2 (fun hc => hm (hiff.mpr hc))⟩

/-- When every position of the word is moved the ranks follow the order with
the word closed. -/
theorem cur_done (src : List Nat) (σ : Nat → Option Nat) (h i : Nat) (U : Nat → Prop)
    (hU : ∀ p, ¬ U p) (n : Nat) (vr : Nat → Nat) (hr : RankedBy (Cur src σ h i U) n vr) :
    RankedBy (Below src (closeWord σ h i)) n vr := by
  intro a b ha hb hab hlt
  exact (hr a b ha hb hab hlt).2 (by
    rintro (⟨h1, _⟩ | ⟨h1, _⟩)
    · exact hU _ h1
    · exact hU _ h1)

/-- `moveLyndonWordHead`: the ranks follow the order in which the head of the
word is moved. -/
theorem moveLyndonWordHead_sem (src : List Nat) (σ : Nat → Option Nat) (h i : Nat)
    (hw : Word src σ h i) (hin : i < src.length) (sa isa : List Nat) (rank : Nat)
    (hperm : InvPerm sa isa src.length) (hrank : isa[h]? = some rank)
    (hr : RankedBy (Below src σ) src.length (rk isa)) (sa2 isa2 : List Nat) (rank2 : Nat)
    (hret : moveLyndonWordHead sa isa src src.length h (i - h) rank = some (sa2, isa2, rank2)) :
    InvPerm sa2 isa2 src.length ∧
      RankedBy (Cur src σ h i (fun p => h < p ∧ p ≤ i - 1)) src.length (rk isa2) ∧
      rk isa2 h = rank2 := by
  have hhi := hw.hi
  have hh := Hole_of_InvPerm sa isa src.length h rank hperm hrank
  have hv : ∀ p, p < src.length → rk isa p = vrk isa h rank p := by
    intro p _
    unfold vrk
    by_cases hp : p = h
    · rw [if_pos hp, hp]; exact rk_eq _ _ _ hrank
    · rw [if_neg hp]
  have hinj : ∀ a b, a < src.length → b < src.length → vrk isa h rank a = vrk isa h rank b →
      a = b := vrk_inj sa isa src.length rank h hh
  have hm := moving_init src σ h i hw (fun p => h ≤ p ∧ p < i) h _ (le_refl _) hhi
    ⟨le_refl _, hhi⟩ hinj (ranked_congr _ _ _ _ hv (cur_init src σ h i hw _ hr))
  unfold moveLyndonWordHead at hret
  cases hml : moveLoop src src.length h (i - h) (src.length + 1) sa isa rank with
  | none =>
    rw [hml] at hret
    simp at hret
  | some res =>
    obtain ⟨sa1, isa1, rank1⟩ := res
    rw [hml] at hret
    obtain ⟨hh2, hr2⟩ := moveLoop_sem src σ h i hw hin (fun p => h ≤ p ∧ p < i)
      (fun p => h < p ∧ p ≤ i - 1) (fun p hp => hp) (fun p => by
        constructor
        · rintro ⟨h1, h2⟩; exact ⟨⟨by omega, by omega⟩, by omega⟩
        · rintro ⟨⟨h1, h2⟩, h3⟩; exact ⟨by omega, by omega⟩)
      (src.length + 1) sa isa rank hh hm sa1 isa1 rank1 hml
    obtain ⟨hl1, hl2, hperm2⟩ := InvPerm_of_Hole sa1 isa1 src.length h rank1 hh2
    simp only [Option.bind_eq_bind, Option.some_bind] at hret
    rw [setAt_eq _ _ _ (by have := hh2.1; omega), setAt_eq _ _ _ (by omega)] at hret
    simp only [Option.some_bind, Option.pure_def] at hret
    injection hret with hret
    injection hret with he1 he2
    injection he2 with he2 he3
    subst he1 he2 he3
    refine ⟨hperm2, ranked_congr _ _ _ _ (fun p _ => ?_) hr2, ?_⟩
    · rw [rk_set isa1 h rank1 p (by omega)]
      rfl
    · rw [rk_set isa1 h rank1 h (by omega), if_pos rfl]

/-- A position of the word that stays where it is when its turn comes: the
positions of the word before it are in the same order against the suffixes
after the word, closed or not. -/
theorem stay_step (src : List Nat) (σ : Nat → Option Nat) (h i : Nat) (hw : Word src σ h i)
    (a : Nat) (ha : h ≤ a) (hai : a + 1 < i)
    (hT : ∀ b, i < b → (SLT (sfx src (a + 1)) (sfx src b) ↔
      SLT (strm src (closeWord σ h i) (a + 1)) (sfx src b))) :
    ∀ b, i < b → (SLT (sfx src a) (sfx src b) ↔
      SLT (strm src (closeWord σ h i) a) (sfx src b)) := by
  intro b hb
  have hsa : closeWord σ h i a = some (a + 1) := by
    rw [closeWord_word src σ h i hw a ha (by omega), if_neg (by omega)]
  have hat : ∀ t, strm src (closeWord σ h i) a (t + 1) = strm src (closeWord σ h i) (a + 1) t :=
    fun t => stm_succ_some src _ t a (a + 1) hsa
  by_cases h0 : sfx src a 0 = sfx src b 0
  · have h0' : strm src (closeWord σ h i) a 0 = sfx src b 0 := h0
    rw [SLT_tail _ _ _ _ h0 (sfx_succ src a) (sfx_succ src b),
      SLT_tail _ _ _ _ h0' hat (sfx_succ src b)]
    exact hT (b + 1) (by omega)
  · have h0' : strm src (closeWord σ h i) a 0 ≠ sfx src b 0 := h0
    constructor
    · intro hlt
      have h1 : optLT (sfx src a 0) (sfx src b 0) := SLT_head (sfx src a) (sfx src b) h0 hlt
      exact ⟨0, fun s hs => by omega, h1⟩
    · intro hlt
      have h1 : optLT (strm src (closeWord σ h i) a 0) (sfx src b 0) :=
        SLT_head (strm src (closeWord σ h i) a) (sfx src b) h0' hlt
      exact ⟨0, fun s hs => by omega, h1⟩

/-- No stream is below the suffix after the end of the block. -/
theorem not_SLT_end (src : List Nat) (f : Nat → Option Nat) (b : Nat) (hb : src.length ≤ b) :
    ¬ SLT f (sfx src b) := by
  rintro ⟨t, _, hlt⟩
  have : sfx src b t = none := List.getElem?_eq_none (by omega)
  rw [this] at hlt
  cases h : f t <;> rw [h] at hlt <;> exact hlt

/-- The position `j` of the word stays where it is when its turn comes: the
ranks follow the order with the word closed. -/
theorem stay_ranked (src : List Nat) (σ : Nat → Option Nat) (h i : Nat) (hw : Word src σ h i)
    (j : Nat) (hj : h < j) (hji : j < i) (vr : Nat → Nat)
    (hinj : ∀ a b, a < src.length → b < src.length → vr a = vr b → a = b)
    (hr1 : RankedBy (Cur src σ h i (fun p => h < p ∧ p ≤ j)) src.length vr)
    (hr2 : RankedBy (Cur src σ h i (fun p => h < p ∧ p ≤ j - 1)) src.length vr) :
    RankedBy (Below src (closeWord σ h i)) src.length vr := by
  have hle := hw.le
  have hS2 := succ_close src σ h i hw
  have hTj : ∀ b, i < b → (SLT (sfx src j) (sfx src b) ↔
      SLT (strm src (closeWord σ h i) j) (sfx src b)) := by
    intro b hb
    by_cases hbn : b < src.length
    · have hjn : j < src.length := by omega
      have hne : vr j ≠ vr b := fun e => by
        have := hinj j b hjn hbn e
        omega
      have hA : vr j < vr b → SLT (strm src (closeWord σ h i) j) (sfx src b) ∧
          SLT (sfx src j) (sfx src b) := by
        intro hlt
        have h1 := (hr2 j b hjn hbn (by omega) hlt).2 (by
          rintro (⟨h3, _⟩ | ⟨h3, _⟩)
          · omega
          · omega)
        have h2 := (hr1 j b hjn hbn (by omega) hlt).1 (Or.inl ⟨⟨hj, le_refl _⟩, hb⟩)
        exact ⟨below_close_slt src σ h i hw j b hji (by omega) h1,
          below_open_slt src σ h hw.succ j b (by omega) (by omega) hbn h2⟩
      have hB : vr b < vr j → SLT (sfx src b) (strm src (closeWord σ h i) j) ∧
          SLT (sfx src b) (sfx src j) := by
        intro hlt
        have h1 := (hr2 b j hbn hjn (by omega) hlt).2 (by
          rintro (⟨h3, _⟩ | ⟨h3, _⟩)
          · omega
          · omega)
        have h2 := (hr1 b j hbn hjn (by omega) hlt).1 (Or.inr ⟨⟨hj, le_refl _⟩, hb⟩)
        exact ⟨below_close_slt2 src σ h i hw j b hji (by omega) h1,
          below_open_slt src σ h hw.succ b j (by omega) (by omega) hjn h2⟩
      rcases Nat.lt_or_gt_of_ne hne with hlt | hlt
      · exact ⟨fun _ => (hA hlt).1, fun _ => (hA hlt).2⟩
      · exact ⟨fun hc => absurd (hB hlt).2 (fun h3 => SLT_asymm _ _ hc h3),
          fun hc => absurd (hB hlt).1 (fun h3 => SLT_asymm _ _ hc h3)⟩
    · exact ⟨fun hc => absurd hc (not_SLT_end src _ b (by omega)),
        fun hc => absurd hc (not_SLT_end src _ b (by omega))⟩
  have hT : ∀ d a, a + d = j → h ≤ a → ∀ b, i < b → (SLT (sfx src a) (sfx src b) ↔
      SLT (strm src (closeWord σ h i) a) (sfx src b)) := by
    intro d
    induction d with
    | zero =>
      intro a ha _
      have : a = j := by omega
      rw [this]
      exact hTj
    | succ d ih =>
      intro a ha hah
      exact stay_step src σ h i hw a hah (by omega) (ih (a + 1) (by omega) (by omega))
  intro a c ha hc hac hlt
  have h1 := hr2 a c ha hc hac hlt
  by_cases hmix : Mixed i (fun p => h < p ∧ p ≤ j - 1) a c
  · have h2 := h1.1 hmix
    rcases hmix with ⟨⟨h3, h4⟩, h5⟩ | ⟨⟨h3, h4⟩, h5⟩
    · have h6 := below_open_slt src σ h hw.succ a c (by omega) (by omega) hc h2
      exact below_of_slt_after src σ h i hw a c (by omega)
        ((hT (j - a) a (by omega) (by omega) c h5).mp h6)
    · have h6 := below_open_slt src σ h hw.succ a c (by omega) (by omega) hc h2
      have hne : sfx src a ≠ strm src (closeWord σ h i) c := fun e =>
        strm_ne_sfx src _ i hS2 hle c a (by omega) e.symm
      rcases SLT_total _ _ hne with h7 | h7
      · exact below_of_after_slt src σ h i hw c a (by omega) h7
      · exact absurd ((hT (j - c) c (by omega) (by omega) a h5).mpr h7)
          (fun h8 => SLT_asymm _ _ h6 h8)
  · exact h1.2 hmix

/-- The loop over the positions of the word, from its end to its start: the
ranks follow the order with the word closed. -/
theorem wordLoop_sem (src : List Nat) (σ : Nat → Option Nat) (h i : Nat) (hw : Word src σ h i)
    (hin : i < src.length) :
    ∀ (fuel j refRank : Nat) (sa isa : List Nat), h ≤ j → j < i →
      InvPerm sa isa src.length →
      RankedBy (Cur src σ h i (fun p => h < p ∧ p ≤ j)) src.length (rk isa) →
      (h < j → refRank = rk isa (if j + 1 = i then h else j + 1)) →
      ∀ sa2 isa2, wordLoop src src.length h fuel j refRank sa isa = some (sa2, isa2) →
      InvPerm sa2 isa2 src.length ∧
        RankedBy (Below src (closeWord σ h i)) src.length (rk isa2)
  | 0, j, refRank, sa, isa, hhj, hji, hperm, hr, href, sa2, isa2, hret => by
    unfold wordLoop at hret
    by_cases hj : j > h
    · rw [if_pos hj] at hret
      cases hret
    · rw [if_neg hj] at hret
      injection hret with hret
      injection hret with he1 he2
      subst he1 he2
      exact ⟨hperm, cur_done src σ h i _ (fun p hp => by omega) _ _ hr⟩
  | fuel + 1, j, refRank, sa, isa, hhj, hji, hperm, hr, href, sa2, isa2, hret => by
    unfold wordLoop at hret
    by_cases hj : j > h
    · rw [if_pos hj] at hret
      obtain ⟨startRank, hstart⟩ := get_some isa j (by rw [hperm.2.1]; omega)
      rw [hstart] at hret
      simp only [Option.bind_eq_bind, Option.some_bind] at hret
      have hh := Hole_of_InvPerm sa isa src.length j startRank hperm hstart
      have hv : ∀ p, p < src.length → rk isa p = vrk isa j startRank p := by
        intro p _
        unfold vrk
        by_cases hp : p = j
        · rw [if_pos hp, hp]; exact rk_eq _ _ _ hstart
        · rw [if_neg hp]
      have hm := moving_init src σ h i hw (fun p => h < p ∧ p ≤ j) j _ (by omega) hji
        ⟨hj, le_refl _⟩ (vrk_inj sa isa src.length startRank j hh) (ranked_congr _ _ _ _ hv hr)
      rw [href hj] at hret
      cases hrl : rankLoop src src.length j (rk isa (if j + 1 = i then h else j + 1))
          (src.length + 1) sa isa startRank with
      | none =>
        rw [hrl] at hret
        simp at hret
      | some res =>
        obtain ⟨sa1, isa1, testRank⟩ := res
        rw [hrl] at hret
        obtain ⟨hh2, hr2, hle2, hsame⟩ := rankLoop_sem src σ h i hw (fun p => h < p ∧ p ≤ j)
          (fun p => h < p ∧ p ≤ j - 1) j (if j + 1 = i then h else j + 1) hj hji
          (closeWord_word src σ h i hw j (by omega) hji)
          (by split_ifs <;> omega) ⟨hj, le_refl _⟩ (fun p hp => ⟨by omega, hp.2⟩)
          (fun p => by
            constructor
            · rintro ⟨h1, h2⟩; exact ⟨⟨h1, by omega⟩, by omega⟩
            · rintro ⟨⟨h1, h2⟩, h3⟩; exact ⟨h1, by omega⟩)
          (src.length + 1) sa isa startRank hh hm sa1 isa1 testRank hrl
        obtain ⟨hl1, hl2, hperm2⟩ := InvPerm_of_Hole sa1 isa1 src.length j testRank hh2
        simp only [Option.some_bind] at hret
        rw [setAt_eq _ _ _ (by have := hh2.1; omega), setAt_eq _ _ _ (by omega)] at hret
        simp only [Option.some_bind] at hret
        have hv2 : ∀ p, p < src.length → vrk isa1 j testRank p = rk (isa1.set j testRank) p := by
          intro p _
          rw [rk_set isa1 j testRank p (by omega)]
          rfl
        have hr3 := ranked_congr _ _ _ _ hv2 hr2
        by_cases hst : startRank = testRank
        · rw [if_pos hst] at hret
          injection hret with hret
          injection hret with he1 he2
          subst he1 he2
          refine ⟨hperm2, stay_ranked src σ h i hw j hj hji _ (rk_inj _ _ _ hperm2) ?_ hr3⟩
          have hisa : isa1 = isa := hsame hst.symm
          refine ranked_congr _ _ _ _ (fun p hp => ?_) hr
          rw [hisa, rk_set isa j testRank p (by rw [hperm.2.1]; omega)]
          by_cases hpj : p = j
          · rw [if_pos hpj, hpj, ← hst]; exact rk_eq _ _ _ hstart
          · rw [if_neg hpj]
        · rw [if_neg hst] at hret
          refine wordLoop_sem src σ h i hw hin fuel (j - 1) testRank _ _ (by omega) (by omega)
            hperm2 hr3 (fun _ => ?_) sa2 isa2 hret
          have e : j - 1 + 1 = j := by omega
          rw [e, if_neg (by omega), rk_set isa1 j testRank j (by omega), if_pos rfl]
    · rw [if_neg hj] at hret
      injection hret with hret
      injection hret with he1 he2
      subst he1 he2
      exact ⟨hperm, cur_done src σ h i _ (fun p hp => by omega) _ _ hr⟩

theorem argMin_le (isa : List Nat) : ∀ p, argMin isa p ≤ p
  | 0 => le_refl _
  | p + 1 => by
    unfold argMin
    split_ifs
    · exact le_refl _
    · exact Nat.le_succ_of_le (argMin_le isa p)

theorem argMin_min (isa : List Nat) : ∀ p q, q ≤ p → rk isa (argMin isa p) ≤ rk isa q
  | 0, q, hq => by
    have : q = 0 := by omega
    rw [this]
    exact le_refl _
  | p + 1, q, hq => by
    unfold argMin
    by_cases hc : rk isa (p + 1) < rk isa (argMin isa p)
    · rw [if_pos hc]
      by_cases hqp : q = p + 1
      · rw [hqp]
      · have := argMin_min isa p q (by omega)
        omega
    · rw [if_neg hc]
      by_cases hqp : q = p + 1
      · rw [hqp]; omega
      · exact argMin_min isa p q (by omega)

/-- The position of the lowest rank is the one that is below the others. -/
theorem argMin_eq (sa isa : List Nat) (n : Nat) (hperm : InvPerm sa isa n) (p g : Nat)
    (hp : p < n) (hg : g ≤ p) (hmin : ∀ q, q ≤ p → rk isa g ≤ rk isa q) : argMin isa p = g := by
  have h1 := argMin_min isa p g hg
  have h2 := hmin (argMin isa p) (argMin_le isa p)
  have := argMin_le isa p
  exact rk_inj sa isa n hperm _ _ (by omega) (by omega) (by omega)

/-- The positions of the lowest ranks are the same for ranks in the same order. -/
theorem argMin_congr (isa isa2 : List Nat) (i : Nat)
    (hord : ∀ a b, a ≤ i → b ≤ i → (rk isa a < rk isa b ↔ rk isa2 a < rk isa2 b)) :
    ∀ p, p ≤ i → argMin isa2 p = argMin isa p
  | 0, _ => rfl
  | p + 1, hp => by
    have ih := argMin_congr isa isa2 i hord p (by omega)
    have := argMin_le isa p
    unfold argMin
    rw [ih]
    by_cases hc : rk isa (p + 1) < rk isa (argMin isa p)
    · rw [if_pos hc, if_pos ((hord _ _ hp (by omega)).mp hc)]
    · rw [if_neg hc, if_neg (fun h2 => hc ((hord _ _ hp (by omega)).mpr h2))]

theorem below_of_ranked_lt (src : List Nat) (σ : Nat → Option Nat) (sa isa : List Nat)
    (hperm : InvPerm sa isa src.length) (hr : RankedBy (Below src σ) src.length (rk isa))
    (a b : Nat) (ha : a < src.length) (hb : b < src.length) (hab : Below src σ a b) :
    rk isa a < rk isa b :=
  ranked_lt _ _ _ hr (rk_inj sa isa _ hperm) (Below_asymm src σ) a b ha hb hab

/-- Closing the word from `h` to `i`: the state of the loop over the Lyndon
words once the ranks follow the order with the word closed. -/
theorem LInv_close (src : List Nat) (σ : Nat → Option Nat) (h i : Nat) (hw : Word src σ h i)
    (sa isa sa2 isa2 : List Nat) (hperm : InvPerm sa isa src.length)
    (hperm2 : InvPerm sa2 isa2 src.length) (hinv : LInv src σ h isa)
    (hbmin : ∀ q, q < h → rk isa h < rk isa q)
    (hscan : ∀ p, h < p → p < i → rk isa h < rk isa p)
    (hdet : i < src.length → rk isa i < rk isa h)
    (hr2 : RankedBy (Below src (closeWord σ h i)) src.length (rk isa2)) :
    LInv src (closeWord σ h i) i isa2 := by
  have hhi := hw.hi
  have hle := hw.le
  have hS2 := succ_close src σ h i hw
  -- the ranks of the positions up to `i` are in the same order as before
  have hord1 : ∀ a b, a ≤ i → b ≤ i → a < src.length → b < src.length →
      rk isa a < rk isa b → rk isa2 a < rk isa2 b := by
    intro a b ha hb han hbn hlt
    have hab : a ≠ b := fun e => by rw [e] at hlt; omega
    exact below_of_ranked_lt src _ sa2 isa2 hperm2 hr2 a b han hbn
      (below_close src σ h i hw a b ha hb han hbn hab (hinv.ranked a b han hbn hab hlt))
  have hord : ∀ a b, a ≤ i → b ≤ i → a < src.length → b < src.length →
      (rk isa a < rk isa b ↔ rk isa2 a < rk isa2 b) := by
    intro a b ha hb han hbn
    refine ⟨hord1 a b ha hb han hbn, fun hlt => ?_⟩
    by_contra hc
    have hab : a ≠ b := fun e => by rw [e] at hlt; omega
    have hne : rk isa a ≠ rk isa b := fun e => hab (rk_inj sa isa _ hperm a b han hbn e)
    have := hord1 b a hb ha hbn han (by omega)
    omega
  have hargh : ∀ p, h ≤ p → p < i → argMin isa p = h := by
    intro p hp hpi
    refine argMin_eq sa isa _ hperm p h (by omega) hp (fun q hq => ?_)
    rcases Nat.lt_trichotomy q h with h1 | h1 | h1
    · exact Nat.le_of_lt (hbmin q h1)
    · rw [h1]
    · exact Nat.le_of_lt (hscan q h1 (by omega))
  have harg : ∀ p, p < i → argMin isa2 p = argMin isa p := by
    intro p hp
    have key : ∀ q, q ≤ p → argMin isa2 q = argMin isa q := by
      intro q
      induction q with
      | zero => intro _; rfl
      | succ q ih =>
        intro hq
        have ih2 := ih (by omega)
        have := argMin_le isa q
        unfold argMin
        rw [ih2]
        have hiff := hord (q + 1) (argMin isa q) (by omega) (by omega) (by omega) (by omega)
        by_cases hc : rk isa (q + 1) < rk isa (argMin isa q)
        · rw [if_pos hc, if_pos (hiff.mp hc)]
        · rw [if_neg hc, if_neg (fun h2 => hc (hiff.mpr h2))]
    exact key p (le_refl _)
  refine ⟨hS2, hr2, ?_, ?_⟩
  · intro a b ha hb he hba
    by_cases ha1 : a < h
    · rw [strm_close_before src σ h i hw a ha1, strm_close_before src σ h i hw b (by omega)] at he
      obtain ⟨a2, b2, h1, h2, h3⟩ := hinv.tie a b ha hb he hba
      exact ⟨a2, b2, by rw [closeWord_ne σ h i a (by omega), h1],
        by rw [closeWord_ne σ h i b (by omega), h2], h3⟩
    · by_cases ha2 : a < i
      · by_cases hb1 : b < h
        · obtain ⟨b2, hb2, hb3⟩ := hinv.succ.closed b hb1
          refine ⟨_, b2, closeWord_word src σ h i hw a (by omega) ha2,
            by rw [closeWord_ne σ h i b (by omega), hb3], ?_⟩
          split_ifs <;> omega
        · exact absurd he.symm (strm_close_ne_word src σ h i hw b a (by omega) hba ha2)
      · exfalso
        rw [strm_close_after src σ h i hw a (by omega)] at he
        by_cases hb2 : b < i
        · exact strm_ne_sfx src _ i hS2 hle b a hb2 he.symm
        · rw [strm_close_after src σ h i hw b (by omega)] at he
          exact sfx_ne src b a hb hba he.symm
  · intro p hp
    have hpn : p < src.length := by omega
    by_cases hp1 : p + 1 ≤ h
    · rw [closeWord_ne σ h i p (by omega), hinv.emit p hp1]
      congr 1
      unfold sigR
      rw [harg p (by omega)]
      have := argMin_le isa p
      have hiff := hord (p + 1) (argMin isa p) (by omega) (by omega) (by omega) (by omega)
      by_cases hc : p + 1 = src.length ∨ rk isa (p + 1) < rk isa (argMin isa p)
      · rw [if_pos hc, if_pos (by
          rcases hc with hc | hc
          · exact Or.inl hc
          · exact Or.inr (hiff.mp hc))]
      · rw [if_neg hc, if_neg (by
          rintro (h1 | h1)
          · exact hc (Or.inl h1)
          · exact hc (Or.inr (hiff.mpr h1)))]
    · rw [closeWord_word src σ h i hw p (by omega) (by omega)]
      congr 1
      unfold sigR
      rw [harg p (by omega), hargh p (by omega) (by omega)]
      by_cases hl : p + 1 = i
      · rw [if_pos hl]
        by_cases hin : i < src.length
        · rw [if_pos (Or.inr (by
            rw [hl]
            exact (hord i h (le_refl _) (by omega) hin (by omega)).mp (hdet hin)))]
        · rw [if_pos (Or.inl (by omega))]
      · rw [if_neg hl, if_neg (by
          rintro (h1 | h1)
          · omega
          · have h2 := (hord (p + 1) h (by omega) (by omega) (by omega) (by omega)).mpr h1
            have := hscan (p + 1) (by omega) (by omega)
            omega)]

/-- When all the words are closed the ranks are such that `Inverse` works. -/
theorem final_of_LInv (src : List Nat) (σ : Nat → Option Nat) (sa isa : List Nat)
    (hperm : InvPerm sa isa src.length) (hinv : LInv src σ src.length isa) : Final src isa := by
  intro a b ha hb hab hlt
  have hσa := hinv.emit a (by omega)
  have hσb := hinv.emit b (by omega)
  have hsa : sigR isa src.length a < src.length := by
    obtain ⟨q, hq, hq2⟩ := hinv.succ.closed a ha
    rw [hσa] at hq2
    injection hq2 with hq2
    omega
  have hsb : sigR isa src.length b < src.length := by
    obtain ⟨q, hq, hq2⟩ := hinv.succ.closed b hb
    rw [hσb] at hq2
    injection hq2 with hq2
    omega
  have hta : ∀ t, strm src σ a (t + 1) = strm src σ (sigR isa src.length a) t :=
    fun t => stm_succ_some src σ t a _ hσa
  have htb : ∀ t, strm src σ b (t + 1) = strm src σ (sigR isa src.length b) t :=
    fun t => stm_succ_some src σ t b _ hσb
  have h0 : ∀ p, strm src σ p 0 = src[p]? := fun _ => rfl
  rcases hinv.ranked a b ha hb hab hlt with h1 | ⟨he, hba⟩
  · by_cases hc : strm src σ a 0 = strm src σ b 0
    · right
      refine ⟨hc, ?_⟩
      have h2 := (SLT_tail _ _ _ _ hc hta htb).mp h1
      exact below_of_ranked_lt src σ sa isa hperm hinv.ranked _ _ hsa hsb (Or.inl h2)
    · left
      exact SLT_head _ _ hc h1
  · right
    refine ⟨congrFun he 0, ?_⟩
    obtain ⟨a2, b2, h1, h2, h3⟩ := hinv.tie a b ha hb he hba
    rw [hσa] at h1
    rw [hσb] at h2
    injection h1 with h1
    injection h2 with h2
    have he2 : strm src σ (sigR isa src.length a) = strm src σ (sigR isa src.length b) := by
      funext t
      rw [← hta t, ← htb t, he]
    exact below_of_ranked_lt src σ sa isa hperm hinv.ranked _ _ hsa hsb
      (Or.inr ⟨he2, by omega⟩)

/-- The word from `h` to `i`, from what the ranks tell. -/
theorem word_of_ranks (src : List Nat) (σ : Nat → Option Nat) (h i : Nat) (isa : List Nat)
    (hhi : h < i) (hle : i ≤ src.length) (hinv : LInv src σ h isa)
    (hbmin : ∀ q, q < h → rk isa h < rk isa q)
    (hscan : ∀ p, h < p → p < i → rk isa h < rk isa p)
    (hnext : ∀ q, h ≤ q → q < i → SLT (sfx src i) (sfx src q)) : Word src σ h i := by
  refine ⟨hhi, hle, hinv.succ, hnext, ?_, ?_⟩
  · intro p hp hpi
    exact below_open_slt src σ h hinv.succ h p (le_refl _) (by omega) (by omega)
      (hinv.ranked h p (by omega) (by omega) (by omega) (hscan p hp hpi))
  · intro q hq
    rcases hinv.ranked h q (by omega) (by omega) (by omega) (hbmin q hq) with h1 | ⟨e, _⟩
    · rw [strm_open src σ h hinv.succ h (le_refl _)] at h1
      exact h1
    · rw [strm_open src σ h hinv.succ h (le_refl _)] at e
      exact absurd e.symm (strm_ne_sfx src σ h hinv.succ (by omega) q h hq)

/-- At the exit of the loop over the Lyndon words the last word is closed as it
is, and the ranks are such that `Inverse` works. -/
theorem final_exit (src : List Nat) (σ : Nat → Option Nat) (h : Nat) (sa isa : List Nat)
    (hh : h < src.length) (hperm : InvPerm sa isa src.length) (hinv : LInv src σ h isa)
    (hbmin : ∀ q, q < h → rk isa h < rk isa q)
    (hscan : ∀ p, h < p → p < src.length → rk isa h < rk isa p) : Final src isa := by
  have hw : Word src σ h src.length := word_of_ranks src σ h src.length isa hh (le_refl _) hinv
    hbmin hscan (fun q _ hq => ⟨0, fun s hs => by omega, by
      have h1 : sfx src src.length 0 = none := List.getElem?_eq_none (by omega)
      have h2 : sfx src q 0 = some src[q] := List.getElem?_eq_getElem (by omega)
      rw [h1, h2]
      trivial⟩)
  have hr2 : RankedBy (Below src (closeWord σ h src.length)) src.length (rk isa) := by
    intro a b ha hb hab hlt
    exact below_close src σ h src.length hw a b (by omega) (by omega) ha hb hab
      (hinv.ranked a b ha hb hab hlt)
  exact final_of_LInv src _ sa isa hperm
    (LInv_close src σ h src.length hw sa isa sa isa hperm hperm hinv hbmin hscan
      (fun hc => absurd hc (by omega)) hr2)

/-- The loop of `Forward` over the Lyndon words: at its exit the ranks are such
that `Inverse` works. -/
theorem lyndonLoop_sem (src : List Nat) :
    ∀ (fuel i min h : Nat) (sa isa : List Nat) (σ : Nat → Option Nat), h < i →
      i ≤ src.length → InvPerm sa isa src.length → isa[h]? = some min → LInv src σ h isa →
      (∀ q, q < h → rk isa h < rk isa q) →
      (∀ p, h < p → p < i → rk isa h < rk isa p) →
      ∀ sa2 isa2, lyndonLoop src src.length fuel i min h sa isa = some (sa2, isa2) →
      Final src isa2 := by
  have hexit : ∀ (i min h : Nat) (sa isa : List Nat) (σ : Nat → Option Nat), h < i →
      i ≤ src.length → InvPerm sa isa src.length → isa[h]? = some min → LInv src σ h isa →
      (∀ q, q < h → rk isa h < rk isa q) →
      (∀ p, h < p → p < i → rk isa h < rk isa p) → ¬ (i < src.length ∧ min > 0) →
      Final src isa := by
    intro i min h sa isa σ hhi hle hperm hmin hinv hbmin hscan hc
    have hh : h < src.length := by omega
    refine final_exit src σ h sa isa hh hperm hinv hbmin (fun p hp hpn => ?_)
    by_cases hin : i < src.length
    · have hm0 : min = 0 := by omega
      have hne : rk isa h ≠ rk isa p := fun e => by
        have := rk_inj sa isa _ hperm h p hh hpn e
        omega
      rw [rk_eq _ _ _ hmin, hm0] at hne ⊢
      omega
    · exact hscan p hp (by omega)
  intro fuel
  induction fuel with
  | zero =>
    intro i min h sa isa σ hhi hle hperm hmin hinv hbmin hscan sa2 isa2 hret
    unfold lyndonLoop at hret
    by_cases hc : i < src.length ∧ min > 0
    · rw [if_pos hc] at hret
      cases hret
    · rw [if_neg hc] at hret
      injection hret with hret
      injection hret with he1 he2
      subst he1 he2
      exact hexit i min h sa isa σ hhi hle hperm hmin hinv hbmin hscan hc
  | succ fuel ih =>
    intro i min h sa isa σ hhi hle hperm hmin hinv hbmin hscan sa2 isa2 hret
    unfold lyndonLoop at hret
    by_cases hc : i < src.length ∧ min > 0
    · rw [if_pos hc] at hret
      obtain ⟨r, hr⟩ := get_some isa i (by rw [hperm.2.1]; exact hc.1)
      rw [hr] at hret
      simp only [Option.bind_eq_bind, Option.some_bind] at hret
      have hrh : rk isa h = min := rk_eq _ _ _ hmin
      have hri : rk isa i = r := rk_eq _ _ _ hr
      by_cases hge : r ≥ min
      · rw [if_pos hge] at hret
        refine ih (i + 1) min h sa isa σ (by omega) (by omega) hperm hmin hinv hbmin
          (fun p hp hpi => ?_) sa2 isa2 hret
        by_cases hpi2 : p = i
        · have hne : rk isa h ≠ rk isa i := fun e => by
            have := rk_inj sa isa _ hperm h i (by omega) hc.1 e
            omega
          rw [hpi2]
          omega
        · exact hscan p hp (by omega)
      · rw [if_neg hge] at hret
        have hw : Word src σ h i := word_of_ranks src σ h i isa hhi hle hinv hbmin hscan
          (fun q hq hqi => by
            refine below_open_slt src σ h hinv.succ i q (by omega) hq (by omega)
              (hinv.ranked i q hc.1 (by omega) (by omega) ?_)
            by_cases hqh : q = h
            · rw [hqh]; omega
            · have := hscan q (by omega) hqi
              omega)
        cases hmv : moveLyndonWordHead sa isa src src.length h (i - h) min with
        | none =>
          rw [hmv] at hret
          simp at hret
        | some res =>
          obtain ⟨sa1, isa1, refRank⟩ := res
          rw [hmv] at hret
          simp only [Option.some_bind] at hret
          obtain ⟨hperm1, hr1, href⟩ := moveLyndonWordHead_sem src σ h i hw hc.1 sa isa min
            hperm hmin hinv.ranked sa1 isa1 refRank hmv
          cases hwl : wordLoop src src.length h i (i - 1) refRank sa1 isa1 with
          | none =>
            rw [hwl] at hret
            simp at hret
          | some res2 =>
            obtain ⟨sa3, isa3⟩ := res2
            rw [hwl] at hret
            simp only [Option.some_bind] at hret
            obtain ⟨hperm3, hr3⟩ := wordLoop_sem src σ h i hw hc.1 i (i - 1) refRank sa1 isa1
              (by omega) (by omega) hperm1 hr1 (fun _ => by
                rw [if_pos (by omega), href]) sa3 isa3 hwl
            obtain ⟨min2, hmin2⟩ := get_some isa3 i (by rw [hperm3.2.1]; exact hc.1)
            rw [hmin2] at hret
            simp only [Option.some_bind] at hret
            have hinv3 := LInv_close src σ h i hw sa isa sa3 isa3 hperm hperm3 hinv hbmin hscan
              (fun _ => by omega) hr3
            refine ih (i + 1) min2 i sa3 isa3 _ (by omega) (by omega) hperm3 hmin2 hinv3
              (fun q hq => ?_) (fun p hp hpi => by omega) sa2 isa2 hret
            refine below_of_ranked_lt src _ sa3 isa3 hperm3 hr3 i q hc.1 (by omega) ?_
            by_cases hqh : q < h
            · refine below_close src σ h i hw i q (le_refl _) (by omega) hc.1 (by omega)
                (by omega) (hinv.ranked i q hc.1 (by omega) (by omega) ?_)
              have := hbmin q hqh
              omega
            · left
              rw [strm_close_after src σ h i hw i (le_refl _)]
              exact next_lt_close src σ h i hw q (by omega) hq
    · rw [if_neg hc] at hret
      injection hret with hret
      injection hret with he1 he2
      subst he1 he2
      exact hexit i min h sa isa σ hhi hle hperm hmin hinv hbmin hscan hc

/-- The order of the byte strings is the order of their streams. -/
theorem lexLE_SLT : ∀ (l1 l2 : List Nat), lexLE l1 l2 = true → l1 ≠ l2 →
    SLT (fun t => l1[t]?) (fun t => l2[t]?)
  | [], [], _, hne => absurd rfl hne
  | [], b :: bs, _, _ => ⟨0, fun s hs => by omega, by simp [optLT]⟩
  | a :: as, [], h, _ => by simp [lexLE] at h
  | a :: as, b :: bs, h, hne => by
    unfold lexLE at h
    by_cases hab : a < b
    · exact ⟨0, fun s hs => by omega, by simpa [optLT] using hab⟩
    · rw [if_neg hab] at h
      by_cases hba : b < a
      · rw [if_pos hba] at h
        cases h
      · rw [if_neg hba] at h
        have he : a = b := by omega
        have hne2 : as ≠ bs := fun e => hne (by rw [he, e])
        obtain ⟨t, ht, hlt⟩ := lexLE_SLT as bs h hne2
        refine ⟨t + 1, fun s hs => ?_, by simpa using hlt⟩
        cases s with
        | zero => simp [he]
        | succ s => simpa using ht s (by omega)

theorem sfx_drop (src : List Nat) (a : Nat) : sfx src a = fun t => (src.drop a)[t]? := by
  funext t
  rw [List.getElem?_drop]
  rfl

/-- The successors at the start of `Forward`: every position is followed by the
next one. -/
theorem LInv_init (src : List Nat) (isa : List Nat)
    (hord : Ord src (fun q => q < src.length) isa) :
    LInv src (fun p => if p + 1 < src.length then some (p + 1) else none) 0 isa := by
  have hS : Succ src (fun p => if p + 1 < src.length then some (p + 1) else none) 0 :=
    ⟨fun p _ => rfl, fun p hp => absurd hp (by omega)⟩
  refine ⟨hS, ?_, ?_, fun p hp => absurd hp (by omega)⟩
  · intro a b ha hb hab hlt
    left
    rw [strm_open src _ 0 hS a (by omega), strm_open src _ 0 hS b (by omega), sfx_drop,
      sfx_drop]
    have hne : src.drop a ≠ src.drop b := by
      intro e
      have := congrArg List.length e
      simp only [List.length_drop] at this
      omega
    rcases lexLE_total (src.drop a) (src.drop b) with h1 | h1
    · exact lexLE_SLT _ _ h1 hne
    · have := hord b a hb ha ⟨Ne.symm hab, h1⟩
      omega
  · intro a b ha hb he hba
    rw [strm_open src _ 0 hS a (by omega), strm_open src _ 0 hS b (by omega)] at he
    exact absurd he.symm (sfx_ne src b a hb hba)

/-- The ranks that `Forward` computes are such that `Inverse` works. -/
theorem forwardCore_final (src dst : List Nat) (h2 : 2 ≤ src.length) (sa isa dst3 : List Nat)
    (hret : forwardCore src dst = some (sa, isa, dst3)) :
    InvPerm sa isa src.length ∧ Final src isa ∧
      ∃ dst2, emitLoop src isa src.length src.length 0 src.length dst = some dst2 ∧
        dst3 = dst2.set 0 (src.getD (src.length - 1) 0) := by
  obtain ⟨isa0, hisa, hperm, hord⟩ := init_spec src
  obtain ⟨min, hmin⟩ := get_some isa0 0 (by rw [hperm.2.1]; omega)
  obtain ⟨sa2, isa2, hly, hperm2⟩ := lyndonLoop_spec src src.length rfl src.length 1 min 0
    (ComputeSuffixArray src) isa0 (by omega) (by omega) hperm hmin
    (Ord_mono src _ _ isa0 (fun q hq => hq.2) hord)
  have hfin := lyndonLoop_sem src src.length 1 min 0 (ComputeSuffixArray src) isa0 _ (by omega)
    (by omega) hperm hmin (LInv_init src isa0 hord) (fun q hq => absurd hq (by omega))
    (fun p hp hp1 => by omega) sa2 isa2 hly
  unfold forwardCore at hret
  simp only [Option.bind_eq_bind, hisa, Option.some_bind, hmin, hly] at hret
  cases hem : emitLoop src isa2 src.length src.length 0 src.length dst with
  | none =>
    rw [hem] at hret
    simp at hret
  | some dst2 =>
    rw [hem] at hret
    obtain ⟨last, hlast⟩ := get_some src (src.length - 1) (by omega)
    simp only [Option.some_bind, hlast] at hret
    cases hset : setAt dst2 0 last with
    | none =>
      rw [hset] at hret
      simp at hret
    | some d3 =>
      rw [hset] at hret
      simp only [Option.some_bind, Option.pure_def] at hret
      injection hret with hret
      injection hret with he1 he2
      injection he2 with he2 he3
      subst he1 he2 he3
      refine ⟨hperm2, hfin, dst2, hem, ?_⟩
      unfold setAt at hset
      split_ifs at hset
      injection hset with hset
      rw [← hset]
      congr 1
      rw [List.getD_eq_getElem?_getD, hlast]
      rfl

/-- The loop that writes the output: `ws` are the ranks written so far, in the
order of the bytes of `src` they hold, and `min` is the rank held back. -/
theorem emitLoop_exact (src sa isa dst0 : List Nat) (n : Nat) (hn : src.length = n)
    (hperm : InvPerm sa isa n) (hd : n ≤ dst0.length) :
    ∀ (fuel i min : Nat) (dst ws : List Nat), 1 ≤ i → i ≤ n → n - i ≤ fuel →
      dst.length = dst0.length → ws.length = i - 1 → (ws ++ [min]).Perm (isa.take i) →
      (∀ t, t < i → min ≤ rk isa t) →
      (∀ (t w : Nat), ws[t]? = some w → dst[w]? = src[t]?) →
      (∀ k, k ∉ ws → dst[k]? = dst0[k]?) →
      min = rk isa (argMin isa (i - 1)) →
      (∀ (t w : Nat), ws[t]? = some w → w = rk isa (sigR isa n t)) →
      ∃ dst2 ws2, emitLoop src isa n fuel i min dst = some dst2 ∧ dst2.length = dst0.length ∧
        ws2.length = n - 1 ∧ (ws2 ++ [0]).Perm isa ∧
        (∀ (t w : Nat), ws2[t]? = some w → dst2[w]? = src[t]?) ∧
        (∀ k, k ∉ ws2 → dst2[k]? = dst0[k]?) ∧
        (∀ (t w : Nat), ws2[t]? = some w → w = rk isa (sigR isa n t)) ∧
        rk isa (sigR isa n (n - 1)) = 0 := by
  have hnd := InvPerm.nodup_isa sa isa n hperm
  have hfin : ∀ (i min : Nat) (dst ws : List Nat), ¬ i < n → i ≤ n →
      dst.length = dst0.length → ws.length = i - 1 → (ws ++ [min]).Perm (isa.take i) →
      (∀ t, t < i → min ≤ rk isa t) →
      (∀ (t w : Nat), ws[t]? = some w → dst[w]? = src[t]?) →
      (∀ k, k ∉ ws → dst[k]? = dst0[k]?) → 1 ≤ i →
      min = rk isa (argMin isa (i - 1)) →
      (∀ (t w : Nat), ws[t]? = some w → w = rk isa (sigR isa n t)) →
      ∃ dst2 ws2, some dst = some dst2 ∧ dst2.length = dst0.length ∧
        ws2.length = n - 1 ∧ (ws2 ++ [0]).Perm isa ∧
        (∀ (t w : Nat), ws2[t]? = some w → dst2[w]? = src[t]?) ∧
        (∀ k, k ∉ ws2 → dst2[k]? = dst0[k]?) ∧
        (∀ (t w : Nat), ws2[t]? = some w → w = rk isa (sigR isa n t)) ∧
        rk isa (sigR isa n (n - 1)) = 0 := by
    intro i min dst ws hin hi hdl hwl hp hmin hcont hun h1 hmeq hws
    have hieq : i = n := by omega
    subst hieq
    have htake : isa.take i = isa := List.take_of_length_le (by rw [hperm.2.1])
    rw [htake] at hp
    -- the rank held back at the end is `0`
    have hmin0 : min = 0 := by
      obtain ⟨p, hp0⟩ := get_some sa 0 (by rw [hperm.1]; omega)
      have h0 := hperm.2.2.1 0 p hp0
      have hpn : p < i := by rw [← hperm.2.1]; exact (List.getElem?_eq_some.mp h0).1
      have := hmin p hpn
      rw [rk_eq _ _ _ h0] at this
      omega
    rw [hmin0] at hp
    refine ⟨dst, ws, rfl, hdl, hwl, hp, hcont, hun, hws, ?_⟩
    have hs : sigR isa i (i - 1) = argMin isa (i - 1) := by
      unfold sigR
      rw [if_pos (Or.inl (by omega))]
    rw [hs, ← hmeq, hmin0]
  intro fuel
  induction fuel with
  | zero =>
    intro i min dst ws h1 hi hf hdl hwl hp hmin hcont hun hmeq hws
    have hin : ¬ i < n := by omega
    simp only [emitLoop, hin, if_false]
    exact hfin i min dst ws hin hi hdl hwl hp hmin hcont hun h1 hmeq hws
  | succ fuel ih =>
    intro i min dst ws h1 hi hf hdl hwl hp hmin hcont hun hmeq hws
    unfold emitLoop
    by_cases hin : i < n
    · rw [if_pos hin]
      obtain ⟨r, hr⟩ := get_some isa i (by rw [hperm.2.1]; exact hin)
      have hrn : r < n := InvPerm.isa_lt sa isa n hperm r (List.getElem?_mem hr)
      obtain ⟨c, hc⟩ := get_some src (i - 1) (by omega)
      have hi0 : ¬ i = 0 := by omega
      have htake : isa.take (i + 1) = isa.take i ++ [r] := by
        rw [List.take_succ, hr]; rfl
      have hndw : (ws ++ [min] ++ [r]).Nodup := by
        have : (ws ++ [min] ++ [r]).Perm (isa.take (i + 1)) := by
          rw [htake]; exact List.Perm.append_right _ hp
        exact this.nodup_iff.mpr (List.Nodup.sublist (List.take_sublist _ _) hnd)
      have hminn : min < n := by
        have : min ∈ isa.take i := hp.mem_iff.mp (by simp)
        exact InvPerm.isa_lt sa isa n hperm min (List.mem_of_mem_take this)
      rw [hr]
      simp only [Option.bind_eq_bind, Option.some_bind, hi0, if_false, hc]
      have hwsget : ∀ (w0 : Nat) (t w : Nat), (ws ++ [w0])[t]? = some w →
          (t < i - 1 ∧ ws[t]? = some w) ∨ (t = i - 1 ∧ w = w0) := by
        intro w0 t w ht
        by_cases htl : t < ws.length
        · rw [List.getElem?_append_left htl] at ht
          left; exact ⟨by omega, ht⟩
        · rw [List.getElem?_append_right (by omega)] at ht
          have htt : t - ws.length = 0 := by
            by_contra hcc
            have : t - ws.length = (t - ws.length - 1) + 1 := by omega
            rw [this] at ht
            simp at ht
          rw [htt] at ht
          simp only [List.getElem?_cons_zero] at ht
          injection ht with ht
          right; exact ⟨by omega, ht.symm⟩
      by_cases hge : r ≥ min
      · rw [if_pos hge, setAt_eq _ _ _ (by omega)]
        simp only [Option.some_bind]
        have hrws : r ∉ ws := by
          intro hmem
          have := List.nodup_append.mp hndw
          exact this.2.2 (List.mem_append_left _ hmem) (by simp)
        apply ih (i + 1) min (dst.set r c) (ws ++ [r]) (by omega) (by omega) (by omega)
          (by simp [hdl]) (by simp [hwl]; omega)
        · rw [htake]
          have h1 : (ws ++ [r] ++ [min]).Perm (ws ++ [min] ++ [r]) := by
            rw [List.append_assoc, List.append_assoc]
            exact List.Perm.append_left ws (List.perm_append_comm)
          exact h1.trans (List.Perm.append_right [r] hp)
        · intro t ht
          by_cases hti : t = i
          · rw [hti, rk_eq _ _ _ hr]; exact hge
          · exact hmin t (by omega)
        · intro t w ht
          rcases hwsget r t w ht with ⟨_, ht2⟩ | ⟨ht2, hw⟩
          · have hwr : w ≠ r := fun hcc => hrws (hcc ▸ List.getElem?_mem ht2)
            rw [List.getElem?_set_ne (Ne.symm hwr)]
            exact hcont t w ht2
          · rw [hw, ht2, hc, List.getElem?_set_self (by omega)]
        · intro k hk
          have hkr : k ≠ r := fun hcc => hk (by simp [hcc])
          rw [List.getElem?_set_ne (Ne.symm hkr)]
          exact hun k (fun hcc => hk (List.mem_append_left _ hcc))
        · have e : i + 1 - 1 = (i - 1) + 1 := by omega
          rw [e]
          unfold argMin
          have e2 : i - 1 + 1 = i := by omega
          rw [e2, rk_eq _ _ _ hr, ← hmeq, if_neg (by omega)]
          exact hmeq
        · intro t w ht
          rcases hwsget r t w ht with ⟨_, ht2⟩ | ⟨ht2, hw⟩
          · exact hws t w ht2
          · rw [hw, ht2]
            unfold sigR
            have e2 : i - 1 + 1 = i := by omega
            rw [e2, rk_eq _ _ _ hr, ← hmeq, if_neg (by
              rintro (h3 | h3)
              · omega
              · omega), rk_eq _ _ _ hr]
      · rw [if_neg hge, if_pos hminn, setAt_eq _ _ _ (by omega)]
        simp only [Option.some_bind]
        have hmws : min ∉ ws := by
          intro hmem
          have h2 := List.nodup_append.mp (List.nodup_append.mp hndw).1
          exact h2.2.2 hmem (by simp)
        apply ih (i + 1) r (dst.set min c) (ws ++ [min]) (by omega) (by omega) (by omega)
          (by simp [hdl]) (by simp [hwl]; omega)
        · rw [htake]
          exact List.Perm.append_right [r] hp
        · intro t ht
          by_cases hti : t = i
          · rw [hti, rk_eq _ _ _ hr]
          · have := hmin t (by omega)
            omega
        · intro t w ht
          rcases hwsget min t w ht with ⟨_, ht2⟩ | ⟨ht2, hw⟩
          · have hwr : w ≠ min := fun hcc => hmws (hcc ▸ List.getElem?_mem ht2)
            rw [List.getElem?_set_ne (Ne.symm hwr)]
            exact hcont t w ht2
          · rw [hw, ht2, hc, List.getElem?_set_self (by omega)]
        · intro k hk
          have hkr : k ≠ min := fun hcc => hk (by simp [hcc])
          rw [List.getElem?_set_ne (Ne.symm hkr)]
          exact hun k (fun hcc => hk (List.mem_append_left _ hcc))
        · have e : i + 1 - 1 = (i - 1) + 1 := by omega
          rw [e]
          unfold argMin
          have e2 : i - 1 + 1 = i := by omega
          rw [e2, rk_eq _ _ _ hr, ← hmeq, if_pos (by omega), rk_eq _ _ _ hr]
        · intro t w ht
          rcases hwsget min t w ht with ⟨_, ht2⟩ | ⟨ht2, hw⟩
          · exact hws t w ht2
          · rw [hw, ht2]
            unfold sigR
            have e2 : i - 1 + 1 = i := by omega
            rw [e2, rk_eq _ _ _ hr, ← hmeq, if_pos (Or.inr (by omega))]
            exact hmeq
    · rw [if_neg hin]
      exact hfin i min dst ws hin hi hdl hwl hp hmin hcont hun h1 hmeq hws

/-- The output of `Forward`: the byte at `t` is written at the rank of the
successor of `t`, and these ranks are all the ranks. -/
theorem emit_final (src sa isa dst dst2 : List Nat) (h2 : 2 ≤ src.length)
    (hperm : InvPerm sa isa src.length) (hd : src.length ≤ dst.length)
    (hem : emitLoop src isa src.length src.length 0 src.length dst = some dst2) :
    (dst2.set 0 (src.getD (src.length - 1) 0)).length = dst.length ∧
    (∀ t, t < src.length →
      (dst2.set 0 (src.getD (src.length - 1) 0))[rk isa (sigR isa src.length t)]? = src[t]?) ∧
    ((List.range src.length).map (fun t => rk isa (sigR isa src.length t))).Perm
      (List.range src.length) := by
  obtain ⟨r0, hr0⟩ := get_some isa 0 (by rw [hperm.2.1]; omega)
  have hr0n : r0 < src.length := InvPerm.isa_lt sa isa _ hperm r0 (List.getElem?_mem hr0)
  obtain ⟨dst2', ws, hemit, hlen2, hwl, hwp, hcont, hun, hws, hlast0⟩ :=
    emitLoop_exact src sa isa dst src.length rfl hperm hd (src.length - 1) 1 r0 dst []
      (by omega) (by omega) (by omega) rfl rfl
      (by
        have : isa.take 1 = [r0] := by
          rw [List.take_succ, hr0]; rfl
        rw [this]; exact List.Perm.refl _)
      (by
        intro t ht
        have : t = 0 := by omega
        rw [this, rk_eq _ _ _ hr0])
      (by intro t w ht; simp at ht)
      (by intro k _; rfl)
      (by
        show r0 = rk isa (argMin isa 0)
        rw [show argMin isa 0 = 0 from rfl, rk_eq _ _ _ hr0])
      (by intro t w ht; simp at ht)
  have hemit0 : emitLoop src isa src.length src.length 0 src.length dst = some dst2' := by
    have hfuel : src.length = (src.length - 1) + 1 := by omega
    rw [hfuel]
    unfold emitLoop
    rw [← hfuel]
    have h0 : 0 < src.length := by omega
    have h1 : ¬ r0 ≥ src.length := by omega
    simp only [h0, if_true, hr0, Option.bind_eq_bind, Option.some_bind, h1, if_false,
      Nat.lt_irrefl, zero_add]
    exact hemit
  rw [hemit0] at hem
  injection hem with hem
  subst hem
  obtain ⟨last, hlast⟩ := get_some src (src.length - 1) (by omega)
  have hgd : src.getD (src.length - 1) 0 = last := by
    rw [List.getD_eq_getElem?_getD, hlast]; rfl
  rw [hgd]
  have hnd : (ws ++ [0]).Nodup := hwp.nodup_iff.mpr (InvPerm.nodup_isa sa isa _ hperm)
  have h0ws : (0 : Nat) ∉ ws := by
    intro hmem
    exact (List.nodup_append.mp hnd).2.2 hmem (by simp)
  have hL : (List.range src.length).map (fun t => rk isa (sigR isa src.length t)) =
      ws ++ [0] := by
    apply List.ext_getElem?
    intro t
    rw [List.getElem?_map]
    by_cases ht : t < ws.length
    · rw [List.getElem?_append_left ht, List.getElem?_range (by omega)]
      obtain ⟨w, hw⟩ := get_some ws t ht
      rw [hw, hws t w hw]
      rfl
    · by_cases ht2 : t = ws.length
      · rw [List.getElem?_append_right (by omega), ht2, Nat.sub_self,
          List.getElem?_cons_zero, List.getElem?_range (by omega), hwl]
        simp only [Option.map_some']
        rw [hlast0]
      · rw [List.getElem?_eq_none (by simp; omega), List.getElem?_eq_none (by simp; omega)]
        rfl
  refine ⟨by simp [hlen2], ?_, ?_⟩
  · intro t ht
    by_cases ht2 : t < ws.length
    · obtain ⟨w, hw⟩ := get_some ws t ht2
      have hw0 : w ≠ 0 := fun hcc => h0ws (hcc ▸ List.getElem?_mem hw)
      rw [← hws t w hw, List.getElem?_set_ne (Ne.symm hw0)]
      exact hcont t w hw
    · have ht3 : t = src.length - 1 := by omega
      rw [ht3, hlast0, List.getElem?_set_self (by omega), hlast]
  · rw [hL]
    exact hwp.trans (InvPerm.perm_range sa isa _ hperm)

theorem countP_lt_range : ∀ (n k : Nat), k ≤ n →
    (List.range n).countP (fun x => decide (x < k)) = k
  | 0, k, hk => by
    have : k = 0 := by omega
    subst this
    rfl
  | n + 1, k, hk => by
    rw [List.range_succ, List.countP_append]
    by_cases hkn : k ≤ n
    · rw [countP_lt_range n k hkn]
      simp only [List.countP_cons, List.countP_nil]
      have : ¬ n < k := by omega
      simp [this]
    · have hk2 : k = n + 1 := by omega
      subst hk2
      have h1 : (List.range n).countP (fun x => decide (x < n + 1)) = n := by
        rw [List.countP_eq_length.mpr, List.length_range]
        intro x hx
        have := List.mem_range.mp hx
        simp only [decide_eq_true_eq]
        omega
      rw [h1]
      simp

theorem countP_or_disjoint {α : Type} (p q : α → Bool) (hd : ∀ x, ¬ (p x = true ∧ q x = true)) :
    ∀ l : List α, l.countP (fun x => p x || q x) = l.countP p + l.countP q
  | [] => rfl
  | x :: l => by
    rw [List.countP_cons, List.countP_cons, List.countP_cons, countP_or_disjoint p q hd l]
    have := hd x
    cases hp : p x <;> cases hq : q x <;> simp [hp, hq] at this ⊢ <;> omega

theorem countP_and_lt_range (q : Nat → Bool) : ∀ (n r : Nat), r ≤ n →
    (List.range n).countP (fun x => q x && decide (x < r)) = (List.range r).countP q
  | 0, r, hr => by
    have : r = 0 := by omega
    subst this
    rfl
  | n + 1, r, hr => by
    by_cases hrn : r ≤ n
    · rw [List.range_succ, List.countP_append, countP_and_lt_range q n r hrn]
      have : ¬ n < r := by omega
      simp [this]
    · have hr2 : r = n + 1 := by omega
      subst hr2
      apply List.countP_congr
      intro x hx
      have := List.mem_range.mp hx
      simp [this]

theorem map_getD_range (c : List Nat) : (List.range c.length).map (fun r => c.getD r 0) = c := by
  apply List.ext_getElem?
  intro k
  rw [List.getElem?_map]
  by_cases hk : k < c.length
  · rw [List.getElem?_range hk, List.getElem?_eq_getElem hk]
    simp [List.getD_eq_getElem?_getD, List.getElem?_eq_getElem hk]
  · rw [List.getElem?_eq_none (by simp; omega), List.getElem?_eq_none (by omega)]
    rfl

theorem take_getD_range (c : List Nat) (r : Nat) (hr : r ≤ c.length) :
    (List.range r).map (fun k => c.getD k 0) = c.take r := by
  apply List.ext_getElem?
  intro k
  rw [List.getElem?_map, List.getElem?_take]
  by_cases hk : k < r
  · rw [List.getElem?_range hk, if_pos hk, List.getElem?_eq_getElem (by omega)]
    simp [List.getD_eq_getElem?_getD, List.getElem?_eq_getElem (show k < c.length by omega)]
  · rw [List.getElem?_eq_none (by simp; omega), if_neg hk]
    rfl

/-- The value that `Inverse` computes for `r` is the number of indices whose
byte is below `c[r]`, or is `c[r]` at a lower index. -/
theorem lfVal_eq (c : List Nat) (r : Nat) (hr : r ≤ c.length) :
    (List.range c.length).countP (fun k => decide (c.getD k 0 < c.getD r 0) ||
      (decide (c.getD k 0 = c.getD r 0) && decide (k < r))) = lfVal c r := by
  rw [countP_or_disjoint (fun k => decide (c.getD k 0 < c.getD r 0))
    (fun k => decide (c.getD k 0 = c.getD r 0) && decide (k < r)) (fun k => by
      simp only [decide_eq_true_eq, Bool.and_eq_true]
      omega)]
  unfold lfVal
  have key1 : ∀ v, (List.range c.length).countP (fun k => decide (c.getD k 0 < v)) =
      c.countP (fun x => decide (x < v)) := by
    intro v
    have h1 := List.countP_map (fun x => decide (x < v)) (fun k => c.getD k 0)
      (List.range c.length)
    rw [map_getD_range] at h1
    rw [h1]
    rfl
  have key2 : ∀ v, (List.range r).countP (fun k => decide (c.getD k 0 = v)) =
      (c.take r).countP (fun x => decide (x = v)) := by
    intro v
    have h1 := List.countP_map (fun x => decide (x = v)) (fun k => c.getD k 0) (List.range r)
    rw [take_getD_range c r hr] at h1
    rw [h1]
    rfl
  rw [key1, countP_and_lt_range (fun k => decide (c.getD k 0 = c.getD r 0)) c.length r hr, key2]

/-- The rank of a position is the number of positions of a lower rank. -/
theorem rk_count (sa isa : List Nat) (n : Nat) (hperm : InvPerm sa isa n) (t : Nat)
    (ht : t < n) :
    (List.range n).countP (fun k => decide (rk isa k < rk isa t)) = rk isa t := by
  have hmap : (List.range n).map (rk isa) = isa := by
    apply List.ext_getElem?
    intro k
    rw [List.getElem?_map]
    by_cases hk : k < n
    · rw [List.getElem?_range hk, rk_get isa k (by rw [hperm.2.1]; exact hk)]
      rfl
    · rw [List.getElem?_eq_none (by simp; omega),
        List.getElem?_eq_none (by rw [hperm.2.1]; omega)]
      rfl
  have h1 : ∀ v, (List.range n).countP (fun k => decide (rk isa k < v)) =
      isa.countP (fun x => decide (x < v)) := by
    intro v
    have h2 := List.countP_map (fun x => decide (x < v)) (rk isa) (List.range n)
    rw [hmap] at h2
    rw [h2]
    rfl
  rw [h1, (InvPerm.perm_range sa isa n hperm).countP_eq]
  refine countP_lt_range n _ (Nat.le_of_lt ?_)
  exact InvPerm.isa_lt sa isa n hperm _
    (List.getElem?_mem (rk_get isa t (by rw [hperm.2.1]; exact ht)))

/-- The value that `Inverse` computes at the rank of the successor of `t` is
the rank of `t`. -/
theorem lf_identity (src sa isa bw : List Nat) (hperm : InvPerm sa isa src.length)
    (hfin : Final src isa) (hlen : bw.length = src.length)
    (hc : ∀ t, t < src.length → bw[rk isa (sigR isa src.length t)]? = src[t]?)
    (hρ : ((List.range src.length).map (fun t => rk isa (sigR isa src.length t))).Perm
      (List.range src.length)) (t : Nat) (ht : t < src.length) :
    lfVal bw (rk isa (sigR isa src.length t)) = rk isa t := by
  have hρlt : ∀ k, k < src.length → rk isa (sigR isa src.length k) < src.length := by
    intro k hk
    have h1 : rk isa (sigR isa src.length k) ∈
        (List.range src.length).map (fun t => rk isa (sigR isa src.length t)) :=
      List.mem_map.mpr ⟨k, List.mem_range.mpr hk, rfl⟩
    exact List.mem_range.mp (hρ.mem_iff.mp h1)
  have hx : ∀ k, k < src.length →
      src[k]? = some (bw.getD (rk isa (sigR isa src.length k)) 0) := by
    intro k hk
    rw [← hc k hk, List.getD_eq_getElem?_getD,
      List.getElem?_eq_getElem (show rk isa (sigR isa src.length k) < bw.length by
        rw [hlen]; exact hρlt k hk)]
    rfl
  have hK : ∀ a b, a < src.length → b < src.length → a ≠ b → rk isa a < rk isa b →
      (bw.getD (rk isa (sigR isa src.length a)) 0 < bw.getD (rk isa (sigR isa src.length b)) 0 ∨
        (bw.getD (rk isa (sigR isa src.length a)) 0 =
            bw.getD (rk isa (sigR isa src.length b)) 0 ∧
          rk isa (sigR isa src.length a) < rk isa (sigR isa src.length b))) := by
    intro a b ha hb hab hlt
    rcases hfin a b ha hb hab hlt with h1 | ⟨h1, h2⟩
    · rw [hx a ha, hx b hb] at h1
      exact Or.inl h1
    · rw [hx a ha, hx b hb] at h1
      injection h1 with h1
      exact Or.inr ⟨h1, h2⟩
  rw [← rk_count sa isa src.length hperm t ht, ← lfVal_eq bw _ (by
    rw [hlen]; exact Nat.le_of_lt (hρlt t ht)), hlen, ← hρ.countP_eq, List.countP_map]
  apply List.countP_congr
  intro k hk
  have hk2 := List.mem_range.mp hk
  simp only [Function.comp, decide_eq_true_eq, Bool.or_eq_true, Bool.and_eq_true]
  constructor
  · intro h1
    by_cases hkt : k = t
    · rw [hkt] at h1
      omega
    · by_contra hc2
      have hne : rk isa k ≠ rk isa t := fun e => hkt (rk_inj sa isa _ hperm k t hk2 ht e)
      have := hK t k ht hk2 (Ne.symm hkt) (by omega)
      omega
  · intro h1
    have hkt : k ≠ t := fun e => by rw [e] at h1; omega
    exact hK k t hk2 ht hkt h1

theorem getD_set (l : List Nat) (i v k : Nat) (hi : i < l.length) :
    (l.set i v).getD k 0 = if k = i then v else l.getD k 0 := by
  rw [List.getD_eq_getElem?_getD, List.getD_eq_getElem?_getD, getElem?_set_eq l i k v hi]
  by_cases hk : k = i
  · rw [if_pos hk, if_pos hk]; rfl
  · rw [if_neg hk, if_neg hk]

/-- The loop of `Inverse` that counts the bytes. -/
theorem countBuckets_spec : ∀ (l buckets : List Nat), (∀ x ∈ l, x < buckets.length) →
    ∃ res, countBuckets l buckets = some res ∧ res.length = buckets.length ∧
      ∀ v, res.getD v 0 = buckets.getD v 0 + l.countP (fun x => decide (x = v))
  | [], buckets, _ => ⟨buckets, rfl, rfl, fun v => by simp⟩
  | b :: l, buckets, h => by
    have hb : b < buckets.length := h b (by simp)
    obtain ⟨res, h1, h2, h3⟩ := countBuckets_spec l (buckets.set b (buckets.getD b 0 + 1))
      (fun x hx => by simp only [List.length_set]; exact h x (by simp [hx]))
    refine ⟨res, ?_, by simpa using h2, fun v => ?_⟩
    · unfold countBuckets
      rw [List.getElem?_eq_getElem hb]
      simp only [Option.bind_eq_bind, Option.some_bind]
      rw [← h1]
      congr 2
      simp [List.getD_eq_getElem?_getD, List.getElem?_eq_getElem hb]
    · rw [h3 v, getD_set buckets b _ v hb, List.countP_cons]
      by_cases hv : v = b
      · rw [if_pos hv, hv]
        simp
        omega
      · rw [if_neg hv]
        have : ¬ b = v := fun e => hv e.symm
        simp [this]

theorem cumulate_length : ∀ (l : List Nat) (s : Nat), (cumulate l s).length = l.length
  | [], _ => rfl
  | b :: l, s => by
    unfold cumulate
    simp [cumulate_length l (s + b)]

theorem cumulate_getD : ∀ (l : List Nat) (s v : Nat), v < l.length →
    (cumulate l s).getD v 0 = s + (l.take v).sum
  | [], _, v, hv => by simp at hv
  | b :: l, s, 0, _ => by simp [cumulate]
  | b :: l, s, v + 1, hv => by
    unfold cumulate
    simp only [List.getD_cons_succ, List.take_succ_cons, List.sum_cons]
    rw [cumulate_getD l (s + b) v (by simpa using hv)]
    omega

/-- The sum of the counts of the bytes below `v` is the number of bytes below
`v`. -/
theorem sum_take_counts (bw counts : List Nat)
    (hc : ∀ v, counts.getD v 0 = bw.countP (fun x => decide (x = v))) :
    ∀ v, v ≤ counts.length → (counts.take v).sum = bw.countP (fun x => decide (x < v))
  | 0, _ => by simp
  | v + 1, hv => by
    have hv2 : v < counts.length := by omega
    rw [List.take_succ, List.getElem?_eq_getElem hv2, List.sum_append,
      sum_take_counts bw counts hc v (by omega)]
    have h1 := hc v
    rw [List.getD_eq_getElem?_getD, List.getElem?_eq_getElem hv2] at h1
    simp only [Option.getD_some] at h1
    simp only [Option.toList_some, List.sum_cons, List.sum_nil, Nat.add_zero, h1]
    rw [← countP_or_disjoint (fun x => decide (x < v)) (fun x => decide (x = v)) (fun x => by
      simp only [decide_eq_true_eq]; omega) bw]
    apply List.countP_congr
    intro x _
    simp only [Bool.or_eq_true, decide_eq_true_eq]
    omega

/-- The loop of `Inverse` that fills `lf`. -/
theorem fillLf_spec : ∀ (l : List Nat) (i : Nat) (buckets : List Nat) (lf : List Int),
    (∀ x ∈ l, x < buckets.length) → i + l.length ≤ lf.length →
    ∃ lf2, fillLf l i buckets lf = some lf2 ∧ lf2.length = lf.length ∧
      (∀ k, k < l.length → lf2[i + k]? = some (Int.ofNat (buckets.getD (l.getD k 0) 0 +
        (l.take k).countP (fun x => decide (x = l.getD k 0))))) ∧
      (∀ k, k < i ∨ i + l.length ≤ k → lf2[k]? = lf[k]?)
  | [], i, buckets, lf, _, _ =>
    ⟨lf, rfl, rfl, fun k hk => by simp at hk, fun _ _ => rfl⟩
  | b :: l, i, buckets, lf, h, hlen => by
    have hb : b < buckets.length := h b (by simp)
    simp only [List.length_cons] at hlen
    obtain ⟨lf2, h1, h2, h3, h4⟩ := fillLf_spec l (i + 1)
      (buckets.set b (buckets.getD b 0 + 1)) (lf.set i (Int.ofNat (buckets.getD b 0)))
      (fun x hx => by simp only [List.length_set]; exact h x (by simp [hx]))
      (by simp only [List.length_set]; omega)
    refine ⟨lf2, ?_, by simpa using h2, fun k hk => ?_, fun k hk => ?_⟩
    · unfold fillLf
      rw [List.getElem?_eq_getElem hb]
      simp only [Option.bind_eq_bind, Option.some_bind]
      rw [setAt_eq _ _ _ (by omega)]
      simp only [Option.some_bind]
      rw [← h1]
      simp [List.getD_eq_getElem?_getD, List.getElem?_eq_getElem hb]
    · cases k with
      | zero =>
        rw [Nat.add_zero, h4 i (Or.inl (by omega)), List.getElem?_set_self (by omega)]
        simp
      | succ k =>
        simp only [List.length_cons] at hk
        have := h3 k (by omega)
        rw [show i + (k + 1) = i + 1 + k by omega, this]
        simp only [List.getD_cons_succ, List.take_succ_cons, List.countP_cons]
        rw [getD_set buckets b _ _ hb]
        have key : ∀ y m : Nat,
            (if y = b then buckets.getD b 0 + 1 else buckets.getD y 0) + m =
              buckets.getD y 0 + (m + if decide (b = y) = true then 1 else 0) := by
          intro y m
          by_cases hc : y = b
          · subst hc
            simp
            omega
          · have : ¬ b = y := fun e => hc e.symm
            simp [hc, this]
        rw [key]
    · simp only [List.length_cons] at hk
      rw [h4 k (by omega), List.getElem?_set_ne (by omega)]

/-- One pass of the inner loop of `Inverse`. -/
theorem cycleLoop_step (bw : List Nat) (fuel p j : Nat) (dst : List Nat) (lf : List Int)
    (x t : Nat) (hp : bw[p]? = some x) (hj : j < dst.length)
    (hlf : lf[p]? = some (Int.ofNat t)) :
    cycleLoop bw (fuel + 1) (Int.ofNat p) (Int.ofNat j) dst lf =
      match (lf.set p (-1))[t]? with
      | none => none
      | some next =>
        if next < 0 then some (dst.set j x, lf.set p (-1), Int.ofNat j - 1)
        else cycleLoop bw fuel (Int.ofNat t) (Int.ofNat j - 1) (dst.set j x) (lf.set p (-1)) := by
  have hpl : p < lf.length := (List.getElem?_eq_some.mp hlf).1
  have h1 : ¬ (Int.ofNat p < 0 ∨ Int.ofNat j < 0) := by
    simp only [Int.ofNat_eq_coe]
    omega
  have h2 : ¬ (Int.ofNat t < 0) := by
    simp only [Int.ofNat_eq_coe]
    omega
  conv_lhs => unfold cycleLoop
  rw [if_neg h1]
  have e1 : (Int.ofNat p).toNat = p := rfl
  have e2 : (Int.ofNat j).toNat = j := rfl
  have e3 : (Int.ofNat t).toNat = t := rfl
  rw [e1, e2, hp]
  simp only [Option.bind_eq_bind, Option.some_bind]
  rw [setAt_eq dst j x hj]
  simp only [Option.some_bind]
  rw [hlf]
  simp only [Option.some_bind]
  rw [setAt_eq lf p (-1) hpl]
  simp only [Option.some_bind]
  rw [if_neg h2, e3]
  cases (lf.set p (-1))[t]? with
  | none => rfl
  | some next => rfl

theorem LfState_congr (isa bw : List Nat) (n : Nat) (V W : Nat → Prop) (lf : List Int)
    (h : LfState isa bw n V lf) (hvw : ∀ q, q < n → (V q ↔ W q)) : LfState isa bw n W lf := by
  intro q hq
  obtain ⟨h1, h2⟩ := h q hq
  exact ⟨fun hw => h1 ((hvw q hq).mpr hw), fun hw => h2 (fun hv => hw ((hvw q hq).mp hv))⟩

/-- The position `s` is visited: `lf` gets `-1` at its rank. -/
theorem LfState_set (sa isa bw : List Nat) (n : Nat) (hperm : InvPerm sa isa n) (V : Nat → Prop)
    (lf : List Int) (s : Nat) (hs : s < n) (hl : rk isa s < lf.length)
    (h : LfState isa bw n V lf) :
    LfState isa bw n (fun q => V q ∨ q = s) (lf.set (rk isa s) (-1)) := by
  intro q hq
  obtain ⟨h1, h2⟩ := h q hq
  rw [getElem?_set_eq lf (rk isa s) (rk isa q) (-1) hl]
  constructor
  · rintro (hv | hv)
    · by_cases he : rk isa q = rk isa s
      · rw [if_pos he]
      · rw [if_neg he]; exact h1 hv
    · rw [hv, if_pos rfl]
  · intro hv
    have hne : ¬ rk isa q = rk isa s := fun he =>
      hv (Or.inr (rk_inj sa isa n hperm q s hq hs he))
    rw [if_neg hne]
    exact h2 (fun hv2 => hv (Or.inl hv2))

/-- The inner loop of `Inverse` on a cycle: from the position `j` down to `g`,
the rank `p` being that of the position `s`, the loop writes the bytes of the
source at the positions from `g` to `j`, visits `s` and the positions after `g`
up to `j`, and leaves with `j = g - 1`. -/
theorem cycleLoop_sem (src sa isa bw : List Nat) (n : Nat) (hn : src.length = n)
    (hperm : InvPerm sa isa n) (g : Nat) :
    ∀ (fuel j s : Nat) (V : Nat → Prop) (dst : List Nat) (lf : List Int),
      g ≤ j → j < n → j - g < fuel → s < n → ¬ V s → (s = g ∨ (j < s ∧ V g)) →
      (∀ q, g < q → q ≤ j → ¬ V q) →
      bw[rk isa s]? = src[j]? → lfVal bw (rk isa s) = rk isa j →
      (∀ k, g ≤ k → k < j →
        bw[rk isa (k + 1)]? = src[k]? ∧ lfVal bw (rk isa (k + 1)) = rk isa k) →
      n ≤ dst.length → LfState isa bw n V lf →
      ∃ dst2 lf2, cycleLoop bw fuel (Int.ofNat (rk isa s)) (Int.ofNat j) dst lf =
          some (dst2, lf2, Int.ofNat g - 1) ∧
        dst2.length = dst.length ∧ lf2.length = lf.length ∧
        (∀ y, g ≤ y → y ≤ j → dst2[y]? = src[y]?) ∧
        (∀ y, y < g ∨ j < y → dst2[y]? = dst[y]?) ∧
        LfState isa bw n (fun q => V q ∨ q = s ∨ (g < q ∧ q ≤ j)) lf2
  | 0, j, s, V, dst, lf, _, _, hf, _, _, _, _, _, _, _, _, _ => by omega
  | fuel + 1, j, s, V, dst, lf, hgj, hjn, hf, hs, hVs, hsg, hVw, hb, hl, hw, hd, hlf => by
    have hx : src[j]? = some (src.getD j 0) := by
      rw [List.getD_eq_getElem?_getD, List.getElem?_eq_getElem (by omega)]; rfl
    rw [hx] at hb
    have hlfs : lf[rk isa s]? = some (Int.ofNat (rk isa j)) := by
      rw [(hlf s hs).2 hVs, hl]
    have hpl : rk isa s < lf.length := (List.getElem?_eq_some.mp hlfs).1
    rw [cycleLoop_step bw fuel (rk isa s) j dst lf (src.getD j 0) (rk isa j) hb (by omega) hlfs]
    have hlf2 := LfState_set sa isa bw n hperm V lf s hs hpl hlf
    have hdj : (dst.set j (src.getD j 0))[j]? = src[j]? := by
      rw [hx, List.getElem?_set_self (by omega)]
    by_cases hjg : j = g
    · -- the head of the word: the cycle is closed
      have hnext : (lf.set (rk isa s) (-1))[rk isa j]? = some (-1) := by
        apply (hlf2 j hjn).1
        rcases hsg with h | h
        · exact Or.inr (by omega)
        · exact Or.inl (hjg ▸ h.2)
      rw [hnext]
      simp only
      rw [if_pos (by omega)]
      refine ⟨dst.set j (src.getD j 0), lf.set (rk isa s) (-1), by rw [hjg], by simp, by simp,
        fun y h1 h2 => ?_, fun y h1 => ?_, ?_⟩
      · have : y = j := by omega
        rw [this]; exact hdj
      · rw [List.getElem?_set_ne (by omega)]
      · apply LfState_congr isa bw n _ _ _ hlf2
        intro q _
        constructor
        · rintro (h | h)
          · exact Or.inl h
          · exact Or.inr (Or.inl h)
        · rintro (h | h | h)
          · exact Or.inl h
          · exact Or.inr h
          · omega
    · -- inside the word: the loop goes on
      have hgj2 : g < j := by omega
      have hVj : ¬ (V j ∨ j = s) := by
        rintro (h | h)
        · exact hVw j hgj2 (le_refl j) h
        · rcases hsg with h2 | h2 <;> omega
      have hnext : (lf.set (rk isa s) (-1))[rk isa j]? =
          some (Int.ofNat (lfVal bw (rk isa j))) := (hlf2 j hjn).2 hVj
      rw [hnext]
      simp only
      rw [if_neg (by simp only [Int.ofNat_eq_coe]; omega)]
      have hj1 : Int.ofNat j - 1 = Int.ofNat (j - 1) := by
        simp only [Int.ofNat_eq_coe]; omega
      rw [hj1]
      have hw1 := hw (j - 1) (by omega) (by omega)
      rw [show j - 1 + 1 = j by omega] at hw1
      obtain ⟨dst3, lf3, hrun, hdl, hll, hin, hout, hst⟩ :=
        cycleLoop_sem src sa isa bw n hn hperm g fuel (j - 1) j (fun q => V q ∨ q = s)
          (dst.set j (src.getD j 0)) (lf.set (rk isa s) (-1)) (by omega) (by omega) (by omega)
          hjn hVj
          (Or.inr ⟨by omega, by
            rcases hsg with h | h
            · exact Or.inr h.symm
            · exact Or.inl h.2⟩)
          (fun q h1 h2 => by
            rintro (h | h)
            · exact hVw q h1 (by omega) h
            · rcases hsg with h3 | h3 <;> omega)
          hw1.1 hw1.2 (fun k h1 h2 => hw k h1 (by omega)) (by simpa using hd) hlf2
      refine ⟨dst3, lf3, hrun, by simpa using hdl, by simpa using hll, fun y h1 h2 => ?_,
        fun y h1 => ?_, ?_⟩
      · by_cases hy : y = j
        · rw [hy, hout j (Or.inr (by omega))]
          exact hdj
        · exact hin y h1 (by omega)
      · rw [hout y (by omega), List.getElem?_set_ne (by omega)]
      · apply LfState_congr isa bw n _ _ _ hst
        intro q _
        constructor
        · rintro ((h | h) | h | h)
          · exact Or.inl h
          · exact Or.inr (Or.inl h)
          · exact Or.inr (Or.inr (by omega))
          · exact Or.inr (Or.inr (by omega))
        · rintro (h | h | h)
          · exact Or.inl (Or.inl h)
          · exact Or.inl (Or.inr h)
          · by_cases hq : q = j
            · exact Or.inr (Or.inl hq)
            · exact Or.inr (Or.inr (by omega))

theorem inverseLoop_done (bw : List Nat) (fuel i : Nat) (j : Int) (dst : List Nat)
    (lf : List Int) (hj : j < 0) : inverseLoop bw (fuel + 1) i j dst lf = some (dst, lf) := by
  unfold inverseLoop
  rw [if_neg (by omega)]

theorem inverseLoop_skip (bw : List Nat) (fuel i : Nat) (j : Int) (dst : List Nat)
    (lf : List Int) (v : Int) (hj : 0 ≤ j) (hv : lf[i]? = some v) (hneg : v < 0) :
    inverseLoop bw (fuel + 1) i j dst lf = inverseLoop bw fuel (i + 1) j dst lf := by
  conv_lhs => unfold inverseLoop
  rw [if_pos hj, hv]
  simp only [Option.bind_eq_bind, Option.some_bind]
  rw [if_pos hneg]

theorem inverseLoop_cycle (bw : List Nat) (fuel i : Nat) (j j2 : Int) (dst dst2 : List Nat)
    (lf lf2 : List Int) (v : Int) (hj : 0 ≤ j) (hv : lf[i]? = some v) (hneg : ¬ v < 0)
    (hrun : cycleLoop bw lf.length (Int.ofNat i) j dst lf = some (dst2, lf2, j2)) :
    inverseLoop bw (fuel + 1) i j dst lf = inverseLoop bw fuel (i + 1) j2 dst2 lf2 := by
  conv_lhs => unfold inverseLoop
  rw [if_pos hj, hv]
  simp only [Option.bind_eq_bind, Option.some_bind]
  rw [if_neg hneg, hrun]
  simp only [Option.some_bind]

/-- The successor of the last position of a word is the head of the word, the
position of the least rank up to there. -/
theorem sigR_end (sa isa : List Nat) (n : Nat) (hperm : InvPerm sa isa n) (g j : Nat)
    (hg : g ≤ j) (hj : j < n) (hmin : ∀ q, q ≤ j → rk isa g ≤ rk isa q)
    (hb : j + 1 = n ∨ ∀ q, q < j + 1 → rk isa (j + 1) < rk isa q) : sigR isa n j = g := by
  have h1 : argMin isa j = g := argMin_eq sa isa n hperm j g hj hg hmin
  unfold sigR
  rw [if_pos, h1]
  rcases hb with h | h
  · exact Or.inl h
  · exact Or.inr (h _ (by have := argMin_le isa j; omega))

/-- The successor of a position inside a word is the next position. -/
theorem sigR_inner (sa isa : List Nat) (n : Nat) (hperm : InvPerm sa isa n) (g j k : Nat)
    (hj : j < n) (hmin : ∀ q, q ≤ j → rk isa g ≤ rk isa q) (hgk : g ≤ k) (hkj : k < j) :
    sigR isa n k = k + 1 := by
  have h1 : argMin isa k = g :=
    argMin_eq sa isa n hperm k g (by omega) hgk (fun q hq => hmin q (by omega))
  unfold sigR
  rw [if_neg, ]
  rw [h1]
  have := hmin (k + 1) (by omega)
  omega

/-- The outer loop of `Inverse`: with the positions from `jn` on written and
visited, and every rank below `i` visited, the loop writes the rest of the
source and returns. -/
theorem inverseLoop_sem (src sa isa bw : List Nat) (n : Nat) (hn : src.length = n)
    (hperm : InvPerm sa isa n)
    (hc : ∀ t, t < n → bw[rk isa (sigR isa n t)]? = src[t]?)
    (hl : ∀ t, t < n → lfVal bw (rk isa (sigR isa n t)) = rk isa t) :
    ∀ (fuel i jn : Nat) (dst : List Nat) (lf : List Int),
      jn ≤ n → i ≤ n → n + 1 ≤ fuel + i → n ≤ dst.length → n ≤ lf.length →
      LfState isa bw n (fun q => jn ≤ q) lf →
      (∀ q, q < jn → i ≤ rk isa q) →
      (jn = n ∨ ∀ q, q < jn → rk isa jn < rk isa q) →
      (∀ y, jn ≤ y → y < n → dst[y]? = src[y]?) →
      ∃ dst2 lf2, inverseLoop bw fuel i (Int.ofNat jn - 1) dst lf = some (dst2, lf2) ∧
        dst2.length = dst.length ∧ lf2.length = lf.length ∧
        (∀ y, y < n → dst2[y]? = src[y]?) ∧ (∀ y, n ≤ y → dst2[y]? = dst[y]?)
  | 0, i, jn, dst, lf, _, hi, hf, _, _, _, _, _, _ => by omega
  | fuel + 1, i, jn, dst, lf, hjn, hi, hf, hd, hll, hlf, hrank, hbound, hdst => by
    by_cases hj0 : jn = 0
    · refine ⟨dst, lf, ?_, rfl, rfl, fun y hy => hdst y (by omega) hy, fun _ _ => rfl⟩
      apply inverseLoop_done
      simp only [Int.ofNat_eq_coe]
      omega
    · have hjge : (0 : Int) ≤ Int.ofNat jn - 1 := by
        simp only [Int.ofNat_eq_coe]; omega
      have hrk_lt : ∀ q, q < n → rk isa q < n := fun q hq =>
        InvPerm.isa_lt sa isa n hperm _
          (List.getElem?_mem (rk_get isa q (by rw [hperm.2.1]; exact hq)))
      have hin : i < n := by
        have := hrank 0 (by omega)
        have := hrk_lt 0 (by omega)
        omega
      obtain ⟨g, hsag⟩ := get_some sa i (by rw [hperm.1]; exact hin)
      have hisag := hperm.2.2.1 i g hsag
      have hgn : g < n := by
        rw [← hperm.2.1]; exact (List.getElem?_eq_some.mp hisag).1
      have hrg : rk isa g = i := rk_eq isa g i hisag
      have hne : ∀ q, q < n → q ≠ g → rk isa q ≠ i := fun q hq hqg he =>
        hqg (rk_inj sa isa n hperm q g hq hgn (by rw [he, hrg]))
      by_cases hvis : jn ≤ g
      · -- the rank `i` has been visited
        have hv : lf[i]? = some (-1) := by
          rw [← hrg]; exact (hlf g hgn).1 hvis
        rw [inverseLoop_skip bw fuel i _ dst lf (-1) hjge hv (by omega)]
        exact inverseLoop_sem src sa isa bw n hn hperm hc hl fuel (i + 1) jn dst lf hjn
          (by omega) (by omega) hd hll hlf
          (fun q hq => by
            have := hrank q hq
            have := hne q (by omega) (by omega)
            omega)
          hbound hdst
      · -- the rank `i` is the head of the word that ends at `jn - 1`
        have hgj : g ≤ jn - 1 := by omega
        have hmin : ∀ q, q ≤ jn - 1 → rk isa g ≤ rk isa q := fun q hq => by
          rw [hrg]; exact hrank q (by omega)
        have hbound2 : jn - 1 + 1 = n ∨ ∀ q, q < jn - 1 + 1 → rk isa (jn - 1 + 1) < rk isa q := by
          rw [show jn - 1 + 1 = jn by omega]; exact hbound
        have hsig := sigR_end sa isa n hperm g (jn - 1) hgj (by omega) hmin hbound2
        have hv : lf[i]? = some (Int.ofNat (lfVal bw i)) := by
          rw [← hrg]; exact (hlf g hgn).2 hvis
        have hcj := hc (jn - 1) (by omega)
        have hlj := hl (jn - 1) (by omega)
        rw [hsig] at hcj hlj
        have hj1 : Int.ofNat jn - 1 = Int.ofNat (jn - 1) := by
          simp only [Int.ofNat_eq_coe]; omega
        obtain ⟨dst2, lf2, hrun, hdl, hlen2, hin2, hout2, hst⟩ :=
          cycleLoop_sem src sa isa bw n hn hperm g lf.length (jn - 1) g (fun q => jn ≤ q) dst lf
            hgj (by omega) (by omega) hgn hvis (Or.inl rfl) (fun q h1 h2 => by omega) hcj hlj
            (fun k h1 h2 => by
              have := sigR_inner sa isa n hperm g (jn - 1) k (by omega) hmin h1 h2
              have h3 := hc k (by omega)
              have h4 := hl k (by omega)
              rw [this] at h3 h4
              exact ⟨h3, h4⟩)
            hd hlf
        rw [hrg, ← hj1] at hrun
        rw [inverseLoop_cycle bw fuel i _ _ dst dst2 lf lf2 _ hjge hv
          (by simp only [Int.ofNat_eq_coe]; omega) hrun]
        obtain ⟨dst3, lf3, hrun3, hdl3, hlen3, hall, hrest⟩ :=
          inverseLoop_sem src sa isa bw n hn hperm hc hl fuel (i + 1) g dst2 lf2 (by omega)
            (by omega) (by omega) (by omega) (by omega)
            (LfState_congr isa bw n _ _ _ hst (fun q _ => by
              constructor
              · rintro (h | h | h) <;> omega
              · intro h
                by_cases h1 : jn ≤ q
                · exact Or.inl h1
                · by_cases h2 : q = g
                  · exact Or.inr (Or.inl h2)
                  · exact Or.inr (Or.inr (by omega))))
            (fun q hq => by
              have := hrank q (by omega)
              have := hne q (by omega) (by omega)
              omega)
            (Or.inr (fun q hq => by
              have := hrank q (by omega)
              have := hne q (by omega) (by omega)
              omega))
            (fun y h1 h2 => by
              by_cases h3 : y ≤ jn - 1
              · exact hin2 y h1 h3
              · rw [hout2 y (Or.inr (by omega))]
                exact hdst y (by omega) h2)
        refine ⟨dst3, lf3, hrun3, by omega, by omega, hall, fun y hy => ?_⟩
        rw [hrest y hy, hout2 y (Or.inr (by omega))]

/-- The part of `Inverse` for a block of two bytes at least, on the output `bw`
of a transform whose ranks `isa` have the final property: the block `src` is
written to the destination. -/
theorem inverseCore_sem (src sa isa bw dst : List Nat) (lf0 : List Int) (h2 : 2 ≤ src.length)
    (hperm : InvPerm sa isa src.length) (hfin : Final src isa) (hlen : bw.length = src.length)
    (hc : ∀ t, t < src.length → bw[rk isa (sigR isa src.length t)]? = src[t]?)
    (hρ : ((List.range src.length).map (fun t => rk isa (sigR isa src.length t))).Perm
      (List.range src.length))
    (hbytes : ∀ x ∈ src, x < 256) (hd : src.length ≤ dst.length)
    (hlf0 : src.length ≤ lf0.length) :
    ∃ dst2 lf2, inverseCore bw dst lf0 = some (dst2, lf2) ∧ dst2.length = dst.length ∧
      lf2.length = lf0.length ∧ (∀ y, y < src.length → dst2[y]? = src[y]?) ∧
      (∀ y, src.length ≤ y → dst2[y]? = dst[y]?) := by
  -- the bytes of `bw` are bytes of `src`
  have hbw : ∀ x ∈ bw, x < 256 := by
    intro x hx
    obtain ⟨r, hr⟩ := List.mem_iff_getElem?.mp hx
    have hrl : r < src.length := by
      rw [← hlen]; exact (List.getElem?_eq_some.mp hr).1
    have hmem : r ∈ (List.range src.length).map (fun t => rk isa (sigR isa src.length t)) :=
      hρ.mem_iff.mpr (List.mem_range.mpr hrl)
    obtain ⟨t, ht, hrt⟩ := List.mem_map.mp hmem
    have h1 := hc t (List.mem_range.mp ht)
    rw [hrt, hr] at h1
    exact hbytes x (List.getElem?_mem h1.symm)
  obtain ⟨counts, hcnt, hcl, hcv⟩ := countBuckets_spec bw (List.replicate 256 0)
    (fun x hx => by rw [List.length_replicate]; exact hbw x hx)
  have hcv2 : ∀ v, counts.getD v 0 = bw.countP (fun x => decide (x = v)) := by
    intro v
    rw [hcv v, List.getD_eq_getElem?_getD, List.getElem?_replicate]
    split <;> simp
  have hcl2 : counts.length = 256 := by rw [hcl, List.length_replicate]
  have hbk : ∀ v, v < 256 →
      (cumulate counts 0).getD v 0 = bw.countP (fun x => decide (x < v)) := by
    intro v hv
    rw [cumulate_getD counts 0 v (by omega), Nat.zero_add,
      sum_take_counts bw counts hcv2 v (by omega)]
  obtain ⟨lf1, hfill, hl1, hval, _⟩ := fillLf_spec bw 0 (cumulate counts 0) lf0
    (fun x hx => by rw [cumulate_length, hcl2]; exact hbw x hx) (by omega)
  have hstate : LfState isa bw src.length (fun q => src.length ≤ q) lf1 := by
    intro q hq
    refine ⟨fun h => by omega, fun _ => ?_⟩
    have hr : rk isa q < src.length :=
      InvPerm.isa_lt sa isa src.length hperm _
        (List.getElem?_mem (rk_get isa q (by rw [hperm.2.1]; exact hq)))
    have := hval (rk isa q) (by omega)
    rw [Nat.zero_add] at this
    rw [this]
    have hb : bw.getD (rk isa q) 0 < 256 := by
      apply hbw
      rw [List.getD_eq_getElem?_getD, List.getElem?_eq_getElem (by omega)]
      exact List.getElem_mem _
    rw [hbk _ hb]
    rfl
  obtain ⟨dst2, lf2, hrun, hdl, hll, hall, hrest⟩ :=
    inverseLoop_sem src sa isa bw src.length rfl hperm hc
      (fun t ht => lf_identity src sa isa bw hperm hfin hlen hc hρ t ht)
      (lf1.length + 1) 0 src.length dst lf1 (le_refl _) (by omega) (by omega) hd (by omega)
      hstate (fun q _ => Nat.zero_le _) (Or.inl rfl) (fun y h1 h2 => by omega)
  refine ⟨dst2, lf2, ?_, hdl, by omega, hall, hrest⟩
  unfold inverseCore
  rw [hcnt]
  simp only [Option.bind_eq_bind, Option.some_bind]
  rw [hfill]
  simp only [Option.some_bind]
  rw [hlen]
  exact hrun

/-- `Forward` and then `Inverse`: the block comes back. The destination of
`Forward` has the length of the block, and `Inverse` may be run on any `BWTS`
and any destination of that length. -/
theorem BWTS.Inverse_Forward (this : BWTS) (b dst : List Nat) (hne : b ≠ [])
    (hbytes : ∀ x ∈ b, x < 256) (hmax : b.length ≤ MaxBWTSBlockSize)
    (hd : dst.length = b.length) :
    ∃ r1, this.Forward false b dst = some r1 ∧ r1.err = false ∧ r1.read = b.length ∧
      r1.written = b.length ∧ r1.dst.length = b.length ∧
      ∀ (that : BWTS) (dst2 : List Nat), dst2.length = b.length →
        ∃ r2, that.Inverse false r1.dst dst2 = some r2 ∧ r2.err = false ∧
          r2.read = b.length ∧ r2.written = b.length ∧ r2.dst = b := by
  have h0 : ¬ b.length = 0 := fun e => hne (List.length_eq_zero.mp e)
  by_cases h1 : b.length < 2
  · -- one byte
    obtain ⟨a, rest, hb⟩ := List.exists_cons_of_ne_nil hne
    have hrest : rest = [] := by
      rw [hb] at h1
      simp only [List.length_cons] at h1
      exact List.length_eq_zero.mp (by omega)
    subst hrest
    subst hb
    obtain ⟨d, ds, hdst⟩ := List.exists_cons_of_ne_nil
      (show dst ≠ [] from fun hc => by rw [hc] at hd; simp at hd)
    have hds : ds = [] := by
      rw [hdst] at hd
      simp only [List.length_cons, List.length_nil] at hd
      exact List.length_eq_zero.mp (by omega)
    subst hds
    subst hdst
    refine ⟨⟨1, 1, false, [a], this⟩, by simp [BWTS.Forward, setAt, MaxBWTSBlockSize], rfl, rfl,
      rfl, rfl, ?_⟩
    intro that dst2 hd2
    obtain ⟨e, es, hdst2⟩ := List.exists_cons_of_ne_nil
      (show dst2 ≠ [] from fun hc => by rw [hc] at hd2; simp at hd2)
    have hes : es = [] := by
      rw [hdst2] at hd2
      simp only [List.length_cons, List.length_nil] at hd2
      exact List.length_eq_zero.mp (by omega)
    subst hes
    subst hdst2
    exact ⟨⟨1, 1, false, [a], that⟩, by simp [BWTS.Inverse, setAt, MaxBWTSBlockSize], rfl, rfl,
      rfl, rfl⟩
  · have h2 : 2 ≤ b.length := by omega
    obtain ⟨sa, isa, dst3, hcore, hlen3, _, _⟩ := forwardCore_spec b dst h2 (by omega)
    obtain ⟨hperm, hfin, dst1, hemit, hdst3⟩ := forwardCore_final b dst h2 sa isa dst3 hcore
    obtain ⟨_, hc, hρ⟩ := emit_final b sa isa dst dst1 h2 hperm (by omega) hemit
    rw [← hdst3] at hc
    have hl3 : dst3.length = b.length := by omega
    refine ⟨⟨b.length, b.length, false, dst3,
      { buffer1 := storeBuffer this.buffer1 b.length sa,
        buffer2 := storeBuffer this.buffer2 b.length isa }⟩, ?_, rfl, rfl, rfl, hl3, ?_⟩
    · unfold BWTS.Forward
      rw [if_neg h0, if_neg (by omega), if_neg (by simp), if_neg (by omega), if_neg (by omega),
        if_neg h1, hcore]
    · intro that dst2 hd2
      obtain ⟨out, lf2, hinv, hol, _, hall, _⟩ :=
        inverseCore_sem b sa isa dst3 dst2
          (if that.buffer1.length < dst3.length then List.replicate dst3.length 0
            else that.buffer1)
          h2 hperm hfin hl3 hc hρ hbytes (by omega)
          (by
            split
            · rw [List.length_replicate, hl3]
            · omega)
      have hout : out = b := by
        apply List.ext_getElem?
        intro y
        by_cases hy : y < b.length
        · exact hall y hy
        · rw [List.getElem?_eq_none (by omega), List.getElem?_eq_none (by omega)]
      refine ⟨⟨dst3.length, dst3.length, false, out, { that with buffer1 := lf2 }⟩, ?_, rfl, hl3,
        hl3, hout⟩
      show that.Inverse false dst3 dst2 = _
      have e1 : ¬ dst3.length = 0 := by omega
      have e2 : ¬ dst2.length = 0 := by omega
      have e3 : ¬ dst3.length > MaxBWTSBlockSize := by omega
      have e4 : ¬ dst3.length > dst2.length := by omega
      have e5 : ¬ dst3.length < 2 := by omega
      unfold BWTS.Inverse
      rw [if_neg e1, if_neg e2, if_neg (by simp), if_neg e3, if_neg e4, if_neg e5, hinv]

/-- `Forward` is onto: every block is the transform of a block, which `Inverse`
returns. The transforms of the rearrangements of `c` are rearrangements of
`c`, and no two of them are the same, `Inverse` telling them apart. -/
theorem BWTS.Forward_Inverse (this that : BWTS) (c dst1 dst2 : List Nat)
    (hbytes : ∀ x ∈ c, x < 256) (hmax : c.length ≤ MaxBWTSBlockSize)
    (hd1 : dst1.length = c.length) (hd2 : dst2.length = c.length) :
    ∃ r1, this.Inverse false c dst1 = some r1 ∧ r1.err = false ∧ r1.read = c.length ∧
      r1.written = c.length ∧
      ∃ r2, that.Forward false r1.dst dst2 = some r2 ∧ r2.err = false ∧
        r2.read = c.length ∧ r2.written = c.length ∧ r2.dst = c := by
  by_cases hnil : c = []
  · subst hnil
    have e1 : dst1 = [] := List.length_eq_zero.mp hd1
    have e2 : dst2 = [] := List.length_eq_zero.mp hd2
    subst e1
    subst e2
    exact ⟨⟨0, 0, false, [], this⟩, rfl, rfl, rfl, rfl, ⟨0, 0, false, [], that⟩, rfl, rfl, rfl,
      rfl, rfl⟩
  · -- the transform as a function on the rearrangements of `c`
    let F : List Nat → List Nat := fun b =>
      match that.Forward false b dst2 with
      | some r => r.dst
      | none => b
    have hF : ∀ b, b.Perm c → ∃ r, that.Forward false b dst2 = some r ∧ r.err = false ∧
        r.read = c.length ∧ r.written = c.length ∧ F b = r.dst ∧ r.dst.Perm c ∧
        ∀ (t : BWTS) (d : List Nat), d.length = c.length →
          ∃ r2, t.Inverse false r.dst d = some r2 ∧ r2.err = false ∧ r2.read = c.length ∧
            r2.written = c.length ∧ r2.dst = b := by
      intro b hb
      have hbl : b.length = c.length := hb.length_eq
      have hbne : b ≠ [] := fun e => hnil (by
        rw [e] at hb; exact hb.symm.eq_nil)
      obtain ⟨r, hr, herr, hrd, hwr, hrl, hinv⟩ := BWTS.Inverse_Forward that b dst2 hbne
        (fun x hx => hbytes x (hb.subset hx)) (by omega) (by omega)
      obtain ⟨r', hr', _, _, _, hlen', hperm', _⟩ := BWTS.Forward_spec that b dst2 (by omega)
        (by omega)
      rw [hr] at hr'
      cases hr'
      have htake : r.dst.take b.length = r.dst := List.take_of_length_le (by omega)
      rw [htake] at hperm'
      refine ⟨r, hr, herr, by omega, by omega, ?_, hperm'.trans hb, ?_⟩
      · show (match that.Forward false b dst2 with
          | some r => r.dst
          | none => b) = r.dst
        rw [hr]
      · intro t d hd
        obtain ⟨r2, h1, h2, h3, h4, h5⟩ := hinv t d (by omega)
        exact ⟨r2, h1, h2, by omega, by omega, h5⟩
    have hmaps : (c.permutations.toFinset).image F ⊆ c.permutations.toFinset := by
      intro x hx
      obtain ⟨b, hb, hbx⟩ := Finset.mem_image.mp hx
      rw [List.mem_toFinset, List.mem_permutations] at hb ⊢
      obtain ⟨r, _, _, _, _, hFb, hperm, _⟩ := hF b hb
      rw [← hbx, hFb]
      exact hperm
    have hinj : Set.InjOn F (c.permutations.toFinset : Set (List Nat)) := by
      intro b hb b' hb' hbb
      rw [Finset.mem_coe, List.mem_toFinset, List.mem_permutations] at hb hb'
      obtain ⟨r, _, _, _, _, hFb, _, hinv⟩ := hF b hb
      obtain ⟨r', _, _, _, _, hFb', _, hinv'⟩ := hF b' hb'
      obtain ⟨r2, h1, _, _, _, h5⟩ := hinv this dst1 hd1
      obtain ⟨r2', h1', _, _, _, h5'⟩ := hinv' this dst1 hd1
      rw [← hFb, hbb, hFb', h1'] at h1
      cases h1
      rw [← h5, ← h5']
    have himage : (c.permutations.toFinset).image F = c.permutations.toFinset :=
      Finset.eq_of_subset_of_card_le hmaps (by rw [Finset.card_image_of_injOn hinj])
    have hc : c ∈ (c.permutations.toFinset).image F := by
      rw [himage, List.mem_toFinset, List.mem_permutations]
    obtain ⟨b, hb, hbc⟩ := Finset.mem_image.mp hc
    rw [List.mem_toFinset, List.mem_permutations] at hb
    obtain ⟨r, hr, herr, hrd, hwr, hFb, _, hinv⟩ := hF b hb
    obtain ⟨r2, h1, h2, h3, h4, h5⟩ := hinv this dst1 hd1
    rw [← hFb, hbc] at h1
    refine ⟨r2, h1, h2, h3, h4, r, ?_, herr, hrd, hwr, ?_⟩
    · rw [h5]; exact hr
    · rw [← hFb, hbc]

/-- C1 (BWTS round trip): for every block `b` of bytes that is not empty and has
at most `2^30` bytes, and destinations of the length of `b` that are not the
source, `Forward` on `b` returns without error and reports `b.length` bytes
read and written, and `Inverse` on the output of `Forward`, on any `BWTS`,
returns without error, reports `b.length` bytes read and written, and
reproduces `b`. -/
theorem bwts_round_trip (this that : BWTS) (b dst dst2 : List Nat) (hne : b ≠ [])
    (hbytes : ∀ x ∈ b, x < 256) (hmax : b.length ≤ MaxBWTSBlockSize)
    (hd : dst.length = b.length) (hd2 : dst2.length = b.length) :
    ∃ r1 r2, this.Forward false b dst = some r1 ∧ r1.err = false ∧ r1.read = b.length ∧
      r1.written = b.length ∧ that.Inverse false r1.dst dst2 = some r2 ∧ r2.err = false ∧
      r2.read = b.length ∧ r2.written = b.length ∧ r2.dst = b := by
  obtain ⟨r1, h1, h2, h3, h4, _, h5⟩ := BWTS.Inverse_Forward this b dst hne hbytes hmax hd
  obtain ⟨r2, h6⟩ := h5 that dst2 hd2
  exact ⟨r1, r2, h1, h2, h3, h4, h6⟩

/-- Witness of C1 at the block `"banana"`, on a new `BWTS`. -/
theorem bwts_round_trip_witness :
    ∃ r1 r2, NewBWTS.Forward false [98, 97, 110, 97, 110, 97] (List.replicate 6 0) = some r1 ∧
      r1.err = false ∧ r1.read = [98, 97, 110, 97, 110, 97].length ∧
      r1.written = [98, 97, 110, 97, 110, 97].length ∧
      NewBWTS.Inverse false r1.dst (List.replicate 6 0) = some r2 ∧ r2.err = false ∧
      r2.read = [98, 97, 110, 97, 110, 97].length ∧
      r2.written = [98, 97, 110, 97, 110, 97].length ∧ r2.dst = [98, 97, 110, 97, 110, 97] :=
  bwts_round_trip NewBWTS NewBWTS [98, 97, 110, 97, 110, 97] (List.replicate 6 0)
    (List.replicate 6 0) (by decide) (by decide) (by decide) (by decide) (by decide)

/-- C8 (BWTS is a bijection on the blocks of each length): for every block `c` of
bytes of at most `2^30` bytes and destinations of the length of `c` that are
not the source, `Inverse` on `c` returns without error, and `Forward` on the
output of `Inverse`, on any `BWTS`, returns without error and yields `c`; so
every block is the transform of a block, and no primary index is needed. -/
theorem bwts_bijection (this that : BWTS) (c dst1 dst2 : List Nat)
    (hbytes : ∀ x ∈ c, x < 256) (hmax : c.length ≤ MaxBWTSBlockSize)
    (hd1 : dst1.length = c.length) (hd2 : dst2.length = c.length) :
    ∃ r1, this.Inverse false c dst1 = some r1 ∧ r1.err = false ∧ r1.read = c.length ∧
      r1.written = c.length ∧
      ∃ r2, that.Forward false r1.dst dst2 = some r2 ∧ r2.err = false ∧
        r2.read = c.length ∧ r2.written = c.length ∧ r2.dst = c :=
  BWTS.Forward_Inverse this that c dst1 dst2 hbytes hmax hd1 hd2

/-- Witness of C8 at the block `"nnbaaa"`, on a new `BWTS`. -/
theorem bwts_bijection_witness :
    ∃ r1, NewBWTS.Inverse false [110, 110, 98, 97, 97, 97] (List.replicate 6 0) = some r1 ∧
      r1.err = false ∧ r1.read = [110, 110, 98, 97, 97, 97].length ∧
      r1.written = [110, 110, 98, 97, 97, 97].length ∧
      ∃ r2, NewBWTS.Forward false r1.dst (List.replicate 6 0) = some r2 ∧ r2.err = false ∧
        r2.read = [110, 110, 98, 97, 97, 97].length ∧
        r2.written = [110, 110, 98, 97, 97, 97].length ∧ r2.dst = [110, 110, 98, 97, 97, 97] :=
  bwts_bijection NewBWTS NewBWTS [110, 110, 98, 97, 97, 97] (List.replicate 6 0)
    (List.replicate 6 0) (by decide) (by decide) (by decide) (by decide)

/-- A call of `Forward` that returns without error has read the whole source,
which is within the maximal size and not longer than the destination. -/
theorem BWTS.Forward_read (this : BWTS) (src dst : List Nat) (r : Result)
    (h : this.Forward false src dst = some r) (herr : r.err = false) :
    r.read = src.length ∧ src.length ≤ dst.length ∧ src.length ≤ MaxBWTSBlockSize := by
  unfold BWTS.Forward at h
  by_cases h0 : src.length = 0
  · rw [if_pos h0] at h
    cases h
    exact ⟨h0.symm, by omega, by omega⟩
  · rw [if_neg h0] at h
    by_cases h1 : dst.length = 0
    · rw [if_pos h1] at h; cases h
    · rw [if_neg h1, if_neg (by simp)] at h
      by_cases h2 : src.length > MaxBWTSBlockSize
      · rw [if_pos h2] at h; cases h
      · rw [if_neg h2] at h
        by_cases h3 : src.length > dst.length
        · rw [if_pos h3] at h
          cases h
          cases herr
        · rw [if_neg h3] at h
          refine ⟨?_, by omega, by omega⟩
          by_cases h4 : src.length < 2
          · rw [if_pos h4] at h
            split at h
            · cases h; rfl
            · cases h
          · rw [if_neg h4] at h
            split at h
            · cases h
            · cases h; rfl

/-- What `Inverse` returns on a block does not depend on the `BWTS` it is run on
nor on what the destination holds: it returns without error, and the output is
the block of which the input is the transform. -/
theorem BWTS.Inverse_unique (c : List Nat) (hbytes : ∀ x ∈ c, x < 256)
    (hmax : c.length ≤ MaxBWTSBlockSize) :
    ∃ b : List Nat, b.length = c.length ∧ ∀ (that : BWTS) (d : List Nat),
      d.length = c.length → ∃ r, that.Inverse false c d = some r ∧ r.err = false ∧
        r.read = c.length ∧ r.written = c.length ∧ r.dst = b := by
  by_cases hnil : c = []
  · subst hnil
    refine ⟨[], rfl, fun that d hd => ?_⟩
    have : d = [] := List.length_eq_zero.mp hd
    subst this
    exact ⟨⟨0, 0, false, [], that⟩, rfl, rfl, rfl, rfl, rfl⟩
  · obtain ⟨r1, h1, _, _, _, r2, h2, herr2, hread2, _, h3⟩ :=
      BWTS.Forward_Inverse NewBWTS NewBWTS c (List.replicate c.length 0)
        (List.replicate c.length 0) hbytes hmax (by simp) (by simp)
    obtain ⟨hr, hle, hmx⟩ := BWTS.Forward_read NewBWTS r1.dst _ r2 h2 herr2
    have hlen : r1.dst.length = c.length := by omega
    obtain ⟨r2', h2', _, _, _, hl, hp, _⟩ := BWTS.Forward_spec NewBWTS r1.dst
      (List.replicate c.length 0) hmx hle
    rw [h2] at h2'
    cases h2'
    rw [h3, List.take_of_length_le (by omega)] at hp
    have hne : r1.dst ≠ [] := fun e => hnil (by
      rw [e] at hp; exact hp.eq_nil)
    obtain ⟨r3, h4, _, _, _, _, hinv⟩ := BWTS.Inverse_Forward NewBWTS r1.dst
      (List.replicate c.length 0) hne (fun x hx => hbytes x (hp.symm.subset hx)) hmx
      (by simp [hlen])
    rw [h2] at h4
    cases h4
    refine ⟨r1.dst, hlen, fun that d hd => ?_⟩
    obtain ⟨r, hr1, hr2, hr3, hr4, hr5⟩ := hinv that d (by omega)
    rw [h3] at hr1
    exact ⟨r, hr1, hr2, by omega, by omega, hr5⟩

end Bwt

/-! ## Facts about `huffman` -/

namespace Huffman

/-- The binary search of `sort.Search` finds the first index at which a
predicate that stays true once it is true holds. -/
theorem searchLoop_spec (f : Nat → Bool) (n : Nat)
    (hmono : ∀ x y, x ≤ y → y < n → f x = true → f y = true) :
    ∀ (fuel i j : Nat), j - i ≤ fuel → i ≤ j → j ≤ n → (∀ x, x < i → f x = false) →
      (∀ x, j ≤ x → x < n → f x = true) →
      i ≤ searchLoop f fuel i j ∧ searchLoop f fuel i j ≤ j ∧
        (∀ x, x < searchLoop f fuel i j → f x = false) ∧
        (∀ x, searchLoop f fuel i j ≤ x → x < n → f x = true)
  | 0, i, j, hf, hij, _, hlo, hhi => by
    have : i = j := by omega
    subst this
    exact ⟨le_refl _, le_refl _, hlo, hhi⟩
  | fuel + 1, i, j, hf, hij, hjn, hlo, hhi => by
    unfold searchLoop
    by_cases hlt : i < j
    · rw [if_pos hlt]
      have hh1 : i ≤ (i + j) / 2 := by omega
      have hh2 : (i + j) / 2 < j := by omega
      by_cases hfh : f ((i + j) / 2) = true
      · rw [if_pos hfh]
        obtain ⟨h1, h2, h3, h4⟩ := searchLoop_spec f n hmono fuel i ((i + j) / 2) (by omega) hh1
          (by omega) hlo (fun x hx hxn => hmono _ x hx hxn hfh)
        exact ⟨h1, by omega, h3, h4⟩
      · rw [if_neg hfh]
        have hfalse : ∀ x, x < (i + j) / 2 + 1 → f x = false := by
          intro x hx
          by_contra hc
          have hxt : f x = true := by simpa using hc
          exact hfh (hmono x _ (by omega) (by omega) hxt)
        obtain ⟨h1, h2, h3, h4⟩ := searchLoop_spec f n hmono fuel ((i + j) / 2 + 1) j (by omega)
          (by omega) hjn hfalse hhi
        exact ⟨by omega, h2, h3, h4⟩
    · rw [if_neg hlt]
      have : i = j := by omega
      subst this
      exact ⟨le_refl _, le_refl _, hlo, hhi⟩

theorem sortSearch_spec (f : Nat → Bool) (n : Nat)
    (hmono : ∀ x y, x ≤ y → y < n → f x = true → f y = true) :
    sortSearch n f ≤ n ∧ (∀ x, x < sortSearch n f → f x = false) ∧
      (∀ x, sortSearch n f ≤ x → x < n → f x = true) := by
  obtain ⟨_, h2, h3, h4⟩ := searchLoop_spec f n hmono n 0 n (by omega) (by omega) (le_refl _)
    (fun x hx => by omega) (fun x hx hxn => by omega)
  exact ⟨h2, h3, h4⟩

/-- `BuildSorted` returns a tree that has the leaves of the nodes it is given. -/
theorem buildLoop_some : ∀ (fuel : Nat) (nodes : List Node), nodes ≠ [] →
    nodes.length ≤ fuel + 1 →
    ∃ t, buildLoop fuel nodes = some t ∧ t.values.Perm (nodes.flatMap Node.values)
  | _, [], h, _ => absurd rfl h
  | 0, [x], _, _ => ⟨x, by simp [buildLoop], by simp⟩
  | _ + 1, [x], _, _ => ⟨x, by simp [buildLoop], by simp⟩
  | 0, _ :: _ :: _, _, h => by simp at h
  | fuel + 1, left :: right :: ls, _, h => by
    obtain ⟨t, ht, hp⟩ := buildLoop_some fuel
      (ls.take (sortSearch ls.length (fun i => decide (countAt ls i ≥ left.Count + right.Count)))
        ++ Node.inner left right (left.Count + right.Count)
        :: ls.drop (sortSearch ls.length
          (fun i => decide (countAt ls i ≥ left.Count + right.Count))))
      (by simp)
      (by
        simp only [List.length_append, List.length_cons, List.length_take, List.length_drop]
          at h ⊢
        omega)
    refine ⟨t, by simp only [buildLoop, ht], hp.trans ?_⟩
    simp only [List.flatMap_append, List.flatMap_cons, Node.values]
    have hsplit := List.take_append_drop (sortSearch ls.length
      (fun i => decide (countAt ls i ≥ left.Count + right.Count))) ls
    conv_rhs => rw [← hsplit, List.flatMap_append]
    refine (List.perm_append_comm_assoc _ _ _).trans ?_
    simp only [List.append_assoc]
    exact List.Perm.refl _

theorem BuildSorted_some (nodes : List Node) (h : nodes ≠ []) :
    ∃ t, BuildSorted nodes = some t ∧ t.values.Perm (nodes.flatMap Node.values) :=
  buildLoop_some nodes.length nodes h (by omega)

theorem pathTo_some : ∀ (t : Node) (v : Nat), v ∈ t.values → ∃ p, pathTo v t = some p
  | .leaf value _, v, h => by
    simp only [Node.values, List.mem_singleton] at h
    exact ⟨[], by simp [pathTo, h]⟩
  | .inner l r _, v, h => by
    simp only [Node.values, List.mem_append] at h
    cases hl : pathTo v l with
    | some p => exact ⟨false :: p, by simp [pathTo, hl]⟩
    | none =>
      rcases h with h | h
      · obtain ⟨p, hp⟩ := pathTo_some l v h
        rw [hp] at hl; cases hl
      · obtain ⟨p, hp⟩ := pathTo_some r v h
        exact ⟨true :: p, by simp [pathTo, hl, hp]⟩

/-- The code of a leaf at a depth of 64 at most, written from its most
significant bit, is the path from the root to the leaf. -/
theorem codeOf_eq : ∀ (path : List Bool), path.length ≤ 64 →
    codeOf path = (Bitio.bitsVal path, path.length)
  | [], _ => by simp [codeOf, Bitio.bitsVal]
  | b :: path, h => by
    have ih := codeOf_eq path (by simp at h; omega)
    unfold codeOf at ih ⊢
    rw [List.reverse_cons, List.foldl_append, ih]
    have hlen : path.length < 64 := by simp at h; omega
    have hpow : (2 : Nat) ^ path.length % 2 ^ 64 = 2 ^ path.length :=
      Nat.mod_eq_of_lt (Nat.pow_lt_pow_right (by norm_num) hlen)
    have hmod : (path.length + 1) % 256 = path.length + 1 := Nat.mod_eq_of_lt (by omega)
    simp only [List.foldl_cons, List.foldl_nil, hpow, hmod, List.length_cons,
      Bitio.bitsVal_cons]
    cases b
    · simp
    · have hlt := Bitio.bitsVal_lt path
      have := Nat.mul_add_lt_is_or hlt 1
      simp only [Nat.mul_one] at this
      simp only [if_true, Nat.one_mul, Prod.mk.injEq, and_true]
      rw [Nat.lor_comm, ← this]

/-- Reading the path of a leaf leads the reader down to that leaf. -/
theorem descend_path : ∀ (t : Node) (v : Nat) (p rest : List Bool) (br : Bitio.Reader),
    pathTo v t = some p → br.Rep (p ++ rest) →
    ∃ br2, descend t br = some (v, br2) ∧ br2.Rep rest
  | .leaf value _, v, p, rest, br, hp, hr => by
    simp only [pathTo] at hp
    split at hp
    · rename_i hv
      injection hp with hp
      subst hp
      exact ⟨br, by simp [descend, hv], by simpa using hr⟩
    · cases hp
  | .inner l r _, v, p, rest, br, hp, hr => by
    simp only [pathTo] at hp
    cases hl : pathTo v l with
    | some q =>
      rw [hl] at hp
      injection hp with hp
      subst hp
      obtain ⟨br2, hread, hr2⟩ := Bitio.Reader.ReadBool_rep br false (q ++ rest) (by simpa using hr)
      obtain ⟨br3, hd, hr3⟩ := descend_path l v q rest br2 hl hr2
      exact ⟨br3, by simp [descend, hread, hd], hr3⟩
    | none =>
      rw [hl] at hp
      cases hr' : pathTo v r with
      | some q =>
        rw [hr'] at hp
        injection hp with hp
        subst hp
        obtain ⟨br2, hread, hr2⟩ := Bitio.Reader.ReadBool_rep br true (q ++ rest)
          (by simpa using hr)
        obtain ⟨br3, hd, hr3⟩ := descend_path r v q rest br2 hr' hr2
        exact ⟨br3, by simp [descend, hread, hd], hr3⟩
      | none => rw [hr'] at hp; cases hp

theorem newSymbols_inv : newSymbols.Inv where
  len := by simp [newSymbols, Symbols.rebuildTree]
  new := by simp [newSymbols, Symbols.rebuildTree]
  eof := by simp [newSymbols, Symbols.rebuildTree]
  body := by intro i l hi; simp [newSymbols, Symbols.rebuildTree] at hi
  sorted := by intro i j a b _ hj; simp [newSymbols, Symbols.rebuildTree] at hj
  inj := by intro i j a b hi; simp [newSymbols, Symbols.rebuildTree] at hi
  keys := by
    intro v
    simp [newSymbols, Symbols.rebuildTree]
    constructor <;> rintro (h | h) <;> simp [h]
  tree := rfl

theorem nodup_bound : ∀ (n : Nat) (l : List Nat), l.Nodup → (∀ x ∈ l, x < n) → l.length ≤ n := by
  intro n l hnd hlt
  have hsub : l ⊆ List.range n := fun x hx => List.mem_range.mpr (hlt x hx)
  have := (List.subperm_of_subset hnd hsub).length_le
  simpa using this

/-- The leaves before the sentinels are 256 at most. -/
theorem Symbols.Inv.body_length (s : Symbols) (h : s.Inv) : s.leaves.length - 2 ≤ 256 := by
  have hnd : ((s.leaves.take (s.leaves.length - 2)).map Leaf.value).Nodup := by
    rw [List.nodup_iff_injective_getElem]
    intro ⟨i, hi⟩ ⟨j, hj⟩ hij
    simp only [List.length_map, List.length_take] at hi hj
    simp only [List.getElem_map, List.getElem_take] at hij
    have hi2 : i < s.leaves.length - 2 := by omega
    have hj2 : j < s.leaves.length - 2 := by omega
    have := h.inj i j _ _ hi2 hj2 (List.getElem?_eq_getElem (by omega))
      (List.getElem?_eq_getElem (by omega)) hij
    exact Fin.ext this
  have hlt : ∀ x ∈ (s.leaves.take (s.leaves.length - 2)).map Leaf.value, x < 256 := by
    intro x hx
    obtain ⟨l, hl, rfl⟩ := List.mem_map.mp hx
    obtain ⟨i, hi, hget⟩ := List.getElem_of_mem hl
    simp only [List.length_take] at hi
    rw [List.getElem_take] at hget
    have := h.body i l (by omega) (by rw [← hget]; exact List.getElem?_eq_getElem (by omega))
    exact this.2
  have := nodup_bound 256 _ hnd hlt
  simp only [List.length_map, List.length_take] at this
  omega

theorem getElem?_insertAt (ls : List Leaf) (x : Leaf) (nb k : Nat) (hnb : nb ≤ ls.length) :
    (ls.take nb ++ x :: ls.drop nb)[k]? =
      if k < nb then ls[k]? else if k = nb then some x else ls[k - 1]? := by
  by_cases h1 : k < nb
  · rw [if_pos h1, List.getElem?_append_left (by simp; omega), List.getElem?_take_of_lt h1]
  · rw [if_neg h1, List.getElem?_append_right (by simp; omega)]
    simp only [List.length_take, Nat.min_eq_left hnb]
    by_cases h2 : k = nb
    · rw [if_pos h2, h2]; simp
    · rw [if_neg h2]
      have : k - nb = (k - nb - 1) + 1 := by omega
      rw [this, List.getElem?_cons_succ, List.getElem?_drop]
      congr 1
      omega

/-- `insert` of a byte that has no leaf yet succeeds and keeps the state of the
symbol table. -/
theorem Symbols.insert_inv (s : Symbols) (b : Nat) (h : s.Inv) (hb : b < 256)
    (hnew : b ∉ s.valueMap) : ∃ s2, s.insert b = some s2 ∧ s2.Inv := by
  have hlen := h.len
  have hbody := Symbols.Inv.body_length s h
  have hbnot : ∀ (i : Nat) (l : Leaf), s.leaves[i]? = some l → l.value ≠ b := by
    intro i l hl hv
    exact hnew ((h.keys b).mpr ⟨l, List.getElem?_mem hl, hv⟩)
  have hlt256 : s.leaves.length - 2 < 256 := by
    by_contra hc
    have h256 : s.leaves.length - 2 = 256 := by omega
    -- the 256 leaves have the 256 byte values, `b` among them
    have hnd : ((s.leaves.take (s.leaves.length - 2)).map Leaf.value ++ [b]).Nodup := by
      rw [List.nodup_append]
      refine ⟨?_, by simp, ?_⟩
      · rw [List.nodup_iff_injective_getElem]
        intro ⟨i, hi⟩ ⟨j, hj⟩ hij
        simp only [List.length_map, List.length_take] at hi hj
        simp only [List.getElem_map, List.getElem_take] at hij
        have := h.inj i j _ _ (by omega) (by omega) (List.getElem?_eq_getElem (by omega))
          (List.getElem?_eq_getElem (by omega)) hij
        exact Fin.ext this
      · intro x hx hx2
        simp only [List.mem_singleton] at hx2
        subst hx2
        obtain ⟨l, hl, hv⟩ := List.mem_map.mp hx
        obtain ⟨i, hi, hget⟩ := List.getElem_of_mem hl
        simp only [List.length_take] at hi
        rw [List.getElem_take] at hget
        exact hbnot i l (by rw [← hget]; exact List.getElem?_eq_getElem (by omega)) hv
    have hlt : ∀ x ∈ (s.leaves.take (s.leaves.length - 2)).map Leaf.value ++ [b], x < 256 := by
      intro x hx
      rcases List.mem_append.mp hx with hx | hx
      · obtain ⟨l, hl, rfl⟩ := List.mem_map.mp hx
        obtain ⟨i, hi, hget⟩ := List.getElem_of_mem hl
        simp only [List.length_take] at hi
        rw [List.getElem_take] at hget
        exact (h.body i l (by omega)
          (by rw [← hget]; exact List.getElem?_eq_getElem (by omega))).2
      · simp only [List.mem_singleton] at hx
        rw [hx]; exact hb
    have := nodup_bound 256 _ hnd hlt
    simp only [List.length_append, List.length_map, List.length_take, List.length_singleton]
      at this
    omega
  have hroom : ¬ (s.leaves.length + 1 > maxValues) := by
    simp only [maxValues, extraValues]; omega
  have hins : s.insert b = some (Symbols.rebuildTree { s with
      leaves := s.leaves.take (s.leaves.length - 2) ++ ⟨b, 1⟩ ::
        s.leaves.drop (s.leaves.length - 2),
      valueMap := b :: s.valueMap }) := by
    simp only [Symbols.insert, hroom, if_false, extraValues]
  refine ⟨_, hins, ?_⟩
  have hget : ∀ k, (s.leaves.take (s.leaves.length - 2) ++ (⟨b, 1⟩ : Leaf) ::
      s.leaves.drop (s.leaves.length - 2))[k]? =
      if k < s.leaves.length - 2 then s.leaves[k]?
      else if k = s.leaves.length - 2 then some ⟨b, 1⟩ else s.leaves[k - 1]? :=
    fun k => getElem?_insertAt s.leaves ⟨b, 1⟩ (s.leaves.length - 2) k (by omega)
  have hlen2 : (s.leaves.take (s.leaves.length - 2) ++ (⟨b, 1⟩ : Leaf) ::
      s.leaves.drop (s.leaves.length - 2)).length = s.leaves.length + 1 := by
    simp only [List.length_append, List.length_cons, List.length_take, List.length_drop]
    omega
  constructor
  · show 2 ≤ (_ : List Leaf).length
    simp only [Symbols.rebuildTree, extraValues]; rw [hlen2]; omega
  · show (_ : List Leaf)[_]? = _
    simp only [Symbols.rebuildTree, extraValues]
    rw [hlen2, hget, if_neg (by omega), if_neg (by omega)]
    have : s.leaves.length + 1 - 2 - 1 = s.leaves.length - 2 := by omega
    rw [this]; exact h.new
  · show (_ : List Leaf)[_]? = _
    simp only [Symbols.rebuildTree, extraValues]
    rw [hlen2, hget, if_neg (by omega), if_neg (by omega)]
    have : s.leaves.length + 1 - 1 - 1 = s.leaves.length - 1 := by omega
    rw [this]; exact h.eof
  · intro i l hi hl
    simp only [Symbols.rebuildTree, extraValues] at hi hl
    rw [hlen2] at hi
    rw [hget] at hl
    by_cases h1 : i < s.leaves.length - 2
    · rw [if_pos h1] at hl
      exact h.body i l h1 hl
    · rw [if_neg h1, if_pos (by omega)] at hl
      injection hl with hl
      subst hl
      exact ⟨le_refl _, hb⟩
  · intro i j x y hij hj hx hy
    simp only [Symbols.rebuildTree, extraValues] at hj hx hy
    rw [hlen2] at hj
    rw [hget] at hx hy
    by_cases h2 : j < s.leaves.length - 2
    · rw [if_pos h2] at hy
      rw [if_pos (by omega)] at hx
      exact h.sorted i j x y hij h2 hx hy
    · rw [if_neg h2, if_pos (by omega)] at hy
      injection hy with hy
      subst hy
      by_cases h1 : i < s.leaves.length - 2
      · rw [if_pos h1] at hx
        exact (h.body i x h1 hx).1
      · rw [if_neg h1, if_pos (by omega)] at hx
        injection hx with hx
        subst hx
        exact le_refl _
  · intro i j x y hi hj hx hy hv
    simp only [Symbols.rebuildTree, extraValues] at hi hj hx hy
    rw [hlen2] at hi hj
    rw [hget] at hx hy
    by_cases h1 : i < s.leaves.length - 2
    · rw [if_pos h1] at hx
      by_cases h2 : j < s.leaves.length - 2
      · rw [if_pos h2] at hy
        exact h.inj i j x y h1 h2 hx hy hv
      · rw [if_neg h2, if_pos (by omega)] at hy
        injection hy with hy
        subst hy
        exact absurd hv (hbnot i x hx)
    · rw [if_neg h1, if_pos (by omega)] at hx
      injection hx with hx
      subst hx
      by_cases h2 : j < s.leaves.length - 2
      · rw [if_pos h2] at hy
        exact absurd hv.symm (hbnot j y hy)
      · omega
  · intro v
    simp only [Symbols.rebuildTree, extraValues, List.mem_cons, List.mem_append]
    rw [h.keys v]
    constructor
    · rintro (hv | ⟨l, hl, hv⟩)
      · exact ⟨⟨b, 1⟩, Or.inr (Or.inl rfl), hv.symm⟩
      · have hl2 : l ∈ s.leaves.take (s.leaves.length - 2) ++ s.leaves.drop (s.leaves.length - 2) := by
          rw [List.take_append_drop]; exact hl
        rcases List.mem_append.mp hl2 with hl3 | hl3
        · exact ⟨l, Or.inl hl3, hv⟩
        · exact ⟨l, Or.inr (Or.inr hl3), hv⟩
    · rintro ⟨l, hl, hv⟩
      rcases hl with hl | hl | hl
      · exact Or.inr ⟨l, List.mem_of_mem_take hl, hv⟩
      · subst hl; exact Or.inl hv.symm
      · exact Or.inr ⟨l, List.mem_of_mem_drop hl, hv⟩
  · rfl

theorem scanFor_spec (ls : List Leaf) (v m : Nat) (x : Leaf) (hm : ls[m]? = some x)
    (hv : x.value = v) : ∀ (fuel idx : Nat), idx ≤ m → m - idx < fuel →
    (∀ (k : Nat) (y : Leaf), idx ≤ k → k < m → ls[k]? = some y → y.value ≠ v) →
    scanFor ls v fuel idx = some m
  | 0, idx, _, h, _ => by omega
  | fuel + 1, idx, hle, hf, hne => by
    unfold scanFor
    by_cases hidx : idx = m
    · subst hidx
      simp [hm, hv]
    · have hlen : m < ls.length := (List.getElem?_eq_some.mp hm).1
      have hy : ls[idx]? = some ls[idx] := List.getElem?_eq_getElem (by omega)
      rw [hy]
      simp only
      rw [if_neg (hne idx _ (le_refl _) (by omega) hy)]
      exact scanFor_spec ls v m x hm hv fuel (idx + 1) (by omega) (by omega)
        (fun k y hk hkm hky => hne k y (by omega) hkm hky)

theorem getElem?_swapSet (ls : List Leaf) (first new : Leaf) (i m k : Nat) (him : i ≤ m)
    (hm : m < ls.length) :
    ((ls.set m first).set i new)[k]? =
      if k = i then some new else if k = m then some first else ls[k]? := by
  rw [List.getElem?_set]
  by_cases h1 : k = i
  · subst h1
    simp only [if_true]
    rw [if_pos (by simp; omega)]
  · rw [if_neg (fun h => h1 h.symm), if_neg h1, List.getElem?_set]
    by_cases h2 : k = m
    · subst h2
      simp [hm]
    · rw [if_neg (fun h => h2 h.symm), if_neg h2]

theorem swapIndex_inj (a m i j : Nat)
    (h : (if i = a then m else if i = m then a else i) =
      (if j = a then m else if j = m then a else j)) : i = j := by
  split_ifs at h <;> omega

/-- `update` of the leaf of a byte succeeds and keeps the state of the symbol
table. -/
theorem Symbols.update_inv (s : Symbols) (b : Nat) (h : s.Inv) (hb : b < 256)
    (hold : b ∈ s.valueMap) : ∃ s2, s.update b = some s2 ∧ s2.Inv := by
  have hlen := h.len
  obtain ⟨l0, hl0, hl0v⟩ := (h.keys b).mp hold
  -- the leaf that `valueMap` gives
  have hfind : ∃ node, s.leaves.find? (fun l => decide (l.value = b)) = some node := by
    cases hf : s.leaves.find? (fun l => decide (l.value = b)) with
    | some node => exact ⟨node, rfl⟩
    | none =>
      rw [List.find?_eq_none] at hf
      exact absurd (by simpa using hl0v) (hf l0 hl0)
  obtain ⟨node, hnode⟩ := hfind
  have hnv : node.value = b := by simpa using List.find?_some hnode
  obtain ⟨m, hm⟩ := List.mem_iff_getElem?.mp (List.mem_of_find?_eq_some hnode)
  have hmlen : m < s.leaves.length := (List.getElem?_eq_some.mp hm).1
  have hmb : m < s.leaves.length - 2 := by
    by_contra hc
    have hcase : m = s.leaves.length - 2 ∨ m = s.leaves.length - 1 := by omega
    rcases hcase with hc2 | hc2
    · rw [hc2, h.new] at hm
      injection hm with hm
      rw [← hm] at hnv
      simp only [newValue] at hnv
      omega
    · rw [hc2, h.eof] at hm
      injection hm with hm
      rw [← hm] at hnv
      simp only [eofValue] at hnv
      omega
  have hex : ∀ k, k < s.leaves.length → ∃ x, s.leaves[k]? = some x := fun k hk =>
    ⟨_, List.getElem?_eq_getElem hk⟩
  -- the binary search
  have hfval : ∀ (i : Nat) (l : Leaf), s.leaves[i]? = some l →
      countLE s.leaves node.count i = decide (l.count ≤ node.count) := by
    intro i l hl
    simp only [countLE, hl]
  have hmono : ∀ x y, x ≤ y → y < s.leaves.length - 2 →
      countLE s.leaves node.count x = true → countLE s.leaves node.count y = true := by
    intro x y hxy hy hfx
    obtain ⟨lx, hx'⟩ := hex x (by omega)
    obtain ⟨ly, hy'⟩ := hex y (by omega)
    rw [hfval x _ hx'] at hfx
    rw [hfval y _ hy']
    have := h.sorted x y _ _ hxy hy hx' hy'
    simp only [decide_eq_true_eq] at hfx ⊢
    omega
  obtain ⟨hs1, hs2, hs3⟩ := sortSearch_spec (countLE s.leaves node.count)
    (s.leaves.length - 2) hmono
  generalize hidx2 : sortSearch (s.leaves.length - 2) (countLE s.leaves node.count) = idx2
    at hs1 hs2 hs3
  have hfm : countLE s.leaves node.count m = true := by rw [hfval m node hm]; simp
  have hle : idx2 ≤ m := by
    by_contra hc
    have := hs2 m (by omega)
    rw [hfm] at this
    cases this
  obtain ⟨first, hfirst⟩ := hex idx2 (by omega)
  have hfc : first.count = node.count := by
    have h1 := hs3 idx2 (le_refl _) (by omega)
    rw [hfval idx2 _ hfirst] at h1
    have h2 := h.sorted idx2 m _ _ hle hmb hfirst hm
    simp only [decide_eq_true_eq] at h1
    omega
  have hscan : scanFor s.leaves b (s.leaves.length + 1) idx2 = some m := by
    apply scanFor_spec s.leaves b m node hm hnv _ _ hle (by omega)
    intro k y hk hkm hky hyv
    have := h.inj k m y node (by omega) hmb hky hm (by rw [hyv, hnv])
    omega
  have hupd : s.update b = some (Symbols.rebuildTree { s with
      leaves := (s.leaves.set m first).set idx2 ⟨b, node.count + 1⟩ }) := by
    simp only [Symbols.update, hnode, extraValues, hidx2, hscan, hfirst]
  refine ⟨_, hupd, ?_⟩
  have hget : ∀ k, ((s.leaves.set m first).set idx2 (⟨b, node.count + 1⟩ : Leaf))[k]? =
      if k = idx2 then some ⟨b, node.count + 1⟩
      else if k = m then some first else s.leaves[k]? :=
    fun k => getElem?_swapSet s.leaves _ _ idx2 m k hle hmlen
  have hlen2 : ((s.leaves.set m first).set idx2 (⟨b, node.count + 1⟩ : Leaf)).length =
      s.leaves.length := by simp
  -- the leaf at `k` afterwards has the value of the leaf at `σ k` before
  have hval : ∀ (k : Nat) (a : Leaf),
      ((s.leaves.set m first).set idx2 (⟨b, node.count + 1⟩ : Leaf))[k]? = some a →
      ∃ a0, s.leaves[if k = idx2 then m else if k = m then idx2 else k]? = some a0 ∧
        a0.value = a.value := by
    intro k a ha
    rw [hget] at ha
    by_cases h1 : k = idx2
    · rw [if_pos h1] at ha ⊢
      injection ha with ha
      exact ⟨node, hm, by rw [← ha, hnv]⟩
    · rw [if_neg h1] at ha ⊢
      by_cases h2 : k = m
      · rw [if_pos h2] at ha ⊢
        injection ha with ha
        exact ⟨_, hfirst, by rw [ha]⟩
      · rw [if_neg h2] at ha ⊢
        exact ⟨a, ha, rfl⟩
  -- the count of the leaf at `k` afterwards
  have hcnt : ∀ (k : Nat) (a a0 : Leaf),
      ((s.leaves.set m first).set idx2 (⟨b, node.count + 1⟩ : Leaf))[k]? = some a →
      s.leaves[k]? = some a0 →
      (k = idx2 → a.count = node.count + 1) ∧ (k ≠ idx2 → a.count = a0.count) := by
    intro k a a0 ha ha0
    rw [hget] at ha
    constructor
    · intro h1
      rw [if_pos h1] at ha
      injection ha with ha
      rw [← ha]
    · intro h1
      rw [if_neg h1] at ha
      by_cases h2 : k = m
      · rw [if_pos h2] at ha
        injection ha with ha
        rw [h2, hm] at ha0
        injection ha0 with ha0
        rw [← ha, ← ha0, hfc]
      · rw [if_neg h2, ha0] at ha
        injection ha with ha
        rw [ha]
  constructor
  · show 2 ≤ (_ : List Leaf).length
    simp only [Symbols.rebuildTree]; rw [hlen2]; exact hlen
  · show (_ : List Leaf)[_]? = _
    simp only [Symbols.rebuildTree]
    rw [hlen2, hget, if_neg (by omega), if_neg (by omega)]
    exact h.new
  · show (_ : List Leaf)[_]? = _
    simp only [Symbols.rebuildTree]
    rw [hlen2, hget, if_neg (by omega), if_neg (by omega)]
    exact h.eof
  · intro i l hi hl
    simp only [Symbols.rebuildTree] at hi hl
    rw [hlen2] at hi
    rw [hget] at hl
    by_cases h1 : i = idx2
    · rw [if_pos h1] at hl
      injection hl with hl
      subst hl
      exact ⟨by simp, hb⟩
    · rw [if_neg h1] at hl
      by_cases h2 : i = m
      · rw [if_pos h2] at hl
        injection hl with hl
        subst hl
        exact h.body idx2 _ (by omega) hfirst
      · rw [if_neg h2] at hl
        exact h.body i l hi hl
  · intro i j x y hij hj hx hy
    simp only [Symbols.rebuildTree] at hj hx hy
    rw [hlen2] at hj
    obtain ⟨x0, hxi⟩ := hex i (by omega)
    obtain ⟨y0, hyj⟩ := hex j (by omega)
    have hold2 := h.sorted i j _ _ hij hj hxi hyj
    have hcx := hcnt i x x0 hx hxi
    have hcy := hcnt j y y0 hy hyj
    by_cases hj2 : j = idx2
    · rw [hcy.1 hj2]
      by_cases hi2 : i = idx2
      · rw [hcx.1 hi2]
      · rw [hcx.2 hi2]
        have hfi := hs2 i (by omega)
        rw [hfval i _ hxi] at hfi
        simp only [decide_eq_false_iff_not, not_le] at hfi
        omega
    · rw [hcy.2 hj2]
      by_cases hi2 : i = idx2
      · rw [hcx.1 hi2]
        rw [hi2, hfirst] at hxi
        injection hxi with hxi
        rw [← hxi, hfc] at hold2
        omega
      · rw [hcx.2 hi2]
        exact hold2
  · intro i j x y hi hj hx hy hv
    simp only [Symbols.rebuildTree] at hi hj hx hy
    rw [hlen2] at hi hj
    obtain ⟨x0, hx0, hx0v⟩ := hval i x hx
    obtain ⟨y0, hy0, hy0v⟩ := hval j y hy
    have hσi : (if i = idx2 then m else if i = m then idx2 else i) < s.leaves.length - 2 := by
      split
      · exact hmb
      · split <;> omega
    have hσj : (if j = idx2 then m else if j = m then idx2 else j) < s.leaves.length - 2 := by
      split
      · exact hmb
      · split <;> omega
    exact swapIndex_inj idx2 m i j
      (h.inj _ _ x0 y0 hσi hσj hx0 hy0 (by rw [hx0v, hy0v, hv]))
  · intro v
    simp only [Symbols.rebuildTree]
    rw [h.keys v]
    constructor
    · rintro ⟨l, hl, hv⟩
      obtain ⟨k, hk⟩ := List.mem_iff_getElem?.mp hl
      have hklen : k < s.leaves.length := (List.getElem?_eq_some.mp hk).1
      -- the leaf at `k` before is at `σ k` afterwards, with its value
      by_cases h2 : k = m
      · refine ⟨⟨b, node.count + 1⟩, List.mem_iff_getElem?.mpr ⟨idx2, ?_⟩, ?_⟩
        · rw [hget, if_pos rfl]
        · rw [h2, hm] at hk
          injection hk with hk
          rw [← hv, ← hk, hnv]
      · by_cases h1 : k = idx2
        · refine ⟨first, List.mem_iff_getElem?.mpr ⟨m, ?_⟩, ?_⟩
          · rw [hget, if_neg (by omega), if_pos rfl]
          · rw [h1, hfirst] at hk
            injection hk with hk
            rw [hk, hv]
        · refine ⟨l, List.mem_iff_getElem?.mpr ⟨k, ?_⟩, hv⟩
          rw [hget, if_neg h1, if_neg h2, hk]
    · rintro ⟨l, hl, hv⟩
      obtain ⟨k, hk⟩ := List.mem_iff_getElem?.mp hl
      obtain ⟨a0, ha0, ha0v⟩ := hval k l hk
      exact ⟨a0, List.getElem?_mem ha0, by rw [ha0v, hv]⟩
  · rfl

theorem Symbols.Inv.new_mem (s : Symbols) (h : s.Inv) : newValue ∈ s.valueMap :=
  (h.keys newValue).mpr ⟨_, List.getElem?_mem h.new, rfl⟩

theorem Symbols.Inv.eof_mem (s : Symbols) (h : s.Inv) : eofValue ∈ s.valueMap :=
  (h.keys eofValue).mpr ⟨_, List.getElem?_mem h.eof, rfl⟩

/-- The tree of a symbol table has a leaf, and so a code, for every key of
`valueMap`. -/
theorem Symbols.Inv.path (s : Symbols) (h : s.Inv) (v : Nat) (hv : v ∈ s.valueMap) :
    ∃ t p, s.root = some t ∧ pathTo v t = some p := by
  have hne : s.leaves.reverse.map Leaf.toNode ≠ [] := by
    intro hc
    have := congrArg List.length hc
    simp only [List.length_map, List.length_reverse, List.length_nil] at this
    have := h.len
    omega
  obtain ⟨t, ht, hperm⟩ := BuildSorted_some _ hne
  obtain ⟨l, hl, hlv⟩ := (h.keys v).mp hv
  have hmem : v ∈ t.values := by
    rw [hperm.mem_iff, List.mem_flatMap]
    refine ⟨l.toNode, List.mem_map.mpr ⟨l, List.mem_reverse.mpr hl, rfl⟩, ?_⟩
    simp [Leaf.toNode, Node.values, hlv]
  obtain ⟨p, hp⟩ := pathTo_some t v hmem
  exact ⟨t, p, by rw [h.tree, ht], hp⟩

/-- A byte written or read leaves a symbol table with a leaf before the
sentinels. -/
theorem Symbols.step_inv (s : Symbols) (b : Nat) (h : s.Inv) (hb : b < 256) :
    ∃ s2, s.step b = some s2 ∧ s2.Inv ∧ 2 < s2.leaves.length := by
  unfold Symbols.step
  by_cases hmem : b ∈ s.valueMap
  · rw [if_pos hmem]
    obtain ⟨s2, hs2, hinv⟩ := Symbols.update_inv s b h hb hmem
    refine ⟨s2, hs2, hinv, ?_⟩
    -- the leaf of `b` is before the sentinels
    have hb2 : b ∈ s2.valueMap := by
      simp only [Symbols.update] at hs2
      split at hs2
      · cases hs2
      · split at hs2
        · cases hs2
        · split at hs2
          · cases hs2
          · injection hs2 with hs2
            rw [← hs2]
            exact hmem
    obtain ⟨l, hl, hlv⟩ := (hinv.keys b).mp hb2
    obtain ⟨k, hk⟩ := List.mem_iff_getElem?.mp hl
    have hklen : k < s2.leaves.length := (List.getElem?_eq_some.mp hk).1
    by_contra hc
    have hlen := hinv.len
    have hcase : k = s2.leaves.length - 2 ∨ k = s2.leaves.length - 1 := by omega
    rcases hcase with hc2 | hc2
    · rw [hc2, hinv.new] at hk
      injection hk with hk
      rw [← hk] at hlv
      simp only [newValue] at hlv
      omega
    · rw [hc2, hinv.eof] at hk
      injection hk with hk
      rw [← hk] at hlv
      simp only [eofValue] at hlv
      omega
  · rw [if_neg hmem]
    obtain ⟨s2, hs2, hinv⟩ := Symbols.insert_inv s b h hb hmem
    refine ⟨s2, hs2, hinv, ?_⟩
    simp only [Symbols.insert] at hs2
    split at hs2
    · cases hs2
    · injection hs2 with hs2
      rw [← hs2]
      simp only [Symbols.rebuildTree, List.length_append, List.length_cons, List.length_take,
        List.length_drop, extraValues]
      have := h.len
      omega

theorem codeOf_snd : ∀ (path : List Bool), (codeOf path).2 = path.length % 256
  | [] => by simp [codeOf]
  | b :: path => by
    have ih := codeOf_snd path
    unfold codeOf at ih ⊢
    rw [List.reverse_cons, List.foldl_append]
    simp only [List.foldl_cons, List.foldl_nil, List.length_cons, ih]
    omega

/-- One byte whose code is 64 bits long at most: what the writer appends to the
bit stream is what leads the reader, with the same symbol table, to return the
byte and to the same symbol table. -/
theorem Writer.WriteByte_head (w : Writer) (s : List Bool) (b : Nat)
    (hinv : w.sym.Inv) (hrep : w.bw.Rep s) (hb : b < 256)
    (hd : ∀ t p, w.sym.root = some t →
      pathTo (if b ∈ w.sym.valueMap then b else newValue) t = some p → p.length ≤ 64) :
    ∃ w1 e, w.WriteByte b = some w1 ∧ w1.sym.Inv ∧ w.sym.step b = some w1.sym ∧
      2 < w1.sym.leaves.length ∧ w1.bw.Rep (s ++ e) ∧
      ∀ (r : Reader) (rest : List Bool), r.sym = w.sym → r.br.Rep (e ++ rest) →
        ∃ r1, r.ReadByte = .ok (b, r1) ∧ r1.sym = w1.sym ∧ r1.br.Rep rest := by
  obtain ⟨s2, hstep, hinv2, hlen2⟩ := Symbols.step_inv w.sym b hinv hb
  by_cases hmem : b ∈ w.sym.valueMap
  · obtain ⟨t, p, hroot, hp⟩ := Symbols.Inv.path w.sym hinv b hmem
    have hplen : p.length ≤ 64 := hd t p hroot (by rw [if_pos hmem]; exact hp)
    have hupd : w.sym.update b = some s2 := by
      simpa [Symbols.step, hmem] using hstep
    refine ⟨{ sym := s2, bw := w.bw.WriteBits (Bitio.bitsVal p) p.length }, p, ?_, hinv2, hstep,
      hlen2, ?_, ?_⟩
    · simp [Writer.WriteByte, hmem, Code, hroot, hp, hupd, codeOf_eq p hplen]
    · have := Bitio.Writer.WriteBits_rep w.bw s (Bitio.bitsVal p) p.length hrep hplen
      rwa [Bitio.bitsMSB_bitsVal] at this
    · intro r rest hsym hr
      obtain ⟨br2, hdesc, hr2⟩ := descend_path t b p rest r.br hp hr
      have h1 : b ≠ newValue := by simp only [newValue]; omega
      have h2 : b ≠ eofValue := by simp only [eofValue]; omega
      refine ⟨{ sym := s2, br := br2 }, ?_, rfl, hr2⟩
      simp [Reader.ReadByte, hsym, hroot, hdesc, h1, h2, hupd, Nat.mod_eq_of_lt hb]
  · obtain ⟨t, p, hroot, hp⟩ := Symbols.Inv.path w.sym hinv newValue
      (Symbols.Inv.new_mem w.sym hinv)
    have hplen : p.length ≤ 64 := hd t p hroot (by rw [if_neg hmem]; exact hp)
    have hins : w.sym.insert b = some s2 := by
      simpa [Symbols.step, hmem] using hstep
    refine ⟨{ sym := s2, bw := (w.bw.WriteBits (Bitio.bitsVal p) p.length).WriteByte b },
      p ++ Bitio.bitsMSB 8 b, ?_, hinv2, hstep, hlen2, ?_, ?_⟩
    · simp [Writer.WriteByte, hmem, Code, hroot, hp, hins, codeOf_eq p hplen]
    · have h1 := Bitio.Writer.WriteBits_rep w.bw s (Bitio.bitsVal p) p.length hrep hplen
      rw [Bitio.bitsMSB_bitsVal] at h1
      have h2 := Bitio.Writer.WriteByte_rep _ _ b h1 hb
      rwa [List.append_assoc] at h2
    · intro r rest hsym hr
      rw [List.append_assoc] at hr
      obtain ⟨br2, hdesc, hr2⟩ := descend_path t newValue p _ r.br hp hr
      obtain ⟨br3, hread, hr3⟩ := Bitio.Reader.ReadByte_rep br2 rest b hb hr2
      refine ⟨{ sym := s2, br := br3 }, ?_, rfl, hr3⟩
      simp [Reader.ReadByte, hsym, hroot, hdesc, hread, hins]

/-- One byte: what the writer appends to the bit stream is what leads the reader,
with the same symbol table, to return the byte and to the same symbol table. -/
theorem Writer.WriteByte_spec (w : Writer) (s : List Bool) (b : Nat) (ps : List Nat)
    (hinv : w.sym.Inv) (hrep : w.bw.Rep s) (hb : b < 256)
    (hd : ∀ x ∈ codeLengths w.sym (b :: ps), x ≤ 64) :
    ∃ w1 e, w.WriteByte b = some w1 ∧ w1.sym.Inv ∧ w.sym.step b = some w1.sym ∧
      2 < w1.sym.leaves.length ∧ w1.bw.Rep (s ++ e) ∧
      ∀ (r : Reader) (rest : List Bool), r.sym = w.sym → r.br.Rep (e ++ rest) →
        ∃ r1, r.ReadByte = .ok (b, r1) ∧ r1.sym = w1.sym ∧ r1.br.Rep rest :=
  Writer.WriteByte_head w s b hinv hrep hb (fun t p ht hp => by
    have := hd p.length (by simp [codeLengths, ht, hp])
    exact this)

/-- At `Close` the writer appends the code of the end of the data, at which the
reader returns `io.EOF`. -/
theorem Writer.Close_spec (w : Writer) (s : List Bool) (hinv : w.sym.Inv) (hrep : w.bw.Rep s)
    (hlen : 2 < w.sym.leaves.length) (hd : ∀ x ∈ codeLengths w.sym [], x ≤ 64) :
    ∃ out e pad, w.Close = some out ∧ (∀ x ∈ out, x < 256) ∧
      Bitio.bitsOfBytes out = s ++ e ++ pad ∧
      ∀ (r : Reader), r.sym = w.sym → r.br.Rep (e ++ pad) → r.ReadByte = .eof := by
  obtain ⟨t, p, hroot, hp⟩ := Symbols.Inv.path w.sym hinv eofValue
    (Symbols.Inv.eof_mem w.sym hinv)
  have hplen : p.length ≤ 64 := by
    have := hd p.length (by simp [codeLengths, hlen, hroot, hp])
    exact this
  have h1 := Bitio.Writer.WriteBits_rep w.bw s (Bitio.bitsVal p) p.length hrep hplen
  rw [Bitio.bitsMSB_bitsVal] at h1
  obtain ⟨hc1, _, hc3, _⟩ := Bitio.Writer.Close_rep _ _ h1
  refine ⟨_, p, _, ?_, hc3, hc1, ?_⟩
  · simp [Writer.Close, hlen, Code, hroot, hp, codeOf_eq p hplen]
  · intro r hsym hr
    obtain ⟨br2, hdesc, _⟩ := descend_path t eofValue p _ r.br hp hr
    have hne : eofValue ≠ newValue := by decide
    simp [Reader.ReadByte, hsym, hroot, hdesc, hne]

theorem Writer.Write_spec : ∀ (p : List Nat) (w : Writer) (s : List Bool), w.sym.Inv →
    w.bw.Rep s → (p = [] → 2 < w.sym.leaves.length) → (∀ b ∈ p, b < 256) →
    (∀ x ∈ codeLengths w.sym p, x ≤ 64) →
    ∃ w1 out e pad, w.Write p = some w1 ∧ w1.Close = some out ∧ (∀ x ∈ out, x < 256) ∧
      Bitio.bitsOfBytes out = s ++ e ++ pad ∧
      ∀ (r : Reader), r.sym = w.sym → r.br.Rep (e ++ pad) →
        ∀ fuel, r.readAll (p.length + 1 + fuel) = some p
  | [], w, s, hinv, hrep, hlen, _, hd => by
    obtain ⟨out, e, pad, hclose, hout, hbits, hread⟩ :=
      Writer.Close_spec w s hinv hrep (hlen rfl) hd
    refine ⟨w, out, e, pad, rfl, hclose, hout, hbits, ?_⟩
    intro r hsym hr fuel
    have : ([] : List Nat).length + 1 + fuel = fuel + 1 := by simp; omega
    rw [this]
    simp [Reader.readAll, hread r hsym hr]
  | b :: p, w, s, hinv, hrep, _, hb, hd => by
    obtain ⟨w1, e1, hw1, hinv1, hstep, hlen1, hrep1, hread1⟩ :=
      Writer.WriteByte_spec w s b p hinv hrep (hb b (by simp)) hd
    have hd1 : ∀ x ∈ codeLengths w1.sym p, x ≤ 64 := by
      intro x hx
      apply hd
      simp only [codeLengths, hstep, List.mem_cons]
      exact Or.inr hx
    obtain ⟨w2, out, e2, pad, hw2, hclose, hout, hbits, hread2⟩ :=
      Writer.Write_spec p w1 (s ++ e1) hinv1 hrep1 (fun _ => hlen1)
        (fun x hx => hb x (by simp [hx])) hd1
    refine ⟨w2, out, e1 ++ e2, pad, by simp [Writer.Write, hw1, hw2], hclose, hout,
      by rw [hbits]; simp, ?_⟩
    intro r hsym hr fuel
    rw [List.append_assoc] at hr
    obtain ⟨r1, hr1, hsym1, hrep1'⟩ := hread1 r (e2 ++ pad) hsym hr
    have hfuel : (b :: p).length + 1 + fuel = (p.length + 1 + fuel) + 1 := by
      simp only [List.length_cons]; omega
    rw [hfuel]
    simp [Reader.readAll, hr1, hread2 r1 hsym1 hrep1' fuel]

/-- A fresh writer that is given `p` and closed yields a stream from which a
fresh reader reads `p` and then the end of the stream. -/
theorem Write_Close_readAll (p : List Nat) (hb : ∀ b ∈ p, b < 256)
    (hd : ∀ x ∈ codeLengths newSymbols p, x ≤ 64) :
    ∃ w out, NewWriter.Write p = some w ∧ w.Close = some out ∧
      ∀ fuel, (NewReader out).readAll (p.length + 1 + fuel) = some p := by
  cases p with
  | nil =>
    refine ⟨NewWriter, [], rfl, by decide, ?_⟩
    intro fuel
    have : ([] : List Nat).length + 1 + fuel = fuel + 1 := by simp; omega
    rw [this]
    have : (NewReader []).ReadByte = .eof := by decide
    simp [Reader.readAll, this]
  | cons b p =>
    obtain ⟨w1, out, e, pad, hw1, hclose, hout, hbits, hread⟩ :=
      Writer.Write_spec (b :: p) NewWriter [] newSymbols_inv Bitio.NewWriter_rep
        (fun h => by cases h) hb hd
    refine ⟨w1, out, hw1, hclose, ?_⟩
    intro fuel
    apply hread (NewReader out) rfl
    have := Bitio.NewReader_rep out hout
    rw [hbits] at this
    simpa [NewReader] using this

/-- C2 (adaptive Huffman round trip): for every byte sequence `p`, the empty one
included, for which every code the writer emits is 64 bits long at most, a fresh
writer that is given `p` and closed yields a byte stream from which successive
`ReadByte` calls of a fresh reader return the bytes of `p` in order and then the
error `io.EOF`. -/
theorem huffman_round_trip (p : List Nat) (hb : ∀ b ∈ p, b < 256)
    (hd : ∀ x ∈ codeLengths newSymbols p, x ≤ 64) :
    ∃ w out, NewWriter.Write p = some w ∧ w.Close = some out ∧
      ∀ fuel, (NewReader out).readAll (p.length + 1 + fuel) = some p :=
  Write_Close_readAll p hb hd

/-- Witness of C2 at the input `"AAAB"`. -/
theorem huffman_round_trip_witness :
    ∃ w out, NewWriter.Write [65, 65, 65, 66] = some w ∧ w.Close = some out ∧
      ∀ fuel, (NewReader out).readAll (([65, 65, 65, 66] : List Nat).length + 1 + fuel) =
        some [65, 65, 65, 66] :=
  huffman_round_trip [65, 65, 65, 66] (by decide) (by decide)

/-- The state of the symbol table gives the order of the leaves, and the
reversed slice is sorted by ascending counts. -/
theorem Symbols.Inv.leafOrder (s : Symbols) (h : s.Inv) :
    LeafOrder s.leaves ∧ (s.leaves.reverse.map Leaf.count).Pairwise (· ≤ ·) := by
  have hlen := h.len
  have hsplit : s.leaves = s.leaves.take (s.leaves.length - 2) ++
      [⟨newValue, 1⟩, ⟨eofValue, 1⟩] := by
    apply List.ext_getElem?
    intro i
    by_cases hi : i < s.leaves.length - 2
    · rw [List.getElem?_append_left (by simp; omega), List.getElem?_take_of_lt hi]
    · rw [List.getElem?_append_right (by simp; omega)]
      simp only [List.length_take]
      rw [Nat.min_eq_left (by omega)]
      by_cases h0 : i = s.leaves.length - 2
      · rw [h0, h.new]; simp
      · by_cases h1 : i = s.leaves.length - 1
        · rw [h1, h.eof]
          have : s.leaves.length - 1 - (s.leaves.length - 2) = 1 := by omega
          rw [this]; rfl
        · rw [List.getElem?_eq_none (by omega), List.getElem?_eq_none (by simp; omega)]
  have hbody : ∀ l ∈ s.leaves.take (s.leaves.length - 2),
      l.value ≠ newValue ∧ l.value ≠ eofValue ∧ 1 ≤ l.count := by
    intro l hl
    obtain ⟨i, hi, hget⟩ := List.getElem_of_mem hl
    simp only [List.length_take] at hi
    have hi2 : i < s.leaves.length - 2 := by omega
    have hg : s.leaves[i]? = some l := by
      rw [← List.getElem?_take_of_lt hi2, List.getElem?_eq_getElem (by simp; omega), hget]
    obtain ⟨h1, h2⟩ := h.body i l hi2 hg
    refine ⟨?_, ?_, h1⟩
    · intro e; rw [e] at h2; simp [newValue] at h2
    · intro e; rw [e] at h2; simp [eofValue] at h2
  have hsorted : (s.leaves.take (s.leaves.length - 2)).Pairwise (fun a b => b.count ≤ a.count) := by
    rw [List.pairwise_iff_getElem]
    intro i j hi hj hij
    simp only [List.length_take] at hi hj
    apply h.sorted i j _ _ (by omega) (by omega)
    · rw [← List.getElem?_take_of_lt (by omega : i < s.leaves.length - 2),
        List.getElem?_eq_getElem (by simp; omega)]
    · rw [← List.getElem?_take_of_lt (by omega : j < s.leaves.length - 2),
        List.getElem?_eq_getElem (by simp; omega)]
  refine ⟨⟨_, hsplit, hbody, hsorted⟩, ?_⟩
  rw [hsplit]
  simp only [List.reverse_append, List.map_append, List.map_reverse, List.reverse_cons,
    List.reverse_nil, List.nil_append, List.singleton_append, List.map_cons, List.map_nil]
  rw [List.pairwise_append]
  refine ⟨by simp, ?_, ?_⟩
  · rw [List.pairwise_reverse, List.pairwise_map]
    exact hsorted.imp (fun h => h)
  · intro a ha b hb
    simp only [List.mem_reverse, List.mem_map] at hb
    obtain ⟨l, hl, rfl⟩ := hb
    have := (hbody l hl).2.2
    simp only [List.mem_cons, List.mem_singleton, List.not_mem_nil, or_false] at ha
    omega

/-- A sequence of operations each of which is called when it may be does not
panic and keeps the state of the symbol table. -/
theorem runOps_inv : ∀ (ops : List TableOp) (s : Symbols), s.Inv → okOps s ops →
    ∃ s2, runOps s ops = some s2 ∧ s2.Inv
  | [], s, h, _ => ⟨s, rfl, h⟩
  | op :: ops, s, h, hok => by
    obtain ⟨hop, hrest⟩ := hok
    have hstep : ∃ s1, op.apply s = some s1 ∧ s1.Inv := by
      cases op with
      | insert v => exact Symbols.insert_inv s v h hop.1 hop.2
      | update v => exact Symbols.update_inv s v h hop.1 hop.2
    obtain ⟨s1, h1, hinv1⟩ := hstep
    rw [h1] at hrest
    obtain ⟨s2, h2, hinv2⟩ := runOps_inv ops s1 hinv1 hrest
    exact ⟨s2, by simp only [runOps, h1, h2], hinv2⟩

/-- C20 (Huffman leaf-ordering invariant): from `newSymbols` without a window,
after any sequence of `insert(v)` for byte values `v` not yet in the table and
`update` of leaves of byte values in the table, no call panics and the slice
`leaves` has the `newValue` leaf and then the `eofValue` leaf as its last two
elements, both with the count 1; the elements before them are no sentinels,
have a count of 1 at least and are in an order of counts that do not increase,
so the reversed slice handed to `BuildSorted` is sorted by ascending counts. -/
theorem huffman_leaf_order (ops : List TableOp) (h : okOps newSymbols ops) :
    ∃ s, runOps newSymbols ops = some s ∧
      (∃ body : List Leaf, s.leaves = body ++ [⟨newValue, 1⟩, ⟨eofValue, 1⟩] ∧
        (∀ l ∈ body, l.value ≠ newValue ∧ l.value ≠ eofValue ∧ 1 ≤ l.count) ∧
        body.Pairwise (fun a b => b.count ≤ a.count)) ∧
      (s.leaves.reverse.map Leaf.count).Pairwise (· ≤ ·) := by
  obtain ⟨s, hs, hinv⟩ := runOps_inv ops newSymbols newSymbols_inv h
  exact ⟨s, hs, Symbols.Inv.leafOrder s hinv⟩

set_option maxRecDepth 100000 in
/-- Witness of C20: `insert(97)`, `insert(98)`, `update` of the leaf of 98,
`update` of the leaf of 97, `update` of the leaf of 97. -/
theorem huffman_leaf_order_witness :
    okOps newSymbols [.insert 97, .insert 98, .update 98, .update 97, .update 97] ∧
    ∃ s, runOps newSymbols [.insert 97, .insert 98, .update 98, .update 97, .update 97] = some s ∧
      (∃ body : List Leaf, s.leaves = body ++ [⟨newValue, 1⟩, ⟨eofValue, 1⟩] ∧
        (∀ l ∈ body, l.value ≠ newValue ∧ l.value ≠ eofValue ∧ 1 ≤ l.count) ∧
        body.Pairwise (fun a b => b.count ≤ a.count)) ∧
      (s.leaves.reverse.map Leaf.count).Pairwise (· ≤ ·) :=
  ⟨by decide, huffman_leaf_order _ (by decide)⟩

/-- The count of a tree of `BuildSorted` grows with its height as the Fibonacci
numbers do. -/
theorem Node.fib_le : ∀ (t : Node), t.Good →
    Nat.fib (t.height + 2) ≤ t.Count ∧ Nat.fib (t.height + 1) ≤ max 1 t.childMax
  | .leaf _ c, h => by
    simp only [Node.Good] at h
    simp only [Node.height, Node.Count, Node.childMax]
    exact ⟨by simpa using h, by simp⟩
  | .inner l r c, h => by
    obtain ⟨hc, hlr, hrl, hl, hr⟩ := h
    obtain ⟨l1, l2⟩ := Node.fib_le l hl
    obtain ⟨r1, r2⟩ := Node.fib_le r hr
    have hl0 : 1 ≤ l.Count := le_trans (Nat.fib_pos.mpr (by omega)) l1
    have hr0 : 1 ≤ r.Count := le_trans (Nat.fib_pos.mpr (by omega)) r1
    simp only [Node.height, Node.Count, Node.childMax]
    rcases le_total l.height r.height with hh | hh
    · rw [max_eq_right hh]
      have e1 : 1 + r.height + 2 = r.height + 1 + 2 := by omega
      have e2 : 1 + r.height + 1 = r.height + 2 := by omega
      rw [e1, e2, Nat.fib_add_two]
      refine ⟨?_, le_trans r1 (le_trans (le_max_right _ _) (le_max_right _ _))⟩
      have : max 1 r.childMax ≤ l.Count := max_le hl0 hrl
      have e3 : Nat.fib (r.height + 1 + 1) = Nat.fib (r.height + 2) := rfl
      omega
    · rw [max_eq_left hh]
      have e1 : 1 + l.height + 2 = l.height + 1 + 2 := by omega
      have e2 : 1 + l.height + 1 = l.height + 2 := by omega
      rw [e1, e2, Nat.fib_add_two]
      refine ⟨?_, le_trans l1 (le_trans (le_max_left _ _) (le_max_right _ _))⟩
      have : max 1 l.childMax ≤ r.Count := max_le hr0 hlr
      have e3 : Nat.fib (l.height + 1 + 1) = Nat.fib (l.height + 2) := rfl
      omega

/-- A path to a leaf is not longer than the height of the tree. -/
theorem pathTo_length (v : Nat) : ∀ (t : Node) (p : List Bool), pathTo v t = some p →
    p.length ≤ t.height
  | .leaf value _, p, h => by
    simp only [pathTo] at h
    split at h
    · cases h; simp
    · cases h
  | .inner l r _, p, h => by
    simp only [pathTo] at h
    simp only [Node.height]
    cases hl : pathTo v l with
    | some q =>
      rw [hl] at h
      cases h
      have := pathTo_length v l q hl
      simp only [List.length_cons]
      have := le_max_left l.height r.height
      omega
    | none =>
      rw [hl] at h
      cases hr : pathTo v r with
      | some q =>
        rw [hr] at h
        cases h
        have := pathTo_length v r q hr
        simp only [List.length_cons]
        have := le_max_right l.height r.height
        omega
      | none =>
        rw [hr] at h
        cases h

theorem countAt_of_get (ls : List Node) (i : Nat) (a : Node) (h : ls[i]? = some a) :
    countAt ls i = a.Count := by
  simp [countAt, h]

theorem Node.Count_inner (l r : Node) (c : Nat) : (Node.inner l r c).Count = c := rfl

/-- One pass of the loop of `BuildSorted` keeps the slice as it has to be. -/
theorem heap_step (left right : Node) (ls : List Node) (h : Heap (left :: right :: ls)) :
    Heap (ls.take (sortSearch ls.length (fun i => decide (countAt ls i ≥ left.Count + right.Count)))
      ++ Node.inner left right (left.Count + right.Count)
      :: ls.drop (sortSearch ls.length
        (fun i => decide (countAt ls i ≥ left.Count + right.Count)))) := by
  obtain ⟨hs, hg, hc⟩ := h
  rw [List.pairwise_cons, List.pairwise_cons] at hs
  obtain ⟨hleft, hright, hls⟩ := hs
  have hsorted : ∀ (x y : Nat) (a b : Node), x ≤ y → ls[x]? = some a → ls[y]? = some b → a.Count ≤ b.Count := by
    intro x y a b hxy ha hb
    rcases Nat.eq_or_lt_of_le hxy with e | e
    · rw [e, hb] at ha
      cases ha
      exact le_refl _
    · obtain ⟨hx, hxa⟩ := List.getElem?_eq_some.mp ha
      obtain ⟨hy, hyb⟩ := List.getElem?_eq_some.mp hb
      have := List.pairwise_iff_getElem.mp hls x y hx hy e
      rw [hxa, hyb] at this
      exact this
  obtain ⟨hk, hlow, hhigh⟩ := sortSearch_spec
    (fun i => decide (countAt ls i ≥ left.Count + right.Count)) ls.length
    (fun x y hxy hy hfx => by
      simp only [decide_eq_true_eq] at hfx ⊢
      have h1 := hsorted x y _ _ hxy
        (List.getElem?_eq_getElem (by omega : x < ls.length)) (List.getElem?_eq_getElem hy)
      rw [countAt_of_get ls x _ (List.getElem?_eq_getElem (by omega : x < ls.length))] at hfx
      rw [countAt_of_get ls y _ (List.getElem?_eq_getElem hy)]
      omega)
  generalize sortSearch ls.length (fun i => decide (countAt ls i ≥ left.Count + right.Count)) = k
    at hk hlow hhigh ⊢
  have htake : ∀ a ∈ ls.take k, a ∈ ls ∧ a.Count ≤ left.Count + right.Count := by
    intro a ha
    obtain ⟨i, hi⟩ := List.mem_iff_getElem?.mp ha
    rw [List.getElem?_take] at hi
    split at hi
    · rename_i hik
      refine ⟨List.getElem?_mem hi, ?_⟩
      have := hlow i hik
      simp only [decide_eq_false_iff_not, countAt_of_get ls i a hi] at this
      omega
    · cases hi
  have hdrop : ∀ a ∈ ls.drop k, a ∈ ls ∧ left.Count + right.Count ≤ a.Count := by
    intro a ha
    obtain ⟨i, hi⟩ := List.mem_iff_getElem?.mp ha
    rw [List.getElem?_drop] at hi
    refine ⟨List.getElem?_mem hi, ?_⟩
    have := hhigh (k + i) (by omega) (List.getElem?_eq_some.mp hi).1
    simp only [decide_eq_true_eq, countAt_of_get ls (k + i) a hi] at this
    exact this
  have hsplit : ls.take k ++ ls.drop k = ls := List.take_append_drop k ls
  have hls2 := hls
  rw [← hsplit, List.pairwise_append] at hls2
  have hmem : ∀ t, t ∈ ls.take k ++ Node.inner left right (left.Count + right.Count) :: ls.drop k →
      t ∈ ls ∨ t = Node.inner left right (left.Count + right.Count) := by
    intro t ht
    rcases List.mem_append.mp ht with h | h
    · exact Or.inl (htake t h).1
    · rcases List.mem_cons.mp h with h | h
      · exact Or.inr h
      · exact Or.inl (hdrop t h).1
  have hpgood : (Node.inner left right (left.Count + right.Count)).Good :=
    ⟨rfl, hc left (by simp) right (by simp), hc right (by simp) left (by simp),
      hg left (by simp), hg right (by simp)⟩
  have hlr : left.Count ≤ right.Count := hleft right (by simp)
  refine ⟨?_, ?_, ?_⟩
  · rw [List.pairwise_append]
    refine ⟨hls2.1, ?_, ?_⟩
    · rw [List.pairwise_cons]
      exact ⟨fun a ha => (hdrop a ha).2, hls2.2.1⟩
    · intro a ha b hb
      rcases List.mem_cons.mp hb with h | h
      · rw [h]; exact (htake a ha).2
      · exact hls2.2.2 a ha b h
  · intro t ht
    rcases hmem t ht with h | h
    · exact hg t (by simp [h])
    · rw [h]; exact hpgood
  · intro t ht u hu
    rcases hmem t ht with h1 | h1 <;> rcases hmem u hu with h2 | h2
    · exact hc t (by simp [h1]) u (by simp [h2])
    · rw [h2]
      have := hc t (by simp [h1]) left (by simp)
      rw [Node.Count_inner]
      omega
    · rw [h1]
      simp only [Node.childMax]
      exact max_le (hleft u (by simp [h2])) (hright u h2)
    · rw [h1, h2]
      simp only [Node.childMax, Node.Count_inner]
      exact max_le (by omega) (by omega)

/-- The tree that `BuildSorted` returns on a slice as above: its count is the sum
of the counts of the slice. -/
theorem buildLoop_good : ∀ (fuel : Nat) (nodes : List Node) (t : Node), Heap nodes →
    buildLoop fuel nodes = some t → t.Good ∧ t.Count = (nodes.map Node.Count).sum
  | _, [], t, _, h => by simp [buildLoop] at h
  | 0, [x], t, hh, h => by
    simp only [buildLoop, Option.some.injEq] at h
    subst h
    exact ⟨hh.2.1 x (by simp), by simp⟩
  | _ + 1, [x], t, hh, h => by
    simp only [buildLoop, Option.some.injEq] at h
    subst h
    exact ⟨hh.2.1 x (by simp), by simp⟩
  | 0, _ :: _ :: _, t, _, h => by simp [buildLoop] at h
  | fuel + 1, left :: right :: ls, t, hh, h => by
    have hstep := heap_step left right ls hh
    simp only [buildLoop] at h
    obtain ⟨hgood, hcount⟩ := buildLoop_good fuel _ t hstep h
    refine ⟨hgood, ?_⟩
    rw [hcount]
    simp only [List.map_append, List.map_cons, List.sum_append, List.sum_cons, Node.Count_inner]
    have hsplit := List.take_append_drop (sortSearch ls.length
      (fun i => decide (countAt ls i ≥ left.Count + right.Count))) ls
    conv_rhs => rw [← hsplit]
    simp only [List.map_append, List.sum_append]
    omega

theorem newSymbols_countsLE : newSymbols.CountsLE 1 := by
  intro l hl
  simp only [newSymbols, Symbols.rebuildTree, List.mem_cons, List.mem_singleton,
    List.not_mem_nil, or_false] at hl
  rcases hl with h | h <;> rw [h]

/-- A byte written or read raises the count of one leaf by one, or adds a leaf
with the count 1. -/
theorem Symbols.step_countsLE (s s2 : Symbols) (b K : Nat) (h : s.CountsLE K)
    (hs : s.step b = some s2) : s2.CountsLE (K + 1) := by
  unfold Symbols.step at hs
  split at hs
  · -- update
    unfold Symbols.update at hs
    split at hs
    · cases hs
    · rename_i node hnode
      simp only at hs
      split at hs
      · cases hs
      · split at hs
        · cases hs
        · rename_i idx hidx first hfirst
          simp only [Option.some.injEq] at hs
          subst hs
          intro l hl
          simp only [Symbols.rebuildTree] at hl
          rcases List.mem_or_eq_of_mem_set hl with hl | hl
          · rcases List.mem_or_eq_of_mem_set hl with hl | hl
            · exact Nat.le_succ_of_le (h l hl)
            · rw [hl]
              exact Nat.le_succ_of_le (h first (List.getElem?_mem hfirst))
          · rw [hl]
            have := h node (List.mem_of_find?_eq_some hnode)
            simp only
            omega
  · -- insert
    unfold Symbols.insert at hs
    split at hs
    · cases hs
    · simp only [Option.some.injEq] at hs
      subst hs
      intro l hl
      simp only [Symbols.rebuildTree, List.mem_append, List.mem_cons] at hl
      rcases hl with hl | hl | hl
      · exact Nat.le_succ_of_le (h l (List.mem_of_mem_take hl))
      · rw [hl]; simp
      · exact Nat.le_succ_of_le (h l (List.mem_of_mem_drop hl))

/-- The tree of a symbol table whose counts are not above `K` is not higher than
64 as long as `258 * K` is below the 67th Fibonacci number. -/
theorem Symbols.root_height (s : Symbols) (h : s.Inv) (K : Nat) (hK : s.CountsLE K)
    (hfib : 258 * K < Nat.fib 67) (n : Node) (hn : s.root = some n) : n.height ≤ 64 := by
  obtain ⟨⟨body, hsplit, hbody, _⟩, hsorted⟩ := Symbols.Inv.leafOrder s h
  have hpos : ∀ l ∈ s.leaves, 1 ≤ l.count := by
    intro l hl
    rw [hsplit] at hl
    rcases List.mem_append.mp hl with hl | hl
    · exact (hbody l hl).2.2
    · simp only [List.mem_cons, List.mem_singleton, List.not_mem_nil, or_false] at hl
      rcases hl with e | e <;> rw [e]
  have hheap : Heap (s.leaves.reverse.map Leaf.toNode) := by
    refine ⟨?_, ?_, ?_⟩
    · rw [List.pairwise_map] at hsorted ⊢
      exact hsorted
    · intro t ht
      obtain ⟨l, hl, rfl⟩ := List.mem_map.mp ht
      exact hpos l (List.mem_reverse.mp hl)
    · intro t ht u _
      obtain ⟨l, _, rfl⟩ := List.mem_map.mp ht
      exact Nat.zero_le _
  rw [h.tree] at hn
  obtain ⟨hgood, hcount⟩ := buildLoop_good _ _ n hheap hn
  have hsum : ((s.leaves.reverse.map Leaf.toNode).map Node.Count).sum ≤
      ((s.leaves.reverse.map Leaf.toNode).map Node.Count).length • K := by
    apply List.sum_le_card_nsmul
    intro x hx
    obtain ⟨t, ht, rfl⟩ := List.mem_map.mp hx
    obtain ⟨l, hl, rfl⟩ := List.mem_map.mp ht
    exact hK l (List.mem_reverse.mp hl)
  have hlen := Symbols.Inv.body_length s h
  simp only [List.length_map, List.length_reverse, smul_eq_mul] at hsum
  have hle : s.leaves.length * K ≤ 258 * K := Nat.mul_le_mul_right K (by omega)
  have hf := (Node.fib_le n hgood).1
  by_contra hc
  have : Nat.fib 67 ≤ Nat.fib (n.height + 2) := Nat.fib_mono (by omega)
  omega

theorem getD_pathTo_length (v : Nat) (n : Node) : ((pathTo v n).getD []).length ≤ n.height := by
  cases hp : pathTo v n with
  | none => simp
  | some p => simpa using pathTo_length v n p hp

/-- The codes that a writer emits are 64 bits long at most as long as the
number of bytes written is small enough. -/
theorem codeLengths_le : ∀ (p : List Nat) (s : Symbols) (K : Nat), s.Inv → s.CountsLE K →
    258 * (K + p.length) < Nat.fib 67 → (∀ b ∈ p, b < 256) → ∀ x ∈ codeLengths s p, x ≤ 64
  | [], s, K, h, hK, hfib, _, x, hx => by
    unfold codeLengths at hx
    split at hx
    · cases hr : s.root with
      | none => rw [hr] at hx; simp at hx
      | some n =>
        rw [hr] at hx
        simp only [List.mem_singleton] at hx
        rw [hx]
        exact le_trans (getD_pathTo_length _ n)
          (Symbols.root_height s h K hK (by simpa using hfib) n hr)
    · simp at hx
  | b :: p, s, K, h, hK, hfib, hb, x, hx => by
    unfold codeLengths at hx
    simp only [List.length_cons] at hfib
    rcases List.mem_cons.mp hx with hx | hx
    · rw [hx]
      cases hr : s.root with
      | none => simp
      | some n =>
        simp only
        exact le_trans (getD_pathTo_length _ n)
          (Symbols.root_height s h K hK (by omega) n hr)
    · obtain ⟨s2, hs2, hinv2, _⟩ := Symbols.step_inv s b h (hb b (by simp))
      rw [hs2] at hx
      exact codeLengths_le p s2 (K + 1) hinv2 (Symbols.step_countsLE s s2 b K hK hs2)
        (by omega) (fun c hc => hb c (by simp [hc])) x hx

/-- What `update` does to the slice: the leaf of the byte `b`, at the index `m`
with the count `c`, is exchanged with the first leaf with the count `c`, at the
index `i`, and gets the count `c + 1`. -/
theorem Symbols.update_shape (s : Symbols) (b : Nat) (h : s.Inv) (hb : b < 256)
    (hold : b ∈ s.valueMap) :
    ∃ (m i c : Nat) (first : Leaf), i ≤ m ∧ m < s.leaves.length - 2 ∧
      s.leaves[m]? = some ⟨b, c⟩ ∧ s.leaves[i]? = some first ∧ first.count = c ∧
      (∀ k l, k < i → s.leaves[k]? = some l → c < l.count) ∧
      s.update b = some (Symbols.rebuildTree { s with
        leaves := (s.leaves.set m first).set i ⟨b, c + 1⟩ }) := by
  have hlen := h.len
  obtain ⟨l0, hl0, hl0v⟩ := (h.keys b).mp hold
  have hfind : ∃ node, s.leaves.find? (fun l => decide (l.value = b)) = some node := by
    cases hf : s.leaves.find? (fun l => decide (l.value = b)) with
    | some node => exact ⟨node, rfl⟩
    | none =>
      rw [List.find?_eq_none] at hf
      exact absurd (by simpa using hl0v) (hf l0 hl0)
  obtain ⟨node, hnode⟩ := hfind
  have hnv : node.value = b := by simpa using List.find?_some hnode
  obtain ⟨m, hm⟩ := List.mem_iff_getElem?.mp (List.mem_of_find?_eq_some hnode)
  have hmlen : m < s.leaves.length := (List.getElem?_eq_some.mp hm).1
  have hmb : m < s.leaves.length - 2 := by
    by_contra hc
    have hcase : m = s.leaves.length - 2 ∨ m = s.leaves.length - 1 := by omega
    rcases hcase with hc2 | hc2
    · rw [hc2, h.new] at hm
      injection hm with hm
      rw [← hm] at hnv
      simp only [newValue] at hnv
      omega
    · rw [hc2, h.eof] at hm
      injection hm with hm
      rw [← hm] at hnv
      simp only [eofValue] at hnv
      omega
  have hex : ∀ k, k < s.leaves.length → ∃ x, s.leaves[k]? = some x := fun k hk =>
    ⟨_, List.getElem?_eq_getElem hk⟩
  have hfval : ∀ (i : Nat) (l : Leaf), s.leaves[i]? = some l →
      countLE s.leaves node.count i = decide (l.count ≤ node.count) := by
    intro i l hl
    simp only [countLE, hl]
  have hmono : ∀ x y, x ≤ y → y < s.leaves.length - 2 →
      countLE s.leaves node.count x = true → countLE s.leaves node.count y = true := by
    intro x y hxy hy hfx
    obtain ⟨lx, hx'⟩ := hex x (by omega)
    obtain ⟨ly, hy'⟩ := hex y (by omega)
    rw [hfval x _ hx'] at hfx
    rw [hfval y _ hy']
    have := h.sorted x y _ _ hxy hy hx' hy'
    simp only [decide_eq_true_eq] at hfx ⊢
    omega
  obtain ⟨hs1, hs2, hs3⟩ := sortSearch_spec (countLE s.leaves node.count)
    (s.leaves.length - 2) hmono
  generalize hidx2 : sortSearch (s.leaves.length - 2) (countLE s.leaves node.count) = idx2
    at hs1 hs2 hs3
  have hfm : countLE s.leaves node.count m = true := by rw [hfval m node hm]; simp
  have hle : idx2 ≤ m := by
    by_contra hc
    have := hs2 m (by omega)
    rw [hfm] at this
    cases this
  obtain ⟨first, hfirst⟩ := hex idx2 (by omega)
  have hfc : first.count = node.count := by
    have h1 := hs3 idx2 (le_refl _) (by omega)
    rw [hfval idx2 _ hfirst] at h1
    have h2 := h.sorted idx2 m _ _ hle hmb hfirst hm
    simp only [decide_eq_true_eq] at h1
    omega
  have hscan : scanFor s.leaves b (s.leaves.length + 1) idx2 = some m := by
    apply scanFor_spec s.leaves b m node hm hnv _ _ hle (by omega)
    intro k y hk hkm hky hyv
    have := h.inj k m y node (by omega) hmb hky hm (by rw [hyv, hnv])
    omega
  have hupd : s.update b = some (Symbols.rebuildTree { s with
      leaves := (s.leaves.set m first).set idx2 ⟨b, node.count + 1⟩ }) := by
    simp only [Symbols.update, hnode, extraValues, hidx2, hscan, hfirst]
  have hnode2 : node = ⟨b, node.count⟩ := by
    cases node
    simp only at hnv
    rw [hnv]
  refine ⟨m, idx2, node.count, first, hle, hmb, by rw [hm, ← hnode2], hfirst, hfc, ?_, hupd⟩
  intro k l hk hl
  have := hs2 k hk
  rw [hfval k l hl] at this
  simp only [decide_eq_false_iff_not] at this
  omega

/-- What `insert` does to the slice: the new leaf, with the count 1, is put right
before the two sentinels. -/
theorem Symbols.insert_shape (s : Symbols) (b : Nat) (h : s.Inv) (hb : b < 256)
    (hnew : b ∉ s.valueMap) :
    ∃ s2 body, s.insert b = some s2 ∧ s2.Inv ∧ s.leaves = body ++ [⟨newValue, 1⟩, ⟨eofValue, 1⟩] ∧
      s2.leaves = body ++ [⟨b, 1⟩, ⟨newValue, 1⟩, ⟨eofValue, 1⟩] ∧
      s2.valueMap = b :: s.valueMap := by
  obtain ⟨s2, hs2, hinv2⟩ := Symbols.insert_inv s b h hb hnew
  obtain ⟨⟨body, hsplit, _, _⟩, _⟩ := Symbols.Inv.leafOrder s h
  refine ⟨s2, body, hs2, hinv2, hsplit, ?_, ?_⟩
  · unfold Symbols.insert at hs2
    split at hs2
    · cases hs2
    · simp only [Option.some.injEq] at hs2
      subst hs2
      simp only [Symbols.rebuildTree, extraValues]
      have hl : s.leaves.length - 2 = body.length := by
        rw [hsplit]; simp
      rw [hl, hsplit, List.take_left' rfl, List.drop_left' rfl]
  · unfold Symbols.insert at hs2
    split at hs2
    · cases hs2
    · simp only [Option.some.injEq] at hs2
      subst hs2
      rfl

set_option maxRecDepth 100000 in
/-- C21 as stated fails: after `insert(97)`, `insert(98)`, `insert(99)` and
`update` of the leaf of 99 the slice is `99:2, 98:1, 97:1` and the sentinels;
the leaves of 97 and 98 have the same count, and the leaf of 97, inserted
first, is at the higher index. -/
theorem huffman_tie_order_counterexample :
    okOps newSymbols [.insert 97, .insert 98, .insert 99, .update 99] ∧
    (runOps newSymbols [.insert 97, .insert 98, .insert 99, .update 99]).map
        (fun s => s.leaves) =
      some [⟨99, 2⟩, ⟨98, 1⟩, ⟨97, 1⟩, ⟨newValue, 1⟩, ⟨eofValue, 1⟩] ∧
    (runOps newSymbols [.insert 97, .insert 98]).map (fun s => s.leaves) =
      some [⟨97, 1⟩, ⟨98, 1⟩, ⟨newValue, 1⟩, ⟨eofValue, 1⟩] := by
  decide

/-- The slice after a sequence of operations, at an `insert` and at an `update`. -/
theorem runOps_shape (ops : List TableOp) (h : okOps newSymbols ops) :
    ∃ s, runOps newSymbols ops = some s ∧
      (∀ v, v < 256 → v ∉ s.valueMap → ∃ s2 body, s.insert v = some s2 ∧
        s.leaves = body ++ [⟨newValue, 1⟩, ⟨eofValue, 1⟩] ∧
        s2.leaves = body ++ [⟨v, 1⟩, ⟨newValue, 1⟩, ⟨eofValue, 1⟩]) ∧
      (∀ v, v < 256 → v ∈ s.valueMap → ∃ (s2 : Symbols) (m i c : Nat) (first : Leaf),
        s.update v = some s2 ∧ i ≤ m ∧ s.leaves[m]? = some ⟨v, c⟩ ∧
        s.leaves[i]? = some first ∧ first.count = c ∧
        (∀ k l, k < i → s.leaves[k]? = some l → c < l.count) ∧
        s2.leaves = (s.leaves.set m first).set i ⟨v, c + 1⟩) := by
  obtain ⟨s, hs, hinv⟩ := runOps_inv ops newSymbols newSymbols_inv h
  refine ⟨s, hs, fun v hv hnew => ?_, fun v hv hold => ?_⟩
  · obtain ⟨s2, body, h1, _, h2, h3, _⟩ := Symbols.insert_shape s v hinv hv hnew
    exact ⟨s2, body, h1, h2, h3⟩
  · obtain ⟨m, i, c, first, h1, _, h2, h3, h4, h5, h6⟩ := Symbols.update_shape s v hinv hv hold
    exact ⟨_, m, i, c, first, h6, h1, h2, h3, h4, h5, rfl⟩

/-- Amended C21 (Huffman tie order): with no sliding window, after any sequence
of `insert` and `update` operations, `insert(v)` puts the new leaf, with the
count 1, right before the two sentinels and leaves the other leaves where they
are, and `update` of a leaf with the count `c` exchanges it with the leaf of
the lowest index that has the count `c` and then raises its count, the other
leaves staying where they are; leaves with the same count are thus not kept in
the order of their insertion. -/
theorem huffman_tie_order (ops : List TableOp) (h : okOps newSymbols ops) :
    ∃ s, runOps newSymbols ops = some s ∧
      (∀ v, v < 256 → v ∉ s.valueMap → ∃ s2 body, s.insert v = some s2 ∧
        s.leaves = body ++ [⟨newValue, 1⟩, ⟨eofValue, 1⟩] ∧
        s2.leaves = body ++ [⟨v, 1⟩, ⟨newValue, 1⟩, ⟨eofValue, 1⟩]) ∧
      (∀ v, v < 256 → v ∈ s.valueMap → ∃ (s2 : Symbols) (m i c : Nat) (first : Leaf),
        s.update v = some s2 ∧ i ≤ m ∧ s.leaves[m]? = some ⟨v, c⟩ ∧
        s.leaves[i]? = some first ∧ first.count = c ∧
        (∀ k l, k < i → s.leaves[k]? = some l → c < l.count) ∧
        s2.leaves = (s.leaves.set m first).set i ⟨v, c + 1⟩) :=
  runOps_shape ops h

set_option maxRecDepth 100000 in
/-- Witness of the amended C21 at `insert(97)`, `insert(98)`, `insert(99)`. -/
theorem huffman_tie_order_witness :
    okOps newSymbols [.insert 97, .insert 98, .insert 99] ∧
    ∃ s, runOps newSymbols [.insert 97, .insert 98, .insert 99] = some s ∧
      (∀ v, v < 256 → v ∉ s.valueMap → ∃ s2 body, s.insert v = some s2 ∧
        s.leaves = body ++ [⟨newValue, 1⟩, ⟨eofValue, 1⟩] ∧
        s2.leaves = body ++ [⟨v, 1⟩, ⟨newValue, 1⟩, ⟨eofValue, 1⟩]) ∧
      (∀ v, v < 256 → v ∈ s.valueMap → ∃ (s2 : Symbols) (m i c : Nat) (first : Leaf),
        s.update v = some s2 ∧ i ≤ m ∧ s.leaves[m]? = some ⟨v, c⟩ ∧
        s.leaves[i]? = some first ∧ first.count = c ∧
        (∀ k l, k < i → s.leaves[k]? = some l → c < l.count) ∧
        s2.leaves = (s.leaves.set m first).set i ⟨v, c + 1⟩) :=
  ⟨by decide, huffman_tie_order _ (by decide)⟩

/-- No two leaves have the same byte value. -/
theorem Symbols.Inv.unique (s : Symbols) (h : s.Inv) (l1 l2 : Leaf) (h1 : l1 ∈ s.leaves)
    (h2 : l2 ∈ s.leaves) (hv : l1.value = l2.value) (hb : l1.value < 256) : l1 = l2 := by
  obtain ⟨k1, hk1⟩ := List.mem_iff_getElem?.mp h1
  obtain ⟨k2, hk2⟩ := List.mem_iff_getElem?.mp h2
  have hlen := h.len
  have hbody : ∀ (k : Nat) (l : Leaf), s.leaves[k]? = some l → l.value < 256 →
      k < s.leaves.length - 2 := by
    intro k l hk hl
    have hkl := (List.getElem?_eq_some.mp hk).1
    by_contra hc
    have hcase : k = s.leaves.length - 2 ∨ k = s.leaves.length - 1 := by omega
    rcases hcase with e | e
    · rw [e, h.new] at hk
      injection hk with hk
      rw [← hk] at hl
      simp only [newValue] at hl
      omega
    · rw [e, h.eof] at hk
      injection hk with hk
      rw [← hk] at hl
      simp only [eofValue] at hl
      omega
  have e := h.inj k1 k2 l1 l2 (hbody k1 l1 hk1 hb) (hbody k2 l2 hk2 (hv ▸ hb)) hk1 hk2 hv
  rw [e, hk2] at hk1
  injection hk1 with hk1
  exact hk1.symm

theorem newSymbols_counts : newSymbols.Counts [] where
  count := by
    intro l hl hv
    simp only [newSymbols, Symbols.rebuildTree, List.mem_cons, List.mem_singleton,
      List.not_mem_nil, or_false] at hl
    rcases hl with e | e <;> rw [e] at hv <;> simp [newValue, eofValue] at hv
  seen := by
    intro v hv
    simp only [newSymbols, Symbols.rebuildTree, List.mem_cons, List.mem_singleton,
      List.not_mem_nil, or_false, iff_false, newValue, eofValue]
    omega
  nodup := by decide

/-- A byte written or read is counted. -/
theorem Symbols.step_counts (s s2 : Symbols) (q : List Nat) (b : Nat) (h : s.Inv)
    (hc : s.Counts q) (hb : b < 256) (hs : s.step b = some s2) : s2.Counts (q ++ [b]) := by
  obtain ⟨s2', hs2', hinv2, _⟩ := Symbols.step_inv s b h hb
  rw [hs] at hs2'
  cases hs2'
  unfold Symbols.step at hs
  by_cases hmem : b ∈ s.valueMap
  · -- update
    rw [if_pos hmem] at hs
    obtain ⟨m, i, c, first, him, hm, hgm, hgi, hfc, _, hupd⟩ :=
      Symbols.update_shape s b h hb hmem
    rw [hs] at hupd
    injection hupd with hupd
    have hcb : c = q.count b := hc.count ⟨b, c⟩ (List.getElem?_mem hgm) hb
    have hnew : (⟨b, c + 1⟩ : Leaf) ∈ s2.leaves := by
      rw [hupd]
      simp only [Symbols.rebuildTree]
      exact List.mem_iff_getElem?.mpr ⟨i, List.getElem?_set_self (by
        simp only [List.length_set]; omega)⟩
    refine ⟨fun l hl hv => ?_, fun v hv => ?_, ?_⟩
    · by_cases hlb : l.value = b
      · have e := Symbols.Inv.unique s2 hinv2 l ⟨b, c + 1⟩ hl hnew hlb hv
        rw [e]
        simp only [List.count_append, List.count_singleton_self]
        omega
      · have hold : l ∈ s.leaves := by
          rw [hupd] at hl
          simp only [Symbols.rebuildTree] at hl
          rcases List.mem_or_eq_of_mem_set hl with hl | hl
          · rcases List.mem_or_eq_of_mem_set hl with hl | hl
            · exact hl
            · rw [hl]; exact List.getElem?_mem hgi
          · rw [hl] at hlb
            exact absurd rfl hlb
        rw [hc.count l hold hv, List.count_append]
        have : List.count l.value [b] = 0 := by
          rw [List.count_singleton]
          simp only [beq_iff_eq]
          rw [if_neg (fun e => hlb e.symm)]
        omega
    · rw [hupd]
      simp only [Symbols.rebuildTree, List.mem_append, List.mem_singleton]
      rw [hc.seen v hv]
      constructor
      · exact fun hq => Or.inl hq
      · rintro (hq | hq)
        · exact hq
        · rw [hq]; exact (hc.seen b hb).mp hmem
    · rw [hupd]
      exact hc.nodup
  · -- insert
    rw [if_neg hmem] at hs
    obtain ⟨s2', body, h1, _, h2, h3, h4⟩ := Symbols.insert_shape s b h hb hmem
    rw [hs] at h1
    cases h1
    have hbq : b ∉ q := fun hq => hmem ((hc.seen b hb).mpr hq)
    refine ⟨fun l hl hv => ?_, fun v hv => ?_, ?_⟩
    · rw [h3] at hl
      have hcase : l = ⟨b, 1⟩ ∨ l ∈ s.leaves := by
        rw [h2]
        simp only [List.mem_append, List.mem_cons, List.mem_singleton, List.not_mem_nil,
          or_false] at hl ⊢
        tauto
      rcases hcase with e | hold
      · rw [e]
        simp only [List.count_append, List.count_singleton_self]
        rw [List.count_eq_zero_of_not_mem hbq]
      · have hvm : l.value ∈ s.valueMap := (h.keys l.value).mpr ⟨l, hold, rfl⟩
        have hne : l.value ≠ b := fun e => hmem (e ▸ hvm)
        rw [hc.count l hold hv, List.count_append]
        have : List.count l.value [b] = 0 := by
          rw [List.count_singleton]
          simp only [beq_iff_eq]
          rw [if_neg (fun e => hne e.symm)]
        omega
    · rw [h4]
      simp only [List.mem_cons, List.mem_append, List.mem_singleton]
      rw [hc.seen v hv]
      tauto
    · rw [h4]
      exact List.nodup_cons.mpr ⟨hmem, hc.nodup⟩

/-- A byte written by the writer: the call returns, and the symbol table takes
the step of the byte. -/
theorem Writer.WriteByte_sym (w : Writer) (b : Nat) (h : w.sym.Inv) (hb : b < 256) :
    ∃ w1, w.WriteByte b = some w1 ∧ w.sym.step b = some w1.sym ∧ w1.sym.Inv := by
  obtain ⟨s2, hstep, hinv2, _⟩ := Symbols.step_inv w.sym b h hb
  unfold Symbols.step at hstep
  unfold Writer.WriteByte
  by_cases hmem : b ∈ w.sym.valueMap
  · rw [if_pos hmem] at hstep ⊢
    obtain ⟨t, p, hroot, hp⟩ := Symbols.Inv.path w.sym h b hmem
    refine ⟨{ sym := s2, bw := w.bw.WriteBits (codeOf p).1 (codeOf p).2 },
      by simp only [Code, hroot, hp, Option.map_some', hstep], ?_, hinv2⟩
    simp only [Symbols.step, if_pos hmem, hstep]
  · rw [if_neg hmem] at hstep ⊢
    obtain ⟨t, p, hroot, hp⟩ := Symbols.Inv.path w.sym h newValue (Symbols.Inv.new_mem w.sym h)
    refine ⟨{ sym := s2, bw := (w.bw.WriteBits (codeOf p).1 (codeOf p).2).WriteByte b },
      by simp only [Code, hroot, hp, Option.map_some', hstep], ?_, hinv2⟩
    simp only [Symbols.step, if_neg hmem, hstep]

/-- The symbol table of the writer after the bytes `p`. -/
theorem Writer.Write_counts : ∀ (p : List Nat) (w : Writer) (q : List Nat), w.sym.Inv →
    w.sym.Counts q → (∀ b ∈ p, b < 256) →
    ∃ w1, w.Write p = some w1 ∧ w1.sym.Inv ∧ w1.sym.Counts (q ++ p)
  | [], w, q, h, hc, _ => ⟨w, rfl, h, by simpa using hc⟩
  | b :: p, w, q, h, hc, hb => by
    obtain ⟨w1, hw1, hstep, hinv1⟩ := Writer.WriteByte_sym w b h (hb b (by simp))
    have hc1 := Symbols.step_counts w.sym w1.sym q b h hc (hb b (by simp)) hstep
    obtain ⟨w2, hw2, hinv2, hc2⟩ := Writer.Write_counts p w1 (q ++ [b]) hinv1 hc1
      (fun x hx => hb x (by simp [hx]))
    refine ⟨w2, by simp only [Writer.Write, hw1, hw2], hinv2, ?_⟩
    simpa using hc2

/-- The symbol table of a new writer after the bytes `p`. -/
theorem NewWriter_Write_counts (p : List Nat) (hb : ∀ b ∈ p, b < 256) :
    ∃ w body, NewWriter.Write p = some w ∧
      w.sym.leaves = body ++ [⟨newValue, 1⟩, ⟨eofValue, 1⟩] ∧
      (body.map Leaf.value).Nodup ∧ (∀ v, v ∈ body.map Leaf.value ↔ v ∈ p) ∧
      (∀ l ∈ body, l.count = p.count l.value) ∧ w.sym.valueMap.Nodup ∧
      (∀ v, v ∈ w.sym.valueMap ↔ ∃ l ∈ w.sym.leaves, l.value = v) ∧
      w.sym.leaves.length ≤ 258 := by
  obtain ⟨w, hw, hinv, hc⟩ := Writer.Write_counts p NewWriter [] newSymbols_inv
    newSymbols_counts hb
  rw [List.nil_append] at hc
  obtain ⟨⟨body, hsplit, hbody, _⟩, _⟩ := Symbols.Inv.leafOrder w.sym hinv
  have hblen : body.length = w.sym.leaves.length - 2 := by
    rw [hsplit]; simp
  have hget : ∀ (i : Nat) (l : Leaf), body[i]? = some l → w.sym.leaves[i]? = some l := by
    intro i l hl
    rw [hsplit, List.getElem?_append_left (List.getElem?_eq_some.mp hl).1]
    exact hl
  have hbyte : ∀ l ∈ body, l.value < 256 := by
    intro l hl
    obtain ⟨i, hi⟩ := List.mem_iff_getElem?.mp hl
    exact (hinv.body i l (by rw [← hblen]; exact (List.getElem?_eq_some.mp hi).1)
      (hget i l hi)).2
  have hsub : ∀ l ∈ body, l ∈ w.sym.leaves := by
    intro l hl
    rw [hsplit]
    exact List.mem_append_left _ hl
  refine ⟨w, body, hw, hsplit, ?_, fun v => ⟨fun hv => ?_, fun hv => ?_⟩,
    fun l hl => hc.count l (hsub l hl) (hbyte l hl), hc.nodup, hinv.keys, ?_⟩
  · rw [List.nodup_iff_injective_getElem]
    intro ⟨i, hi⟩ ⟨j, hj⟩ hij
    simp only [List.length_map] at hi hj
    simp only [List.getElem_map] at hij
    have := hinv.inj i j _ _ (by omega) (by omega) (hget i _ (List.getElem?_eq_getElem hi))
      (hget j _ (List.getElem?_eq_getElem hj)) hij
    exact Fin.ext this
  · obtain ⟨l, hl, rfl⟩ := List.mem_map.mp hv
    exact (hc.seen l.value (hbyte l hl)).mp ((hinv.keys l.value).mpr ⟨l, hsub l hl, rfl⟩)
  · have hv256 := hb v hv
    obtain ⟨l, hl, hlv⟩ := (hinv.keys v).mp ((hc.seen v hv256).mpr hv)
    rw [hsplit] at hl
    rcases List.mem_append.mp hl with hl | hl
    · exact List.mem_map.mpr ⟨l, hl, hlv⟩
    · exfalso
      simp only [List.mem_cons, List.mem_singleton, List.not_mem_nil, or_false] at hl
      rcases hl with e | e <;> rw [e] at hlv <;> simp only [newValue, eofValue] at hlv <;> omega
  · have := Symbols.Inv.body_length w.sym hinv
    have := hinv.len
    omega

/-- C27 (Huffman counts are occurrence counts): with no sliding window, a writer
with default options processes every byte sequence `p` without failing, and
afterwards the leaves before the two sentinels are one leaf for each byte value
that occurs in `p`, the count of a leaf is the number of occurrences of its
value in `p`, the keys of `valueMap` are the values of the leaves, the two
sentinels included, each key once, and `leaves` has at most 258 elements, so
`insert` never exceeds the capacity of the slice. -/
theorem huffman_occurrence_counts (p : List Nat) (hb : ∀ b ∈ p, b < 256) :
    ∃ w body, NewWriter.Write p = some w ∧
      w.sym.leaves = body ++ [⟨newValue, 1⟩, ⟨eofValue, 1⟩] ∧
      (body.map Leaf.value).Nodup ∧ (∀ v, v ∈ body.map Leaf.value ↔ v ∈ p) ∧
      (∀ l ∈ body, l.count = p.count l.value) ∧ w.sym.valueMap.Nodup ∧
      (∀ v, v ∈ w.sym.valueMap ↔ ∃ l ∈ w.sym.leaves, l.value = v) ∧
      w.sym.leaves.length ≤ 258 :=
  NewWriter_Write_counts p hb

/-- Witness of C27 at the bytes `"banana"`. -/
theorem huffman_occurrence_counts_witness :
    ∃ w body, NewWriter.Write [98, 97, 110, 97, 110, 97] = some w ∧
      w.sym.leaves = body ++ [⟨newValue, 1⟩, ⟨eofValue, 1⟩] ∧
      (body.map Leaf.value).Nodup ∧
      (∀ v, v ∈ body.map Leaf.value ↔ v ∈ [98, 97, 110, 97, 110, 97]) ∧
      (∀ l ∈ body, l.count = [98, 97, 110, 97, 110, 97].count l.value) ∧
      w.sym.valueMap.Nodup ∧
      (∀ v, v ∈ w.sym.valueMap ↔ ∃ l ∈ w.sym.leaves, l.value = v) ∧
      w.sym.leaves.length ≤ 258 :=
  huffman_occurrence_counts [98, 97, 110, 97, 110, 97] (by decide)

/-- The writer after a part `q` of what it writes and the reader after it has
read as many bytes of the stream have the same symbol table. -/
theorem Writer.Write_readN : ∀ (q rest : List Nat) (w : Writer) (s : List Bool), w.sym.Inv →
    w.bw.Rep s → (q ++ rest = [] → 2 < w.sym.leaves.length) → (∀ b ∈ q ++ rest, b < 256) →
    (∀ x ∈ codeLengths w.sym (q ++ rest), x ≤ 64) →
    ∃ wq w1 out e pad, w.Write q = some wq ∧ w.Write (q ++ rest) = some w1 ∧
      w1.Close = some out ∧ Bitio.bitsOfBytes out = s ++ e ++ pad ∧
      ∀ (r : Reader), r.sym = w.sym → r.br.Rep (e ++ pad) →
        ∃ rq, r.readN q.length = some (q, rq) ∧ rq.sym = wq.sym
  | [], rest, w, s, hinv, hrep, hlen, hb, hd => by
    obtain ⟨w1, out, e, pad, hw1, hclose, _, hbits, _⟩ :=
      Writer.Write_spec rest w s hinv hrep (by simpa using hlen) (by simpa using hb)
        (by simpa using hd)
    exact ⟨w, w1, out, e, pad, rfl, by simpa using hw1, hclose, hbits,
      fun r hsym _ => ⟨r, rfl, hsym⟩⟩
  | b :: q, rest, w, s, hinv, hrep, _, hb, hd => by
    rw [List.cons_append] at hb hd
    obtain ⟨w1, e1, hw1, hinv1, hstep, hlen1, hrep1, hread1⟩ :=
      Writer.WriteByte_spec w s b (q ++ rest) hinv hrep (hb b (by simp)) hd
    have hd1 : ∀ x ∈ codeLengths w1.sym (q ++ rest), x ≤ 64 := by
      intro x hx
      apply hd
      simp only [codeLengths, hstep, List.mem_cons]
      exact Or.inr hx
    obtain ⟨wq, w2, out, e2, pad, hwq, hw2, hclose, hbits, hread2⟩ :=
      Writer.Write_readN q rest w1 (s ++ e1) hinv1 hrep1 (fun _ => hlen1)
        (fun x hx => hb x (by simp [hx])) hd1
    refine ⟨wq, w2, out, e1 ++ e2, pad, by simp only [Writer.Write, hw1, hwq],
      by simp only [List.cons_append, Writer.Write, hw1]; exact hw2, hclose,
      by rw [hbits]; simp, ?_⟩
    intro r hsym hr
    rw [List.append_assoc] at hr
    obtain ⟨r1, hr1, hsym1, hrep1'⟩ := hread1 r (e2 ++ pad) hsym hr
    obtain ⟨rq, hrq, hsymq⟩ := hread2 r1 hsym1 hrep1'
    exact ⟨rq, by simp only [List.length_cons, Reader.readN, hr1, hrq], hsymq⟩

/-- The symbol tables of a new writer after a part `q` of the bytes `p` and of a
new reader after it has read `q` from the stream of the writer are the same. -/
theorem Write_readN_sym (p q : List Nat) (hq : q <+: p) (hb : ∀ b ∈ p, b < 256)
    (hd : ∀ x ∈ codeLengths newSymbols p, x ≤ 64) :
    ∃ wq w out rq, NewWriter.Write q = some wq ∧ NewWriter.Write p = some w ∧
      w.Close = some out ∧ (NewReader out).readN q.length = some (q, rq) ∧
      rq.sym = wq.sym := by
  obtain ⟨rest, hrest⟩ := hq
  subst hrest
  cases q with
  | nil =>
    obtain ⟨w, out, hw, hclose, _⟩ := Write_Close_readAll ([] ++ rest) hb hd
    exact ⟨NewWriter, w, out, NewReader out, rfl, hw, hclose, rfl, rfl⟩
  | cons b q =>
    obtain ⟨wq, w1, out, e, pad, hwq, hw1, hclose, hbits, hread⟩ :=
      Writer.Write_readN (b :: q) rest NewWriter [] newSymbols_inv Bitio.NewWriter_rep
        (fun h => by cases h) hb hd
    obtain ⟨w1', out', e', pad', hw1', hclose', hout', _, _⟩ :=
      Writer.Write_spec (b :: q ++ rest) NewWriter [] newSymbols_inv Bitio.NewWriter_rep
        (fun h => by cases h) hb hd
    rw [hw1] at hw1'
    cases hw1'
    rw [hclose] at hclose'
    cases hclose'
    have hrep := Bitio.NewReader_rep out hout'
    rw [hbits] at hrep
    obtain ⟨rq, hrq, hsym⟩ := hread (NewReader out) rfl (by simpa [NewReader] using hrep)
    exact ⟨wq, w1, out, rq, hwq, hw1, hclose, hrq, hsym⟩

/-- Amended C23 (Huffman determinism): for every byte sequence `p` for which
every code the writer emits is 64 bits long at most and every part `q` that `p`
starts with, the symbol table (the leaves in their order with values and
counts, the tree and the value map) of a writer with default options after
`WriteByte` of the bytes of `q` is the symbol table of a reader with default
options after it has read the bytes of `q` from the stream that the writer
yields for `p`, which it does read. -/
theorem huffman_determinism (p q : List Nat) (hq : q <+: p) (hb : ∀ b ∈ p, b < 256)
    (hd : ∀ x ∈ codeLengths newSymbols p, x ≤ 64) :
    ∃ wq w out rq, NewWriter.Write q = some wq ∧ NewWriter.Write p = some w ∧
      w.Close = some out ∧ (NewReader out).readN q.length = some (q, rq) ∧
      rq.sym = wq.sym :=
  Write_readN_sym p q hq hb hd

set_option maxRecDepth 100000 in
/-- Witness of the amended C23 at `"banana"` and its part `"ban"`. -/
theorem huffman_determinism_witness :
    ∃ wq w out rq, NewWriter.Write [98, 97, 110] = some wq ∧
      NewWriter.Write [98, 97, 110, 97, 110, 97] = some w ∧
      w.Close = some out ∧ (NewReader out).readN [98, 97, 110].length =
        some ([98, 97, 110], rq) ∧
      rq.sym = wq.sym :=
  huffman_determinism [98, 97, 110, 97, 110, 97] [98, 97, 110] (by decide) (by decide)
    (by decide)

theorem Node.wplAt_succ : ∀ (t : Node) (d : Nat),
    t.wplAt (d + 1) = t.wplAt d + (t.leafList.map Node.Count).sum
  | .leaf _ c, d => by
    simp only [Node.wplAt, Node.leafList, List.map_cons, List.map_nil, List.sum_cons,
      List.sum_nil, Node.Count]
    ring
  | .inner l r _, d => by
    simp only [Node.wplAt, Node.leafList, List.map_append, List.sum_append]
    rw [Node.wplAt_succ l (d + 1), Node.wplAt_succ r (d + 1)]
    omega

theorem Node.Good.count_eq : ∀ (t : Node), t.Good → t.Count = (t.leafList.map Node.Count).sum
  | .leaf _ c, _ => by simp [Node.leafList, Node.Count]
  | .inner l r c, h => by
    obtain ⟨h1, _, _, h4, h5⟩ := h
    simp only [Node.leafList, List.map_append, List.sum_append, Node.Count]
    rw [← Node.Good.count_eq l h4, ← Node.Good.count_eq r h5]
    exact h1

theorem Node.Good.sumOK : ∀ (t : Node), t.Good → t.SumOK
  | .leaf _ _, _ => trivial
  | .inner l r _, h => by
    obtain ⟨h1, _, _, h4, h5⟩ := h
    exact ⟨h1, Node.Good.sumOK l h4, Node.Good.sumOK r h5⟩

theorem Node.wplAt_profile : ∀ (t : Node) (d : Nat),
    t.wplAt d = ((t.profile d).map (fun p => p.1 * p.2)).sum
  | .leaf _ c, d => by simp [Node.wplAt, Node.profile]
  | .inner l r _, d => by
    simp only [Node.wplAt, Node.profile, List.map_append, List.sum_append]
    rw [Node.wplAt_profile l (d + 1), Node.wplAt_profile r (d + 1)]

theorem Node.profile_fst : ∀ (t : Node) (d : Nat),
    (t.profile d).map Prod.fst = t.leafList.map Node.Count
  | .leaf _ c, d => by simp [Node.leafList, Node.profile, Node.Count]
  | .inner l r _, d => by
    simp only [Node.leafList, Node.profile, List.map_append]
    rw [Node.profile_fst l (d + 1), Node.profile_fst r (d + 1)]

theorem mergeCost_cons_cons (a b : Nat) (rest : List Nat) :
    mergeCost (a :: b :: rest).length (a :: b :: rest) =
      a + b + mergeCost (List.orderedInsert (· ≤ ·) (a + b) rest).length
        (List.orderedInsert (· ≤ ·) (a + b) rest) := by
  rw [List.orderedInsert_length]
  rfl

/-- A pair of the least weight can take the greatest depth: the cost of the
pairing does not grow. -/
theorem swap_min (M : Multiset (Nat × Nat)) (x h : Nat) (hx : x ∈ M.map Prod.fst)
    (hmin : ∀ p ∈ M, x ≤ p.1) (hmax : ∀ p ∈ M, p.2 ≤ h) (hh : h ∈ M.map Prod.snd) :
    ∃ R : Multiset (Nat × Nat), R.map Prod.fst = (M.map Prod.fst).erase x ∧
      R.map Prod.snd = (M.map Prod.snd).erase h ∧
      (R.map (fun p => p.1 * p.2)).sum + x * h ≤ (M.map (fun p => p.1 * p.2)).sum := by
  obtain ⟨⟨x1, dx⟩, hp, hx1⟩ := Multiset.mem_map.mp hx
  simp only at hx1
  subst hx1
  obtain ⟨M1, rfl⟩ := Multiset.exists_cons_of_mem hp
  by_cases hd : dx = h
  · subst hd
    refine ⟨M1, ?_, ?_, ?_⟩
    · simp
    · simp
    · simp only [Multiset.map_cons, Multiset.sum_cons]
      omega
  · have hh1 : h ∈ M1.map Prod.snd := by
      simp only [Multiset.map_cons, Multiset.mem_cons] at hh
      rcases hh with hh | hh
      · exact absurd hh.symm hd
      · exact hh
    obtain ⟨⟨a, h1⟩, ha, hh2⟩ := Multiset.mem_map.mp hh1
    simp only at hh2
    subst hh2
    obtain ⟨M2, rfl⟩ := Multiset.exists_cons_of_mem ha
    have hxa : x1 ≤ a := hmin (a, h1) (by simp)
    have hdh : dx ≤ h1 := hmax (x1, dx) (by simp)
    refine ⟨(a, dx) ::ₘ M2, ?_, ?_, ?_⟩
    · simp
    · simp only [Multiset.map_cons]
      rw [Multiset.erase_cons_tail _ hd, Multiset.erase_cons_head]
    · simp only [Multiset.map_cons, Multiset.sum_cons]
      obtain ⟨u, rfl⟩ := Nat.exists_eq_add_of_le hxa
      obtain ⟨v, rfl⟩ := Nat.exists_eq_add_of_le hdh
      nlinarith [Nat.zero_le (u * v)]

/-- Two of the leaves of a tree with two leaves or more are at the greatest
depth, and with one leaf a level higher in their place the depths are those of a
tree again. -/
theorem DepthProfile.deepest : ∀ (D : Multiset Nat), DepthProfile D → 2 ≤ Multiset.card D →
    ∃ h D1, 1 ≤ h ∧ D = h ::ₘ h ::ₘ D1 ∧ (∀ d ∈ D1, d ≤ h) ∧ DepthProfile ((h - 1) ::ₘ D1) := by
  intro D hD
  induction hD with
  | one => intro h; simp at h
  | split d E hP ih =>
    intro _
    by_cases hE : E = 0
    · subst hE
      exact ⟨d + 1, 0, by omega, rfl, by simp, by simpa using hP⟩
    · have hcard : 2 ≤ Multiset.card (d ::ₘ E) := by
        have := Multiset.card_pos.mpr hE
        rw [Multiset.card_cons]
        omega
      obtain ⟨h, D1, hh, hD1, hle, hP1⟩ := ih hcard
      by_cases hdh : d = h
      · subst hdh
        have hE1 : E = d ::ₘ D1 := (Multiset.cons_inj_right d).mp hD1
        refine ⟨d + 1, E, by omega, rfl, ?_, by simpa using hP⟩
        intro x hx
        rw [hE1, Multiset.mem_cons] at hx
        rcases hx with hx | hx
        · omega
        · have := hle x hx
          omega
      · have hd1 : d ∈ D1 := by
          have : d ∈ h ::ₘ h ::ₘ D1 := by rw [← hD1]; simp
          simp only [Multiset.mem_cons] at this
          rcases this with e | e | e
          · exact absurd e hdh
          · exact absurd e hdh
          · exact e
        obtain ⟨D2, rfl⟩ := Multiset.exists_cons_of_mem hd1
        have hE1 : E = h ::ₘ h ::ₘ D2 := by
          apply (Multiset.cons_inj_right d).mp
          rw [hD1, Multiset.cons_swap d h, Multiset.cons_swap d h]
        have hdle : d ≤ h := hle d (by simp)
        refine ⟨h, (d + 1) ::ₘ (d + 1) ::ₘ D2, hh, ?_, ?_, ?_⟩
        · rw [hE1, Multiset.cons_swap (d + 1) h, Multiset.cons_swap (d + 1) h,
            Multiset.cons_swap (d + 1) h, Multiset.cons_swap (d + 1) h]
        · intro x hx
          simp only [Multiset.mem_cons] at hx
          rcases hx with hx | hx | hx
          · omega
          · omega
          · exact hle x (by simp [hx])
        · rw [Multiset.cons_swap (h - 1) (d + 1), Multiset.cons_swap (h - 1) (d + 1)]
          apply DepthProfile.split
          rw [Multiset.cons_swap]
          exact hP1

/-- The depths of the leaves of a tree are the depths of the leaves of a tree. -/
theorem Node.profile_depths : ∀ (t : Node) (d : Nat) (R : Multiset Nat),
    DepthProfile (d ::ₘ R) → DepthProfile (((t.profile d).map Prod.snd : List Nat) + R)
  | .leaf _ c, d, R, h => by
    simpa [Node.profile] using h
  | .inner l r _, d, R, h => by
    have h1 := DepthProfile.split d R h
    have h2 := Node.profile_depths l (d + 1) ((d + 1) ::ₘ R) h1
    rw [Multiset.add_cons] at h2
    have h3 := Node.profile_depths r (d + 1) _ h2
    simp only [Node.profile, List.map_append]
    rw [← Multiset.coe_add, add_comm (l.profile (d + 1) |>.map Prod.snd : Multiset Nat),
      add_assoc]
    exact h3

/-- No pairing of the weights `l` with the depths of the leaves of a tree costs
less than merging the weights two by two, the two least first. -/
theorem mergeCost_le : ∀ (n : Nat) (l : List Nat) (M : Multiset (Nat × Nat)), l.length = n + 1 →
    l.Sorted (· ≤ ·) → (l : Multiset Nat) = M.map Prod.fst → DepthProfile (M.map Prod.snd) →
    mergeCost l.length l ≤ (M.map (fun p => p.1 * p.2)).sum
  | 0, l, M, hlen, _, _, _ => by
    match l, hlen with
    | [w], _ => simp [mergeCost]
  | n + 1, l, M, hlen, hs, hw, hP => by
    match l, hlen, hs, hw with
    | x :: y :: rest, hlen, hs, hw =>
      have hcard : Multiset.card (M.map Prod.snd) = n + 2 := by
        rw [Multiset.card_map, ← Multiset.card_map Prod.fst, ← hw]
        simpa using hlen
      obtain ⟨h, D1, hh, hD, hle, hP1⟩ := DepthProfile.deepest _ hP (by omega)
      rw [List.sorted_cons, List.sorted_cons] at hs
      obtain ⟨hxmin, hymin, hrest⟩ := hs
      have hdep : ∀ p ∈ M, p.2 ≤ h := by
        intro p hp
        have : p.2 ∈ M.map Prod.snd := Multiset.mem_map_of_mem _ hp
        rw [hD] at this
        simp only [Multiset.mem_cons] at this
        rcases this with e | e | e
        · omega
        · omega
        · exact hle _ e
      -- the least weight goes to the greatest depth
      obtain ⟨R1, hR1w, hR1d, hR1c⟩ := swap_min M x h (by rw [← hw]; simp)
        (fun p hp => by
          have : p.1 ∈ M.map Prod.fst := Multiset.mem_map_of_mem _ hp
          rw [← hw] at this
          simp only [Multiset.mem_coe, List.mem_cons] at this
          rcases this with e | e
          · omega
          · exact hxmin _ (by simpa using e))
        hdep (by rw [hD]; simp)
      rw [← hw, ← Multiset.cons_coe, Multiset.erase_cons_head] at hR1w
      rw [hD, Multiset.erase_cons_head] at hR1d
      -- and so does the second
      obtain ⟨R2, hR2w, hR2d, hR2c⟩ := swap_min R1 y h (by rw [hR1w]; simp)
        (fun p hp => by
          have : p.1 ∈ R1.map Prod.fst := Multiset.mem_map_of_mem _ hp
          rw [hR1w] at this
          simp only [Multiset.mem_coe, List.mem_cons] at this
          rcases this with e | e
          · omega
          · exact hymin _ e)
        (fun p hp => by
          have : p.2 ∈ R1.map Prod.snd := Multiset.mem_map_of_mem _ hp
          rw [hR1d] at this
          simp only [Multiset.mem_cons] at this
          rcases this with e | e
          · omega
          · exact hle _ e)
        (by rw [hR1d]; simp)
      rw [hR1w, ← Multiset.cons_coe, Multiset.erase_cons_head] at hR2w
      rw [hR1d, Multiset.erase_cons_head] at hR2d
      -- the two are merged
      have hih := mergeCost_le n (List.orderedInsert (· ≤ ·) (x + y) rest)
        ((x + y, h - 1) ::ₘ R2)
        (by rw [List.orderedInsert_length]; simpa using hlen)
        (hrest.orderedInsert _ _)
        (by
          rw [Multiset.map_cons, hR2w, Multiset.cons_coe]
          exact Multiset.coe_eq_coe.mpr (List.perm_orderedInsert _ _ _))
        (by rw [Multiset.map_cons, hR2d]; exact hP1)
      rw [mergeCost_cons_cons]
      simp only [Multiset.map_cons, Multiset.sum_cons] at hih
      obtain ⟨h1, rfl⟩ : ∃ h1, h = h1 + 1 := ⟨h - 1, by omega⟩
      simp only [Nat.add_sub_cancel] at hih
      have e1 : (x + y) * h1 + (x + y) = x * (h1 + 1) + y * (h1 + 1) := by ring
      omega

/-- The weighted path length of the tree that `BuildSorted` builds: the cost of
merging the counts. -/
theorem buildLoop_wpl : ∀ (fuel : Nat) (nodes : List Node) (t : Node), Heap nodes →
    buildLoop fuel nodes = some t →
    t.wplAt 0 = (nodes.map (fun x => x.wplAt 0)).sum +
        mergeCost (nodes.map Node.Count).length (nodes.map Node.Count) ∧
      t.leafList.Perm (nodes.flatMap Node.leafList) ∧ t.Good
  | _, [], t, _, h => by simp [buildLoop] at h
  | 0, [x], t, hh, h => by
    simp only [buildLoop, Option.some.injEq] at h
    subst h
    exact ⟨by simp [mergeCost], by simp, hh.2.1 x (by simp)⟩
  | _ + 1, [x], t, hh, h => by
    simp only [buildLoop, Option.some.injEq] at h
    subst h
    exact ⟨by simp [mergeCost], by simp, hh.2.1 x (by simp)⟩
  | 0, _ :: _ :: _, t, _, h => by simp [buildLoop] at h
  | fuel + 1, left :: right :: ls, t, hh, h => by
    have hstep := heap_step left right ls hh
    simp only [buildLoop] at h
    obtain ⟨hw, hp, hg⟩ := buildLoop_wpl fuel _ t hstep h
    have hsplit := List.take_append_drop (sortSearch ls.length
      (fun i => decide (countAt ls i ≥ left.Count + right.Count))) ls
    generalize sortSearch ls.length
      (fun i => decide (countAt ls i ≥ left.Count + right.Count)) = k at hstep hw hp hsplit
    have hgl : left.Good := hh.2.1 left (by simp)
    have hgr : right.Good := hh.2.1 right (by simp)
    have hsorted := hh.1
    rw [List.pairwise_cons, List.pairwise_cons] at hsorted
    refine ⟨?_, ?_, hg⟩
    · rw [hw]
      -- the counts after the pass
      have hcounts : (ls.take k ++ Node.inner left right (left.Count + right.Count)
          :: ls.drop k).map Node.Count =
          List.orderedInsert (· ≤ ·) (left.Count + right.Count) (ls.map Node.Count) := by
        apply List.eq_of_perm_of_sorted (r := (· ≤ ·))
        · refine List.Perm.trans ?_ (List.perm_orderedInsert _ _ _).symm
          rw [List.map_append, List.map_cons, Node.Count_inner]
          refine List.perm_middle.trans ?_
          rw [← List.map_append, hsplit]
        · exact List.pairwise_map.mpr hstep.1
        · exact List.Sorted.orderedInsert _ _ (List.pairwise_map.mpr hsorted.2.2)
      rw [hcounts]
      have hm : (left :: right :: ls).map Node.Count =
          left.Count :: right.Count :: ls.map Node.Count := rfl
      rw [hm, mergeCost_cons_cons]
      have hsum : ((ls.take k ++ Node.inner left right (left.Count + right.Count)
          :: ls.drop k).map (fun x => x.wplAt 0)).sum =
          (ls.map (fun x => x.wplAt 0)).sum +
            (left.wplAt 0 + right.wplAt 0 + left.Count + right.Count) := by
        conv_rhs => rw [← hsplit]
        simp only [List.map_append, List.map_cons, List.sum_append, List.sum_cons, Node.wplAt]
        rw [Node.wplAt_succ left 0, Node.wplAt_succ right 0, ← Node.Good.count_eq left hgl,
          ← Node.Good.count_eq right hgr]
        omega
      rw [hsum]
      simp only [List.map_cons, List.sum_cons]
      omega
    · refine hp.trans ?_
      simp only [List.flatMap_append, List.flatMap_cons, Node.leafList]
      conv_rhs => rw [← hsplit, List.flatMap_append]
      refine (List.perm_append_comm_assoc _ _ _).trans ?_
      simp only [List.append_assoc]
      exact List.Perm.refl _

/-- `BuildSorted` on leaves with ascending counts of 1 at least: the tree has
these leaves, its parents have the sums of the counts of their children, and no
tree with these leaves has a smaller weighted path length. -/
theorem BuildSorted_optimal (leaves : List Node) (hne : leaves ≠ [])
    (hleaf : ∀ x ∈ leaves, ∃ v c, x = Node.leaf v c ∧ 1 ≤ c)
    (hsorted : leaves.Pairwise (fun a b => a.Count ≤ b.Count)) :
    ∃ t, BuildSorted leaves = some t ∧ t.leafList.Perm leaves ∧ t.SumOK ∧
      ∀ t2 : Node, t2.leafList.Perm leaves → t.wpl ≤ t2.wpl := by
  obtain ⟨t, ht, _⟩ := BuildSorted_some leaves hne
  have hheap : Heap leaves := by
    refine ⟨hsorted, ?_, ?_⟩
    · intro x hx
      obtain ⟨v, c, rfl, hc⟩ := hleaf x hx
      exact hc
    · intro x hx u _
      obtain ⟨v, c, rfl, _⟩ := hleaf x hx
      exact Nat.zero_le _
  obtain ⟨hw, hp, hg⟩ := buildLoop_wpl leaves.length leaves t hheap ht
  have hflat : ∀ (ls : List Node), (∀ x ∈ ls, ∃ v c, x = Node.leaf v c ∧ 1 ≤ c) →
      ls.flatMap Node.leafList = ls ∧ (ls.map (fun x => x.wplAt 0)).sum = 0 := by
    intro ls
    induction ls with
    | nil => intro _; simp
    | cons a ls ih =>
      intro h
      obtain ⟨v, c, rfl, _⟩ := h a (by simp)
      obtain ⟨h1, h2⟩ := ih (fun x hx => h x (by simp [hx]))
      simp only [List.flatMap_cons, h1, List.map_cons, List.sum_cons, h2]
      simp [Node.leafList, Node.wplAt]
  obtain ⟨hf1, hf2⟩ := hflat leaves hleaf
  rw [hf1] at hp
  rw [hf2, Nat.zero_add] at hw
  refine ⟨t, ht, hp, Node.Good.sumOK t hg, ?_⟩
  intro t2 ht2
  unfold Node.wpl
  rw [hw, Node.wplAt_profile t2 0]
  have hlen : (leaves.map Node.Count).length = (leaves.length - 1) + 1 := by
    have : leaves.length ≠ 0 := fun e => hne (List.length_eq_zero.mp e)
    rw [List.length_map]
    omega
  have := mergeCost_le (leaves.length - 1) (leaves.map Node.Count) (t2.profile 0 : List (Nat × Nat))
    hlen (List.pairwise_map.mpr hsorted)
    (by
      rw [Multiset.map_coe, Node.profile_fst]
      exact Multiset.coe_eq_coe.mpr (ht2.map _).symm)
    (by
      have := Node.profile_depths t2 0 0 DepthProfile.one
      simpa using this)
  simpa using this

/-- C28 (`BuildSorted` builds an optimal tree): for every list of leaves that is
not empty and is sorted by counts that do not decrease and are 1 at least,
`BuildSorted` returns a binary tree whose leaves are the leaves of the list,
each once, in which the count of every parent is the sum of the counts of its
two children, and whose weighted path length, the sum over the leaves of count
times depth, is not above that of any binary tree over these leaves. -/
theorem huffman_optimal (leaves : List Node) (hne : leaves ≠ [])
    (hleaf : ∀ x ∈ leaves, ∃ v c, x = Node.leaf v c ∧ 1 ≤ c)
    (hsorted : leaves.Pairwise (fun a b => a.Count ≤ b.Count)) :
    ∃ t, BuildSorted leaves = some t ∧ t.leafList.Perm leaves ∧ t.SumOK ∧
      ∀ t2 : Node, t2.leafList.Perm leaves → t.wpl ≤ t2.wpl :=
  BuildSorted_optimal leaves hne hleaf hsorted

/-- Witness of C28 at three leaves with the counts 1, 2 and 3. -/
theorem huffman_optimal_witness :
    ∃ t, BuildSorted [Node.leaf 97 1, Node.leaf 98 2, Node.leaf 99 3] = some t ∧
      t.leafList.Perm [Node.leaf 97 1, Node.leaf 98 2, Node.leaf 99 3] ∧ t.SumOK ∧
      ∀ t2 : Node, t2.leafList.Perm [Node.leaf 97 1, Node.leaf 98 2, Node.leaf 99 3] →
        t.wpl ≤ t2.wpl :=
  huffman_optimal [Node.leaf 97 1, Node.leaf 98 2, Node.leaf 99 3] (by decide)
    (by
      intro x hx
      simp only [List.mem_cons, List.mem_singleton, List.not_mem_nil, or_false] at hx
      rcases hx with rfl | rfl | rfl
      · exact ⟨97, 1, rfl, by decide⟩
      · exact ⟨98, 2, rfl, by decide⟩
      · exact ⟨99, 3, rfl, by decide⟩)
    (by decide)

/-- The tree of a symbol table is not higher than `H` as long as the sum of the
counts of the leaves is below the Fibonacci number `H + 3`. -/
theorem Symbols.root_height_sum (s : Symbols) (h : s.Inv) (H : Nat)
    (hsum : (s.leaves.map Leaf.count).sum < Nat.fib (H + 3)) (n : Node)
    (hn : s.root = some n) : n.height ≤ H := by
  obtain ⟨⟨body, hsplit, hbody, _⟩, hsorted⟩ := Symbols.Inv.leafOrder s h
  have hpos : ∀ l ∈ s.leaves, 1 ≤ l.count := by
    intro l hl
    rw [hsplit] at hl
    rcases List.mem_append.mp hl with hl | hl
    · exact (hbody l hl).2.2
    · simp only [List.mem_cons, List.mem_singleton, List.not_mem_nil, or_false] at hl
      rcases hl with e | e <;> rw [e]
  have hheap : Heap (s.leaves.reverse.map Leaf.toNode) := by
    refine ⟨?_, ?_, ?_⟩
    · rw [List.pairwise_map] at hsorted ⊢
      exact hsorted
    · intro t ht
      obtain ⟨l, hl, rfl⟩ := List.mem_map.mp ht
      exact hpos l (List.mem_reverse.mp hl)
    · intro t ht u _
      obtain ⟨l, _, rfl⟩ := List.mem_map.mp ht
      exact Nat.zero_le _
  rw [h.tree] at hn
  obtain ⟨hgood, hcount⟩ := buildLoop_good _ _ n hheap hn
  have hcs : ((s.leaves.reverse.map Leaf.toNode).map Node.Count).sum =
      (s.leaves.map Leaf.count).sum := by
    rw [List.map_map, List.map_reverse, List.sum_reverse]
    rfl
  have hf := (Node.fib_le n hgood).1
  by_contra hc
  have : Nat.fib (H + 3) ≤ Nat.fib (n.height + 2) := Nat.fib_mono (by omega)
  omega

/-- The leaves before the sentinels of a symbol table that has counted the bytes
`q`: one leaf for each value of `q`, with the number of its occurrences. -/
theorem Symbols.Counts.body (s : Symbols) (q : List Nat) (hinv : s.Inv) (hc : s.Counts q)
    (hb : ∀ b ∈ q, b < 256) :
    ∃ body, s.leaves = body ++ [⟨newValue, 1⟩, ⟨eofValue, 1⟩] ∧
      (body.map Leaf.value).Nodup ∧ (∀ v, v ∈ body.map Leaf.value ↔ v ∈ q) ∧
      (∀ l ∈ body, l.count = q.count l.value) ∧
      body.Pairwise (fun a b => b.count ≤ a.count) := by
  obtain ⟨⟨body, hsplit, hbody, hpw⟩, _⟩ := Symbols.Inv.leafOrder s hinv
  have hblen : body.length = s.leaves.length - 2 := by
    rw [hsplit]; simp
  have hget : ∀ (i : Nat) (l : Leaf), body[i]? = some l → s.leaves[i]? = some l := by
    intro i l hl
    rw [hsplit, List.getElem?_append_left (List.getElem?_eq_some.mp hl).1]
    exact hl
  have hbyte : ∀ l ∈ body, l.value < 256 := by
    intro l hl
    obtain ⟨i, hi⟩ := List.mem_iff_getElem?.mp hl
    exact (hinv.body i l (by rw [← hblen]; exact (List.getElem?_eq_some.mp hi).1)
      (hget i l hi)).2
  have hsub : ∀ l ∈ body, l ∈ s.leaves := by
    intro l hl
    rw [hsplit]
    exact List.mem_append_left _ hl
  refine ⟨body, hsplit, ?_, fun v => ⟨fun hv => ?_, fun hv => ?_⟩,
    fun l hl => hc.count l (hsub l hl) (hbyte l hl), hpw⟩
  · rw [List.nodup_iff_injective_getElem]
    intro ⟨i, hi⟩ ⟨j, hj⟩ hij
    simp only [List.length_map] at hi hj
    simp only [List.getElem_map] at hij
    have := hinv.inj i j _ _ (by omega) (by omega) (hget i _ (List.getElem?_eq_getElem hi))
      (hget j _ (List.getElem?_eq_getElem hj)) hij
    exact Fin.ext this
  · obtain ⟨l, hl, rfl⟩ := List.mem_map.mp hv
    exact (hc.seen l.value (hbyte l hl)).mp ((hinv.keys l.value).mpr ⟨l, hsub l hl, rfl⟩)
  · have hv256 := hb v hv
    obtain ⟨l, hl, hlv⟩ := (hinv.keys v).mp ((hc.seen v hv256).mpr hv)
    rw [hsplit] at hl
    rcases List.mem_append.mp hl with hl | hl
    · exact List.mem_map.mpr ⟨l, hl, hlv⟩
    · exfalso
      simp only [List.mem_cons, List.mem_singleton, List.not_mem_nil, or_false] at hl
      rcases hl with e | e <;> rw [e] at hlv <;> simp only [newValue, eofValue] at hlv <;> omega

/-- The counts of a symbol table that has counted the bytes `q` sum up to the
number of the bytes and the two sentinels. -/
theorem Symbols.Counts.total (s : Symbols) (q : List Nat) (hinv : s.Inv) (hc : s.Counts q)
    (hb : ∀ b ∈ q, b < 256) : (s.leaves.map Leaf.count).sum = q.length + 2 := by
  obtain ⟨body, hsplit, hnodup, hmem, hcount, _⟩ := Symbols.Counts.body s q hinv hc hb
  have h1 : body.map Leaf.count = (body.map Leaf.value).map (fun v => q.count v) := by
    rw [List.map_map]
    exact List.map_congr_left (fun l hl => hcount l hl)
  have hperm : (body.map Leaf.value).Perm q.dedup :=
    (List.perm_ext_iff_of_nodup hnodup (List.nodup_dedup q)).mpr
      (fun v => by rw [hmem, List.mem_dedup])
  rw [hsplit, List.map_append, List.sum_append, h1, (hperm.map _).sum_eq,
    List.sum_map_count_dedup_eq_length]
  simp

theorem Writer.Write_snoc : ∀ (q : List Nat) (w wq w1 : Writer) (b : Nat),
    w.Write q = some wq → wq.WriteByte b = some w1 → w.Write (q ++ [b]) = some w1
  | [], w, wq, w1, b, h1, h2 => by
    simp only [Writer.Write, Option.some.injEq] at h1
    subst h1
    simp only [List.nil_append, Writer.Write, h2]
  | a :: q, w, wq, w1, b, h1, h2 => by
    simp only [Writer.Write] at h1
    cases ha : w.WriteByte a with
    | none => rw [ha] at h1; cases h1
    | some w2 =>
      rw [ha] at h1
      simp only [List.cons_append, Writer.Write, ha]
      exact Writer.Write_snoc q w2 wq w1 b h1 h2

theorem Reader.readN_snoc : ∀ (k : Nat) (r rq r1 : Reader) (q : List Nat) (b : Nat),
    r.readN k = some (q, rq) → rq.ReadByte = .ok (b, r1) →
    r.readN (k + 1) = some (q ++ [b], r1)
  | 0, r, rq, r1, q, b, h1, h2 => by
    simp only [Reader.readN, Option.some.injEq, Prod.mk.injEq] at h1
    obtain ⟨rfl, rfl⟩ := h1
    simp only [Reader.readN, h2, List.nil_append]
  | k + 1, r, rq, r1, q, b, h1, h2 => by
    rw [Reader.readN] at h1 ⊢
    cases ha : r.ReadByte with
    | ok x =>
      obtain ⟨a, r2⟩ := x
      rw [ha] at h1
      simp only at h1 ⊢
      cases hk : r2.readN k with
      | none => rw [hk] at h1; cases h1
      | some y =>
        obtain ⟨bs, r3⟩ := y
        rw [hk] at h1
        simp only [Option.some.injEq, Prod.mk.injEq] at h1
        obtain ⟨rfl, rfl⟩ := h1
        rw [Reader.readN_snoc k r2 r3 r1 bs b hk h2]
        simp
    | eof => rw [ha] at h1; cases h1
    | panic => rw [ha] at h1; cases h1

/-- As long as the number of the bytes written stays below the 67th Fibonacci
number, the two sentinels counted, the reader follows the writer byte by byte:
after the bytes `q` both have the same symbol table, and the reader is at the
bit at which the writer is. -/
theorem Writer.Write_readN_counts : ∀ (q : List Nat) (w : Writer) (s : List Bool) (q0 : List Nat),
    w.sym.Inv → w.sym.Counts q0 → w.bw.Rep s → (∀ b ∈ q0, b < 256) → (∀ b ∈ q, b < 256) →
    q0.length + q.length + 2 ≤ Nat.fib 67 →
    ∃ wq e, w.Write q = some wq ∧ wq.sym.Inv ∧ wq.sym.Counts (q0 ++ q) ∧ wq.bw.Rep (s ++ e) ∧
      ∀ (r : Reader) (tail : List Bool), r.sym = w.sym → r.br.Rep (e ++ tail) →
        ∃ rq, r.readN q.length = some (q, rq) ∧ rq.sym = wq.sym ∧ rq.br.Rep tail
  | [], w, s, q0, hinv, hc, hrep, _, _, _ =>
    ⟨w, [], rfl, hinv, by simpa using hc, by simpa using hrep,
      fun r tail hsym hr => ⟨r, rfl, hsym, by simpa using hr⟩⟩
  | b :: q, w, s, q0, hinv, hc, hrep, hb0, hb, hlen => by
    have htotal := Symbols.Counts.total w.sym q0 hinv hc hb0
    have hheight : ∀ t, w.sym.root = some t → t.height ≤ 64 :=
      fun t ht => Symbols.root_height_sum w.sym hinv 64 (by
        have e67 : Nat.fib (64 + 3) = Nat.fib 67 := rfl
        simp only [List.length_cons] at hlen
        omega) t ht
    obtain ⟨w1, e1, hw1, hinv1, hstep, _, hrep1, hread1⟩ :=
      Writer.WriteByte_head w s b hinv hrep (hb b (by simp))
        (fun t p ht hp => le_trans (pathTo_length _ t p hp) (hheight t ht))
    have hc1 := Symbols.step_counts w.sym w1.sym q0 b hinv hc (hb b (by simp)) hstep
    obtain ⟨wq, e2, hwq, hinvq, hcq, hrepq, hreadq⟩ :=
      Writer.Write_readN_counts q w1 (s ++ e1) (q0 ++ [b]) hinv1 hc1 hrep1
        (fun x hx => by
          rcases List.mem_append.mp hx with hx | hx
          · exact hb0 x hx
          · simp only [List.mem_singleton] at hx
            rw [hx]
            exact hb b (by simp))
        (fun x hx => hb x (by simp [hx]))
        (by simp only [List.length_append, List.length_cons, List.length_nil] at hlen ⊢; omega)
    refine ⟨wq, e1 ++ e2, by simp only [Writer.Write, hw1, hwq], hinvq,
      by simpa using hcq, by simpa using hrepq, ?_⟩
    intro r tail hsym hr
    rw [List.append_assoc] at hr
    obtain ⟨r1, hr1, hsym1, hrep1'⟩ := hread1 r (e2 ++ tail) hsym hr
    obtain ⟨rq, hrq, hsymq, hreprq⟩ := hreadq r1 tail hsym1 hrep1'
    exact ⟨rq, by simp only [List.length_cons, Reader.readN, hr1, hrq], hsymq, hreprq⟩

theorem count_blocks (f : Nat → Nat) (v : Nat) : ∀ (n : Nat),
    List.count v ((List.range n).flatMap (fun j => List.replicate (f j) j)) =
      if v < n then f v else 0
  | 0 => by simp
  | n + 1 => by
    rw [List.range_succ, List.flatMap_append, List.count_append, count_blocks f v n]
    simp only [List.flatMap_cons, List.flatMap_nil, List.append_nil, List.count_replicate]
    rcases Nat.lt_trichotomy v n with h | h | h
    · have e1 : (n == v) = false := by simp; omega
      rw [if_pos h, if_pos (by omega : v < n + 1), e1]
      simp
    · subst h
      simp
    · have e1 : (n == v) = false := by simp; omega
      rw [if_neg (by omega : ¬ v < n), if_neg (by omega : ¬ v < n + 1), e1]
      simp

theorem deepInput_count (v : Nat) :
    deepInput.count v = if v < 64 then Nat.fib (v + 2) else 0 :=
  count_blocks (fun j => Nat.fib (j + 2)) v 64

theorem deepInput_mem (v : Nat) : v ∈ deepInput ↔ v < 64 := by
  rw [← List.count_pos_iff, deepInput_count]
  by_cases h : v < 64
  · simp only [h, if_true, iff_true]
    exact Nat.fib_pos.mpr (by omega)
  · simp [h]

theorem fib_sum_64 : ((List.range 64).map (fun j => Nat.fib (j + 2))).sum + 2 = Nat.fib 67 := by
  decide

theorem replicate_lengths : (List.map (List.length ∘ fun j => List.replicate (Nat.fib (j + 2)) j)
    (List.range 64)) = List.map (fun j => Nat.fib (j + 2)) (List.range 64) :=
  List.map_congr_left (fun _ _ => List.length_replicate _ _)

theorem deepInput_length_sum :
    deepInput.length = ((List.range 64).map (fun j => Nat.fib (j + 2))).sum := by
  unfold deepInput
  rw [List.length_flatMap, replicate_lengths]

theorem deepInput_length : deepInput.length + 2 = Nat.fib 67 := by
  rw [deepInput_length_sum]
  exact fib_sum_64

theorem deepLeaves_mem (l : Leaf) : l ∈ deepLeaves ↔ l.value < 64 ∧ l.count = Nat.fib (l.value + 2) := by
  unfold deepLeaves
  simp only [List.mem_map, List.mem_reverse, List.mem_range]
  constructor
  · rintro ⟨j, hj, rfl⟩
    exact ⟨hj, rfl⟩
  · rintro ⟨h1, h2⟩
    refine ⟨l.value, h1, ?_⟩
    cases l
    simp only at h2
    simp [h2]

set_option maxRecDepth 100000 in
theorem deepLeaves_sorted : deepLeaves.Pairwise (fun a b => b.count < a.count) := by
  decide

/-- Leaves in the order of their counts, no two counts the same, are in the one
order there is. -/
theorem body_unique (body L : List Leaf) (hs : body.Pairwise (fun a b => b.count ≤ a.count))
    (hn : (body.map Leaf.value).Nodup) (hL : L.Pairwise (fun a b => b.count < a.count))
    (hmem : ∀ l, l ∈ body ↔ l ∈ L) : body = L := by
  have hbn : body.Nodup := List.Nodup.of_map _ hn
  have hLn : L.Nodup := hL.imp (fun {a b} h e => by rw [e] at h; omega)
  have hperm : body.Perm L := (List.perm_ext_iff_of_nodup hbn hLn).mpr hmem
  have hsymm : Symmetric (fun a b : Leaf => a.count ≠ b.count) := fun _ _ h => h.symm
  have hinj : ∀ a ∈ L, ∀ b ∈ L, a ≠ b → a.count ≠ b.count :=
    fun a ha b hb hab =>
      List.Pairwise.forall hsymm (hL.imp (fun {a b} h => by omega)) ha hb hab
  have hstrict : body.Pairwise (fun a b => b.count < a.count) := by
    have hboth := hs.and hbn
    refine hboth.imp_of_mem ?_
    intro a b ha hb hab
    have := hinj a ((hmem a).mp ha) b ((hmem b).mp hb) hab.2
    omega
  haveI : IsAntisymm Leaf (fun a b => b.count < a.count) :=
    ⟨fun a b h1 h2 => absurd h1 (by omega)⟩
  exact List.eq_of_perm_of_sorted hperm hstrict hL

/-- The leaves of the writer after the bytes `deepInput`. -/
theorem deep_leaves (s : Symbols) (hinv : s.Inv) (hc : s.Counts deepInput) :
    s.leaves = deepLeaves ++ [⟨newValue, 1⟩, ⟨eofValue, 1⟩] := by
  obtain ⟨body, hsplit, hnodup, hmem, hcount, hpw⟩ := Symbols.Counts.body s deepInput hinv hc
    (fun b hb => by have := (deepInput_mem b).mp hb; omega)
  rw [hsplit]
  congr 1
  apply body_unique body deepLeaves hpw hnodup deepLeaves_sorted
  intro l
  rw [deepLeaves_mem]
  constructor
  · intro hl
    have hv : l.value < 64 := (deepInput_mem _).mp ((hmem _).mp (List.mem_map_of_mem _ hl))
    refine ⟨hv, ?_⟩
    rw [hcount l hl, deepInput_count, if_pos hv]
  · rintro ⟨hv, hcnt⟩
    obtain ⟨l2, hl2, hl2v⟩ := List.mem_map.mp ((hmem l.value).mpr ((deepInput_mem _).mpr hv))
    have hc2 := hcount l2 hl2
    rw [hl2v, deepInput_count, if_pos hv] at hc2
    have : l2 = l := by
      cases l
      cases l2
      simp only at hl2v hc2 hcnt
      simp [hl2v, hc2, hcnt]
    rw [← this]
    exact hl2

set_option maxRecDepth 1000000 in
theorem deepTree_path :
    (BuildSorted ((deepLeaves ++ [Leaf.mk newValue 1, Leaf.mk eofValue 1]).reverse.map
      Leaf.toNode)).bind
      (pathTo newValue) = some (List.replicate 65 true) := by
  decide

set_option maxRecDepth 1000000 in
theorem deepTree_left :
    (BuildSorted ((deepLeaves ++ [Leaf.mk newValue 1, Leaf.mk eofValue 1]).reverse.map
      Leaf.toNode)).bind
      Node.leftLeaf = some 63 := by
  decide

theorem deepInput_lt (b : Nat) (hb : b ∈ deepInput) : b < 256 := by
  have := (deepInput_mem b).mp hb
  omega

theorem deepInput_fuel : ([] : List Nat).length + deepInput.length + 2 ≤ Nat.fib 67 := by
  rw [List.length_nil, Nat.zero_add, deepInput_length]

theorem fib_67_lt : Nat.fib 67 + 1 < Nat.fib (65 + 3) := by decide

theorem codeOf_deep : codeOf (List.replicate 65 true) = (2 ^ 64 - 1, 65) := by decide

theorem bitsMSB_deep :
    Bitio.bitsMSB 65 ((2 ^ 64 - 1) % 2 ^ 64) = false :: List.replicate 64 true := by decide

/-- After the bytes `deepInput` the code of `newValue` is 65 bits long, of which
`Node.Code()` returns 64: the reader, led to a leaf by the first bit, returns the
byte 63 where the writer has written a byte that is new. -/
theorem deep_reader_diverges :
    (∀ b ∈ deepInput ++ [64], b < 256) ∧
    ∃ w out rq, NewWriter.Write (deepInput ++ [64]) = some w ∧ w.Close = some out ∧
      (NewReader out).readN (deepInput ++ [64]).length = some (deepInput ++ [63], rq) := by
  refine ⟨?_, ?_⟩
  · intro b hb
    rcases List.mem_append.mp hb with h | h
    · exact deepInput_lt b h
    · simp only [List.mem_singleton] at h
      omega
  obtain ⟨wq, e, hwq, hinvq, hcq, hrepq, hreadq⟩ := Writer.Write_readN_counts deepInput
    NewWriter [] [] newSymbols_inv newSymbols_counts Bitio.NewWriter_rep (by simp)
    deepInput_lt deepInput_fuel
  rw [List.nil_append] at hcq hrepq
  have hleaves := deep_leaves wq.sym hinvq hcq
  -- the tree of the writer
  have htree := hinvq.tree
  rw [hleaves] at htree
  have hpath := deepTree_path
  have hleft := deepTree_left
  rw [← htree] at hpath hleft
  obtain ⟨t, ht⟩ : ∃ t, wq.sym.root = some t := by
    cases h : wq.sym.root with
    | none => rw [h] at hpath; cases hpath
    | some t => exact ⟨t, rfl⟩
  rw [ht, Option.some_bind] at hpath hleft
  -- the byte 64 is new to the writer
  have h64 : 64 ∉ wq.sym.valueMap := by
    intro h
    have := (deepInput_mem 64).mp ((hcq.seen 64 (by norm_num)).mp h)
    omega
  obtain ⟨s1, hstep, hinv1, hlen1⟩ := Symbols.step_inv wq.sym 64 hinvq (by norm_num)
  have hins : wq.sym.insert 64 = some s1 := by
    simpa [Symbols.step, h64] using hstep
  have hw1 : wq.WriteByte 64 =
      some { sym := s1, bw := (wq.bw.WriteBits (2 ^ 64 - 1) 65).WriteByte 64 } := by
    simp only [Writer.WriteByte, if_neg h64, Code, ht, hpath, Option.map_some', codeOf_deep, hins]
  have hrep1 : ((wq.bw.WriteBits (2 ^ 64 - 1) 65).WriteByte 64).Rep
      (e ++ (false :: List.replicate 64 true) ++ Bitio.bitsMSB 8 64) := by
    have h1 := Bitio.Writer.WriteBits_rep_wide wq.bw e (2 ^ 64 - 1) 65 hrepq (by norm_num)
    rw [bitsMSB_deep] at h1
    exact Bitio.Writer.WriteByte_rep _ _ 64 h1 (by norm_num)
  -- the code of the end of the data
  have hb1 : ∀ b ∈ deepInput ++ [64], b < 256 := by
    intro b hb
    rcases List.mem_append.mp hb with h | h
    · exact deepInput_lt b h
    · simp only [List.mem_singleton] at h
      omega
  have hc1 := Symbols.step_counts wq.sym s1 deepInput 64 hinvq hcq (by norm_num) hstep
  have htotal1 := Symbols.Counts.total s1 (deepInput ++ [64]) hinv1 hc1 hb1
  rw [List.length_append, List.length_singleton] at htotal1
  obtain ⟨t1, p1, hroot1, hp1⟩ := Symbols.Inv.path s1 hinv1 eofValue
    (Symbols.Inv.eof_mem s1 hinv1)
  have hh1 : t1.height ≤ 65 := Symbols.root_height_sum s1 hinv1 65 (by
    have h1 := deepInput_length
    have h2 := fib_67_lt
    omega) t1 hroot1
  have hp1len : p1.length ≤ 65 := le_trans (pathTo_length _ t1 p1 hp1) hh1
  have hclose : (Writer.mk s1 ((wq.bw.WriteBits (2 ^ 64 - 1) 65).WriteByte 64)).Close =
      some ((((wq.bw.WriteBits (2 ^ 64 - 1) 65).WriteByte 64).WriteBits (codeOf p1).1
        (codeOf p1).2).Close.out) := by
    simp only [Writer.Close, hlen1, if_true, Code, hroot1, hp1, Option.map_some', gt_iff_lt]
  have hrep2 := Bitio.Writer.WriteBits_rep_wide _ _ (codeOf p1).1 (codeOf p1).2 hrep1
    (by rw [codeOf_snd]; omega)
  obtain ⟨hbits, _, hbytes, _⟩ := Bitio.Writer.Close_rep _ _ hrep2
  -- the reader follows up to the code of `newValue`
  have hr0 := Bitio.NewReader_rep _ hbytes
  rw [hbits] at hr0
  simp only [List.append_assoc, List.cons_append] at hr0
  obtain ⟨rq, hrq, hsymq, hreprq⟩ := hreadq (NewReader _) _ rfl hr0
  -- and takes its first bit for the code of the leaf of 63
  obtain ⟨br2, hbool, _⟩ := Bitio.Reader.ReadBool_rep rq.br false _ hreprq
  have h63 : 63 ∈ wq.sym.valueMap :=
    (hcq.seen 63 (by norm_num)).mpr ((deepInput_mem 63).mpr (by norm_num))
  obtain ⟨s2, hupd, _⟩ := Symbols.update_inv wq.sym 63 hinvq (by norm_num) h63
  have hread : rq.ReadByte = .ok (63, { sym := s2, br := br2 }) := by
    match t, hleft with
    | .inner (.leaf v c) r n, hleft =>
      simp only [Node.leftLeaf, Option.some.injEq] at hleft
      subst hleft
      simp [Reader.ReadByte, hsymq, ht, descend, hbool, newValue, eofValue, hupd]
  refine ⟨_, _, { sym := s2, br := br2 }, Writer.Write_snoc _ _ _ _ _ hwq hw1, hclose, ?_⟩
  rw [List.length_append, List.length_singleton]
  exact Reader.readN_snoc _ _ _ _ _ _ hrq hread

/-- C23 as stated fails: let the writer be given the bytes `deepInput`, as many
as a tree of 65 levels needs, and then the byte 64, which is new to it. The code
of `newValue` is 65 bits long by then, `Node.Code()` returns its 64 low bits,
and the reader, led to a leaf by the first bit that the writer emits for it,
returns the byte 63 in the place of the byte 64: it does not come to the state
after the bytes written. -/
theorem huffman_determinism_counterexample :
    (∀ b ∈ deepInput ++ [64], b < 256) ∧ deepInput ++ [64] <+: deepInput ++ [64] ∧
    (∃ w out rq, NewWriter.Write (deepInput ++ [64]) = some w ∧ w.Close = some out ∧
      (NewReader out).readN (deepInput ++ [64]).length = some (deepInput ++ [63], rq)) ∧
    ¬ ∃ wq w out rq, NewWriter.Write (deepInput ++ [64]) = some wq ∧
      NewWriter.Write (deepInput ++ [64]) = some w ∧ w.Close = some out ∧
      (NewReader out).readN (deepInput ++ [64]).length = some (deepInput ++ [64], rq) ∧
      rq.sym = wq.sym := by
  obtain ⟨hb, w1, out1, rq1, g1, g2, g3⟩ := deep_reader_diverges
  refine ⟨hb, List.prefix_refl _, ⟨w1, out1, rq1, g1, g2, g3⟩, ?_⟩
  rintro ⟨wq, w, out, rq, _, h2, h3, h4, _⟩
  have e1 : w1 = w := Option.some.inj (g1.symm.trans h2)
  rw [e1] at g2
  have e2 : out1 = out := Option.some.inj (g2.symm.trans h3)
  rw [e2] at g3
  have e3 := congrArg Prod.fst (Option.some.inj (g3.symm.trans h4))
  have e4 : [63] = [64] := List.append_cancel_left e3
  exact absurd e4 (by decide)

/-! ### Facts about the tree in memory -/

namespace Ptr

theorem setParent_length (m : List Node) (a p : Nat) : (setParent m a p).length = m.length := by
  unfold setParent
  cases m[a]? with
  | none => rfl
  | some n => simp

theorem setParent_getElem? (m : List Node) (a p b : Nat) :
    (setParent m a p)[b]? =
      if b = a then (m[b]?).map (fun n => { n with Parent := some p }) else m[b]? := by
  unfold setParent
  cases h : m[a]? with
  | none =>
    by_cases hb : b = a
    · subst hb
      simp [h]
    · simp [hb]
  | some n =>
    simp only [List.getElem?_set]
    by_cases hb : b = a
    · subst hb
      have hlt : b < m.length := (List.getElem?_eq_some.mp h).1
      simp [h, hlt]
    · have : ¬ a = b := fun e => hb e.symm
      simp [hb, this]

/-- The memory after one pass of the loop. -/
theorem pass_getElem? (m : List Node) (left right : Nat) (pn : Node) (b : Nat)
    (hl : left < m.length) (hr : right < m.length) :
    (setParent (setParent (m ++ [pn]) left m.length) right m.length)[b]? =
      if b = left ∨ b = right then (m[b]?).map (fun n => { n with Parent := some m.length })
      else if b = m.length then some pn else m[b]? := by
  rw [setParent_getElem?, setParent_getElem?]
  by_cases h1 : b = right
  · subst h1
    by_cases h2 : b = left
    · subst h2
      simp only [List.getElem?_append_left hl, if_true, or_self]
      cases m[b]? <;> rfl
    · simp [h2, List.getElem?_append_left hr]
  · by_cases h2 : b = left
    · subst h2
      simp [h1, List.getElem?_append_left hl]
    · simp only [h1, h2, if_false, or_self]
      by_cases h3 : b = m.length
      · subst h3
        simp
      · simp only [h3, if_false]
        by_cases h4 : b < m.length
        · exact List.getElem?_append_left h4
        · rw [List.getElem?_eq_none (by simp; omega), List.getElem?_eq_none (by omega)]

theorem Built.perm (N0 : Nat) (ls : List Nat) (m : List Node) (c1 c2 : List Nat)
    (hp : c1.Perm c2) (h : Built N0 ls m c1) : Built N0 ls m c2 where
  size := h.size
  leaf := h.leaf
  inner := by
    intro a h1 h2
    obtain ⟨n, l, r, nl, nr, g1, g2, g3, g4, g5, g6, g7, g8, g9, g10, g11, g12, g13, g14⟩ :=
      h.inner a h1 h2
    exact ⟨n, l, r, nl, nr, g1, g2, g3, g4, g5, g6, g7, g8, g9, g10, g11, g12,
      fun hc => g13 (hp.mem_iff.mpr hc), fun hc => g14 (hp.mem_iff.mpr hc)⟩
  nodup := hp.nodup_iff.mp h.nodup
  elems := fun a ha => h.elems a (hp.mem_iff.mpr ha)
  cover := by
    intro x hx hlt
    rcases h.cover x hx hlt with hc | hc
    · exact Or.inl (hp.mem_iff.mp hc)
    · exact Or.inr hc

theorem Built.init (m0 : List Node) (ls : List Nat) (hnodup : ls.Nodup)
    (hleaf : ∀ a ∈ ls, ∃ n, m0[a]? = some n ∧ n.Left = none ∧ n.Right = none) :
    Built m0.length ls m0 ls where
  size := le_refl _
  leaf := by
    intro a ha
    obtain ⟨n, hn, h1, h2⟩ := hleaf a ha
    exact ⟨(List.getElem?_eq_some.mp hn).1, n, hn, h1, h2⟩
  inner := by
    intro a h1 h2
    omega
  nodup := hnodup
  elems := fun a ha => Or.inl ha
  cover := by
    intro x hx hlt
    rcases hx with hx | hx
    · exact Or.inl hx
    · omega

theorem Built.get (N0 : Nat) (ls : List Nat) (m : List Node) (cur : List Nat)
    (h : Built N0 ls m cur) (a : Nat) (ha : a ∈ cur) : ∃ n, m[a]? = some n := by
  rcases h.elems a ha with h1 | ⟨_, _, n, hn, _⟩
  · obtain ⟨_, n, hn, _⟩ := h.leaf a h1
    exact ⟨n, hn⟩
  · exact ⟨n, hn⟩

theorem Built.lt (N0 : Nat) (ls : List Nat) (m : List Node) (cur : List Nat)
    (h : Built N0 ls m cur) (a : Nat) (ha : a ∈ cur) : a < m.length := by
  obtain ⟨n, hn⟩ := Built.get N0 ls m cur h a ha
  exact (List.getElem?_eq_some.mp hn).1

/-- A node that was there before a pass of the loop: its children are the same
after it. -/
theorem pass_old (m : List Node) (left right : Nat) (pn : Node) (b : Nat) (n : Node)
    (hl : left < m.length) (hr : right < m.length) (hn : m[b]? = some n) :
    ∃ n2, (setParent (setParent (m ++ [pn]) left m.length) right m.length)[b]? = some n2 ∧
      n2.Left = n.Left ∧ n2.Right = n.Right ∧ (b ≠ left → b ≠ right → n2 = n) ∧
      (b = left ∨ b = right → n2.Parent = some m.length) := by
  have hb : b < m.length := (List.getElem?_eq_some.mp hn).1
  rw [pass_getElem? m left right pn b hl hr]
  by_cases h : b = left ∨ b = right
  · rw [if_pos h, hn]
    exact ⟨_, rfl, rfl, rfl, fun h1 h2 => by rcases h with h | h <;> contradiction,
      fun _ => rfl⟩
  · rw [if_neg h, if_neg (by omega), hn]
    exact ⟨n, rfl, rfl, rfl, fun _ _ => rfl, fun h2 => absurd h2 h⟩

/-- One pass of the loop of `BuildSorted` keeps the state as it has to be. -/
theorem Built.pass (N0 : Nat) (ls : List Nat) (m : List Node) (left right : Nat)
    (rest : List Nat) (c : Nat) (h : Built N0 ls m (left :: right :: rest)) :
    Built N0 ls
      (setParent (setParent (m ++ [⟨none, some left, some right, c, 0⟩]) left m.length) right
        m.length) (m.length :: rest) := by
  have hl : left < m.length := Built.lt N0 ls m _ h left (by simp)
  have hr : right < m.length := Built.lt N0 ls m _ h right (by simp)
  have hnd := h.nodup
  rw [List.nodup_cons, List.nodup_cons] at hnd
  obtain ⟨hleft, hright, hrest⟩ := hnd
  have hne : left ≠ right := fun e => hleft (by simp [e])
  have hleftrest : left ∉ rest := fun e => hleft (by simp [e])
  have hlen : (setParent (setParent (m ++ [⟨none, some left, some right, c, 0⟩]) left m.length)
      right m.length).length = m.length + 1 := by
    rw [setParent_length, setParent_length, List.length_append]
    rfl
  have hrestlt : ∀ a ∈ rest, a < m.length :=
    fun a ha => Built.lt N0 ls m _ h a (by simp [ha])
  have hP : (setParent (setParent (m ++ [⟨none, some left, some right, c, 0⟩]) left m.length)
      right m.length)[m.length]? = some ⟨none, some left, some right, c, 0⟩ := by
    rw [pass_getElem? m left right _ _ hl hr, if_neg (by omega), if_pos rfl]
  obtain ⟨nl0, hnl0⟩ := Built.get N0 ls m _ h left (by simp)
  obtain ⟨nr0, hnr0⟩ := Built.get N0 ls m _ h right (by simp)
  refine ⟨by rw [hlen]; have := h.size; omega, ?_, ?_, ?_, ?_, ?_⟩
  · -- the leaves
    intro a ha
    obtain ⟨h1, n, hn, h2, h3⟩ := h.leaf a ha
    obtain ⟨n2, g1, g2, g3, _, _⟩ := pass_old m left right _ a n hl hr hn
    exact ⟨h1, n2, g1, by rw [g2, h2], by rw [g3, h3]⟩
  · -- the nodes made by the loop
    intro a h1 h2
    rw [hlen] at h2
    by_cases ha : a = m.length
    · subst ha
      obtain ⟨n2, g1, _, _, _, g5⟩ := pass_old m left right
        ⟨none, some left, some right, c, 0⟩ left nl0 hl hr hnl0
      obtain ⟨n3, k1, _, _, _, k5⟩ := pass_old m left right
        ⟨none, some left, some right, c, 0⟩ right nr0 hl hr hnr0
      refine ⟨_, left, right, n2, n3, hP, rfl, rfl, hne, hl, hr, ?_, ?_, g1, g5 (Or.inl rfl), k1,
        k5 (Or.inr rfl), ?_, ?_⟩
      · rcases h.elems left (by simp) with e | e
        · exact Or.inl e
        · exact Or.inr e.1
      · rcases h.elems right (by simp) with e | e
        · exact Or.inl e
        · exact Or.inr e.1
      · simp only [List.mem_cons, not_or]
        exact ⟨by omega, hleftrest⟩
      · simp only [List.mem_cons, not_or]
        exact ⟨by omega, hright⟩
    · obtain ⟨n, l, r, nl, nr, g1, g2, g3, g4, g5, g6, g7, g8, g9, g10, g11, g12, g13, g14⟩ :=
        h.inner a h1 (by omega)
      simp only [List.mem_cons, not_or] at g13 g14
      obtain ⟨n2, k1, k2, k3, _, _⟩ := pass_old m left right
        ⟨none, some left, some right, c, 0⟩ a n hl hr g1
      obtain ⟨nl2, p1, _, _, p4, _⟩ := pass_old m left right
        ⟨none, some left, some right, c, 0⟩ l nl hl hr g9
      obtain ⟨nr2, q1, _, _, q4, _⟩ := pass_old m left right
        ⟨none, some left, some right, c, 0⟩ r nr hl hr g11
      refine ⟨n2, l, r, nl, nr, k1, by rw [k2, g2], by rw [k3, g3], g4, g5, g6, g7, g8, ?_, g10,
        ?_, g12, ?_, ?_⟩
      · rw [p1, p4 g13.1 g13.2.1]
      · rw [q1, q4 g14.1 g14.2.1]
      · simp only [List.mem_cons, not_or]
        exact ⟨by omega, g13.2.2⟩
      · simp only [List.mem_cons, not_or]
        exact ⟨by omega, g14.2.2⟩
  · -- no node twice
    rw [List.nodup_cons]
    exact ⟨fun e => by have := hrestlt _ e; omega, hrest⟩
  · -- the nodes of the slice
    intro a ha
    rcases List.mem_cons.mp ha with e | e
    · subst e
      exact Or.inr ⟨h.size, by rw [hlen]; omega, _, hP, rfl⟩
    · rcases h.elems a (by simp [e]) with g | ⟨g1, g2, n, g3, g4⟩
      · exact Or.inl g
      · obtain ⟨n2, k1, _, _, k4, _⟩ := pass_old m left right
          ⟨none, some left, some right, c, 0⟩ a n hl hr g3
        have ha1 : a ≠ left := fun e2 => hleftrest (e2 ▸ e)
        have ha2 : a ≠ right := fun e2 => hright (e2 ▸ e)
        rw [k4 ha1 ha2] at k1
        exact Or.inr ⟨g1, by rw [hlen]; omega, n, k1, g4⟩
  · -- every node is in the slice or a child
    intro x hx hlt
    rw [hlen] at hlt
    by_cases hxP : x = m.length
    · exact Or.inl (by simp [hxP])
    · rcases h.cover x hx (by omega) with g | ⟨a, n, l, r, g1, g2, g3, g4, g5, g6⟩
      · simp only [List.mem_cons] at g
        rcases g with g | g | g
        · exact Or.inr ⟨m.length, _, left, right, h.size, by rw [hlen]; omega, hP, rfl, rfl,
            Or.inl g⟩
        · exact Or.inr ⟨m.length, _, left, right, h.size, by rw [hlen]; omega, hP, rfl, rfl,
            Or.inr g⟩
        · exact Or.inl (by simp [g])
      · obtain ⟨n2, k1, k2, k3, _, _⟩ := pass_old m left right
          ⟨none, some left, some right, c, 0⟩ a n hl hr g3
        exact Or.inr ⟨a, n2, l, r, g1, by rw [hlen]; omega, k1, by rw [k2, g4], by rw [k3, g5],
          g6⟩

/-- `BuildSorted` returns a root, and the memory is as it has to be. -/
theorem ptr_buildLoop_built (N0 : Nat) (ls : List Nat) : ∀ (fuel : Nat) (m : List Node)
    (cur : List Nat), Built N0 ls m cur → cur ≠ [] → cur.length ≤ fuel + 1 →
    ∃ root m2, buildLoop fuel m cur = some (root, m2) ∧ Built N0 ls m2 [root] ∧
      ((2 ≤ cur.length ∨ ∃ a ∈ cur, N0 ≤ a) → N0 ≤ root)
  | _, _, [], _, h, _ => absurd rfl h
  | 0, m, [x], h, _, _ => ⟨x, m, by simp [buildLoop], h, fun hc => by
      rcases hc with hc | ⟨a, ha, h2⟩
      · simp at hc
      · simp only [List.mem_singleton] at ha
        omega⟩
  | _ + 1, m, [x], h, _, _ => ⟨x, m, by simp [buildLoop], h, fun hc => by
      rcases hc with hc | ⟨a, ha, h2⟩
      · simp at hc
      · simp only [List.mem_singleton] at ha
        omega⟩
  | 0, _, _ :: _ :: _, _, _, h => by simp at h
  | fuel + 1, m, left :: right :: rest, h, _, hlen => by
    obtain ⟨l, hl⟩ := Built.get N0 ls m _ h left (by simp)
    obtain ⟨r, hr⟩ := Built.get N0 ls m _ h right (by simp)
    have hpass := Built.pass N0 ls m left right rest (l.Count + r.Count) h
    simp only [buildLoop, hl, hr]
    generalize sortSearch rest.length _ = k
    have hperm : (m.length :: rest).Perm (rest.take k ++ m.length :: rest.drop k) := by
      refine List.Perm.trans ?_ List.perm_middle.symm
      rw [List.take_append_drop]
    have hb := Built.perm N0 ls _ _ _ hperm hpass
    obtain ⟨root, m2, h1, h2, h3⟩ := ptr_buildLoop_built N0 ls fuel _ _ hb (by simp)
      (by
        rw [← hperm.length_eq]
        simp only [List.length_cons] at hlen ⊢
        omega)
    exact ⟨root, m2, h1, h2, fun _ => h3 (Or.inr ⟨m.length, by simp, h.size⟩)⟩

theorem follow_append (m : List Node) : ∀ (p q : List Bool) (a : Nat),
    follow m a (p ++ q) = (follow m a p).bind (fun c => follow m c q)
  | [], q, a => by simp [follow]
  | b :: p, q, a => by
    simp only [List.cons_append, follow]
    cases m[a]? with
    | none => rfl
    | some n =>
      simp only
      cases n.Left with
      | none => rfl
      | some l =>
        simp only
        cases b with
        | false => simpa using follow_append m p q l
        | true =>
          simp only [if_true]
          cases n.Right with
          | none => rfl
          | some r => simpa using follow_append m p q r

/-- Below a node without a left child there is no node. -/
theorem follow_leaf (m : List Node) (a L : Nat) (n : Node) (p : List Bool)
    (hn : m[a]? = some n) (hl : n.Left = none) (h : follow m a p = some L) : p = [] := by
  cases p with
  | nil => rfl
  | cons b bs => simp [follow, hn, hl] at h

/-- One step down from a node: the node is one that the loop has made, and the
step leads to a child of it, which is linked to it. -/
theorem follow_step (N0 : Nat) (ls : List Nat) (m : List Node) (root : Nat)
    (hb : Built N0 ls m [root]) (a L : Nat) (b : Bool) (bs : List Bool)
    (ha : a ∈ ls ∨ N0 ≤ a) (h : follow m a (b :: bs) = some L) :
    ∃ c n nc, follow m c bs = some L ∧ (c ∈ ls ∨ N0 ≤ c) ∧ c < a ∧ N0 ≤ a ∧ m[a]? = some n ∧
      m[c]? = some nc ∧ nc.Parent = some a ∧ (n.Right = some c ↔ b = true) ∧
      follow m a [b] = some c := by
  have hlt : a < m.length := by
    by_contra hc
    simp [follow, List.getElem?_eq_none (by omega : m.length ≤ a)] at h
  have hN : N0 ≤ a := by
    rcases ha with ha | ha
    · obtain ⟨_, n, hn, h1, _⟩ := hb.leaf a ha
      simp [follow, hn, h1] at h
    · exact ha
  obtain ⟨n, l, r, nl, nr, g1, g2, g3, g4, g5, g6, g7, g8, g9, g10, g11, g12, _, _⟩ :=
    hb.inner a hN hlt
  cases b with
  | false =>
    refine ⟨l, n, nl, ?_, g7, g5, hN, g1, g9, g10, ?_, ?_⟩
    · simpa [follow, g1, g2] using h
    · rw [g3]
      simp only [Option.some.injEq]
      constructor
      · intro e
        exact absurd e.symm g4
      · intro e
        cases e
    · simp [follow, g1, g2]
  | true =>
    refine ⟨r, n, nr, ?_, g8, g6, hN, g1, g11, g12, ?_, ?_⟩
    · simpa [follow, g1, g2, g3] using h
    · simp [g3]
    · simp [follow, g1, g2, g3]

/-- A node below a node is a leaf of the slice or made by the loop, and as much
older as it is deeper. -/
theorem follow_tracked (N0 : Nat) (ls : List Nat) (m : List Node) (root : Nat)
    (hb : Built N0 ls m [root]) : ∀ (p : List Bool) (a L : Nat), (a ∈ ls ∨ N0 ≤ a) →
    follow m a p = some L → (L ∈ ls ∨ N0 ≤ L) ∧ L + p.length ≤ a
  | [], a, L, ha, h => by
    simp only [follow, Option.some.injEq] at h
    subst h
    exact ⟨ha, by simp⟩
  | b :: bs, a, L, ha, h => by
    obtain ⟨c, _, _, h1, h2, h3, _⟩ := follow_step N0 ls m root hb a L b bs ha h
    obtain ⟨g1, g2⟩ := follow_tracked N0 ls m root hb bs c L h2 h1
    exact ⟨g1, by simp only [List.length_cons]; omega⟩

/-- The walk of `Node.Code()` up the `Parent` links from a node below `a` comes
to `a` with the bits of the way down, the last of them first. -/
theorem codeLoop_climb (N0 : Nat) (ls : List Nat) (m : List Node) (root : Nat)
    (hb : Built N0 ls m [root]) : ∀ (q : List Bool) (a L : Nat), (a ∈ ls ∨ N0 ≤ a) →
    follow m a q.reverse = some L → ∀ (fuel r bits : Nat),
    codeLoop m (fuel + q.length) L r bits =
      codeLoop m fuel a
        (q.foldl (fun acc right =>
          (if right then acc.1 ||| (2 ^ acc.2 % 2 ^ 64) else acc.1, (acc.2 + 1) % 256))
          (r, bits)).1
        (q.foldl (fun acc right =>
          (if right then acc.1 ||| (2 ^ acc.2 % 2 ^ 64) else acc.1, (acc.2 + 1) % 256))
          (r, bits)).2
  | [], a, L, _, h, fuel, r, bits => by
    simp only [List.reverse_nil, follow, Option.some.injEq] at h
    subst h
    rfl
  | b :: q, a, L, ha, h, fuel, r, bits => by
    rw [List.reverse_cons, follow_append] at h
    cases hc : follow m a q.reverse with
    | none => rw [hc] at h; cases h
    | some c =>
      rw [hc, Option.some_bind] at h
      have hct := (follow_tracked N0 ls m root hb _ a c ha hc).1
      obtain ⟨c2, n, nc, h1, _, _, _, h5, h6, h7, h8, _⟩ :=
        follow_step N0 ls m root hb c L b [] hct h
      simp only [follow, Option.some.injEq] at h1
      subst h1
      have hstep : codeLoop m (fuel + (b :: q).length) c2 r bits =
          codeLoop m (fuel + q.length) c
            (if b then r ||| (2 ^ bits % 2 ^ 64) else r) ((bits + 1) % 256) := by
        have e : fuel + (b :: q).length = (fuel + q.length) + 1 := by
          simp only [List.length_cons]
          omega
        rw [e]
        simp only [codeLoop, h6, h7, h5]
        cases b with
        | false =>
          have : ¬ n.Right = some c2 := fun e => by
            have := h8.mp e
            cases this
          simp [this]
        | true =>
          have : n.Right = some c2 := h8.mpr rfl
          simp [this]
      rw [hstep, codeLoop_climb N0 ls m root hb q a c ha hc fuel _ _]
      rfl

/-- `Node.Code()` of a node of the tree that `BuildSorted` has built: the bits
of the way from the root down to it, as `codeOf` puts them together. -/
theorem Code_of_follow (N0 : Nat) (ls : List Nat) (m : List Node) (root : Nat)
    (hb : Built N0 ls m [root]) (hroot : N0 ≤ root) (p : List Bool) (L : Nat)
    (h : follow m root p = some L) : Node.Code m L = some (codeOf p) := by
  have hdepth := (follow_tracked N0 ls m root hb p root L (Or.inr hroot) h).2
  obtain ⟨hrlt, nr, hnr, hpar⟩ : root < m.length ∧ ∃ n, m[root]? = some n ∧ n.Parent = none := by
    rcases hb.elems root (by simp) with e | ⟨_, e2, n, e3, e4⟩
    · have := (hb.leaf root e).1
      omega
    · exact ⟨e2, n, e3, e4⟩
  unfold Node.Code
  have e : m.length + 1 = (m.length - p.length) + 1 + p.reverse.length := by
    rw [List.length_reverse]
    omega
  rw [e, codeLoop_climb N0 ls m root hb p.reverse root L (Or.inr hroot)
    (by rw [List.reverse_reverse]; exact h)]
  simp only [codeLoop, hnr, hpar]
  rfl

/-- Every leaf of the slice and every node made by the loop is below the root. -/
theorem follow_cover (N0 : Nat) (ls : List Nat) (m : List Node) (root : Nat)
    (hb : Built N0 ls m [root]) : ∀ (k x : Nat), m.length ≤ x + k → (x ∈ ls ∨ N0 ≤ x) →
    x < m.length → ∃ p, follow m root p = some x
  | 0, x, hk, _, hlt => by omega
  | k + 1, x, hk, hx, hlt => by
    rcases hb.cover x hx hlt with g | ⟨a, n, l, r, g1, g2, g3, g4, g5, g6⟩
    · simp only [List.mem_singleton] at g
      subst g
      exact ⟨[], rfl⟩
    · obtain ⟨n2, l2, r2, _, _, k1, k2, k3, _, k5, k6, _⟩ := hb.inner a g1 g2
      rw [g3] at k1
      injection k1 with k1
      subst k1
      rw [g4] at k2
      rw [g5] at k3
      injection k2 with k2
      injection k3 with k3
      subst k2 k3
      obtain ⟨p, hp⟩ := follow_cover N0 ls m root hb k a
        (by rcases g6 with e | e <;> omega) (Or.inr g1) g2
      rcases g6 with e | e
      · refine ⟨p ++ [false], ?_⟩
        rw [follow_append, hp, Option.some_bind]
        simp [follow, g3, g4, e]
      · refine ⟨p ++ [true], ?_⟩
        rw [follow_append, hp, Option.some_bind]
        simp [follow, g3, g4, g5, e]

/-- The tree that `BuildSorted` links together: the walk of `Node.Code()` up the
`Parent` links from a leaf gives the bits that lead the descent from the root
down to that leaf. -/
theorem code_descent_ptr (m0 : List Node) (ls : List Nat) (hlen2 : 2 ≤ ls.length)
    (hnodup : ls.Nodup)
    (hleaf : ∀ a ∈ ls, ∃ n, m0[a]? = some n ∧ n.Left = none ∧ n.Right = none) :
    ∃ root m, BuildSorted m0 ls = some (root, m) ∧
      (∀ L ∈ ls, ∃ p n, follow m root p = some L ∧ m[L]? = some n ∧ n.Left = none) ∧
      ∀ (L : Nat) (p : List Bool) (n : Node), follow m root p = some L → m[L]? = some n →
        n.Left = none → p.length ≤ 64 →
        ∃ r, Node.Code m L = some (r, p.length) ∧ Bitio.bitsMSB p.length r = p ∧ L ∈ ls ∧
          follow m root (Bitio.bitsMSB p.length r) = some L ∧
          (∀ k, k < p.length → ∃ a na l,
            follow m root ((Bitio.bitsMSB p.length r).take k) = some a ∧
            m[a]? = some na ∧ na.Left = some l) ∧
          ∀ (L2 : Nat) (q : List Bool) (n2 : Node) (r2 : Nat), follow m root q = some L2 →
            m[L2]? = some n2 → n2.Left = none → q.length ≤ 64 → L2 ≠ L →
            Node.Code m L2 = some (r2, q.length) →
            (r2, q.length) ≠ (r, p.length) ∧
              ¬ (Bitio.bitsMSB q.length r2 <+: Bitio.bitsMSB p.length r) := by
  have hne : ls ≠ [] := by
    intro e
    rw [e] at hlen2
    simp at hlen2
  obtain ⟨root, m, hbuild, hb, hroot⟩ := ptr_buildLoop_built m0.length ls ls.length m0 ls
    (Built.init m0 ls hnodup hleaf) hne (by omega)
  have hroot := hroot (Or.inl hlen2)
  refine ⟨root, m, hbuild, ?_, ?_⟩
  · intro L hL
    obtain ⟨h1, n, hn, h2, _⟩ := hb.leaf L hL
    obtain ⟨p, hp⟩ := follow_cover m0.length ls m root hb m.length L (by omega) (Or.inl hL)
      (List.getElem?_eq_some.mp hn).1
    exact ⟨p, n, hp, hn, h2⟩
  · intro L p n hp hn hleft hlen
    have hcode := Code_of_follow m0.length ls m root hb hroot p L hp
    rw [codeOf_eq p hlen] at hcode
    have hbits : Bitio.bitsMSB p.length (Bitio.bitsVal p) = p := Bitio.bitsMSB_bitsVal p
    refine ⟨Bitio.bitsVal p, hcode, hbits, ?_, by rw [hbits]; exact hp, ?_, ?_⟩
    · -- a leaf of the tree is a leaf of the slice
      rcases (follow_tracked m0.length ls m root hb p root L (Or.inr hroot) hp).1 with e | e
      · exact e
      · obtain ⟨n2, l, _, _, _, g1, g2, _⟩ := hb.inner L e (List.getElem?_eq_some.mp hn).1
        rw [hn] at g1
        injection g1 with g1
        rw [g1, g2] at hleft
        cases hleft
    · -- the nodes on the way have a left child
      intro k hk
      rw [hbits]
      have hsplit : p = p.take k ++ p.drop k := (List.take_append_drop k p).symm
      rw [hsplit, follow_append] at hp
      cases ha : follow m root (p.take k) with
      | none => rw [ha] at hp; cases hp
      | some a =>
        rw [ha, Option.some_bind] at hp
        cases hd : p.drop k with
        | nil =>
          have := congrArg List.length hd
          simp only [List.length_drop, List.length_nil] at this
          omega
        | cons b bs =>
          rw [hd] at hp
          cases hna : m[a]? with
          | none => simp [follow, hna] at hp
          | some na =>
            cases hl : na.Left with
            | none => simp [follow, hna, hl] at hp
            | some l => exact ⟨a, na, l, rfl, hna, hl⟩
    · -- no two codes the same, none the start of another
      intro L2 q n2 r2 hq hn2 hleft2 hqlen hne2 hcode2
      have hc2 := Code_of_follow m0.length ls m root hb hroot q L2 hq
      rw [codeOf_eq q hqlen, hcode2] at hc2
      injection hc2 with hc2
      injection hc2 with hr2 _
      have hbits2 : Bitio.bitsMSB q.length r2 = q := by
        rw [hr2]
        exact Bitio.bitsMSB_bitsVal q
      have hpre : ¬ (q <+: p) := by
        rintro ⟨s, hs⟩
        rw [← hs, follow_append, hq, Option.some_bind] at hp
        have := follow_leaf m L2 L n2 s hn2 hleft2 hp
        subst this
        simp only [follow, Option.some.injEq] at hp
        exact hne2 hp
      refine ⟨?_, by rw [hbits, hbits2]; exact hpre⟩
      intro e
      injection e with e1 e2
      apply hpre
      have : q = p := by
        rw [← hbits2, ← hbits, e1, e2]
      rw [this]

/-- C22 (Huffman code and descent agree): for every tree that `BuildSorted`
links together from a slice of two leaves at least, which are nodes of their
own and without children, whatever their `Parent` links were before, and for
every leaf `L` of it, at the depth `d ≤ 64` at the end of a way `p` from the
root, `L.Code()`, the walk up the `Parent` links, returns `(r, d)` such that the
descent from the root that takes, for `k = d - 1` down to `0`, the right child
when bit `k` of `r` is 1 and the left child when it is 0 passes nodes with
children only before its last step and ends at `L`; so two leaves have
different codes, none of which is the start of the other. The leaves of the
tree are the leaves of the slice, each of them below the root. -/
theorem huffman_code_descent (m0 : List Node) (ls : List Nat) (hlen2 : 2 ≤ ls.length)
    (hnodup : ls.Nodup)
    (hleaf : ∀ a ∈ ls, ∃ n, m0[a]? = some n ∧ n.Left = none ∧ n.Right = none) :
    ∃ root m, BuildSorted m0 ls = some (root, m) ∧
      (∀ L ∈ ls, ∃ p n, follow m root p = some L ∧ m[L]? = some n ∧ n.Left = none) ∧
      ∀ (L : Nat) (p : List Bool) (n : Node), follow m root p = some L → m[L]? = some n →
        n.Left = none → p.length ≤ 64 →
        ∃ r, Node.Code m L = some (r, p.length) ∧ Bitio.bitsMSB p.length r = p ∧ L ∈ ls ∧
          follow m root (Bitio.bitsMSB p.length r) = some L ∧
          (∀ k, k < p.length → ∃ a na l,
            follow m root ((Bitio.bitsMSB p.length r).take k) = some a ∧
            m[a]? = some na ∧ na.Left = some l) ∧
          ∀ (L2 : Nat) (q : List Bool) (n2 : Node) (r2 : Nat), follow m root q = some L2 →
            m[L2]? = some n2 → n2.Left = none → q.length ≤ 64 → L2 ≠ L →
            Node.Code m L2 = some (r2, q.length) →
            (r2, q.length) ≠ (r, p.length) ∧
              ¬ (Bitio.bitsMSB q.length r2 <+: Bitio.bitsMSB p.length r) :=
  code_descent_ptr m0 ls hlen2 hnodup hleaf

/-- Witness of C22: four leaves with the counts 1, 1, 2 and 4 at the addresses 0
to 3, with `Parent` links of an older tree, and a node of that tree at the
address 4. The root is made at the address 7; the leaf at the address 2 is
reached from it by `0, 1` and has the code `(0b01, 2)`, the leaf at the address
1 by `0, 0, 1` and has the code `(0b001, 3)`. -/
theorem huffman_code_descent_witness :
    (BuildSorted 
      ([⟨some 7, none, none, 1, 2147483646⟩, ⟨some 7, none, none, 1, 2147483647⟩,
        ⟨some 9, none, none, 2, 98⟩, ⟨none, none, none, 4, 97⟩, ⟨none, some 0, some 1, 2, 0⟩] :
        List Node) [0, 1, 2, 3]).map
        (fun rm => (rm.1, Node.Code rm.2 2, follow rm.2 rm.1 [false, true], Node.Code rm.2 1,
          follow rm.2 rm.1 [false, false, true], Node.Code rm.2 3, follow rm.2 rm.1 [true])) =
      some (7, some (1, 2), some 2, some (1, 3), some 1, some (1, 1), some 3) ∧
    ∃ root m, BuildSorted 
      ([⟨some 7, none, none, 1, 2147483646⟩, ⟨some 7, none, none, 1, 2147483647⟩,
        ⟨some 9, none, none, 2, 98⟩, ⟨none, none, none, 4, 97⟩, ⟨none, some 0, some 1, 2, 0⟩] :
        List Node) [0, 1, 2, 3] = some (root, m) ∧
      (∀ L ∈ [0, 1, 2, 3], ∃ p n, follow m root p = some L ∧ m[L]? = some n ∧ n.Left = none) ∧
      ∀ (L : Nat) (p : List Bool) (n : Node), follow m root p = some L → m[L]? = some n →
        n.Left = none → p.length ≤ 64 →
        ∃ r, Node.Code m L = some (r, p.length) ∧ Bitio.bitsMSB p.length r = p ∧
          L ∈ [0, 1, 2, 3] ∧
          follow m root (Bitio.bitsMSB p.length r) = some L ∧
          (∀ k, k < p.length → ∃ a na l,
            follow m root ((Bitio.bitsMSB p.length r).take k) = some a ∧
            m[a]? = some na ∧ na.Left = some l) ∧
          ∀ (L2 : Nat) (q : List Bool) (n2 : Node) (r2 : Nat), follow m root q = some L2 →
            m[L2]? = some n2 → n2.Left = none → q.length ≤ 64 → L2 ≠ L →
            Node.Code m L2 = some (r2, q.length) →
            (r2, q.length) ≠ (r, p.length) ∧
              ¬ (Bitio.bitsMSB q.length r2 <+: Bitio.bitsMSB p.length r) :=
  ⟨by rfl,
    huffman_code_descent 
      ([⟨some 7, none, none, 1, 2147483646⟩, ⟨some 7, none, none, 1, 2147483647⟩,
        ⟨some 9, none, none, 2, 98⟩, ⟨none, none, none, 4, 97⟩, ⟨none, some 0, some 1, 2, 0⟩] :
        List Node) [0, 1, 2, 3] (by decide) (by decide) (by
      intro a ha
      simp only [List.mem_cons, List.mem_singleton, List.not_mem_nil, or_false] at ha
      rcases ha with rfl | rfl | rfl | rfl
      · exact ⟨_, rfl, rfl, rfl⟩
      · exact ⟨_, rfl, rfl, rfl⟩
      · exact ⟨_, rfl, rfl, rfl⟩
      · exact ⟨_, rfl, rfl, rfl⟩)⟩

end Ptr

end Huffman

/-! ## Theorems on package `main` -/

namespace Main

/-- The first stage returns a rearrangement of the file content. -/
theorem bwtStage_spec (b : List Nat) (hlen : b.length ≤ Bwt.MaxBWTSBlockSize) :
    ∃ f, bwtStage b = some f ∧ f.Perm b := by
  obtain ⟨res, hres, herr, _, _, hl, hperm, _⟩ :=
    Bwt.BWTS.Forward_spec Bwt.NewBWTS b (List.replicate b.length 0) hlen (by simp)
  refine ⟨res.dst, by simp [bwtStage, hres, herr], ?_⟩
  rw [List.take_of_length_le (by rw [hl]; simp)] at hperm
  exact hperm

/-- The stages up to MTF on a file content of ASCII characters that are not
digits: what is given to the Huffman writer, and how `decompress` gets the
output of the first stage back from it. -/
theorem mtfStage_spec (nd : Nat → Bool) (b : List Nat) (hplain : ∀ x ∈ b, Rle.plainByte x)
    (hlen : b.length ≤ Bwt.MaxBWTSBlockSize) :
    ∃ f m seq alphabet rleString, bwtStage b = some f ∧ mtfStage b = some m ∧
      (∀ x ∈ m, x < 256) ∧ Mtf.GetAlphabet m = some (seq, alphabet) ∧
      Mtf.Decode alphabet seq = some rleString ∧ Rle.RunLengthDecode nd rleString = some f := by
  obtain ⟨f, hf, hperm⟩ := bwtStage_spec b hlen
  have hfplain : ∀ x ∈ f, Rle.plainByte x := fun x hx => hplain x (hperm.mem_iff.mp hx)
  have hflen : f.length < 2 ^ 63 := by
    rw [hperm.length_eq]
    have : Bwt.MaxBWTSBlockSize < 2 ^ 63 := by decide
    omega
  obtain ⟨e, henc, hdec⟩ := Rle.RunLengthDecode_RunLengthEncode nd f hfplain hflen
  have hascii := Rle.RunLengthEncode_ascii f e hfplain henc
  have hcard : e.toFinset.card ≤ 128 := by
    have hsub : e.toFinset ⊆ Finset.range 128 := by
      intro x hx
      exact Finset.mem_range.mpr (hascii x (List.mem_toFinset.mp hx))
    simpa using Finset.card_le_card hsub
  obtain ⟨seq, hseq, hdseq⟩ := Mtf.Decode_Encode e (by omega)
  have halen : (Mtf.AlphabetCreate e).length % 256 = (Mtf.AlphabetCreate e).length := by
    rw [Mtf.length_AlphabetCreate]
    exact Nat.mod_eq_of_lt (by omega)
  refine ⟨f, seq ++ Mtf.AlphabetCreate e ++ [(Mtf.AlphabetCreate e).length], seq,
    Mtf.AlphabetCreate e, e, hf, ?_, ?_, Mtf.GetAlphabet_append _ _, hdseq, hdec⟩
  · simp only [mtfStage, hf, henc, hseq, halen]
  · intro x hx
    rcases List.mem_append.mp hx with hx | hx
    · rcases List.mem_append.mp hx with hx | hx
      · exact Mtf.encodeLoop_lt e _ seq hseq x hx
      · have : x ∈ e := by
          simpa [Mtf.AlphabetCreate, Mtf.mem_alphabetLoop] using hx
        have := hascii x this
        omega
    · simp only [List.mem_singleton] at hx
      rw [hx, Mtf.length_AlphabetCreate]
      omega

/-- The two calls of `Inverse` of `decompress` undo the first stage of
`compress`. -/
theorem inverseTwice_bwtStage (b : List Nat) (hbytes : ∀ x ∈ b, x < 256)
    (hlen : b.length ≤ Bwt.MaxBWTSBlockSize) (f : List Nat) (hf : bwtStage b = some f) :
    inverseTwice f = some b := by
  by_cases hnil : b = []
  · subst hnil
    have : f = [] := by
      have h : bwtStage [] = some [] := by decide
      rw [h] at hf
      cases hf
      rfl
    subst this
    decide
  · obtain ⟨r1, h1, h2, _, _, hl, hinv⟩ := Bwt.BWTS.Inverse_Forward Bwt.NewBWTS b
      (List.replicate b.length 0) hnil hbytes hlen (by simp)
    have hfr : f = r1.dst := by
      simp only [bwtStage, h1, h2] at hf
      cases hf
      rfl
    subst hfr
    obtain ⟨r2, h3, h4, _, _, h5⟩ := hinv Bwt.NewBWTS (List.replicate r1.dst.length 0)
      (by simp [hl])
    obtain ⟨r3, h6, h7, _, _, h8⟩ := hinv r2.state r2.dst (by rw [h5])
    simp only [inverseTwice, h3, h4, h6, h7, h8]
    simp

/-- What is given to the Huffman writer is not much longer than twice the file
content. -/
theorem mtfStage_length (b m : List Nat) (hlen : b.length ≤ Bwt.MaxBWTSBlockSize)
    (h : mtfStage b = some m) : m.length ≤ 2 * b.length + 7 := by
  obtain ⟨f, hf, hperm⟩ := bwtStage_spec b hlen
  unfold mtfStage at h
  rw [hf] at h
  simp only at h
  cases he : Rle.RunLengthEncode f with
  | none => rw [he] at h; cases h
  | some e =>
    rw [he] at h
    simp only at h
    cases hseq : Mtf.Encode (Mtf.AlphabetCreate e) e with
    | none => rw [hseq] at h; cases h
    | some seq =>
      rw [hseq] at h
      simp only [Option.some.injEq] at h
      subst h
      have h1 := Rle.rle_encodeLoop_length _ f [] f e (by simp) he
      have h2 := Mtf.mtf_encodeLoop_length e _ seq hseq
      have h3 : (Mtf.AlphabetCreate e).length ≤ e.length := by
        rw [Mtf.length_AlphabetCreate]
        exact List.toFinset_card_le e
      have h4 := hperm.length_eq
      simp only [List.length_append, List.length_singleton]
      omega

/-- The Huffman writer emits no code longer than 64 bits on what `compress`
gives it. -/
theorem mtfStage_codeLengths (b m : List Nat) (hlen : b.length ≤ Bwt.MaxBWTSBlockSize)
    (h : mtfStage b = some m) (hbytes : ∀ x ∈ m, x < 256) :
    ∀ x ∈ Huffman.codeLengths Huffman.newSymbols m, x ≤ 64 := by
  have h1 := mtfStage_length b m hlen h
  have h2 : Nat.fib 67 = 44945570212853 := by norm_num
  have h3 : Bwt.MaxBWTSBlockSize = 1073741824 := by decide
  exact Huffman.codeLengths_le m Huffman.newSymbols 1 Huffman.newSymbols_inv
    Huffman.newSymbols_countsLE (by omega) hbytes

/-- The pipeline on a file content of ASCII characters that are not digits. -/
theorem decompress_compress (nd : Nat → Bool) (b : List Nat)
    (hplain : ∀ x ∈ b, Rle.plainByte x) (hlen : b.length ≤ Bwt.MaxBWTSBlockSize) :
    ∃ file n, compress b = some file ∧ ∀ fuel, decompress nd (n + fuel) file = some b := by
  obtain ⟨f, m, seq, alphabet, rleString, hf, hm, hbytes, hget, hdec, hrle⟩ :=
    mtfStage_spec nd b hplain hlen
  obtain ⟨w, out, hw, hclose, hread⟩ := Huffman.Write_Close_readAll m hbytes
    (mtfStage_codeLengths b m hlen hm hbytes)
  have hbwt := inverseTwice_bwtStage b (fun x hx => by have := (hplain x hx).1; omega) hlen f hf
  refine ⟨out, m.length + 1, by simp [compress, hm, hw, hclose], ?_⟩
  intro fuel
  simp [decompress, hread fuel, hget, hdec, hrle, hbwt]

/-- Amended C6 (pipeline round trip): for every file content `b` of at most
`2^30` bytes, all of them ASCII characters that are not decimal digits,
`compress` returns a file on which `decompress` returns `b`. -/
theorem pipeline_round_trip_plain (nd : Nat → Bool) (b : List Nat)
    (hplain : ∀ x ∈ b, x < 128 ∧ ¬ (48 ≤ x ∧ x ≤ 57)) (hlen : b.length ≤ 2 ^ 30) :
    ∃ file n, compress b = some file ∧ ∀ fuel, decompress nd (n + fuel) file = some b :=
  decompress_compress nd b hplain hlen

/-- Witness of the amended C6 at the file content `"banana"`. -/
theorem pipeline_round_trip_plain_witness :
    ∃ file n, compress [98, 97, 110, 97, 110, 97] = some file ∧
      ∀ fuel, decompress (fun _ => false) (n + fuel) file = some [98, 97, 110, 97, 110, 97] :=
  pipeline_round_trip_plain (fun _ => false) [98, 97, 110, 97, 110, 97] (by decide) (by decide)

set_option maxRecDepth 100000 in
/-- Counterexample to C6: the file content `"a1"` has the BWTS `"1a"`, whose
run-length encoding `"1a%#%"` has four distinct bytes; `compress` returns 13
bytes, and on them `decompress` returns the one-byte content `"a"`. -/
theorem pipeline_round_trip_counterexample :
    ([97, 49] : List Nat).length ≤ 2 ^ 30 ∧
    bwtStage [97, 49] = some [49, 97] ∧
    Rle.RunLengthEncode [49, 97] = some [49, 97, 37, 35, 37] ∧
    ([49, 97, 37, 35, 37] : List Nat).toFinset.card ≤ 255 ∧
    compress [97, 49] = some [128, 96, 56, 18, 7, 41, 137, 97, 100, 190, 71, 160, 144] ∧
    (∀ (nd : Nat → Bool) (fuel : Nat),
      decompress nd (11 + fuel) [128, 96, 56, 18, 7, 41, 137, 97, 100, 190, 71, 160, 144] =
        some [97]) ∧
    ([97] : List Nat) ≠ [97, 49] := by
  have hm : mtfStage [97, 49] = some [0, 1, 2, 3, 1, 49, 97, 37, 35, 4] := by decide
  have hc : compress [97, 49] =
      some [128, 96, 56, 18, 7, 41, 137, 97, 100, 190, 71, 160, 144] := by decide
  refine ⟨by decide, by decide, by decide, by decide, hc, ?_, by decide⟩
  intro nd fuel
  obtain ⟨w, out, hw, hclose, hread⟩ :=
    Huffman.Write_Close_readAll [0, 1, 2, 3, 1, 49, 97, 37, 35, 4] (by decide) (by decide)
  have hout : out = [128, 96, 56, 18, 7, 41, 137, 97, 100, 190, 71, 160, 144] := by
    simp only [compress, hm, hw, hclose, Option.some.injEq] at hc
    exact hc
  have hr := hread fuel
  rw [hout] at hr
  have hfuel : ([0, 1, 2, 3, 1, 49, 97, 37, 35, 4] : List Nat).length + 1 + fuel = 11 + fuel := rfl
  rw [hfuel] at hr
  have hget : Mtf.GetAlphabet [0, 1, 2, 3, 1, 49, 97, 37, 35, 4] =
      some ([0, 1, 2, 3, 1], [49, 97, 37, 35]) := by decide
  have hdec : Mtf.Decode [49, 97, 37, 35] [0, 1, 2, 3, 1] = some [49, 97, 37, 35, 37] := by
    decide
  have hrle : Rle.RunLengthDecode nd [49, 97, 37, 35, 37] = some [97] := by
    simp [Rle.RunLengthDecode, Rle.trailer, Rle.decodeLoop, Rle.indexNonDigit, Rle.decodeRune,
      Rle.isDigit, Rle.atoi, Rle.atoiScan, Rle.byteToString, Rle.repeatString]
  have hinv : inverseTwice [97] = some [97] := by decide
  simp only [decompress, hr, hget, hdec, hrle, hinv]

set_option maxRecDepth 100000 in
/-- C19 as stated fails: `compress` on the empty content does not return an
empty stream, and `decompress` on the empty stream panics (`GetAlphabet` reads
the last byte of an empty slice). -/
theorem empty_input_counterexample :
    compress [] ≠ some [] ∧ ∀ (nd : Nat → Bool) (fuel : Nat), decompress nd fuel [] = none := by
  refine ⟨by decide, fun nd fuel => ?_⟩
  cases fuel with
  | zero => rfl
  | succ fuel => rfl

set_option maxRecDepth 100000 in
/-- Amended C19 (empty-input scenario): `compress` on the empty content returns
the 8 bytes `80 60 27 25 e4 74 08 00` (the run-length stage gives the trailer
`"%#%"`, which the later stages encode), and `decompress` on these 8 bytes
returns the empty content without failing. -/
theorem empty_input_scenario :
    compress [] = some [128, 96, 39, 37, 228, 116, 8, 0] ∧
    ∀ (nd : Nat → Bool) (fuel : Nat),
      decompress nd (7 + fuel) [128, 96, 39, 37, 228, 116, 8, 0] = some [] := by
  have hm : mtfStage [] = some [0, 1, 1, 37, 35, 2] := by decide
  have hc : compress [] = some [128, 96, 39, 37, 228, 116, 8, 0] := by decide
  refine ⟨hc, fun nd fuel => ?_⟩
  obtain ⟨w, out, hw, hclose, hread⟩ :=
    Huffman.Write_Close_readAll [0, 1, 1, 37, 35, 2] (by decide) (by decide)
  have hout : out = [128, 96, 39, 37, 228, 116, 8, 0] := by
    simp only [compress, hm, hw, hclose, Option.some.injEq] at hc
    exact hc
  have hr := hread fuel
  rw [hout] at hr
  have hfuel : ([0, 1, 1, 37, 35, 2] : List Nat).length + 1 + fuel = 7 + fuel := rfl
  rw [hfuel] at hr
  have hget : Mtf.GetAlphabet [0, 1, 1, 37, 35, 2] = some ([0, 1, 1], [37, 35]) := by decide
  have hdec : Mtf.Decode [37, 35] [0, 1, 1] = some [37, 35, 37] := by decide
  have hrle : Rle.RunLengthDecode nd [37, 35, 37] = some [] := by
    simp [Rle.RunLengthDecode, Rle.trailer, Rle.decodeLoop]
  have hinv : inverseTwice [] = some [] := by decide
  simp only [decompress, hr, hget, hdec, hrle, hinv]

/-- The two calls of `Inverse` of `decompress` on a block return what one call
returns. -/
theorem inverseTwice_once (src : List Nat) (hbytes : ∀ x ∈ src, x < 256)
    (hmax : src.length ≤ Bwt.MaxBWTSBlockSize) :
    (∀ (this : Bwt.BWTS) (dst : List Nat), dst.length = src.length →
      ∃ r1 r2, this.Inverse false src dst = some r1 ∧ r1.err = false ∧
        r1.state.Inverse false src r1.dst = some r2 ∧ r2.err = false ∧ r2.dst = r1.dst) ∧
    ∃ r, Bwt.NewBWTS.Inverse false src (List.replicate src.length 0) = some r ∧
      r.err = false ∧ inverseTwice src = some r.dst := by
  obtain ⟨b, hb, hinv⟩ := Bwt.BWTS.Inverse_unique src hbytes hmax
  have h1 : ∀ (this : Bwt.BWTS) (dst : List Nat), dst.length = src.length →
      ∃ r1 r2, this.Inverse false src dst = some r1 ∧ r1.err = false ∧
        r1.state.Inverse false src r1.dst = some r2 ∧ r2.err = false ∧ r2.dst = r1.dst := by
    intro this dst hd
    obtain ⟨r1, e1, e2, _, _, e3⟩ := hinv this dst hd
    obtain ⟨r2, f1, f2, _, _, f3⟩ := hinv r1.state r1.dst (by rw [e3, hb])
    exact ⟨r1, r2, e1, e2, f1, f2, by rw [f3, e3]⟩
  refine ⟨h1, ?_⟩
  obtain ⟨r1, r2, e1, e2, f1, f2, f3⟩ := h1 Bwt.NewBWTS (List.replicate src.length 0) (by simp)
  refine ⟨r1, e1, e2, ?_⟩
  simp only [inverseTwice, e1, e2, f1, f2, f3]
  simp

/-- C25 (the double inversion of `decompress` is one inversion): for every block
`src` of at most `2^30` bytes and every destination of the same length that is
not the source, `Inverse` returns without error, and a second call on the same
`BWTS` with the same buffers returns without error and leaves the destination
as the first call left it; so the two calls of `decompress` give what one call
on a new `BWTS` gives. -/
theorem double_inverse_is_single (src : List Nat) (hbytes : ∀ x ∈ src, x < 256)
    (hmax : src.length ≤ Bwt.MaxBWTSBlockSize) :
    (∀ (this : Bwt.BWTS) (dst : List Nat), dst.length = src.length →
      ∃ r1 r2, this.Inverse false src dst = some r1 ∧ r1.err = false ∧
        r1.state.Inverse false src r1.dst = some r2 ∧ r2.err = false ∧ r2.dst = r1.dst) ∧
    ∃ r, Bwt.NewBWTS.Inverse false src (List.replicate src.length 0) = some r ∧
      r.err = false ∧ inverseTwice src = some r.dst :=
  inverseTwice_once src hbytes hmax

/-- Witness of C25 at the block `"annbaa"`. -/
theorem double_inverse_is_single_witness :
    (∀ (this : Bwt.BWTS) (dst : List Nat), dst.length = [97, 110, 110, 98, 97, 97].length →
      ∃ r1 r2, this.Inverse false [97, 110, 110, 98, 97, 97] dst = some r1 ∧ r1.err = false ∧
        r1.state.Inverse false [97, 110, 110, 98, 97, 97] r1.dst = some r2 ∧ r2.err = false ∧
        r2.dst = r1.dst) ∧
    ∃ r, Bwt.NewBWTS.Inverse false [97, 110, 110, 98, 97, 97]
        (List.replicate [97, 110, 110, 98, 97, 97].length 0) = some r ∧
      r.err = false ∧ inverseTwice [97, 110, 110, 98, 97, 97] = some r.dst :=
  double_inverse_is_single [97, 110, 110, 98, 97, 97] (by decide) (by decide)

end Main

end Compressor
